import Mathlib

/-!
# Apex: metadata extraction, variable substitution, the sup/sub pass,
definition lists, table post-processing and the command line

A shallow embedding of `src/src/extensions/metadata.c`,
`src/src/extensions/sup_sub.c`, the preprocessing function of
`src/src/extensions/definition_list.c`, the attribute injection of
`src/src/extensions/table_html_postprocess.c` and the function `main` of
`src/cli/main.c`.

Conventions of the embedding.

* A C string is the list of its bytes before the terminating NUL (`Text`); one
  `Char` stands for one byte, so such a list never holds `Char.ofNat 0`.
  Reading the byte at or behind the end of the list gives NUL (`char_at`).
* A pointer into a string is the offset from its start, or the suffix that
  starts there.
* The linked list `apex_metadata_item *` is the list of its (key, value)
  pairs from the head on; `NULL` is the empty list.
* The Markdown renderer that the definition-list pass calls (cmark) is a
  parameter `render : Text → Option Text`; `none` is a failed rendering.
* The option presets `apex_options_default` and `apex_options_for_mode` are
  defined outside these sources; they are parameters of the argument loop, so
  what is proved about the loop holds for every preset.
-/

namespace Apex

/-- A C string without its terminating NUL. -/
abbrev Text := List Char

/-- The metadata list, head first. -/
abbrev Items := List (Text × Text)

/-- The byte `s[i]`; the terminating NUL when `i` is at or behind the end. -/
def char_at (s : Text) (i : Nat) : Char := s.getD i (Char.ofNat 0)

/-- C `isspace` in the "C" locale: space, `\t`, `\n`, `\v`, `\f`, `\r`. -/
def isspace (c : Char) : Bool :=
  c = ' ' || c = '\t' || c = '\n' || c = Char.ofNat 11 || c = Char.ofNat 12 || c = '\r'

/-- C `strchr(s, c) != NULL`, as the offset of the first `c` in `s`. -/
def strchr (s : Text) (c : Char) : Option Nat :=
  if c ∈ s then some (s.takeWhile (fun x => x != c)).length else none

/-- C `strstr(s, needle)`, as the offset of the first occurrence of `needle`. -/
def strstr (s needle : Text) : Option Nat :=
  match s with
  | [] => if needle.isPrefixOf [] then some 0 else none
  | c :: cs =>
    if needle.isPrefixOf (c :: cs) then some 0
    else (strstr cs needle).map (fun i => i + 1)

/-- C `strncmp(s, lit, strlen(lit)) == 0`: `s` starts with the literal. -/
def starts_with (s : Text) (lit : String) : Bool := s.take lit.length = lit.toList

/-- The value `trim_whitespace` returns (metadata.c 35-49): leading white space
is skipped, then trailing white space is cut. -/
def trim_whitespace (str : Text) : Text :=
  ((str.dropWhile isspace).reverse.dropWhile isspace).reverse

/-- The buffer `str` after the call `trim_whitespace(str)`, which works in
place: the NUL written at `end[1]` cuts the trailing white space, the leading
white space stays where it is; an all-white buffer is left alone. -/
def trim_in_place (str : Text) : Text :=
  if trim_whitespace str = [] then str
  else str.takeWhile isspace ++ trim_whitespace str

/-- The statement `add_metadata_item(&list, key, value)` (metadata.c 54-62):
the new item becomes the head of the list. -/
def add_metadata_item (list : Items) (key value : Text) : Items := (key, value) :: list

/-- The newline-terminated lines of a text, in order, each without its `\n`;
they are what the successive calls `strchr(line_start, '\n')` of the three
parsers find. A last line without `\n` is not among them. -/
def lines_of : Text → List Text
  | [] => []
  | c :: cs =>
    if c = '\n' then [] :: lines_of cs
    else match lines_of cs with
      | [] => []
      | l :: ls => (c :: l) :: ls

/-- The copy of a line into `char line[1024]`: at most 1023 bytes. -/
def line_buffer (l : Text) : Text := l.take 1023

/-- The `key: value` split both parsers share (metadata.c 95-103, 258-262):
`*colon = 0`, then both halves are trimmed. -/
def split_key_value (line : Text) (colon : Nat) : Text × Text :=
  (trim_whitespace (line.take colon), trim_whitespace (line.drop (colon + 1)))

/-- The loop of `parse_yaml_metadata` (metadata.c 79-107) over the lines after
the opening one; `off` is `line_start - text`. The second component is the
value stored in `*consumed`, `none` when nothing is stored. -/
def parse_yaml_loop : List Text → Nat → Items → Items × Option Nat
  | [], _, items => (items, none)
  | l :: ls, off, items =>
    let trimmed := trim_whitespace (line_buffer l)
    let line := trim_in_place (line_buffer l)
    if trimmed = "---".toList || trimmed = "...".toList then
      (items, some (off + l.length + 1))
    else
      let items1 :=
        match strchr line ':' with
        | some colon =>
          let kv := split_key_value line colon
          if kv.1 ≠ [] && kv.2 ≠ [] then add_metadata_item items kv.1 kv.2 else items
        | none => items
      parse_yaml_loop ls (off + l.length + 1) items1

/-- The function `parse_yaml_metadata` (metadata.c 68-110). -/
def parse_yaml_metadata (text : Text) : Items × Option Nat :=
  if !starts_with text "---" then ([], none)
  else
    match strchr (text.drop 3) '\n' with
    | none => ([], none)
    | some i => parse_yaml_loop (lines_of (text.drop (3 + i + 1))) (3 + i + 1) []

/-- What one iteration of the loop of `parse_mmd_metadata` makes of its line. -/
inductive LineKind where
  /-- Blank line: ends the block once a pair was found, skipped before. -/
  | blank
  /-- Abbreviation, HTML comment, Kramdown marker, heading, IAL or TOC marker. -/
  | skip
  /-- URL, `<` in the key, no blank after the colon, empty key or value,
  or no colon at all. -/
  | reject
  /-- A `KEY: VALUE` pair. -/
  | pair (key value : Text)
  deriving DecidableEq, Repr

/-- The tests of one iteration of `parse_mmd_metadata` (metadata.c 123-307), in
the order of the source. -/
def mmd_line_kind (l : Text) : LineKind :=
  let trimmed := trim_whitespace (line_buffer l)
  let line := trim_in_place (line_buffer l)
  if trimmed = [] then .blank
  else if (char_at trimmed 0 = '*' && char_at trimmed 1 = '[') ||
      (char_at trimmed 0 = '[' && char_at trimmed 1 = '>') then .skip
  else if starts_with trimmed "<!--" then .skip
  else if starts_with trimmed "\x7b::" then .skip
  else if char_at trimmed 0 = '#' then .skip
  else if starts_with trimmed "\x7b:" then .skip
  else if starts_with trimmed "\x7b\x7bTOC" then .skip
  else
    match strchr line ':' with
    | some key_len =>
      if decide (key_len ≥ 7) &&
          ((decide (key_len ≥ 7) && starts_with line "http://") ||
           (decide (key_len ≥ 8) && starts_with line "https://") ||
           (decide (key_len ≥ 7) && starts_with line "mailto:") ||
           (strstr line "://".toList).isSome) then .reject
      else if (line.take key_len).contains '<' then .reject
      else if char_at line (key_len + 1) != ' ' && char_at line (key_len + 1) != '\t' then
        .reject
      else
        let kv := split_key_value line key_len
        if kv.1 ≠ [] && kv.2 ≠ [] then .pair kv.1 kv.2 else .reject
    | none =>
      if (strstr trimmed "http://".toList).isSome || (strstr trimmed "https://".toList).isSome ||
          (strstr trimmed "mailto:".toList).isSome then .reject
      else if trimmed.contains '[' && trimmed.contains ']' && trimmed.contains '(' then .reject
      else .reject

/-- The loop of `parse_mmd_metadata` (metadata.c 122-315) over the
newline-terminated lines; `off` is `line_start - text`, `found` is
`found_metadata`, `text_len` is `strlen(text)`. -/
def parse_mmd_loop (text_len : Nat) : List Text → Nat → Items → Bool → Items × Option Nat
  | [], _, items, found => (items, if found then some text_len else none)
  | l :: ls, off, items, found =>
    match mmd_line_kind l with
    | .blank =>
      if found then (items, some (off + l.length + 1))
      else parse_mmd_loop text_len ls (off + l.length + 1) items found
    | .skip =>
      if found then (items, some off)
      else parse_mmd_loop text_len ls (off + l.length + 1) items found
    | .reject =>
      if found then (items, some off) else ([], some 0)
    | .pair key value =>
      parse_mmd_loop text_len ls (off + l.length + 1) (add_metadata_item items key value) true

/-- The function `parse_mmd_metadata` (metadata.c 116-316). -/
def parse_mmd_metadata (text : Text) : Items × Option Nat :=
  parse_mmd_loop text.length (lines_of text) 0 [] false

/-- The array `keys` of `parse_pandoc_metadata`. -/
def pandoc_key (key_index : Nat) : Text :=
  match key_index with
  | 0 => "title".toList
  | 1 => "author".toList
  | _ => "date".toList

/-- The loop of `parse_pandoc_metadata` (metadata.c 329-352); it returns the
items, `key_index` and `line_start - text`. -/
def parse_pandoc_loop : List Text → Nat → Nat → Items → Items × Nat × Nat
  | [], key_index, off, items => (items, key_index, off)
  | l :: ls, key_index, off, items =>
    if key_index < 3 then
      let trimmed := trim_whitespace (line_buffer l)
      if char_at trimmed 0 = '%' then
        let value := trim_whitespace (trimmed.drop 1)
        let items1 :=
          if value ≠ [] then add_metadata_item items (pandoc_key key_index) value else items
        parse_pandoc_loop ls (key_index + 1) (off + l.length + 1) items1
      else (items, key_index, off)
    else (items, key_index, off)

/-- The function `parse_pandoc_metadata` (metadata.c 322-358). -/
def parse_pandoc_metadata (text : Text) : Items × Option Nat :=
  let r := parse_pandoc_loop (lines_of text) 0 0 []
  (r.1, if r.2.1 > 0 then some r.2.2 else none)

/-- The function `apex_extract_metadata` (metadata.c 365-392): the metadata
and the text `*text_ptr` points to afterwards. `consumed` starts as 0. -/
def apex_extract_metadata (text : Text) : Items × Text :=
  if text = [] then ([], text)
  else
    let r :=
      if starts_with text "---" then parse_yaml_metadata text
      else if char_at text 0 = '%' then parse_pandoc_metadata text
      else parse_mmd_metadata text
    let consumed := r.2.getD 0
    if r.1 ≠ [] && decide (consumed > 0) then (r.1, text.drop consumed) else (r.1, text)

/-- C `tolower` on one byte. -/
def tolower (c : Char) : Char :=
  if 'A' ≤ c ∧ c ≤ 'Z' then Char.ofNat (c.toNat + 32) else c

/-- The test `strcasecmp(a, b) == 0`. -/
def strcasecmp_eq (a b : Text) : Bool := a.map tolower = b.map tolower

/-- The function `apex_metadata_get` (metadata.c 416-423); `none` is `NULL`. -/
def apex_metadata_get : Items → Text → Option Text
  | [], _ => none
  | item :: next, key =>
    if strcasecmp_eq item.1 key then some item.2 else apex_metadata_get next key

/-- The second pass of `apex_metadata_replace_variables` (metadata.c 471-510):
what is written to `result` from `src` on. Every iteration moves `src` behind
a `]`, so `fuel = strlen(src)` iterations are enough. -/
def replace_loop (metadata : Items) : Nat → Text → Text
  | 0, src => src
  | fuel + 1, src =>
    match strstr src "[%".toList with
    | none => src
    | some p =>
      match strchr (src.drop (p + 2)) ']' with
      | none => src
      | some key_len =>
        let key := (src.drop (p + 2)).take key_len
        let written :=
          if key_len < 256 then
            match apex_metadata_get metadata key with
            | some value => value
            | none => (src.drop p).take (key_len + 3)
          else []
        src.take p ++ written ++ replace_loop metadata fuel (src.drop (p + 2 + key_len + 1))

/-- The function `apex_metadata_replace_variables` (metadata.c 428-513) on a
non-NULL text. -/
def apex_metadata_replace_variables (text : Text) (metadata : Items) : Text :=
  if metadata = [] then text else replace_loop metadata text.length text

/-! ## The sup/sub pass (src/src/extensions/sup_sub.c) -/

/-- The four flags of the scanner of `apex_process_sup_sub` (sup_sub.c 32-35). -/
structure ScanState where
  in_code_block : Bool
  in_inline_code : Bool
  in_math_inline : Bool
  in_math_display : Bool
  deriving DecidableEq, Repr

/-- All flags false, as at the start of the loop. -/
def ScanState.init : ScanState := ⟨false, false, false, false⟩

/-- The effect of one iteration of the main loop: the bytes written, how far
`read` moves, and the flags afterwards. `remaining` goes down by the number of
bytes written. -/
structure Step where
  out : Text
  adv : Nat
  st : ScanState
  deriving DecidableEq, Repr

/-- The backtick character. -/
def backtick : Char := Char.ofNat 96

/-- The statement `if (remaining > 0) { *write++ = *read++; remaining--; } else { read++; }`. -/
def copy_char (remaining : Nat) (c : Char) : Text := if remaining > 0 then [c] else []

/-- The same for two bytes (`remaining > 1`). -/
def copy_two (remaining : Nat) (c d : Char) : Text := if remaining > 1 then [c, d] else []

/-- The test `x == ' ' || x == '\t' || x == '\n'`; the NUL test of the loops is
the end of the list. -/
def is_blank (x : Char) : Bool := x = ' ' || x = '\t' || x = '\n'

/-- The sentence terminators `. , ; : ! ?`. -/
def is_terminator (x : Char) : Bool :=
  x = '.' || x = ',' || x = ';' || x = ':' || x = '!' || x = '?'

/-- The test `read[1] != 0 && read[1] != ' ' && read[1] != '\t' && read[1] != '\n'`. -/
def starts_word (x : Char) : Bool := x != Char.ofNat 0 && !is_blank x

/-- Code tracking at the head of the loop (sup_sub.c 39-45). -/
def track_backtick (st : ScanState) (c : Char) (cs : Text) : ScanState :=
  if c = backtick then
    if char_at cs 0 = backtick && char_at cs 1 = backtick then
      { st with in_code_block := !st.in_code_block }
    else if !st.in_code_block then
      { st with in_inline_code := !st.in_inline_code }
    else st
  else st

/-- Math tracking (sup_sub.c 47-92); `some` exactly when `handled_math` is set. -/
def math_step (st : ScanState) (remaining : Nat) (c : Char) (cs : Text) : Option Step :=
  if !st.in_code_block && !st.in_inline_code then
    if c = '$' && char_at cs 0 = '$' then
      some ⟨copy_two remaining c (char_at cs 0), 2,
        { st with in_math_display := !st.in_math_display }⟩
    else if c = '$' && !st.in_math_display then
      if char_at cs 0 != '$' then
        if st.in_math_inline then
          some ⟨copy_char remaining c, 1, { st with in_math_inline := false }⟩
        else if starts_word (char_at cs 0) then
          some ⟨copy_char remaining c, 1, { st with in_math_inline := true }⟩
        else none
      else none
    else none
  else none

/-- The superscript branch (sup_sub.c 107-164); `none` when control falls
through to the tilde tests. -/
def superscript_step (prev : Option Char) (st : ScanState) (remaining : Nat) (c : Char)
    (cs : Text) : Option Step :=
  if c = '^' && starts_word (char_at cs 0) && char_at cs 0 != '^' then
    if prev = some '[' then some ⟨copy_char remaining c, 1, st⟩
    else
      let content := cs.takeWhile (fun x => !is_blank x && x != '^')
      if content.length > 0 then
        if remaining ≥ 5 + content.length + 6 then
          some ⟨"<sup>".toList ++ content ++ "</sup>".toList,
            1 + content.length +
              (if char_at cs content.length = '^' || char_at cs content.length = '~' then 1 else 0),
            st⟩
        else none
      else none
  else none

/-- The tests for double tildes and Critic Markup (sup_sub.c 168-217). -/
def critic_tilde_step (prev : Option Char) (st : ScanState) (remaining : Nat) (c : Char)
    (cs : Text) : Option Step :=
  if c = '~' then
    if prev = some '~' || char_at cs 0 = '~' then some ⟨copy_char remaining c, 1, st⟩
    else if prev = some '\x7b' && char_at cs 0 = '~' then
      some ⟨copy_two remaining c (char_at cs 0), 2, st⟩
    else if prev = some '~' && char_at cs 0 = '\x7d' then some ⟨copy_char remaining c, 1, st⟩
    else if char_at cs 0 = '>' then some ⟨copy_char remaining c, 1, st⟩
    else none
  else none

/-- The scan for the closing tilde of an underline (sup_sub.c 240-265), from
`scan` on; `before` is `scan[-1]` when `scan > content_start`. The result is
the offset of `closing_tilde` from `scan`. -/
def find_closing_tilde : Option Char → Text → Option Nat
  | _, [] => none
  | before, [x] =>
    if x = '\n' then none
    else if x = '~' then
      if (match before with | some b => isspace b | none => false) then none else some 0
    else none
  | before, x :: y :: rest =>
    if x = '\n' then none
    else if x = '~' then
      if y = '~' then (find_closing_tilde (some y) rest).map (fun i => i + 2)
      else if (match before with | some b => isspace b | none => false) then
        (find_closing_tilde (some x) (y :: rest)).map (fun i => i + 1)
      else some 0
    else (find_closing_tilde (some x) (y :: rest)).map (fun i => i + 1)

/-- The underline/subscript branch (sup_sub.c 220-327). -/
def tilde_step (st : ScanState) (remaining : Nat) (c : Char) (cs : Text) : Option Step :=
  if c = '~' && starts_word (char_at cs 0) && char_at cs 0 != '~' then
    let is_likely_subscript :=
      (cs.takeWhile (fun x => !is_blank x && x != '~')).any is_terminator
    let closing_tilde := if !is_likely_subscript then find_closing_tilde none cs else none
    let content_len :=
      match closing_tilde with
      | some k => k
      | none => (cs.takeWhile (fun x => !is_blank x && x != '~' && !is_terminator x)).length
    if content_len > 0 then
      let open_tag := if closing_tilde.isSome then "<u>".toList else "<sub>".toList
      let close_tag := if closing_tilde.isSome then "</u>".toList else "</sub>".toList
      if remaining ≥ open_tag.length + content_len + close_tag.length then
        some ⟨open_tag ++ cs.take content_len ++ close_tag,
          match closing_tilde with
          | some k => 1 + k + 1
          | none => 1 + content_len + (if char_at cs content_len = '~' then 1 else 0),
          st⟩
      else none
    else none
  else none

/-- One iteration of the main loop (sup_sub.c 37-336) at `read = c :: cs`, with
`prev = read[-1]` when `read > text`. -/
def sup_sub_step (prev : Option Char) (st : ScanState) (remaining : Nat) (c : Char)
    (cs : Text) : Step :=
  let st1 := track_backtick st c cs
  match math_step st1 remaining c cs with
  | some r => r
  | none =>
    if st1.in_code_block || st1.in_inline_code || st1.in_math_inline || st1.in_math_display then
      ⟨copy_char remaining c, 1, st1⟩
    else
      match superscript_step prev st1 remaining c cs with
      | some r => r
      | none =>
        match critic_tilde_step prev st1 remaining c cs with
        | some r => r
        | none =>
          match tilde_step st1 remaining c cs with
          | some r => r
          | none => ⟨copy_char remaining c, 1, st1⟩

/-- The main loop of `apex_process_sup_sub` from `read` on: the bytes written
from here to the end. Every iteration moves `read` by at least one byte, so
`fuel = strlen(read)` iterations are enough. -/
def sup_sub_loop : Nat → Option Char → ScanState → Nat → Text → Text
  | 0, _, _, _, _ => []
  | _ + 1, _, _, _, [] => []
  | fuel + 1, prev, st, remaining, c :: cs =>
    let r := sup_sub_step prev st remaining c cs
    r.out ++ sup_sub_loop fuel ((c :: cs).get? (r.adv - 1)) r.st (remaining - r.out.length)
      ((c :: cs).drop r.adv)

/-- The buffer size `capacity` of `apex_process_sup_sub` (sup_sub.c 24). -/
def capacity (text : Text) : Nat := if text.length * 5 > 64 then text.length * 5 else 64

/-- The function `apex_process_sup_sub` (sup_sub.c 17-340) on a non-NULL text. -/
def apex_process_sup_sub (text : Text) : Text :=
  sup_sub_loop text.length none ScanState.init (capacity text) text

/-- The main loop from `read` on with exactly the fuel it needs: what
`apex_process_sup_sub` writes from the moment `read` points at `s`, with
`prev = read[-1]`, the flags `st` and `remaining` bytes of space left. -/
def sup_sub_run (prev : Option Char) (st : ScanState) (remaining : Nat) (s : Text) : Text :=
  sup_sub_loop s.length prev st remaining s

/-! ## The definition-list pass (src/src/extensions/definition_list.c) -/

/-- The state of `apex_process_definition_lists` between two lines
(definition_list.c 160-170): the bytes written, `remaining`, the flags and the
buffered term (`term_buffer` up to `term_len`). -/
structure DlState where
  out : Text
  remaining : Nat
  in_def_list : Bool
  in_blockquote_context : Bool
  blockquote_depth : Nat
  term : Text
  term_has_blockquote : Bool
  term_blockquote_depth : Nat
  deriving DecidableEq, Repr

/-- The state at the start of the loop, with `output_capacity` bytes of room. -/
def DlState.init (output_capacity : Nat) : DlState :=
  ⟨[], output_capacity, false, false, 0, [], false, 0⟩

/-- The guarded `memcpy` of a piece: `if (len < remaining) { ... }`. -/
def emit (s : DlState) (piece : Text) : DlState :=
  if piece.length < s.remaining then
    { s with out := s.out ++ piece, remaining := s.remaining - piece.length }
  else s

/-- The guarded write of one newline: `if (remaining > 0) { *write++ = '\n'; ... }`. -/
def emit_nl (s : DlState) : DlState :=
  if s.remaining > 0 then { s with out := s.out ++ ['\n'], remaining := s.remaining - 1 }
  else s

/-- The loop `for (i = 0; i < blockquote_depth && remaining >= 2; i++)` that
writes one `> ` per level. -/
def emit_quote_loop : Nat → DlState → DlState
  | 0, s => s
  | i + 1, s =>
    if s.remaining ≥ 2 then
      emit_quote_loop i { s with out := s.out ++ ['>', ' '], remaining := s.remaining - 2 }
    else s

/-- The blockquote prefix in front of `<dt>` and `<dd>`. -/
def emit_quote (s : DlState) : DlState :=
  if s.in_blockquote_context then emit_quote_loop s.blockquote_depth s else s

/-- The blockquote prefix and the tag `<dl>` or `</dl>`: the prefix is written
only when the tag fits. -/
def emit_list_tag (s : DlState) (tag : Text) : DlState :=
  emit (if s.in_blockquote_context && tag.length < s.remaining then
    emit_quote_loop s.blockquote_depth s else s) tag

/-- The test `x == ' ' || x == '\t'`. -/
def is_space_tab (x : Char) : Bool := x = ' ' || x = '\t'

/-- The test `x >= '0' && x <= '9'`. -/
def isdigit (x : Char) : Bool := 48 ≤ x.toNat && x.toNat ≤ 57

/-- Skip at most `n` leading bytes that satisfy `p`. -/
def skip_upto (p : Char → Bool) : Nat → Text → Text
  | 0, l => l
  | _ + 1, [] => []
  | n + 1, x :: xs => if p x then skip_upto p n xs else x :: xs

/-- The flag `is_table_row` (definition_list.c 178-181). -/
def is_table_row (line : Text) : Bool :=
  match line.dropWhile is_space_tab with
  | x :: _ => x = '|'
  | [] => false

/-- The flag `is_list_item` (definition_list.c 183-208). -/
def is_list_item (line : Text) : Bool :=
  match skip_upto is_space_tab 4 line with
  | [] => false
  | x :: xs =>
    if x = '-' || x = '*' || x = '+' then
      match xs with
      | y :: _ => is_space_tab y
      | [] => false
    else if isdigit x then
      match (x :: xs).dropWhile isdigit with
      | d :: y :: _ => d = '.' && is_space_tab y
      | _ => false
    else false

/-- The test `p < line_end && *p == '#'` (definition_list.c 590). -/
def is_header (p : Text) : Bool :=
  match p with
  | x :: _ => x = '#'
  | [] => false

/-- The loop over blockquote prefixes (definition_list.c 222-230 and 612-620):
the number of `>`, each with one optional space or tab behind it, and the text
behind them. -/
def strip_quote : Nat → Text → Nat × Text
  | 0, l => (0, l)
  | _ + 1, [] => (0, [])
  | fuel + 1, x :: xs =>
    if x = '>' then
      let r := strip_quote fuel
        (match xs with
          | [] => []
          | y :: ys => if is_space_tab y then ys else y :: ys)
      (r.1 + 1, r.2)
    else (0, x :: xs)

/-- The scan for a definition marker (definition_list.c 212-230): at most three
spaces, then the blockquote prefixes; `current_blockquote_depth` and `p`. -/
def quote_scan (line : Text) : Nat × Text :=
  strip_quote line.length (skip_upto (fun x => x = ' ') 3 line)

/-- The flag `is_def_line` (definition_list.c 232-236). -/
def is_def_line (line : Text) : Bool :=
  !is_table_row line && !is_list_item line &&
    (match (quote_scan line).2 with
      | c :: y :: _ => c = ':' && is_space_tab y
      | _ => false)

/-- The stripping of `<p>` at the start and `</p>` with its newline at the end
of rendered HTML (definition_list.c 317-328). -/
def strip_p (html : Text) : Text :=
  let content := if html.take 3 = "<p>".toList then html.drop 3 else html
  if content.length > 4 && content.drop (content.length - 5) = "</p>\n".toList then
    content.take (content.length - 5)
  else content

/-- What is written for a term or a definition text (definition_list.c 300-353
and 393-447): the HTML that the Markdown renderer `render` (cmark, a parameter)
gives for it, stripped of the wrapping paragraph, and the text itself when it is
empty or the renderer fails. -/
def inline_html (render : Text → Option Text) (content : Text) : Text :=
  if content.length > 0 then
    match render content with
    | some html => strip_p html
    | none => content
  else content

/-- The start of a new list (definition_list.c 240-262): the blockquote context
and depth are taken from the definition line and the buffered term, then the
prefix and `<dl>` are written. -/
def dl_open (s : DlState) (depth : Nat) : DlState :=
  let depth0 := if s.term_has_blockquote then s.term_blockquote_depth else depth
  emit_list_tag
    { s with
      in_blockquote_context := decide (depth > 0) || s.term_has_blockquote,
      blockquote_depth := if decide (depth > 0) && decide (depth > depth0) then depth
        else depth0 }
    "<dl>\n".toList

/-- The buffered term written as `<dt>` (definition_list.c 264-366), without
its blockquote prefix. -/
def dl_term (render : Text → Option Text) (a : DlState) : DlState :=
  if a.term.length > 0 then
    let content :=
      if a.term_has_blockquote then
        a.term.dropWhile (fun x => x = '>' || x = ' ' || x = '\t')
      else a.term
    { emit (emit (emit (emit_quote a) "<dt>".toList) (inline_html render content))
        "</dt>\n".toList with
      term := [], term_has_blockquote := false }
  else a

/-- A definition line (definition_list.c 238-457); `p` points at the colon. -/
def dl_definition (render : Text → Option Text) (s : DlState) (p : Text) (depth : Nat) :
    DlState :=
  let s1 :=
    if !s.in_def_list then { dl_term render (dl_open s depth) with in_def_list := true }
    else s
  emit (emit (emit (emit_quote s1) "<dd>".toList)
    (inline_html render ((p.drop 1).dropWhile is_space_tab))) "</dd>\n".toList

/-- The flush of a buffered term that was not used (definition_list.c 496-507
and 528-540). -/
def flush_term (s : DlState) : DlState :=
  if s.term.length > 0 then { emit_nl (emit s s.term) with term := [] } else s

/-- A blank line (definition_list.c 458-508). -/
def dl_blank (s : DlState) : DlState :=
  if s.in_def_list then
    { emit_list_tag s "</dl>\n\n".toList with
      in_def_list := false, in_blockquote_context := false, blockquote_depth := 0,
      term := [], term_has_blockquote := false, term_blockquote_depth := 0 }
  else emit_nl (flush_term s)

/-- The copy of a line that is not buffered, with its newline when it has one. -/
def write_through (s : DlState) (line : Text) (terminated : Bool) : DlState :=
  if terminated then emit_nl (emit s line) else emit s line

/-- A line that is neither a definition nor blank (definition_list.c 509-638);
`from_line` is the text from the start of the line to the end of the input,
which is what `strstr(line_start, ...)` searches, and `p` is where the scan
for a definition marker stopped. -/
def dl_regular (s : DlState) (line : Text) (terminated : Bool) (from_line p : Text) :
    DlState :=
  let s1 :=
    if s.in_def_list then
      { emit_list_tag s "</dl>\n\n".toList with
        in_def_list := false, in_blockquote_context := false, blockquote_depth := 0 }
    else s
  let s2 := flush_term s1
  if is_table_row line then write_through s2 line terminated
  else if is_list_item line then write_through s2 line terminated
  else if (strstr from_line "\x7b:".toList).isSome then write_through s2 line terminated
  else if is_header p then write_through s2 line terminated
  else if line.length < 4095 then
    let d := (strip_quote line.length (line.dropWhile is_space_tab)).1
    { s2 with term := line, term_has_blockquote := decide (d > 0), term_blockquote_depth := d }
  else write_through s2 line terminated

/-- One iteration of the main loop on the line `line` (without its newline). -/
def dl_line (render : Text → Option Text) (s : DlState) (line : Text) (terminated : Bool)
    (from_line : Text) : DlState :=
  if is_def_line line then
    dl_definition render s (quote_scan line).2 (quote_scan line).1
  else if line = [] || line = ['\r'] then dl_blank s
  else dl_regular s line terminated from_line (quote_scan line).2

/-- The main loop `while (*read)` from `read` on. Every iteration moves `read`
by at least one byte, so `fuel = strlen(read)` iterations are enough. -/
def dl_loop (render : Text → Option Text) : Nat → DlState → Text → DlState
  | 0, s, _ => s
  | _ + 1, s, [] => s
  | fuel + 1, s, c :: cs =>
    let line := (c :: cs).takeWhile (fun x => x != '\n')
    let rest := (c :: cs).drop line.length
    dl_loop render fuel (dl_line render s line (decide (rest ≠ [])) (c :: cs)) (rest.drop 1)

/-- The end of the function (definition_list.c 649-679): close an open list,
write a term that is still buffered. -/
def dl_finish (s : DlState) : DlState :=
  let a := if s.in_def_list then emit_list_tag s "</dl>\n".toList else s
  if a.term.length > 0 then emit_nl (emit a a.term) else a

/-- The function `apex_process_definition_lists` (definition_list.c 153-683) on
a non-NULL text, with the Markdown renderer as a parameter. -/
def apex_process_definition_lists (render : Text → Option Text) (text : Text) : Text :=
  (dl_finish (dl_loop render text.length (DlState.init (text.length * 3)) text)).out

/-- The main loop from `read` on with exactly the fuel it needs. -/
def dl_run (render : Text → Option Text) (s : DlState) (text : Text) : DlState :=
  dl_loop render text.length s text

/-- The loop `while (spaces < 3 && spaces < len && input[spaces] == ' ')` of
`is_definition_line`, with the bound 3 as `n`. -/
def leading_spaces : Nat → Text → Nat
  | 0, _ => 0
  | _ + 1, [] => 0
  | n + 1, x :: xs => if x = ' ' then leading_spaces n xs + 1 else 0

/-- The function `is_definition_line` (definition_list.c 37-58) on the `len`
bytes of a non-NULL `input`: `some indent` when it returns true and sets
`*indent`, `none` when it returns false. -/
def is_definition_line (input : Text) : Option Nat :=
  if input.length = 0 then none
  else
    let spaces := leading_spaces 3 input
    if spaces ≥ input.length then none
    else if char_at input spaces ≠ ':' then none
    else if spaces + 1 ≥ input.length then none
    else if char_at input (spaces + 1) ≠ ' ' ∧ char_at input (spaces + 1) ≠ '\t' then none
    else some spaces

/-! ## Table post-processing (src/src/extensions/table_html_postprocess.c) -/

/-- A cell with attributes, as collected from the document
(table_html_postprocess.c 19-25). -/
structure cell_attr where
  table_index : Int
  row_index : Int
  col_index : Int
  attributes : Text
  deriving DecidableEq, Repr

/-- A table caption, as collected from the document
(table_html_postprocess.c 28-32). -/
structure table_caption where
  table_index : Int
  caption : Text
  deriving DecidableEq, Repr

/-- A paragraph to remove, as collected from the document
(table_html_postprocess.c 35-39). -/
structure para_to_remove where
  para_index : Int
  text_fingerprint : Text
  deriving DecidableEq, Repr

/-- The variables of the loop of `apex_inject_table_attributes`
(table_html_postprocess.c 217-226): `out` holds the bytes of the buffer in
front of `write`, so `write - output` is its length. -/
structure InjectState where
  out : Text
  written : Nat
  capacity : Nat
  table_idx : Int
  row_idx : Int
  col_idx : Int
  para_idx : Int
  in_table : Bool
  in_row : Bool
  deriving DecidableEq, Repr

/-- Bytes stored through `write`. A store outside the `capacity` bytes of the
buffer is undefined behaviour (`none`). The counter `written` advances only
where the source advances it (`counted`). -/
def put (s : InjectState) (bytes : Text) (counted : Bool) : Option InjectState :=
  if s.out.length + bytes.length ≤ s.capacity then
    some { s with
      out := s.out ++ bytes,
      written := if counted then s.written + bytes.length else s.written }
  else none

/-- One `capacity *= 2; realloc(...); write = output + written;`: the buffer
keeps its bytes, and `write` is set back to the offset `written`. -/
def regrow (s : InjectState) : InjectState :=
  { s with capacity := s.capacity * 2, out := s.out.take s.written }

/-- The check at the head of the loop (table_html_postprocess.c 229-236). -/
def grow_once (s : InjectState) : InjectState :=
  if s.written + 100 > s.capacity then regrow s else s

/-- The loops `while (written + need > capacity)` in front of the figure tags
(table_html_postprocess.c 276-282 and 346-352). -/
def grow_until : Nat → Nat → InjectState → InjectState
  | 0, _, s => s
  | fuel + 1, need, s =>
    if s.written + need > s.capacity then grow_until fuel need (regrow s) else s

/-- C `isalnum` in the C locale. -/
def isalnum (c : Char) : Bool :=
  (48 ≤ c.toNat && c.toNat ≤ 57) || (65 ≤ c.toNat && c.toNat ≤ 90) ||
    (97 ≤ c.toNat && c.toNat ≤ 122)

/-- The escaping of a caption (table_html_postprocess.c 290-316). -/
def escape_caption : Text → Text
  | [] => []
  | c :: cs =>
    (if c = '&' then "&amp;".toList
      else if c = '<' then "&lt;".toList
      else if c = '>' then "&gt;".toList
      else if c = '"' then "&quot;".toList
      else [c]) ++ escape_caption cs

/-- The search `for (c = captions; c; c = c->next) if (c->table_index == table_idx)`. -/
def find_caption (captions : List table_caption) (table_idx : Int) : Option table_caption :=
  captions.find? (fun c => c.table_index = table_idx)

/-- The comparison of a paragraph with a fingerprint (table_html_postprocess.c
431-474), with `check_len - checked` as fuel: `some checked` when `matches`
stays true. -/
def fingerprint_match : Nat → Nat → Text → Text → Option Nat
  | 0, checked, _, _ => some checked
  | _ + 1, checked, [], _ => some checked
  | _ + 1, checked, _ :: _, [] => some checked
  | n + 1, checked, p :: ps, f :: fs =>
    if p = '&' then
      if starts_with (p :: ps) "&lt;" then
        if f = '<' then fingerprint_match n (checked + 1) ((p :: ps).drop 4) fs else none
      else if starts_with (p :: ps) "&gt;" then
        if f = '>' then fingerprint_match n (checked + 1) ((p :: ps).drop 4) fs else none
      else if starts_with (p :: ps) "&amp;" then
        if f = '&' then fingerprint_match n (checked + 1) ((p :: ps).drop 5) fs else none
      else none
    else if p = f then fingerprint_match n (checked + 1) ps fs
    else if isspace p && isspace f then
      fingerprint_match n (checked + 1) ((p :: ps).dropWhile isspace)
        ((f :: fs).dropWhile isspace)
    else none

/-- Whether the paragraph at `read` (which starts with `<p>`) is skipped
(table_html_postprocess.c 404-482): `some n` when `read` moves by `n`. -/
def para_skip (paras : List para_to_remove) (para_idx : Int) (read : Text) : Option Nat :=
  match paras.find? (fun p => p.para_index = para_idx) with
  | none => none
  | some para =>
    match strstr (read.drop 3) "</p>".toList with
    | none => none
    | some para_len =>
      let text_start := (read.drop 3).dropWhile isspace
      if char_at text_start 0 = '[' || starts_with text_start "&lt;" then
        let check_len := min para_len para.text_fingerprint.length
        if check_len > 0 then
          match fingerprint_match check_len 0 (read.drop 3) para.text_fingerprint with
          | some checked =>
            if checked ≥ para.text_fingerprint.length / 2 then some (3 + para_len + 4) else none
          | none => none
        else none
      else none

/-- The tests on table structure and paragraphs at the head of an iteration
(table_html_postprocess.c 237-483). The result is the state and, when the
branch ends with `continue`, the number of bytes `read` has moved; `none` as
second part means that control goes on to the test for a cell. -/
def structure_step (attrs : List cell_attr) (captions : List table_caption)
    (paras : List para_to_remove) (s : InjectState) (read : Text) :
    Option (InjectState × Option Nat) :=
  if starts_with read "<table" &&
      (char_at read 6 = '>' || char_at read 6 = ' ' ||
        (char_at read 6 = 'i' && starts_with (read.drop 6) "id=") || isalnum (char_at read 6))
  then
    if char_at read 6 = 'i' && starts_with (read.drop 6) "id=" then
      let tag := (read.drop 6).takeWhile (fun x => x != '>')
      let close := if char_at read (6 + tag.length) = '>' then ['>'] else []
      (put s ("<table ".toList ++ tag ++ close) true).map (fun s1 =>
        ({ s1 with in_table := true, table_idx := s.table_idx + 1, row_idx := -1 },
          some (6 + tag.length + close.length)))
    else
      let s1 := { s with in_table := true, table_idx := s.table_idx + 1, row_idx := -1 }
      match find_caption captions s1.table_idx with
      | some cap =>
        let fig_open := "<figure class=\"table-figure\">\n<figcaption>".toList
        let fig_close_cap := "</figcaption>\n".toList
        let need := fig_open.length + cap.caption.length + fig_close_cap.length + 100
        (put (grow_until (s1.written + need) need s1)
          (fig_open ++ escape_caption cap.caption ++ fig_close_cap) true).map
            (fun s2 => (s2, none))
      | none => some (s1, none)
  else if starts_with read "</table>" then
    match find_caption captions s.table_idx with
    | some _ =>
      let fig_close := "</figure>\n".toList
      let need := fig_close.length + 100
      (put (grow_until (s.written + need) need s) ("</table>".toList ++ fig_close) true).map
        (fun s1 => ({ s1 with in_table := false }, some 8))
    | none => some ({ s with in_table := false }, none)
  else if s.in_table && starts_with read "<tr>" then
    let s1 := { s with row_idx := s.row_idx + 1, col_idx := 0 }
    let row_attrs :=
      attrs.filter (fun a => a.table_index = s1.table_idx && a.row_index = s1.row_idx)
    let cells_in_row := row_attrs.length
    let cells_to_remove :=
      (row_attrs.filter (fun a => (strstr a.attributes "data-remove".toList).isSome)).length
    if cells_in_row > 0 && cells_in_row = cells_to_remove then
      some (s1, some (4 +
        (match strstr (read.drop 4) "</tr>".toList with
          | some i => i + 5
          | none => (read.drop 4).length)))
    else some ({ s1 with in_row := true }, none)
  else if s.in_row && starts_with read "</tr>" then some ({ s with in_row := false }, none)
  else if starts_with read "<p>" then
    let s1 := { s with para_idx := s.para_idx + 1 }
    match para_skip paras s1.para_idx read with
    | some n => some (s1, some n)
    | none => some (s1, none)
  else some (s, none)

/-- The test for a cell opening tag (table_html_postprocess.c 486-539), with
the same kind of result as `structure_step`. -/
def cell_step (attrs : List cell_attr) (s : InjectState) (read : Text) :
    Option (InjectState × Option Nat) :=
  if s.in_row && (starts_with read "<td" || starts_with read "<th") then
    match attrs.find? (fun a =>
        a.table_index = s.table_idx && a.row_index = s.row_idx && a.col_index = s.col_idx) with
    | some matching =>
      if (strstr matching.attributes "data-remove".toList).isSome then
        let close_tag := if starts_with read "<th" then "</th>".toList else "</td>".toList
        let a := (read.takeWhile (fun x => x != '>')).length
        let b := if char_at read a = '>' then 1 else 0
        let rest := read.drop (a + b)
        some ({ s with col_idx := s.col_idx + 1 },
          some (a + b +
            (match strstr rest close_tag with
              | some j => j + 5
              | none => rest.length)))
      else if (strstr matching.attributes "rowspan".toList).isSome ||
          (strstr matching.attributes "colspan".toList).isSome then
        let tag := read.takeWhile (fun x => x != '>')
        let close := if char_at read tag.length = '>' then ['>'] else []
        (put s (tag ++ matching.attributes ++ close) false).map (fun s1 =>
          ({ s1 with col_idx := s.col_idx + 1 }, some (tag.length + close.length)))
      else some ({ s with col_idx := s.col_idx + 1 }, none)
    | none => some ({ s with col_idx := s.col_idx + 1 }, none)
  else some (s, none)

/-- One iteration of the main loop (table_html_postprocess.c 228-545) at
`read = c :: cs`: the state afterwards and the number of bytes `read` moves. -/
def inject_step (attrs : List cell_attr) (captions : List table_caption)
    (paras : List para_to_remove) (s : InjectState) (c : Char) (cs : Text) :
    Option (InjectState × Nat) :=
  match structure_step attrs captions paras (grow_once s) (c :: cs) with
  | none => none
  | some (s1, some adv) => some (s1, adv)
  | some (s1, none) =>
    match cell_step attrs s1 (c :: cs) with
    | none => none
    | some (s2, some adv) => some (s2, adv)
    | some (s2, none) => (put s2 [c] true).map (fun s3 => (s3, 1))

/-- The main loop `while (*read)`. Every iteration moves `read` by at least one
byte, so `fuel = strlen(read)` iterations are enough. -/
def inject_loop (attrs : List cell_attr) (captions : List table_caption)
    (paras : List para_to_remove) : Nat → InjectState → Text → Option InjectState
  | 0, s, _ => some s
  | _ + 1, s, [] => some s
  | fuel + 1, s, c :: cs =>
    match inject_step attrs captions paras s c cs with
    | none => none
    | some (s1, adv) => inject_loop attrs captions paras fuel s1 ((c :: cs).drop adv)

/-- What `apex_inject_table_attributes` returns: its argument `html` itself, or
a new buffer with the given contents. -/
inductive Returned where
  | original
  | buffer (contents : Text)
  deriving DecidableEq, Repr

/-- The function `apex_inject_table_attributes` (table_html_postprocess.c
174-574) on a non-NULL `html` and a non-NULL document, given the three lists
that `collect_table_cell_attributes` and `collect_table_captions` build from
the document (they go through the cmark API). The result is `none` when a
store falls outside the buffer. -/
def apex_inject_table_attributes (html : Text) (attrs : List cell_attr)
    (captions : List table_caption) (paras : List para_to_remove) : Option Returned :=
  if attrs.isEmpty && captions.isEmpty && paras.isEmpty then some .original
  else
    match inject_loop attrs captions paras html.length
        ⟨[], 0, html.length * 2, -1, -1, 0, -1, false, false⟩ html with
    | none => none
    | some s => if s.out.length < s.capacity then some (.buffer s.out) else none

/-! ## The command line (src/cli/main.c) -/

/-- The fields of `apex_options` that `main` assigns.  The field `unsafe` of
the C structure is called `unsafe_html` here.  The fields that `main` never
assigns are carried along with the preset and play no part in the scan. -/
structure apex_options where
  enable_tables : Bool
  enable_footnotes : Bool
  enable_smart_typography : Bool
  enable_math : Bool
  enable_file_includes : Bool
  hardbreaks : Bool
  standalone : Bool
  stylesheet_path : Option Text
  document_title : Option Text
  pretty : Bool
  enable_critic_markup : Bool
  critic_mode : Int
  id_format : Int
  generate_header_ids : Bool
  header_anchors : Bool
  relaxed_tables : Bool
  allow_alpha_lists : Bool
  allow_mixed_list_markers : Bool
  unsafe_html : Bool
  enable_sup_sub : Bool
  enable_autolink : Bool
  obfuscate_emails : Bool
  deriving DecidableEq, Repr

/-- The processor modes `APEX_MODE_*`. -/
inductive apex_mode
  | commonmark
  | gfm
  | multimarkdown
  | kramdown
  | unified
  deriving DecidableEq, Repr

/-- The boolean fields of `apex_options` that a flag without a value assigns. -/
inductive Field
  | enable_tables
  | enable_footnotes
  | enable_smart_typography
  | enable_math
  | enable_file_includes
  | hardbreaks
  | standalone
  | pretty
  | generate_header_ids
  | header_anchors
  | relaxed_tables
  | allow_alpha_lists
  | allow_mixed_list_markers
  | unsafe_html
  | enable_sup_sub
  | enable_autolink
  | obfuscate_emails
  deriving DecidableEq, Repr

/-- The assignment `options.field = value`. -/
def apex_options.set (o : apex_options) : Field → Bool → apex_options
  | .enable_tables, v => { o with enable_tables := v }
  | .enable_footnotes, v => { o with enable_footnotes := v }
  | .enable_smart_typography, v => { o with enable_smart_typography := v }
  | .enable_math, v => { o with enable_math := v }
  | .enable_file_includes, v => { o with enable_file_includes := v }
  | .hardbreaks, v => { o with hardbreaks := v }
  | .standalone, v => { o with standalone := v }
  | .pretty, v => { o with pretty := v }
  | .generate_header_ids, v => { o with generate_header_ids := v }
  | .header_anchors, v => { o with header_anchors := v }
  | .relaxed_tables, v => { o with relaxed_tables := v }
  | .allow_alpha_lists, v => { o with allow_alpha_lists := v }
  | .allow_mixed_list_markers, v => { o with allow_mixed_list_markers := v }
  | .unsafe_html, v => { o with unsafe_html := v }
  | .enable_sup_sub, v => { o with enable_sup_sub := v }
  | .enable_autolink, v => { o with enable_autolink := v }
  | .obfuscate_emails, v => { o with obfuscate_emails := v }

/-- The value of `options.field`. -/
def apex_options.get (o : apex_options) : Field → Bool
  | .enable_tables => o.enable_tables
  | .enable_footnotes => o.enable_footnotes
  | .enable_smart_typography => o.enable_smart_typography
  | .enable_math => o.enable_math
  | .enable_file_includes => o.enable_file_includes
  | .hardbreaks => o.hardbreaks
  | .standalone => o.standalone
  | .pretty => o.pretty
  | .generate_header_ids => o.generate_header_ids
  | .header_anchors => o.header_anchors
  | .relaxed_tables => o.relaxed_tables
  | .allow_alpha_lists => o.allow_alpha_lists
  | .allow_mixed_list_markers => o.allow_mixed_list_markers
  | .unsafe_html => o.unsafe_html
  | .enable_sup_sub => o.enable_sup_sub
  | .enable_autolink => o.enable_autolink
  | .obfuscate_emails => o.obfuscate_emails

/-- The name comparisons behind `-m`: the mode a name stands for. -/
def mode_of_name (name : Text) : Option apex_mode :=
  if name = "commonmark".toList then some .commonmark
  else if name = "gfm".toList then some .gfm
  else if name = "mmd".toList || name = "multimarkdown".toList then some .multimarkdown
  else if name = "kramdown".toList then some .kramdown
  else if name = "unified".toList then some .unified
  else none

/-- The name comparisons behind `--id-format`: the number a format name stands for. -/
def id_format_of_name (name : Text) : Option Int :=
  if name = "gfm".toList then some 0
  else if name = "mmd".toList then some 1
  else if name = "kramdown".toList then some 2
  else none

/-- The branch of the `strcmp` chain of `main` that an argument takes: one of the
options with a branch of its own, `flag field value` for a branch that is the
single assignment `options.field = value`, `critic n` for `--accept` and
`--reject`, `unknown` for the branch `argv[i][0] == '-'` and `input` for the
final `else`. -/
inductive ArgKind
  | help
  | version
  | mode
  | output
  | style
  | title
  | id_format
  | critic (critic_mode : Int)
  | flag (field : Field) (value : Bool)
  | unknown
  | input
  deriving DecidableEq, Repr

/-- The `strcmp` comparisons of the argument loop of `main`, in the order of the
source, each with the branch it leads to. -/
def option_table : List (Text × ArgKind) :=
  [
    ("-h".toList, .help),
    ("--help".toList, .help),
    ("-v".toList, .version),
    ("--version".toList, .version),
    ("-m".toList, .mode),
    ("--mode".toList, .mode),
    ("-o".toList, .output),
    ("--output".toList, .output),
    ("--no-tables".toList, .flag .enable_tables false),
    ("--no-footnotes".toList, .flag .enable_footnotes false),
    ("--no-smart".toList, .flag .enable_smart_typography false),
    ("--no-math".toList, .flag .enable_math false),
    ("--enable-includes".toList, .flag .enable_file_includes true),
    ("--hardbreaks".toList, .flag .hardbreaks true),
    ("-s".toList, .flag .standalone true),
    ("--standalone".toList, .flag .standalone true),
    ("--style".toList, .style),
    ("--title".toList, .title),
    ("--pretty".toList, .flag .pretty true),
    ("--accept".toList, .critic 0),
    ("--reject".toList, .critic 1),
    ("--id-format".toList, .id_format),
    ("--no-ids".toList, .flag .generate_header_ids false),
    ("--header-anchors".toList, .flag .header_anchors true),
    ("--relaxed-tables".toList, .flag .relaxed_tables true),
    ("--no-relaxed-tables".toList, .flag .relaxed_tables false),
    ("--alpha-lists".toList, .flag .allow_alpha_lists true),
    ("--no-alpha-lists".toList, .flag .allow_alpha_lists false),
    ("--mixed-lists".toList, .flag .allow_mixed_list_markers true),
    ("--no-mixed-lists".toList, .flag .allow_mixed_list_markers false),
    ("--unsafe".toList, .flag .unsafe_html true),
    ("--no-unsafe".toList, .flag .unsafe_html false),
    ("--sup-sub".toList, .flag .enable_sup_sub true),
    ("--no-sup-sub".toList, .flag .enable_sup_sub false),
    ("--autolink".toList, .flag .enable_autolink true),
    ("--no-autolink".toList, .flag .enable_autolink false),
    ("--obfuscate-emails".toList, .flag .obfuscate_emails true)
  ]

/-- The first comparison of the chain that succeeds for `arg`. -/
def lookup_option (arg : Text) : List (Text × ArgKind) → Option ArgKind
  | [] => none
  | (name, kind) :: rest => if arg = name then some kind else lookup_option arg rest

/-- The `if`/`else if` chain of the argument loop of `main`: which branch the
argument `arg` takes.  When no comparison succeeds, `argv[i][0] == '-'` decides
between the unknown option and the input file. -/
def arg_kind (arg : Text) : ArgKind :=
  match lookup_option arg option_table with
  | some kind => kind
  | none => if char_at arg 0 = '-' then .unknown else .input

/-- What `main` does that can be seen from outside, in the order it does it. -/
inductive Event
  | print_usage
  | print_version
  | print_error (message : Text)
  | read_input (input_file : Option Text)
  | convert (markdown : Text) (options : apex_options)
  | write_output (output_file : Option Text) (html : Text)
  deriving DecidableEq, Repr

/-- How the argument loop of `main` ends: with a `return` inside the loop, or by
running off the end of the arguments with the three locals of `main`. -/
inductive Parsed
  | exit (events : List Event) (code : Nat)
  | proceed (options : apex_options) (input_file output_file : Option Text)
  deriving DecidableEq, Repr

/-- The argument loop of `main` (`for (int i = 1; i < argc; i++)`) from the
argument it stands at, with the current values of the three locals.
`for_mode` is `apex_options_for_mode`, which is defined outside these sources. -/
def parse_args (for_mode : apex_mode → apex_options) :
    apex_options → Option Text → Option Text → List Text → Parsed
  | options, input_file, output_file, [] => .proceed options input_file output_file
  | options, input_file, output_file, arg :: rest =>
    match arg_kind arg with
    | .help => .exit [.print_usage] 0
    | .version => .exit [.print_version] 0
    | .mode =>
      match rest with
      | [] => .exit [.print_error "Error: --mode requires an argument\n".toList] 1
      | name :: rest =>
        match mode_of_name name with
        | some mode => parse_args for_mode (for_mode mode) input_file output_file rest
        | none =>
          .exit [.print_error ("Error: Unknown mode '".toList ++ name ++ "'\n".toList)] 1
    | .output =>
      match rest with
      | [] => .exit [.print_error "Error: --output requires an argument\n".toList] 1
      | file :: rest => parse_args for_mode options input_file (some file) rest
    | .style =>
      match rest with
      | [] => .exit [.print_error "Error: --style requires an argument\n".toList] 1
      | file :: rest =>
        parse_args for_mode { options with stylesheet_path := some file, standalone := true }
          input_file output_file rest
    | .title =>
      match rest with
      | [] => .exit [.print_error "Error: --title requires an argument\n".toList] 1
      | title :: rest =>
        parse_args for_mode { options with document_title := some title }
          input_file output_file rest
    | .id_format =>
      match rest with
      | [] =>
        .exit [.print_error
          "Error: --id-format requires an argument (gfm, mmd, or kramdown)\n".toList] 1
      | name :: rest =>
        match id_format_of_name name with
        | some n => parse_args for_mode { options with id_format := n } input_file output_file rest
        | none =>
          .exit [.print_error
            "Error: --id-format must be 'gfm', 'mmd', or 'kramdown'\n".toList] 1
    | .critic n =>
      parse_args for_mode { options with enable_critic_markup := true, critic_mode := n }
        input_file output_file rest
    | .flag field value =>
      parse_args for_mode (options.set field value) input_file output_file rest
    | .unknown =>
      .exit [.print_error ("Error: Unknown option '".toList ++ arg ++ "'\n".toList),
        .print_usage] 1
    | .input => parse_args for_mode options (some arg) output_file rest

/-- The world outside `main`: what reading the input gives (`read_file` or
`read_stdin`, `none` for `NULL`), what `apex_markdown_to_html` returns, and
whether the output file can be opened. -/
structure World where
  read : Option Text → Option Text
  markdown_to_html : Text → apex_options → Option Text
  can_open : Text → Bool

/-- The function `main`: the events and the exit code.  `argv` includes the
program name; `default_options` is the value of `apex_options_default()`. -/
def main (world : World) (default_options : apex_options)
    (for_mode : apex_mode → apex_options) (argv : List Text) : List Event × Nat :=
  match parse_args for_mode default_options none none (argv.drop 1) with
  | .exit events code => (events, code)
  | .proceed options input_file output_file =>
    match world.read input_file with
    | none => ([.read_input input_file], 1)
    | some markdown =>
      match world.markdown_to_html markdown options with
      | none =>
        ([.read_input input_file, .convert markdown options,
          .print_error "Error: Conversion failed\n".toList], 1)
      | some html =>
        match output_file with
        | some file =>
          if world.can_open file then
            ([.read_input input_file, .convert markdown options,
              .write_output (some file) html], 0)
          else
            ([.read_input input_file, .convert markdown options,
              .print_error ("Error: Cannot open output file '".toList ++ file ++ "'\n".toList)],
              1)
        | none =>
          ([.read_input input_file, .convert markdown options, .write_output none html], 0)

/-! ## Definitions used to state the properties -/

/-- What the second pass writes for one `[%KEY]`: the value of a known key
shorter than 256 bytes, the pattern itself for an unknown key shorter than 256
bytes, and nothing for a key of 256 bytes or more. -/
def written_for (m : Items) (K : Text) : Text :=
  if K.length < 256 then
    match apex_metadata_get m K with
    | some value => value
    | none => "[%".toList ++ K ++ "]".toList
  else []

/-- The text made of the given lines, each followed by its newline. -/
def unlines : List Text → Text
  | [] => []
  | l :: ls => l ++ '\n' :: unlines ls

/-- Whether the text is at its end or starts with a blank or a sentence
terminator: a byte that no branch of the main loop turns into a tag. -/
def plain_head (s : Text) : Bool :=
  match s with
  | [] => true
  | x :: _ => is_blank x || is_terminator x

/-- The room the main loop needs at `read = s`: with `remaining` bytes left,
`13 * strlen(s) + 26 <= 3 * remaining`, ten less when `s` has a plain head. -/
def capacity_ok (s : Text) (remaining : Nat) : Prop :=
  13 * s.length + 26 ≤ 3 * remaining + (if plain_head s then 10 else 0)

/-- The configurations the main loop of `apex_process_sup_sub` goes through on
`text`: the bytes written so far, `read[-1]`, the flags, `remaining` and the
text from `read` on. -/
inductive Reached (text : Text) : Text → Option Char → ScanState → Nat → Text → Prop
  | start : Reached text [] none ScanState.init (capacity text) text
  | step (written : Text) (prev : Option Char) (st : ScanState) (remaining : Nat) (c : Char)
      (cs : Text) :
      Reached text written prev st remaining (c :: cs) →
      Reached text (written ++ (sup_sub_step prev st remaining c cs).out)
        ((c :: cs).get? ((sup_sub_step prev st remaining c cs).adv - 1))
        (sup_sub_step prev st remaining c cs).st
        (remaining - (sup_sub_step prev st remaining c cs).out.length)
        ((c :: cs).drop (sup_sub_step prev st remaining c cs).adv)

/-- A step that writes no more bytes than it reads. -/
def StepCopies (r : Step) (n : Nat) : Prop := r.out.length ≤ r.adv ∧ 1 ≤ r.adv ∧ r.adv ≤ n

/-- A step that writes a tag around `len` bytes: it reads the marker, the
bytes and either a closing marker or stops in front of a plain byte. -/
def StepTags (r : Step) (c : Char) (cs : Text) : Prop :=
  plain_head [c] = false ∧
  ∃ len, 1 ≤ len ∧ r.out.length ≤ len + 11 ∧ r.adv ≤ cs.length + 1 ∧
    (r.adv = len + 2 ∨ (r.adv = len + 1 ∧ plain_head (cs.drop len) = true))

/-- The byte `read[-1]` after the bytes `p` were read, `prev` before them. -/
def last_read (prev : Option Char) : Text → Option Char
  | [] => prev
  | c :: p => last_read (some c) p

/-- The renderer on a line of plain text: cmark wraps it in `<p>` and `</p>`
with a newline. It stands for cmark where a property is evaluated on a concrete
plain input. -/
def render_plain (t : Text) : Option Text := some ("<p>".toList ++ t ++ "</p>\n".toList)

/-- The state of the loop outside a list with no term buffered. -/
def DlState.idle (out : Text) (remaining : Nat) : DlState :=
  ⟨out, remaining, false, false, 0, [], false, 0⟩

/-- The state of the loop outside a list with the line `T` buffered as a term
that has no blockquote prefix. -/
def DlState.with_term (out : Text) (remaining : Nat) (T : Text) : DlState :=
  ⟨out, remaining, false, false, 0, T, false, 0⟩

/-- The state of the loop inside a list that is not in a blockquote. -/
def DlState.in_list (out : Text) (remaining : Nat) : DlState :=
  ⟨out, remaining, true, false, 0, [], false, 0⟩

/-- A line that the loop buffers as a term with no blockquote prefix: it holds
no newline, is not blank (not empty and not a lone carriage return), is not a
definition line, a table row, a list item or a heading, is shorter than 4095
bytes, and its first byte behind leading spaces and tabs is not `>`. -/
def is_plain_term (T : Text) : Bool :=
  decide ('\n' ∉ T) && decide (T ≠ []) && decide (T ≠ ['\r']) && !is_def_line T &&
    !is_table_row T && !is_list_item T && !is_header (quote_scan T).2 &&
    decide (T.length < 4095) &&
    decide ((strip_quote T.length (T.dropWhile is_space_tab)).1 = 0)

/-- The definition lines `: D1` .. `: Dn`, each behind the newline that ends
the line before it. -/
def dd_lines : List Text → Text
  | [] => []
  | D :: Ds => '\n' :: ':' :: ' ' :: (D ++ dd_lines Ds)

/-- The text written for a definition text `D`: the rendering of `D` behind
its leading spaces and tabs. -/
def dd_text (render : Text → Option Text) (D : Text) : Text :=
  inline_html render (D.dropWhile is_space_tab)

/-- The lines `<dd>Di'</dd>` for the definition texts `D1` .. `Dn`, in order. -/
def dd_html (render : Text → Option Text) : List Text → Text
  | [] => []
  | D :: Ds => "<dd>".toList ++ dd_text render D ++ "</dd>\n".toList ++ dd_html render Ds

/-- The lines written for a list up to its last `<dd>` line: `<dl>`, the term
`T` as `<dt>T'</dt>` and the definition texts as `<dd>Di'</dd>`, in order. -/
def list_html (render : Text → Option Text) (T : Text) (Ds : List Text) : Text :=
  "<dl>\n<dt>".toList ++ inline_html render T ++ "</dt>\n".toList ++ dd_html render Ds

/-- The blockquote prefix of nesting level `n`: `> ` once per level. -/
def quote_marks : Nat → Text
  | 0 => []
  | n + 1 => '>' :: ' ' :: quote_marks n

/-- A text that is buffered as a term when it stands behind a blockquote
prefix: it holds no newline, is not empty, does not start with `>`, a space, a
tab or `#`, and does not start with a definition marker (`:` and a space or
tab). -/
def is_term_text (T : Text) : Bool :=
  decide ('\n' ∉ T) &&
    (match T with
      | [] => false
      | c :: _ => c != '>' && c != ' ' && c != '\t' && c != '#') &&
    !(match T with
      | c :: y :: _ => c = ':' && is_space_tab y
      | _ => false)

/-- The definition lines `: D1` .. `: Dn` behind the blockquote prefix of level
`n`, each behind the newline that ends the line before it. -/
def quoted_dd_lines (n : Nat) : List Text → Text
  | [] => []
  | D :: Ds => '\n' :: (quote_marks n ++ ':' :: ' ' :: (D ++ quoted_dd_lines n Ds))

/-- The lines `<dd>Di'</dd>`, each behind the blockquote prefix of level `n`. -/
def quoted_dd_html (render : Text → Option Text) (n : Nat) : List Text → Text
  | [] => []
  | D :: Ds =>
    quote_marks n ++ ("<dd>".toList ++ dd_text render D ++ "</dd>\n".toList) ++
      quoted_dd_html render n Ds

/-- The lines written for a list in a blockquote of level `n` up to its last
`<dd>` line, each behind the prefix. -/
def quoted_list_html (render : Text → Option Text) (n : Nat) (T : Text) (Ds : List Text) :
    Text :=
  quote_marks n ++ "<dl>\n".toList ++
    (quote_marks n ++ ("<dt>".toList ++ inline_html render T ++ "</dt>\n".toList)) ++
    quoted_dd_html render n Ds

/-- The state of the loop outside a list with a term line buffered that has
`n` blockquote prefixes. -/
def DlState.quoted_term (out : Text) (remaining : Nat) (n : Nat) (line : Text) : DlState :=
  ⟨out, remaining, false, false, 0, line, true, n⟩

/-- The state of the loop inside a list in a blockquote of level `n`. -/
def DlState.in_quoted_list (out : Text) (remaining : Nat) (n : Nat) : DlState :=
  ⟨out, remaining, true, true, n, [], false, n⟩

/-- The option names that the argument loop of `main` compares with. -/
def recognised_options : List Text := option_table.map Prod.fst

/-- The options that take the next argument as their value. -/
def valued_options : List Text :=
  ["-m".toList, "--mode".toList, "-o".toList, "--output".toList, "--style".toList,
    "--title".toList, "--id-format".toList]

/-- What an explicit flag asks of the options: a flag without a value asks for
the field it assigns to have the value it assigns, and `--style FILE` asks for
the standalone mode it implies. -/
def flag_request (words : List Text) : Option (Field × Bool) :=
  match words with
  | [flag] =>
    match arg_kind flag with
    | .flag field value => some (field, value)
    | _ => none
  | [flag, _] => if arg_kind flag = .style then some (.standalone, true) else none
  | _ => none

/-- An options value with every gate on and no stylesheet or title, to run the
argument loop on concrete arguments. -/
def options_all_on : apex_options :=
  { enable_tables := true, enable_footnotes := true, enable_smart_typography := true,
    enable_math := true, enable_file_includes := true, hardbreaks := true, standalone := false,
    stylesheet_path := none, document_title := none, pretty := false,
    enable_critic_markup := true, critic_mode := 0, id_format := 0,
    generate_header_ids := true, header_anchors := true, relaxed_tables := true,
    allow_alpha_lists := true, allow_mixed_list_markers := true, unsafe_html := true,
    enable_sup_sub := true, enable_autolink := true, obfuscate_emails := false }

/-- A world in which the input is `markdown`, the conversion is the identity and
every output file can be opened. -/
def World.echo (markdown : Text) : World :=
  { read := fun _ => some markdown, markdown_to_html := fun text _ => some text,
    can_open := fun _ => true }

/-- The markers of the sup/sub syntax: `^` and `~`. -/
def is_marker (c : Char) : Bool := c = '^' || c = '~'

/-- The text without its markers `^` and `~`. -/
def strip_markers (s : Text) : Text := s.filter (fun c => !is_marker c)
/-- What a step keeps of the bytes it reads: it copies them all, or it stands
at a marker, wraps the `len` bytes behind it in a pair of tags and reads one
more byte only when that byte is a marker. -/
def StepKeeps (r : Step) (c : Char) (cs : Text) : Prop :=
  r.out = (c :: cs).take r.adv ∨
  (is_marker c = true ∧ ∃ (open_tag close_tag : Text) (len : Nat),
    r.out = open_tag ++ cs.take len ++ close_tag ∧
    (r.adv = 1 + len ∨ (r.adv = 1 + len + 1 ∧ is_marker (char_at cs len) = true)))

/-- The bytes the given lines take in the text, each with its newline. -/
def span_of (ls : List Text) : Nat := (ls.map (fun l => l.length + 1)).sum

/-- The bytes a buffered term still owes the output: the term and a newline. -/
def pending (s : DlState) : Text := if s.term.length > 0 then s.term ++ ['\n'] else []

/-- A line that the loop buffers as a possible term when it is not blank and
not a definition line: it is not a table row, a list item or a heading, no `{:`
is found from its start on, and it is shorter than 4095 bytes. -/
def is_buffered (line from_line : Text) : Bool :=
  !is_table_row line && !is_list_item line && !(strstr from_line "\x7b:".toList).isSome &&
    !is_header (quote_scan line).2 && decide (line.length < 4095)

/-- Whether the line has a definition marker: behind at most three spaces and
the blockquote prefixes, a `:` followed by a space or a tab. -/
def has_def_marker (line : Text) : Bool :=
  match (quote_scan line).2 with
  | c :: y :: _ => c = ':' && is_space_tab y
  | _ => false

/-- The HTML `html` without the paragraph that wraps it, in the words of the
specification: without the `<p>` it starts with, if any, and then without the
`</p>` and newline it ends with, if any. -/
def without_paragraph (html : Text) : Text :=
  let body := if "<p>".toList <+: html then html.drop 3 else html
  if "</p>\n".toList <:+ body then body.take (body.length - 5) else body

/-- What the specification says is written for a term or a definition text
`t`: nothing for an empty text, the HTML the Markdown renderer gives for `t`
without the wrapping paragraph, and `t` itself when rendering fails. -/
def rendering (render : Text → Option Text) (t : Text) : Text :=
  if t = [] then []
  else
    match render t with
    | some html => without_paragraph html
    | none => t

/-- What cmark gives for the texts of the test of a definition with Markdown
content (test_runner.c 520-526): `Definition with **bold** and *italic*` gets
`<strong>` and `<em>` inside one paragraph, a text of plain words is wrapped in
one paragraph. It stands for cmark where a property is evaluated on that
input. -/
def render_sample (t : Text) : Option Text :=
  if t = "Definition with **bold** and *italic*".toList then
    some "<p>Definition with <strong>bold</strong> and <em>italic</em></p>\n".toList
  else render_plain t

/-! ## Basic facts about the string helpers -/

theorem strchr_append (l rest : Text) (c : Char) (h : c ∉ l) :
    strchr (l ++ c :: rest) c = some l.length := by
  unfold strchr
  have hmem : c ∈ l ++ c :: rest := by simp
  rw [if_pos hmem]
  congr 1
  induction l with
  | nil => simp
  | cons d l ih =>
    have hd : d ≠ c := fun e => h (by simp [e])
    have hl : c ∉ l := fun e => h (by simp [e])
    have hm : c ∈ l ++ c :: rest := by simp
    have hd1 : (d != c) = true := by simp [hd]
    simp [List.takeWhile, hd1, ih hl hm]

theorem strchr_none (l : Text) (c : Char) (h : c ∉ l) : strchr l c = none := by
  simp [strchr, h]

theorem strstr_open_append (a rest : Text) (h : ¬ "[%".toList <:+: a) :
    strstr (a ++ '[' :: '%' :: rest) "[%".toList = some a.length := by
  induction a with
  | nil => simp [strstr, List.isPrefixOf]
  | cons c a ih =>
    have ha : ¬ "[%".toList <:+: a := fun e => h (List.IsInfix.trans e (List.infix_cons (List.infix_refl a)))
    have hnp : List.isPrefixOf "[%".toList (c :: (a ++ '[' :: '%' :: rest)) = false := by
      cases a with
      | nil => simp [List.isPrefixOf]
      | cons d a =>
        by_contra hp
        simp [List.isPrefixOf] at hp
        apply h
        rw [← hp.1, ← hp.2]
        exact ⟨[], a, by simp⟩
    simp only [List.cons_append]
    rw [strstr, hnp, ih ha]
    simp

theorem replace_loop_fuel (m : Items) (fuel1 : Nat) :
    ∀ (fuel2 : Nat) (src : Text), src.length ≤ fuel1 → src.length ≤ fuel2 →
      replace_loop m fuel1 src = replace_loop m fuel2 src := by
  induction fuel1 with
  | zero =>
    intro fuel2 src h1 _
    have hs : src = [] := List.length_eq_zero.mp (Nat.le_zero.mp h1)
    subst hs
    cases fuel2 <;> simp [replace_loop, strstr, List.isPrefixOf]
  | succ n ih =>
    intro fuel2 src h1 h2
    cases fuel2 with
    | zero =>
      have hs : src = [] := List.length_eq_zero.mp (Nat.le_zero.mp h2)
      subst hs
      simp [replace_loop, strstr, List.isPrefixOf]
    | succ k =>
      simp only [replace_loop]
      cases strstr src "[%".toList with
      | none => rfl
      | some p =>
        dsimp only
        cases strchr (List.drop (p + 2) src) ']' with
        | none => rfl
        | some key_len =>
          dsimp only
          congr 1
          apply ih
          · rw [List.length_drop]; omega
          · rw [List.length_drop]; omega

theorem replace_loop_step (m : Items) (a K b : Text)
    (ha : ¬ "[%".toList <:+: a) (hK : ']' ∉ K) :
    replace_loop m (a ++ "[%".toList ++ K ++ "]".toList ++ b).length
        (a ++ "[%".toList ++ K ++ "]".toList ++ b)
      = a ++ written_for m K ++ replace_loop m b.length b := by
  have hsrc : a ++ "[%".toList ++ K ++ "]".toList ++ b = a ++ '[' :: '%' :: (K ++ ']' :: b) := by
    simp
  rw [hsrc]
  have hl : (a ++ '[' :: '%' :: (K ++ ']' :: b)).length
      = (a.length + K.length + b.length + 2) + 1 := by
    simp; omega
  rw [hl, replace_loop, strstr_open_append a _ ha]
  have hd : List.drop (a.length + 2) (a ++ '[' :: '%' :: (K ++ ']' :: b)) = K ++ ']' :: b := by
    rw [List.drop_append]; rfl
  have hd0 : List.drop a.length (a ++ '[' :: '%' :: (K ++ ']' :: b))
      = '[' :: '%' :: (K ++ ']' :: b) := by
    simp
  have ht : List.take (K.length + 3) ('[' :: '%' :: (K ++ ']' :: b))
      = "[%".toList ++ K ++ "]".toList := by
    show List.take (K.length + 1 + 1 + 1) ('[' :: '%' :: (K ++ ']' :: b)) = _
    rw [List.take_succ_cons, List.take_succ_cons, List.take_append]
    simp
  have hd2 : List.drop (a.length + 2 + K.length + 1) (a ++ '[' :: '%' :: (K ++ ']' :: b)) = b := by
    have : a.length + 2 + K.length + 1 = a.length + ((K.length + 1) + 1 + 1) := by omega
    rw [this, List.drop_append, List.drop_succ_cons, List.drop_succ_cons, List.drop_append]
    rfl
  simp only [hd, hd0, ht, hd2, strchr_append K b ']' hK, List.take_left, written_for]
  rw [replace_loop_fuel m _ b.length b (by omega) (Nat.le_refl _)]

theorem foldl_add_metadata_item (ins : List (Text × Text)) (acc : Items) :
    ins.foldl (fun l p => add_metadata_item l p.1 p.2) acc = ins.reverse ++ acc := by
  induction ins generalizing acc with
  | nil => rfl
  | cons p ins ih => simp [List.foldl, ih, add_metadata_item]

theorem apex_metadata_get_append_of_no_match (pre post : Items) (key : Text)
    (h : ∀ p ∈ pre, strcasecmp_eq p.1 key = false) :
    apex_metadata_get (pre ++ post) key = apex_metadata_get post key := by
  induction pre with
  | nil => rfl
  | cons q pre ih =>
    have hq : strcasecmp_eq q.1 key = false := h q (by simp)
    have hpre : ∀ p ∈ pre, strcasecmp_eq p.1 key = false := fun p hp => h p (by simp [hp])
    simp [apex_metadata_get, hq, ih hpre]

theorem replace_variables_step (m : Items) (a K b : Text) (hm : m ≠ [])
    (ha : ¬ "[%".toList <:+: a) (hK : ']' ∉ K) :
    apex_metadata_replace_variables (a ++ "[%".toList ++ K ++ "]".toList ++ b) m
      = a ++ written_for m K ++ apex_metadata_replace_variables b m := by
  simp only [apex_metadata_replace_variables, if_neg hm]
  exact replace_loop_step m a K b ha hK

theorem parse_mmd_loop_skipped (n : Nat) (pre rest : List Text)
    (h : ∀ s ∈ pre, mmd_line_kind s = .blank ∨ mmd_line_kind s = .skip) :
    ∀ off, ∃ off1,
      parse_mmd_loop n (pre ++ rest) off [] false = parse_mmd_loop n rest off1 [] false := by
  induction pre with
  | nil => intro off; exact ⟨off, rfl⟩
  | cons s pre ih =>
    intro off
    have hs := h s (by simp)
    have hpre : ∀ t ∈ pre, mmd_line_kind t = .blank ∨ mmd_line_kind t = .skip :=
      fun t ht => h t (by simp [ht])
    obtain ⟨off1, h1⟩ := ih hpre (off + s.length + 1)
    refine ⟨off1, ?_⟩
    rw [← h1]
    rcases hs with hs | hs <;> simp [parse_mmd_loop, hs]

theorem extract_metadata_of_mmd_nil (text : Text) (hy : starts_with text "---" = false)
    (hp : char_at text 0 ≠ '%') (h : (parse_mmd_metadata text).1 = []) :
    apex_extract_metadata text = ([], text) := by
  unfold apex_extract_metadata
  by_cases ht : text = []
  · simp [ht]
  · simp [ht, hy, hp, h]

theorem span_of_cons (l : Text) (ls : List Text) : span_of (l :: ls) = l.length + 1 + span_of ls := by
  simp [span_of]

theorem span_of_lines_of (text : Text) : span_of (lines_of text) ≤ text.length := by
  induction text with
  | nil => simp [lines_of, span_of]
  | cons c cs ih =>
    unfold lines_of
    by_cases hc : c = '\n'
    · rw [if_pos hc, span_of_cons]
      simp only [List.length_nil, List.length_cons]
      omega
    · rw [if_neg hc]
      cases h : lines_of cs with
      | nil => simp [span_of]
      | cons l ls =>
        rw [h] at ih
        simp only [span_of_cons, List.length_cons] at ih ⊢
        omega

theorem parse_yaml_loop_consumed (ls : List Text) :
    ∀ (off : Nat) (items : Items) (k : Nat),
      (parse_yaml_loop ls off items).2 = some k → k ≤ off + span_of ls := by
  induction ls with
  | nil => intro off items k h; simp [parse_yaml_loop] at h
  | cons l ls ih =>
    intro off items k h
    unfold parse_yaml_loop at h
    simp only at h
    rw [span_of_cons]
    split_ifs at h with h1
    · simp only [Option.some.injEq] at h
      omega
    · have := ih _ _ k h
      omega

theorem takeWhile_ne_length_lt (c : Char) (s : Text) (hc : c ∈ s) :
    (s.takeWhile (fun x => x != c)).length < s.length := by
  induction s with
  | nil => cases hc
  | cons x s ih =>
    by_cases hx : x = c
    · simp [List.takeWhile, hx]
    · have hcs : c ∈ s := by
        rcases List.mem_cons.mp hc with e | e
        · exact absurd e.symm hx
        · exact e
      have := ih hcs
      have hx2 : (x != c) = true := by simpa using hx
      have e : (x :: s).takeWhile (fun x => x != c) = x :: s.takeWhile (fun x => x != c) := by
        simp only [List.takeWhile, hx2]
      rw [e]
      simp only [List.length_cons]
      omega

theorem strchr_lt (s : Text) (c : Char) (i : Nat) (h : strchr s c = some i) : i < s.length := by
  unfold strchr at h
  by_cases hc : c ∈ s
  · rw [if_pos hc] at h
    rw [← Option.some.inj h]
    exact takeWhile_ne_length_lt c s hc
  · rw [if_neg hc] at h
    cases h

theorem parse_yaml_metadata_consumed (text : Text) (k : Nat)
    (h : (parse_yaml_metadata text).2 = some k) : k ≤ text.length := by
  unfold parse_yaml_metadata at h
  by_cases h1 : (!starts_with text "---") = true
  · rw [if_pos h1] at h
    cases h
  · rw [if_neg h1] at h
    cases hs : strchr (text.drop 3) '\n' with
    | none => rw [hs] at h; simp at h
    | some i =>
      rw [hs] at h
      simp only at h
      have h2 := parse_yaml_loop_consumed _ _ _ k h
      have h3 := span_of_lines_of (text.drop (3 + i + 1))
      have h4 := strchr_lt _ _ _ hs
      simp only [List.length_drop] at h3 h4
      omega

theorem parse_mmd_loop_consumed (n : Nat) (ls : List Text) :
    ∀ (off : Nat) (items : Items) (found : Bool) (k : Nat),
      off + span_of ls ≤ n →
      (parse_mmd_loop n ls off items found).2 = some k → k ≤ n := by
  induction ls with
  | nil =>
    intro off items found k _ h
    simp only [parse_mmd_loop] at h
    split_ifs at h
    simp only [Option.some.injEq] at h
    omega
  | cons l ls ih =>
    intro off items found k hn h
    rw [span_of_cons] at hn
    unfold parse_mmd_loop at h
    cases hk : mmd_line_kind l with
    | blank =>
      simp only [hk] at h
      split_ifs at h
      · simp only [Option.some.injEq] at h; omega
      · exact ih _ _ _ k (by omega) h
    | skip =>
      simp only [hk] at h
      split_ifs at h
      · simp only [Option.some.injEq] at h; omega
      · exact ih _ _ _ k (by omega) h
    | reject =>
      simp only [hk] at h
      split_ifs at h
      · simp only [Option.some.injEq] at h; omega
      · simp only [Option.some.injEq] at h; omega
    | pair key value =>
      simp only [hk] at h
      exact ih _ _ _ k (by omega) h

theorem parse_pandoc_loop_consumed (ls : List Text) :
    ∀ (key_index off : Nat) (items : Items),
      (parse_pandoc_loop ls key_index off items).2.2 ≤ off + span_of ls := by
  induction ls with
  | nil => intro key_index off items; simp [parse_pandoc_loop]
  | cons l ls ih =>
    intro key_index off items
    unfold parse_pandoc_loop
    rw [span_of_cons]
    by_cases h1 : key_index < 3
    · rw [if_pos h1]
      simp only
      by_cases h2 : char_at (trim_whitespace (line_buffer l)) 0 = '%'
      · rw [if_pos h2]
        have := ih (key_index + 1) (off + l.length + 1)
          (if trim_whitespace ((trim_whitespace (line_buffer l)).drop 1) ≠ [] then
            add_metadata_item items (pandoc_key key_index)
              (trim_whitespace ((trim_whitespace (line_buffer l)).drop 1))
          else items)
        omega
      · rw [if_neg h2]
        simp only
        omega
    · rw [if_neg h1]
      simp only
      omega

theorem parse_pandoc_metadata_consumed (text : Text) (k : Nat)
    (h : (parse_pandoc_metadata text).2 = some k) : k ≤ text.length := by
  unfold parse_pandoc_metadata at h
  simp only at h
  split_ifs at h
  simp only [Option.some.injEq] at h
  have h1 := parse_pandoc_loop_consumed (lines_of text) 0 0 []
  have h2 := span_of_lines_of text
  omega

theorem parse_mmd_metadata_consumed (text : Text) (k : Nat)
    (h : (parse_mmd_metadata text).2 = some k) : k ≤ text.length := by
  unfold parse_mmd_metadata at h
  exact parse_mmd_loop_consumed text.length (lines_of text) 0 [] false k
    (by have := span_of_lines_of text; omega) h

/-- Without a pair the text is left as it was. -/
theorem extract_metadata_unchanged (text : Text) (h : (apex_extract_metadata text).1 = []) :
    (apex_extract_metadata text).2 = text := by
  unfold apex_extract_metadata at h ⊢
  by_cases h0 : text = []
  · rw [if_pos h0]
  · rw [if_neg h0] at h ⊢
    simp only at h ⊢
    generalize (if starts_with text "---" = true then parse_yaml_metadata text
        else if char_at text 0 = '%' then parse_pandoc_metadata text
        else parse_mmd_metadata text) = r at h ⊢
    by_cases h1 : (decide (r.1 ≠ []) && decide (r.2.getD 0 > 0)) = true
    · rw [if_pos h1] at h
      simp only [Bool.and_eq_true, decide_eq_true_eq] at h1
      exact absurd h h1.1
    · rw [if_neg h1]

/-- The number of bytes `apex_extract_metadata` skips is no more than the
length of the text: the text pointer stays inside the string. -/
theorem extract_metadata_drop (text : Text) :
    ∃ k : Nat, k ≤ text.length ∧ (apex_extract_metadata text).2 = text.drop k := by
  unfold apex_extract_metadata
  by_cases h0 : text = []
  · rw [if_pos h0]
    exact ⟨0, Nat.zero_le _, rfl⟩
  · rw [if_neg h0]
    simp only
    have hb : ∀ k, (if starts_with text "---" = true then parse_yaml_metadata text
        else if char_at text 0 = '%' then parse_pandoc_metadata text
        else parse_mmd_metadata text).2 = some k → k ≤ text.length := by
      intro k hk
      split_ifs at hk
      · exact parse_yaml_metadata_consumed text k hk
      · exact parse_pandoc_metadata_consumed text k hk
      · exact parse_mmd_metadata_consumed text k hk
    generalize (if starts_with text "---" = true then parse_yaml_metadata text
        else if char_at text 0 = '%' then parse_pandoc_metadata text
        else parse_mmd_metadata text) = r at hb
    split_ifs
    · refine ⟨r.2.getD 0, ?_, rfl⟩
      cases hr : r.2 with
      | none => simp
      | some k => simpa using hb k hr
    · exact ⟨0, Nat.zero_le _, rfl⟩

theorem strstr_eq_none (needle : Text) :
    ∀ s : Text, ¬ needle <:+: s → strstr s needle = none := by
  intro s
  induction s with
  | nil =>
    intro h
    unfold strstr
    split_ifs with hp
    · exact absurd (List.IsPrefix.isInfix (List.isPrefixOf_iff_prefix.mp hp)) h
    · rfl
  | cons c cs ih =>
    intro h
    unfold strstr
    split_ifs with hp
    · exact absurd (List.IsPrefix.isInfix (List.isPrefixOf_iff_prefix.mp hp)) h
    · rw [ih (fun e => h (List.IsInfix.trans e (List.infix_cons (List.infix_refl cs))))]
      rfl

theorem replace_loop_no_pattern (m : Items) (fuel : Nat) (src : Text)
    (h : ¬ "[%".toList <:+: src) : replace_loop m fuel src = src := by
  cases fuel with
  | zero => rfl
  | succ n =>
    unfold replace_loop
    rw [strstr_eq_none _ src h]

theorem replace_loop_unclosed (m : Items) (a rest : Text)
    (ha : ¬ "[%".toList <:+: a) (hr : ']' ∉ rest) :
    replace_loop m (a ++ "[%".toList ++ rest).length (a ++ "[%".toList ++ rest)
      = a ++ "[%".toList ++ rest := by
  have hsrc : a ++ "[%".toList ++ rest = a ++ '[' :: '%' :: rest := by simp
  rw [hsrc]
  have hl : (a ++ '[' :: '%' :: rest).length = (a.length + rest.length + 1) + 1 := by
    simp; omega
  rw [hl, replace_loop, strstr_open_append a _ ha]
  have hd : List.drop (a.length + 2) (a ++ '[' :: '%' :: rest) = rest := by
    rw [List.drop_append]; rfl
  simp only [hd, strchr_none rest ']' hr]

/-! ## Basic facts about the sup/sub loop -/

theorem math_step_adv_pos (st : ScanState) (remaining : Nat) (c : Char) (cs : Text) (r : Step)
    (h : math_step st remaining c cs = some r) : 1 ≤ r.adv := by
  unfold math_step at h
  split_ifs at h <;> cases h <;> simp

theorem superscript_step_adv_pos (prev : Option Char) (st : ScanState) (remaining : Nat)
    (c : Char) (cs : Text) (r : Step)
    (h : superscript_step prev st remaining c cs = some r) : 1 ≤ r.adv := by
  unfold superscript_step at h
  simp only at h
  split_ifs at h <;> cases h <;> simp

theorem critic_tilde_step_adv_pos (prev : Option Char) (st : ScanState) (remaining : Nat)
    (c : Char) (cs : Text) (r : Step)
    (h : critic_tilde_step prev st remaining c cs = some r) : 1 ≤ r.adv := by
  unfold critic_tilde_step at h
  split_ifs at h <;> cases h <;> simp

theorem tilde_step_adv_pos (st : ScanState) (remaining : Nat) (c : Char) (cs : Text) (r : Step)
    (h : tilde_step st remaining c cs = some r) : 1 ≤ r.adv := by
  unfold tilde_step at h
  simp only at h
  split_ifs at h <;> cases h <;>
    first
      | (simp; done)
      | omega
      | (simp only []; omega)
      | (simp only []; split <;> omega)

theorem sup_sub_step_adv_pos (prev : Option Char) (st : ScanState) (remaining : Nat) (c : Char)
    (cs : Text) : 1 ≤ (sup_sub_step prev st remaining c cs).adv := by
  unfold sup_sub_step
  simp only
  split
  · next r h => exact math_step_adv_pos _ _ _ _ r h
  · split_ifs
    · simp
    · split
      · next r h => exact superscript_step_adv_pos _ _ _ _ _ r h
      · split
        · next r h => exact critic_tilde_step_adv_pos _ _ _ _ _ r h
        · split
          · next r h => exact tilde_step_adv_pos _ _ _ _ r h
          · simp

theorem sup_sub_loop_fuel (fuel1 : Nat) :
    ∀ (fuel2 : Nat) (prev : Option Char) (st : ScanState) (remaining : Nat) (s : Text),
      s.length ≤ fuel1 → s.length ≤ fuel2 →
      sup_sub_loop fuel1 prev st remaining s = sup_sub_loop fuel2 prev st remaining s := by
  induction fuel1 with
  | zero =>
    intro fuel2 prev st remaining s h1 _
    have hs : s = [] := List.length_eq_zero.mp (Nat.le_zero.mp h1)
    subst hs
    cases fuel2 <;> simp [sup_sub_loop]
  | succ n ih =>
    intro fuel2 prev st remaining s h1 h2
    cases s with
    | nil => cases fuel2 <;> simp [sup_sub_loop]
    | cons c cs =>
      cases fuel2 with
      | zero => simp at h2
      | succ k =>
        simp only [sup_sub_loop]
        congr 1
        have hadv := sup_sub_step_adv_pos prev st remaining c cs
        apply ih
        · rw [List.length_drop]; simp at h1 ⊢; omega
        · rw [List.length_drop]; simp at h2 ⊢; omega

/-- One iteration of the main loop unfolded. -/
theorem sup_sub_run_cons (prev : Option Char) (st : ScanState) (remaining : Nat) (c : Char)
    (cs : Text) :
    sup_sub_run prev st remaining (c :: cs)
      = (sup_sub_step prev st remaining c cs).out ++
        sup_sub_run ((c :: cs).get? ((sup_sub_step prev st remaining c cs).adv - 1))
          (sup_sub_step prev st remaining c cs).st
          (remaining - (sup_sub_step prev st remaining c cs).out.length)
          ((c :: cs).drop (sup_sub_step prev st remaining c cs).adv) := by
  unfold sup_sub_run
  simp only [List.length_cons, sup_sub_loop]
  congr 1
  have hadv := sup_sub_step_adv_pos prev st remaining c cs
  apply sup_sub_loop_fuel
  · rw [List.length_drop]; simp; omega
  · exact Nat.le_refl _

theorem sup_sub_run_nil (prev : Option Char) (st : ScanState) (remaining : Nat) :
    sup_sub_run prev st remaining [] = [] := rfl

theorem takeWhile_append_stop (p : Char → Bool) (w rest : Text) (c : Char)
    (hw : ∀ x ∈ w, p x = true) (hc : p c = false) : (w ++ c :: rest).takeWhile p = w := by
  induction w with
  | nil => simp [List.takeWhile, hc]
  | cons x w ih =>
    simp [List.takeWhile, hw x (by simp), ih (fun y hy => hw y (by simp [hy]))]

theorem find_closing_tilde_word (w rest : Text)
    (hw : ∀ x ∈ w, x ≠ '\n' ∧ x ≠ '~' ∧ isspace x = false)
    (hr : char_at rest 0 ≠ '~') :
    ∀ before : Option Char,
      (match before with | some b => isspace b | none => false) = false →
      find_closing_tilde before (w ++ '~' :: rest) = some w.length := by
  induction w with
  | nil =>
    intro before hb
    cases rest with
    | nil => simp [find_closing_tilde, hb]
    | cons y r =>
      have hy : y ≠ '~' := hr
      simp [find_closing_tilde, hb, hy]
  | cons x w ih =>
    intro before hb
    obtain ⟨hx1, hx2, hx3⟩ := hw x (by simp)
    have hih := ih (fun y hy => hw y (by simp [hy])) (some x) hx3
    obtain ⟨y, t, ht⟩ : ∃ y t, w ++ '~' :: rest = y :: t := by
      cases w with
      | nil => exact ⟨_, _, rfl⟩
      | cons a w => exact ⟨_, _, rfl⟩
    rw [List.cons_append, ht]
    rw [ht] at hih
    simp [find_closing_tilde, hx1, hx2, hih]

theorem isspace_of_is_blank (x : Char) (h : isspace x = false) : is_blank x = false := by
  unfold isspace at h
  unfold is_blank
  simp only [Bool.or_eq_false_iff, decide_eq_false_iff_not] at h ⊢
  exact ⟨⟨h.1.1.1.1.1, h.1.1.1.1.2⟩, h.1.1.1.2⟩

theorem tilde_step_underline (st : ScanState) (remaining : Nat) (w rest : Text)
    (hne : w ≠ [])
    (hw : ∀ x ∈ w, isspace x = false ∧ x ≠ '~' ∧ is_terminator x = false ∧ x ≠ Char.ofNat 0)
    (hr : char_at rest 0 ≠ '~') (hrem : w.length + 7 ≤ remaining) :
    tilde_step st remaining '~' (w ++ '~' :: rest)
      = some ⟨"<u>".toList ++ w ++ "</u>".toList, 1 + w.length + 1, st⟩ := by
  obtain ⟨a, w1, rfl⟩ := List.exists_cons_of_ne_nil hne
  obtain ⟨ha1, ha2, ha3, ha4⟩ := hw a (by simp)
  have hnl : ∀ x, isspace x = false → x ≠ '\n' := by
    intro x hx he
    rw [he] at hx
    revert hx
    decide
  have h1 : ((a :: w1) ++ '~' :: rest).takeWhile (fun x => !is_blank x && x != '~') = a :: w1 := by
    apply takeWhile_append_stop
    · intro x hx
      obtain ⟨hx1, hx2, _, _⟩ := hw x hx
      simp [isspace_of_is_blank x hx1, hx2]
    · simp
  have h2 : (a :: w1).any is_terminator = false := by
    rw [List.any_eq_false]
    intro x hx
    simp [(hw x hx).2.2.1]
  have h3 : find_closing_tilde none ((a :: w1) ++ '~' :: rest) = some (a :: w1).length :=
    find_closing_tilde_word (a :: w1) rest
      (fun x hx => ⟨hnl x (hw x hx).1, (hw x hx).2.1, (hw x hx).1⟩) hr none rfl
  have hsw : starts_word a = true := by
    simp [starts_word, ha4, isspace_of_is_blank a ha1]
  have hc0 : char_at ((a :: w1) ++ '~' :: rest) 0 = a := rfl
  have htake : List.take (a :: w1).length ((a :: w1) ++ '~' :: rest) = a :: w1 := List.take_left _ _
  have hlen : "<u>".toList.length + (a :: w1).length + "</u>".toList.length ≤ remaining := by
    have : "<u>".toList.length = 3 := rfl
    have : "</u>".toList.length = 4 := rfl
    omega
  unfold tilde_step
  simp only [hc0, hsw, h1, h2, h3, htake, ha2, hlen]
  simp
  refine ⟨ha2, ?_⟩
  simp at hrem
  omega

theorem track_backtick_of_ne (st : ScanState) (c : Char) (cs : Text) (h : c ≠ backtick) :
    track_backtick st c cs = st := by
  simp [track_backtick, h]

theorem math_step_of_ne (st : ScanState) (remaining : Nat) (c : Char) (cs : Text)
    (h : c ≠ '$') : math_step st remaining c cs = none := by
  simp [math_step, h]

theorem superscript_step_of_ne (prev : Option Char) (st : ScanState) (remaining : Nat)
    (c : Char) (cs : Text) (h : c ≠ '^') : superscript_step prev st remaining c cs = none := by
  simp [superscript_step, h]

theorem critic_tilde_step_none (prev : Option Char) (st : ScanState) (remaining : Nat)
    (cs : Text) (hp : prev ≠ some '~') (h1 : char_at cs 0 ≠ '~') (h2 : char_at cs 0 ≠ '>') :
    critic_tilde_step prev st remaining '~' cs = none := by
  simp [critic_tilde_step, hp, h1, h2]

theorem sup_sub_step_underline (prev : Option Char) (remaining : Nat) (w rest : Text)
    (hp : prev ≠ some '~') (hne : w ≠ [])
    (hw : ∀ x ∈ w, isspace x = false ∧ x ≠ '~' ∧ is_terminator x = false ∧ x ≠ Char.ofNat 0)
    (hgt : char_at w 0 ≠ '>')
    (hr : char_at rest 0 ≠ '~') (hrem : w.length + 7 ≤ remaining) :
    sup_sub_step prev ScanState.init remaining '~' (w ++ '~' :: rest)
      = ⟨"<u>".toList ++ w ++ "</u>".toList, 1 + w.length + 1, ScanState.init⟩ := by
  have hc0 : char_at (w ++ '~' :: rest) 0 = char_at w 0 := by
    obtain ⟨a, w1, rfl⟩ := List.exists_cons_of_ne_nil hne
    rfl
  have hc1 : char_at (w ++ '~' :: rest) 0 ≠ '~' := by
    obtain ⟨a, w1, rfl⟩ := List.exists_cons_of_ne_nil hne
    exact (hw a (by simp)).2.1
  unfold sup_sub_step
  simp only [track_backtick_of_ne _ '~' _ (by decide), math_step_of_ne _ _ '~' _ (by decide),
    superscript_step_of_ne _ _ _ '~' _ (by decide),
    critic_tilde_step_none prev _ _ _ hp hc1 (by rw [hc0]; exact hgt),
    tilde_step_underline _ _ w rest hne hw hr hrem]
  rfl

theorem critic_tilde_step_of_ne (prev : Option Char) (st : ScanState) (remaining : Nat)
    (c : Char) (cs : Text) (h : c ≠ '~') : critic_tilde_step prev st remaining c cs = none := by
  simp [critic_tilde_step, h]

theorem tilde_step_of_ne (st : ScanState) (remaining : Nat) (c : Char) (cs : Text)
    (h : c ≠ '~') : tilde_step st remaining c cs = none := by
  simp [tilde_step, h]

theorem math_step_in_code (st : ScanState) (remaining : Nat) (c : Char) (cs : Text)
    (h : st.in_code_block = true ∨ st.in_inline_code = true) :
    math_step st remaining c cs = none := by
  rcases h with h | h <;> simp [math_step, h]

/-- A backtick is always copied; only the flags change. -/
theorem sup_sub_step_backtick (prev : Option Char) (st : ScanState) (remaining : Nat)
    (cs : Text) :
    sup_sub_step prev st remaining backtick cs
      = ⟨copy_char remaining backtick, 1, track_backtick st backtick cs⟩ := by
  unfold sup_sub_step
  simp only [math_step_of_ne _ _ backtick _ (by decide),
    superscript_step_of_ne _ _ _ backtick _ (by decide),
    critic_tilde_step_of_ne _ _ _ backtick _ (by decide),
    tilde_step_of_ne _ _ backtick _ (by decide)]
  split_ifs <;> rfl

/-- Inside code every byte other than a backtick is copied and the flags stay. -/
theorem sup_sub_step_in_code (prev : Option Char) (st : ScanState) (remaining : Nat)
    (c : Char) (cs : Text) (hc : c ≠ backtick)
    (h : st.in_code_block = true ∨ st.in_inline_code = true) :
    sup_sub_step prev st remaining c cs = ⟨copy_char remaining c, 1, st⟩ := by
  unfold sup_sub_step
  simp only [track_backtick_of_ne st c cs hc, math_step_in_code st remaining c cs h]
  rcases h with h | h <;> simp [h]

theorem char_at_cons_succ (c : Char) (cs : Text) (i : Nat) :
    char_at (c :: cs) (i + 1) = char_at cs i := rfl

theorem char_at_cons_zero (c : Char) (cs : Text) : char_at (c :: cs) 0 = c := rfl

theorem not_triple_backtick (body rest : Text) (hb : backtick ∉ body)
    (hr : char_at rest 0 ≠ backtick) :
    (decide (char_at (body ++ backtick :: rest) 0 = backtick) &&
      decide (char_at (body ++ backtick :: rest) 1 = backtick)) = false := by
  cases body with
  | nil => simp [char_at_cons_succ, hr]
  | cons b body =>
    have hbne : b ≠ backtick := fun e => hb (by simp [e])
    simp [char_at_cons_zero, hbne]

/-! ## The room in the output buffer -/

theorem char_at_lt (cs : Text) (i : Nat) (h : char_at cs i ≠ Char.ofNat 0) : i < cs.length := by
  by_contra hn
  apply h
  unfold char_at
  exact List.getD_eq_default _ _ (Nat.le_of_not_lt hn)

theorem takeWhile_stop (p : Char → Bool) (cs : Text) :
    cs.drop (cs.takeWhile p).length = [] ∨
    ∃ h t, cs.drop (cs.takeWhile p).length = h :: t ∧ p h = false ∧
      char_at cs (cs.takeWhile p).length = h := by
  induction cs with
  | nil => left; rfl
  | cons x cs ih =>
    by_cases hx : p x = true
    · simp only [List.takeWhile_cons_of_pos hx, List.length_cons, List.drop_succ_cons,
        char_at_cons_succ]
      exact ih
    · right
      refine ⟨x, cs, ?_, ?_, ?_⟩
      · simp [List.takeWhile, hx]
      · simpa using hx
      · simp [List.takeWhile, hx, char_at_cons_zero]

theorem takeWhile_length_le (p : Char → Bool) (cs : Text) :
    (cs.takeWhile p).length ≤ cs.length := by
  induction cs with
  | nil => simp
  | cons x cs ih =>
    by_cases hx : p x = true
    · simp [List.takeWhile, hx, ih]
    · simp [List.takeWhile, hx]

theorem find_closing_tilde_lt :
    ∀ (n : Nat) (l : Text), l.length ≤ n → ∀ (before : Option Char) (k : Nat),
      find_closing_tilde before l = some k → k < l.length := by
  intro n
  induction n with
  | zero =>
    intro l hl before k h
    have : l = [] := List.length_eq_zero.mp (Nat.le_zero.mp hl)
    subst this
    simp [find_closing_tilde] at h
  | succ n ih =>
    intro l hl before k h
    match l, hl, h with
    | [], _, h => simp [find_closing_tilde] at h
    | [x], _, h =>
      unfold find_closing_tilde at h
      split_ifs at h
      simp at h
      simp [← h]
    | x :: y :: rest, hl, h =>
      simp only [List.length_cons] at hl ⊢
      have hrest : rest.length ≤ n := by omega
      have hyrest : (y :: rest).length ≤ n := by simp only [List.length_cons]; omega
      unfold find_closing_tilde at h
      by_cases h1 : x = '\n'
      · rw [if_pos h1] at h
        exact absurd h (by simp)
      · rw [if_neg h1] at h
        by_cases h2 : x = '~'
        · rw [if_pos h2] at h
          by_cases h3 : y = '~'
          · rw [if_pos h3] at h
            obtain ⟨j, hj, hjk⟩ := Option.map_eq_some'.mp h
            have := ih rest hrest _ j hj
            omega
          · rw [if_neg h3] at h
            split_ifs at h
            · obtain ⟨j, hj, hjk⟩ := Option.map_eq_some'.mp h
              have := ih (y :: rest) hyrest _ j hj
              simp only [List.length_cons] at this
              omega
            · have hk : 0 = k := Option.some.inj h
              omega
        · rw [if_neg h2] at h
          obtain ⟨j, hj, hjk⟩ := Option.map_eq_some'.mp h
          have := ih (y :: rest) hyrest _ j hj
          simp only [List.length_cons] at this
          omega

theorem copy_char_length_le (remaining : Nat) (c : Char) : (copy_char remaining c).length ≤ 1 := by
  unfold copy_char
  split_ifs <;> simp

theorem copy_two_length_le (remaining : Nat) (c d : Char) :
    (copy_two remaining c d).length ≤ 2 := by
  unfold copy_two
  split_ifs <;> simp

theorem math_step_shape (st : ScanState) (remaining : Nat) (c : Char) (cs : Text) (r : Step)
    (h : math_step st remaining c cs = some r) : StepCopies r (cs.length + 1) := by
  have h1 := copy_char_length_le remaining c
  have h2 := copy_two_length_le remaining c (char_at cs 0)
  unfold math_step at h
  cases cs with
  | nil =>
    have hn : char_at [] 0 ≠ '$' := by decide
    simp only [hn, decide_False, Bool.and_false, Bool.false_eq_true, if_false] at h
    split_ifs at h <;> cases h <;> exact ⟨h1, Nat.le_refl _, by simp⟩
  | cons y ys =>
    split_ifs at h <;> cases h
    · exact ⟨h2, by simp, by simp⟩
    · exact ⟨h1, by simp, by simp⟩
    · exact ⟨h1, by simp, by simp⟩

theorem critic_tilde_step_shape (prev : Option Char) (st : ScanState) (remaining : Nat)
    (c : Char) (cs : Text) (r : Step)
    (h : critic_tilde_step prev st remaining c cs = some r) : StepCopies r (cs.length + 1) := by
  have h1 := copy_char_length_le remaining c
  have h2 := copy_two_length_le remaining c (char_at cs 0)
  unfold critic_tilde_step at h
  cases cs with
  | nil =>
    have hn : char_at [] 0 ≠ '~' := by decide
    simp only [hn, decide_False, Bool.and_false, Bool.or_false, Bool.false_eq_true, if_false] at h
    split_ifs at h <;> cases h <;> exact ⟨h1, Nat.le_refl _, by simp⟩
  | cons y ys =>
    split_ifs at h <;> cases h
    all_goals first
      | exact ⟨h1, by simp, by simp⟩
      | exact ⟨h2, by simp, by simp⟩

theorem superscript_step_shape (prev : Option Char) (st : ScanState) (remaining : Nat)
    (c : Char) (cs : Text) (r : Step)
    (h : superscript_step prev st remaining c cs = some r) :
    StepCopies r (cs.length + 1) ∨ StepTags r c cs := by
  have h1 := copy_char_length_le remaining c
  unfold superscript_step at h
  by_cases hcond : (decide (c = '^') && starts_word (char_at cs 0) && char_at cs 0 != '^') = true
  · rw [if_pos hcond] at h
    have hc : c = '^' := by
      simp only [Bool.and_eq_true, decide_eq_true_eq] at hcond
      exact hcond.1.1
    by_cases hp : prev = some '['
    · rw [if_pos hp] at h
      cases h
      exact Or.inl ⟨h1, by simp, by simp⟩
    · rw [if_neg hp] at h
      simp only at h
      by_cases hlen : (cs.takeWhile (fun x => !is_blank x && x != '^')).length > 0
      · rw [if_pos hlen] at h
        by_cases hrem : remaining ≥ 5 + (cs.takeWhile (fun x => !is_blank x && x != '^')).length + 6
        · rw [if_pos hrem] at h
          cases h
          right
          refine ⟨by rw [hc]; decide, (cs.takeWhile (fun x => !is_blank x && x != '^')).length,
            hlen, by simp, ?_, ?_⟩
          · have hle := takeWhile_length_le (fun x => !is_blank x && x != '^') cs
            simp only
            split_ifs with he
            · have hne : char_at cs (cs.takeWhile (fun x => !is_blank x && x != '^')).length
                  ≠ Char.ofNat 0 := by
                simp only [Bool.or_eq_true, decide_eq_true_eq] at he
                rcases he with he | he <;> rw [he] <;> decide
              have := char_at_lt _ _ hne
              omega
            · omega
          · simp only
            split_ifs with he
            · left; omega
            · right
              refine ⟨by omega, ?_⟩
              rcases takeWhile_stop (fun x => !is_blank x && x != '^') cs with hs | ⟨x, t, hs, hpx, hx⟩
              · rw [hs]; rfl
              · rw [hs]
                simp only [Bool.or_eq_true, decide_eq_true_eq, not_or] at he
                rw [hx] at he
                simp only [plain_head]
                simp only [Bool.and_eq_false_iff, Bool.not_eq_false', bne_eq_false_iff_eq] at hpx
                rcases hpx with hpx | hpx
                · simp [hpx]
                · exact absurd hpx he.1
        · rw [if_neg hrem] at h
          cases h
      · rw [if_neg hlen] at h
        cases h
  · rw [if_neg hcond] at h
    cases h

theorem tilde_step_shape (st : ScanState) (remaining : Nat) (c : Char) (cs : Text) (r : Step)
    (h : tilde_step st remaining c cs = some r) : StepTags r c cs := by
  unfold tilde_step at h
  by_cases hcond : (decide (c = '~') && starts_word (char_at cs 0) && char_at cs 0 != '~') = true
  · rw [if_pos hcond] at h
    have hc : c = '~' := by
      simp only [Bool.and_eq_true, decide_eq_true_eq] at hcond
      exact hcond.1.1
    simp only at h
    generalize hcl : (if (!(cs.takeWhile (fun x => !is_blank x && x != '~')).any is_terminator) = true
      then find_closing_tilde none cs else none) = cl at h
    cases cl with
    | some k =>
      simp only [Option.isSome_some, if_true] at h
      have hk : k < cs.length := by
        split_ifs at hcl
        · exact find_closing_tilde_lt cs.length cs (Nat.le_refl _) none k hcl
      by_cases h1 : k > 0
      · rw [if_pos h1] at h
        by_cases h2 : remaining ≥ "<u>".toList.length + k + "</u>".toList.length
        · rw [if_pos h2] at h
          cases h
          refine ⟨by rw [hc]; decide, k, h1, ?_, ?_, Or.inl ?_⟩
          · simp only [List.length_append, List.length_take]
            have : "<u>".toList.length = 3 := rfl
            have : "</u>".toList.length = 4 := rfl
            omega
          · simp only; omega
          · simp only; omega
        · rw [if_neg h2] at h
          cases h
      · rw [if_neg h1] at h
        cases h
    | none =>
      simp only [Option.isSome_none, Bool.false_eq_true, if_false] at h
      by_cases h1 : (cs.takeWhile (fun x => !is_blank x && x != '~' && !is_terminator x)).length > 0
      · rw [if_pos h1] at h
        by_cases h2 : remaining ≥ "<sub>".toList.length +
            (cs.takeWhile (fun x => !is_blank x && x != '~' && !is_terminator x)).length +
            "</sub>".toList.length
        · rw [if_pos h2] at h
          cases h
          have hle := takeWhile_length_le
            (fun x => !is_blank x && x != '~' && !is_terminator x) cs
          refine ⟨by rw [hc]; decide,
            (cs.takeWhile (fun x => !is_blank x && x != '~' && !is_terminator x)).length, h1,
            ?_, ?_, ?_⟩
          · simp only [List.length_append, List.length_take]
            have : "<sub>".toList.length = 5 := rfl
            have : "</sub>".toList.length = 6 := rfl
            omega
          · simp only
            by_cases he : char_at cs
                (cs.takeWhile (fun x => !is_blank x && x != '~' && !is_terminator x)).length = '~'
            · have hne : char_at cs
                  (cs.takeWhile (fun x => !is_blank x && x != '~' && !is_terminator x)).length
                  ≠ Char.ofNat 0 := by
                rw [he]; decide
              have := char_at_lt _ _ hne
              rw [if_pos he]
              omega
            · rw [if_neg he]
              omega
          · simp only
            by_cases he : char_at cs
                (cs.takeWhile (fun x => !is_blank x && x != '~' && !is_terminator x)).length = '~'
            · rw [if_pos he]
              left; omega
            · rw [if_neg he]
              right
              refine ⟨by omega, ?_⟩
              rcases takeWhile_stop (fun x => !is_blank x && x != '~' && !is_terminator x) cs
                with hs | ⟨x, t, hs, hpx, hx⟩
              · rw [hs]; rfl
              · rw [hs]
                rw [hx] at he
                simp only [plain_head]
                simp only [Bool.and_eq_false_iff, Bool.not_eq_false', bne_eq_false_iff_eq] at hpx
                rcases hpx with (hpx | hpx) | hpx
                · simp [hpx]
                · exact absurd hpx he
                · simp [hpx]
        · rw [if_neg h2] at h
          cases h
      · rw [if_neg h1] at h
        cases h
  · rw [if_neg hcond] at h
    cases h

theorem sup_sub_step_shape (prev : Option Char) (st : ScanState) (remaining : Nat) (c : Char)
    (cs : Text) :
    StepCopies (sup_sub_step prev st remaining c cs) (cs.length + 1) ∨
      StepTags (sup_sub_step prev st remaining c cs) c cs := by
  have hcopy : ∀ st1 : ScanState,
      StepCopies ⟨copy_char remaining c, 1, st1⟩ (cs.length + 1) :=
    fun st1 => ⟨copy_char_length_le remaining c, Nat.le_refl _, by simp⟩
  unfold sup_sub_step
  simp only
  split
  · next r h => exact Or.inl (math_step_shape _ _ _ _ r h)
  · split_ifs
    · exact Or.inl (hcopy _)
    · split
      · next r h => exact superscript_step_shape _ _ _ _ _ r h
      · split
        · next r h => exact Or.inl (critic_tilde_step_shape _ _ _ _ _ r h)
        · split
          · next r h => exact Or.inr (tilde_step_shape _ _ _ _ r h)
          · exact Or.inl (hcopy _)

theorem capacity_ok_step (prev : Option Char) (st : ScanState) (remaining : Nat) (c : Char)
    (cs : Text) (h : capacity_ok (c :: cs) remaining) :
    capacity_ok ((c :: cs).drop (sup_sub_step prev st remaining c cs).adv)
      (remaining - (sup_sub_step prev st remaining c cs).out.length) := by
  unfold capacity_ok at h ⊢
  rw [List.length_drop]
  simp only [List.length_cons] at h ⊢
  rcases sup_sub_step_shape prev st remaining c cs with ⟨h1, h2, h3⟩ | ⟨hp, len, h1, h2, h3, h4⟩
  · split_ifs at h ⊢ <;> omega
  · have hp2 : plain_head (c :: cs) = false := hp
    rw [hp2] at h
    simp only [Bool.false_eq_true, if_false] at h
    rcases h4 with h4 | ⟨h4, h5⟩
    · split_ifs <;> omega
    · have hd : (c :: cs).drop (sup_sub_step prev st remaining c cs).adv = cs.drop len := by
        rw [h4, List.drop_succ_cons]
      rw [hd, h5]
      simp only [if_true]
      omega

theorem capacity_ok_start (text : Text) : capacity_ok text (capacity text) := by
  unfold capacity_ok capacity
  split_ifs <;> omega

theorem Reached.has_room {text written : Text} {prev : Option Char} {st : ScanState}
    {remaining : Nat} {s : Text} (h : Reached text written prev st remaining s) :
    capacity_ok s remaining := by
  induction h with
  | start => exact capacity_ok_start text
  | step written prev st remaining c cs _ ih => exact capacity_ok_step prev st remaining c cs ih

theorem Reached.output {text written : Text} {prev : Option Char} {st : ScanState}
    {remaining : Nat} {s : Text} (h : Reached text written prev st remaining s) :
    apex_process_sup_sub text = written ++ sup_sub_run prev st remaining s := by
  induction h with
  | start => rfl
  | step written prev st remaining c cs _ ih =>
    rw [ih, sup_sub_run_cons, List.append_assoc]

theorem Reached.remaining_eq {text written : Text} {prev : Option Char} {st : ScanState}
    {remaining : Nat} {s : Text} (h : Reached text written prev st remaining s) :
    remaining = capacity text - written.length := by
  induction h with
  | start => simp
  | step written prev st remaining c cs _ ih =>
    rw [ih, List.length_append]
    omega

theorem Reached.copy_one {text written : Text} {prev : Option Char} {st : ScanState}
    {remaining : Nat} {c : Char} {cs : Text} (st1 : ScanState)
    (h : Reached text written prev st remaining (c :: cs))
    (hs : sup_sub_step prev st remaining c cs = ⟨copy_char remaining c, 1, st1⟩) :
    Reached text (written ++ [c]) (some c) st1 (remaining - 1) cs := by
  have hcap := h.has_room
  have hrem : 0 < remaining := by
    unfold capacity_ok at hcap
    simp only [List.length_cons] at hcap
    split_ifs at hcap <;> omega
  have h1 := Reached.step written prev st remaining c cs h
  rw [hs] at h1
  simpa [copy_char, hrem] using h1

theorem Reached.in_code {text : Text} {st : ScanState} (body rest : Text)
    (hst : st.in_code_block = true ∨ st.in_inline_code = true) (hb : backtick ∉ body) :
    ∀ (written : Text) (prev : Option Char) (remaining : Nat),
      Reached text written prev st remaining (body ++ rest) →
      ∃ prev1, Reached text (written ++ body) prev1 st (remaining - body.length) rest := by
  induction body with
  | nil =>
    intro written prev remaining h
    exact ⟨prev, by simpa using h⟩
  | cons c body ih =>
    intro written prev remaining h
    have hc : c ≠ backtick := fun e => hb (by simp [e])
    have hbody : backtick ∉ body := fun e => hb (by simp [e])
    have h1 := Reached.copy_one st h (sup_sub_step_in_code prev st remaining c _ hc hst)
    obtain ⟨prev1, h2⟩ := ih hbody _ _ _ h1
    refine ⟨prev1, ?_⟩
    have e1 : written ++ [c] ++ body = written ++ c :: body := by simp
    have e2 : remaining - 1 - body.length = remaining - (c :: body).length := by
      simp only [List.length_cons]; omega
    rw [e1, e2] at h2
    exact h2

theorem Reached.code_span {text written : Text} {prev : Option Char} {st : ScanState}
    {remaining : Nat} {body rest : Text}
    (h : Reached text written prev st remaining (backtick :: (body ++ backtick :: rest)))
    (h1 : st.in_code_block = false) (h2 : st.in_inline_code = false)
    (hb : backtick ∉ body) (hr : char_at rest 0 ≠ backtick) :
    Reached text (written ++ backtick :: (body ++ [backtick])) (some backtick) st
      (remaining - (body.length + 2)) rest := by
  have hopen : track_backtick st backtick (body ++ backtick :: rest)
      = { st with in_inline_code := true } := by
    simp only [track_backtick, not_triple_backtick body rest hb hr, h1, h2]
    simp
  have hclose : track_backtick { st with in_inline_code := true } backtick rest = st := by
    have hnt : (decide (char_at rest 0 = backtick) && decide (char_at rest 1 = backtick)) = false := by
      simp [hr]
    simp only [track_backtick, hnt, h1]
    cases st
    simp_all
  have r1 := Reached.copy_one _ h ((sup_sub_step_backtick prev st remaining _).trans (by rw [hopen]))
  obtain ⟨prev1, r2⟩ := Reached.in_code body (backtick :: rest) (Or.inr rfl) hb _ _ _ r1
  have r3 := Reached.copy_one st r2 ((sup_sub_step_backtick prev1 _ _ rest).trans (by rw [hclose]))
  have e1 : written ++ [backtick] ++ body ++ [backtick] = written ++ backtick :: (body ++ [backtick]) := by
    simp
  have e2 : remaining - 1 - body.length - 1 = remaining - (body.length + 2) := by omega
  rw [e1, e2] at r3
  exact r3

theorem Reached.fence {text written : Text} {prev : Option Char} {st : ScanState}
    {remaining : Nat} {body rest : Text}
    (h : Reached text written prev st remaining
      (backtick :: backtick :: backtick :: (body ++ backtick :: backtick :: backtick :: rest)))
    (h1 : st.in_code_block = false) (h2 : st.in_inline_code = false)
    (hne : body ≠ []) (hb : backtick ∉ body) (hr : char_at rest 0 ≠ backtick) :
    Reached text
      (written ++ backtick :: backtick :: backtick ::
        (body ++ [backtick, backtick, backtick]))
      (some backtick) st (remaining - (body.length + 6)) rest := by
  obtain ⟨b, body1, hbody⟩ := List.exists_cons_of_ne_nil hne
  have hbne : b ≠ backtick := fun e => hb (by simp [hbody, e])
  have ho1 : track_backtick st backtick
      (backtick :: backtick :: (body ++ backtick :: backtick :: backtick :: rest))
      = { st with in_code_block := true } := by
    simp [track_backtick, char_at_cons_zero, char_at_cons_succ, h1]
  have ho2 : track_backtick { st with in_code_block := true } backtick
      (backtick :: (body ++ backtick :: backtick :: backtick :: rest))
      = { st with in_code_block := true } := by
    simp [track_backtick, char_at_cons_zero, char_at_cons_succ, hbody, hbne]
  have ho3 : track_backtick { st with in_code_block := true } backtick
      (body ++ backtick :: backtick :: backtick :: rest)
      = { st with in_code_block := true } := by
    simp [track_backtick, char_at_cons_zero, hbody, hbne]
  have hc1 : track_backtick { st with in_code_block := true } backtick
      (backtick :: backtick :: rest) = st := by
    simp only [track_backtick, char_at_cons_zero, char_at_cons_succ]
    cases st
    simp_all
  have hc2 : track_backtick st backtick (backtick :: rest)
      = { st with in_inline_code := true } := by
    simp [track_backtick, char_at_cons_zero, char_at_cons_succ, hr, h1, h2]
  have hc3 : track_backtick { st with in_inline_code := true } backtick rest = st := by
    have hnt : (decide (char_at rest 0 = backtick) && decide (char_at rest 1 = backtick)) = false := by
      simp [hr]
    simp only [track_backtick, hnt, h1]
    cases st
    simp_all
  have r1 := Reached.copy_one _ h ((sup_sub_step_backtick _ _ _ _).trans (by rw [ho1]))
  have r2 := Reached.copy_one _ r1 ((sup_sub_step_backtick _ _ _ _).trans (by rw [ho2]))
  have r3 := Reached.copy_one _ r2 ((sup_sub_step_backtick _ _ _ _).trans (by rw [ho3]))
  obtain ⟨prev1, r4⟩ := Reached.in_code body (backtick :: backtick :: backtick :: rest)
    (Or.inl rfl) hb _ _ _ r3
  have r5 := Reached.copy_one st r4 ((sup_sub_step_backtick _ _ _ _).trans (by rw [hc1]))
  have r6 := Reached.copy_one _ r5 ((sup_sub_step_backtick _ _ _ _).trans (by rw [hc2]))
  have r7 := Reached.copy_one st r6 ((sup_sub_step_backtick _ _ _ _).trans (by rw [hc3]))
  have e1 : written ++ [backtick] ++ [backtick] ++ [backtick] ++ body ++ [backtick] ++ [backtick]
      ++ [backtick]
      = written ++ backtick :: backtick :: backtick :: (body ++ [backtick, backtick, backtick]) := by
    simp
  have e2 : remaining - 1 - 1 - 1 - body.length - 1 - 1 - 1 = remaining - (body.length + 6) := by
    omega
  rw [e1, e2] at r7
  exact r7

theorem Reached.underline {text written : Text} {prev : Option Char} {remaining : Nat}
    {word rest : Text}
    (h : Reached text written prev ScanState.init remaining ('~' :: (word ++ '~' :: rest)))
    (hp : prev ≠ some '~') (hne : word ≠ [])
    (hw : ∀ x ∈ word, isspace x = false ∧ x ≠ '~' ∧ is_terminator x = false ∧ x ≠ Char.ofNat 0)
    (hgt : char_at word 0 ≠ '>') (hr : char_at rest 0 ≠ '~') :
    Reached text (written ++ ("<u>".toList ++ word ++ "</u>".toList)) (some '~') ScanState.init
      (remaining - (word.length + 7)) rest := by
  have hcap := h.has_room
  have hrem : word.length + 7 ≤ remaining := by
    unfold capacity_ok at hcap
    have hpl : plain_head ('~' :: (word ++ '~' :: rest)) = false := rfl
    rw [hpl] at hcap
    simp only [List.length_cons, List.length_append, Bool.false_eq_true, if_false] at hcap
    omega
  have h1 := Reached.step written prev ScanState.init remaining '~' (word ++ '~' :: rest) h
  rw [sup_sub_step_underline prev remaining word rest hp hne hw hgt hr hrem] at h1
  have hget : ('~' :: (word ++ '~' :: rest)).get? (1 + word.length + 1 - 1) = some '~' := by
    have : 1 + word.length + 1 - 1 = word.length + 1 := by omega
    rw [this, List.get?_cons_succ, List.get?_eq_getElem?,
      List.getElem?_append_right (Nat.le_refl _)]
    simp
  have hdrop : ('~' :: (word ++ '~' :: rest)).drop (1 + word.length + 1) = rest := by
    have : 1 + word.length + 1 = (word.length + 1) + 1 := by omega
    rw [this, List.drop_succ_cons, List.drop_append]
    rfl
  have hlen : ("<u>".toList ++ word ++ "</u>".toList).length = word.length + 7 := by
    simp
  simp only [hget, hdrop, hlen] at h1
  exact h1

theorem last_read_cons (prev : Option Char) (c : Char) (p : Text) :
    last_read prev (c :: p) = last_read (some c) p := rfl

theorem last_read_append_singleton (p : Text) (c : Char) :
    ∀ prev : Option Char, last_read prev (p ++ [c]) = some c := by
  induction p with
  | nil => intro prev; rfl
  | cons d p ih => intro prev; exact ih (some d)

theorem sup_sub_step_plain (prev : Option Char) (st : ScanState) (remaining : Nat)
    (c : Char) (cs : Text) (h1 : c ≠ backtick) (h2 : c ≠ '$') (h3 : c ≠ '^') (h4 : c ≠ '~') :
    sup_sub_step prev st remaining c cs = ⟨copy_char remaining c, 1, st⟩ := by
  unfold sup_sub_step
  simp only [track_backtick_of_ne st c cs h1, math_step_of_ne st remaining c cs h2,
    superscript_step_of_ne prev st remaining c cs h3,
    critic_tilde_step_of_ne prev st remaining c cs h4, tilde_step_of_ne st remaining c cs h4]
  split_ifs <;> rfl

/-- Inside code or math every byte other than a backtick and `$` is copied. -/
theorem sup_sub_step_flagged (prev : Option Char) (st : ScanState) (remaining : Nat)
    (c : Char) (cs : Text) (h1 : c ≠ backtick) (h2 : c ≠ '$')
    (h : (st.in_code_block || st.in_inline_code || st.in_math_inline || st.in_math_display)
      = true) :
    sup_sub_step prev st remaining c cs = ⟨copy_char remaining c, 1, st⟩ := by
  unfold sup_sub_step
  simp only [track_backtick_of_ne st c cs h1, math_step_of_ne st remaining c cs h2, h, if_true]

/-- A `^` behind `[` is copied. -/
theorem sup_sub_step_footnote (remaining : Nat) (cs : Text) :
    sup_sub_step (some '[') ScanState.init remaining '^' cs
      = ⟨copy_char remaining '^', 1, ScanState.init⟩ := by
  unfold sup_sub_step
  simp only [track_backtick_of_ne _ '^' cs (by decide), math_step_of_ne _ remaining '^' cs (by decide),
    critic_tilde_step_of_ne _ _ remaining '^' cs (by decide),
    tilde_step_of_ne _ remaining '^' cs (by decide)]
  have hflags : (ScanState.init.in_code_block || ScanState.init.in_inline_code ||
      ScanState.init.in_math_inline || ScanState.init.in_math_display) = false := rfl
  simp only [hflags, Bool.false_eq_true, if_false]
  unfold superscript_step
  by_cases hc : (starts_word (char_at cs 0) && char_at cs 0 != '^') = true <;> simp [hc]

/-- A `~` next to another `~` or in front of `>` is copied. -/
theorem sup_sub_step_tilde_copy (prev : Option Char) (st : ScanState) (remaining : Nat)
    (cs : Text)
    (h : prev = some '~' ∨ char_at cs 0 = '~' ∨ char_at cs 0 = '>') :
    sup_sub_step prev st remaining '~' cs = ⟨copy_char remaining '~', 1, st⟩ := by
  have hcr : critic_tilde_step prev st remaining '~' cs = some ⟨copy_char remaining '~', 1, st⟩ := by
    unfold critic_tilde_step
    rcases h with h | h | h
    · simp [h]
    · simp [h]
    · by_cases hp : prev = some '~'
      · simp [hp]
      · have h0 : char_at cs 0 ≠ '~' := by rw [h]; decide
        simp [hp, h0, h]
  unfold sup_sub_step
  simp only [track_backtick_of_ne st '~' cs (by decide), math_step_of_ne st remaining '~' cs (by decide),
    superscript_step_of_ne prev st remaining '~' cs (by decide), hcr]
  split_ifs <;> rfl

theorem Reached.plain {text : Text} {st : ScanState} (p rest : Text)
    (hp : ∀ c ∈ p, c ≠ backtick ∧ c ≠ '$' ∧ c ≠ '^' ∧ c ≠ '~') :
    ∀ (written : Text) (prev : Option Char) (remaining : Nat),
      Reached text written prev st remaining (p ++ rest) →
      Reached text (written ++ p) (last_read prev p) st (remaining - p.length) rest := by
  induction p with
  | nil =>
    intro written prev remaining h
    simpa using h
  | cons c p ih =>
    intro written prev remaining h
    obtain ⟨h1, h2, h3, h4⟩ := hp c (by simp)
    have hr := Reached.copy_one st h (sup_sub_step_plain prev st remaining c _ h1 h2 h3 h4)
    have h5 := ih (fun x hx => hp x (by simp [hx])) _ _ _ hr
    have e1 : written ++ [c] ++ p = written ++ c :: p := by simp
    have e2 : remaining - 1 - p.length = remaining - (c :: p).length := by
      simp only [List.length_cons]; omega
    rw [e1, e2, ← last_read_cons] at h5
    exact h5

theorem Reached.flagged {text : Text} {st : ScanState} (p rest : Text)
    (hst : (st.in_code_block || st.in_inline_code || st.in_math_inline || st.in_math_display)
      = true)
    (hp : ∀ c ∈ p, c ≠ backtick ∧ c ≠ '$') :
    ∀ (written : Text) (prev : Option Char) (remaining : Nat),
      Reached text written prev st remaining (p ++ rest) →
      Reached text (written ++ p) (last_read prev p) st (remaining - p.length) rest := by
  induction p with
  | nil =>
    intro written prev remaining h
    simpa using h
  | cons c p ih =>
    intro written prev remaining h
    obtain ⟨h1, h2⟩ := hp c (by simp)
    have hr := Reached.copy_one st h (sup_sub_step_flagged prev st remaining c _ h1 h2 hst)
    have h5 := ih (fun x hx => hp x (by simp [hx])) _ _ _ hr
    have e1 : written ++ [c] ++ p = written ++ c :: p := by simp
    have e2 : remaining - 1 - p.length = remaining - (c :: p).length := by
      simp only [List.length_cons]; omega
    rw [e1, e2, ← last_read_cons] at h5
    exact h5

theorem Reached.finished {text : Text} {prev : Option Char} {st : ScanState} {remaining : Nat}
    {written : Text} (h : Reached text written prev st remaining []) :
    apex_process_sup_sub text = written := by
  rw [h.output, sup_sub_run_nil, List.append_nil]

theorem char_at_append_length (w rest : Text) :
    char_at (w ++ rest) w.length = char_at rest 0 := by
  induction w with
  | nil => rfl
  | cons c w ih => exact ih

theorem takeWhile_append_of_stop (p : Char → Bool) (w rest : Text)
    (hw : ∀ x ∈ w, p x = true) (hr : rest = [] ∨ p (char_at rest 0) = false) :
    (w ++ rest).takeWhile p = w := by
  cases rest with
  | nil =>
    rw [List.append_nil, List.takeWhile_eq_self_iff]
    exact hw
  | cons c rest =>
    rcases hr with hr | hr
    · cases hr
    · exact takeWhile_append_stop p w rest c hw hr

theorem find_closing_tilde_none :
    ∀ (n : Nat) (l : Text) (before : Option Char), l.length ≤ n →
      '~' ∉ l.takeWhile (fun x => x != '\n') → find_closing_tilde before l = none := by
  intro n
  induction n with
  | zero =>
    intro l before hl _
    have hs : l = [] := List.length_eq_zero.mp (Nat.le_zero.mp hl)
    subst hs
    rfl
  | succ n ih =>
    intro l before hl h
    match l, hl, h with
    | [], _, _ => rfl
    | [x], _, h =>
      by_cases hx : x = '\n'
      · simp [find_closing_tilde, hx]
      · have hx2 : x ≠ '~' := by
          intro e
          apply h
          simp [List.takeWhile, e]
        simp [find_closing_tilde, hx, hx2]
    | x :: y :: rest, hl, h =>
      by_cases hx : x = '\n'
      · simp [find_closing_tilde, hx]
      · have hx2 : x ≠ '~' := by
          intro e
          apply h
          simp [List.takeWhile, e]
        have h2 : '~' ∉ (y :: rest).takeWhile (fun x => x != '\n') := by
          intro e
          apply h
          rw [List.takeWhile_cons]
          simp [hx, e]
        have hl2 : (y :: rest).length ≤ n := by
          simp only [List.length_cons] at hl ⊢
          omega
        simp [find_closing_tilde, hx, hx2, ih (y :: rest) (some x) hl2 h2]

theorem not_mem_takeWhile_append (p : Char → Bool) (a : Char) (w rest : Text)
    (hw : a ∉ w) (hr : a ∉ rest.takeWhile p) : a ∉ (w ++ rest).takeWhile p := by
  induction w with
  | nil => simpa using hr
  | cons c w ih =>
    have hc : a ≠ c := fun e => hw (by simp [e])
    have hw2 : a ∉ w := fun e => hw (by simp [e])
    rw [List.cons_append, List.takeWhile_cons]
    split
    · simp [hc, ih hw2]
    · simp

theorem tilde_step_subscript (st : ScanState) (remaining : Nat) (w rest : Text)
    (hne : w ≠ [])
    (hw : ∀ x ∈ w, is_blank x = false ∧ x ≠ '~' ∧ is_terminator x = false ∧ x ≠ Char.ofNat 0)
    (hr : rest = [] ∨ is_blank (char_at rest 0) = true ∨ is_terminator (char_at rest 0) = true)
    (hno : is_terminator (char_at rest 0) = true ∨ find_closing_tilde none (w ++ rest) = none)
    (hrem : w.length + 11 ≤ remaining) :
    tilde_step st remaining '~' (w ++ rest)
      = some ⟨"<sub>".toList ++ w ++ "</sub>".toList, 1 + w.length, st⟩ := by
  obtain ⟨a, w1, rfl⟩ := List.exists_cons_of_ne_nil hne
  obtain ⟨ha1, ha2, ha3, ha4⟩ := hw a (by simp)
  have hct : (if !((((a :: w1) ++ rest).takeWhile (fun x => !is_blank x && x != '~')).any
        is_terminator) then find_closing_tilde none ((a :: w1) ++ rest) else none) = none := by
    rcases hno with hno | hno
    · have hc : char_at rest 0 ∈ ((a :: w1) ++ rest).takeWhile
          (fun x => !is_blank x && x != '~') := by
        cases rest with
        | nil => exact absurd hno (by decide)
        | cons c rest =>
          have hc0 : char_at (c :: rest) 0 = c := rfl
          rw [hc0] at hno ⊢
          have hcb : (!is_blank c && c != '~') = true := by
            have h1 : is_blank c = false := by
              cases hb : is_blank c with
              | false => rfl
              | true =>
                exfalso
                revert hno
                simp only [is_blank, Bool.or_eq_true, decide_eq_true_eq] at hb
                rcases hb with (hb | hb) | hb <;> rw [hb] <;> decide
            have h2 : c ≠ '~' := by
              intro e
              rw [e] at hno
              exact absurd hno (by decide)
            simp [h1, h2]
          have hpre : ∀ x ∈ a :: w1, (!is_blank x && x != '~') = true := by
            intro x hx
            obtain ⟨hx1, hx2, _, _⟩ := hw x hx
            simp [hx1, hx2]
          have e : ((a :: w1) ++ c :: rest).takeWhile (fun x => !is_blank x && x != '~')
              = (a :: w1) ++ (c :: rest).takeWhile (fun x => !is_blank x && x != '~') := by
            rw [List.takeWhile_append_of_pos hpre]
          rw [e, List.takeWhile_cons, hcb]
          simp
      have hany : (((a :: w1) ++ rest).takeWhile (fun x => !is_blank x && x != '~')).any
          is_terminator = true := List.any_eq_true.mpr ⟨_, hc, hno⟩
      rw [hany]
      rfl
    · rw [hno]
      simp
  have h1 : ((a :: w1) ++ rest).takeWhile
      (fun x => !is_blank x && x != '~' && !is_terminator x) = a :: w1 := by
    apply takeWhile_append_of_stop
    · intro x hx
      obtain ⟨hx1, hx2, hx3, _⟩ := hw x hx
      simp [hx1, hx2, hx3]
    · rcases hr with hr | hr | hr
      · exact Or.inl hr
      · right; simp [hr]
      · right; simp [hr]
  have hsw : starts_word a = true := by
    simp [starts_word, ha4, ha1]
  have hc0 : char_at ((a :: w1) ++ rest) 0 = a := rfl
  have hnt : char_at ((a :: w1) ++ rest) (a :: w1).length ≠ '~' := by
    rw [char_at_append_length]
    rcases hr with hr | hr | hr
    · subst hr
      decide
    · intro e
      rw [e] at hr
      exact absurd hr (by decide)
    · intro e
      rw [e] at hr
      exact absurd hr (by decide)
  have htake : List.take (a :: w1).length ((a :: w1) ++ rest) = a :: w1 := List.take_left _ _
  have hlen : "<sub>".toList.length + (a :: w1).length + "</sub>".toList.length ≤ remaining := by
    have : "<sub>".toList.length = 5 := rfl
    have : "</sub>".toList.length = 6 := rfl
    omega
  unfold tilde_step
  simp only [hc0, hsw, h1, htake, ha2, hlen, hnt]
  rw [hct]
  simp
  refine ⟨ha2, ?_, hnt⟩
  simp at hrem
  omega

theorem sup_sub_step_subscript (prev : Option Char) (remaining : Nat) (w rest : Text)
    (hp : prev ≠ some '~') (hne : w ≠ [])
    (hw : ∀ x ∈ w, is_blank x = false ∧ x ≠ '~' ∧ is_terminator x = false ∧ x ≠ Char.ofNat 0)
    (hgt : char_at w 0 ≠ '>')
    (hr : rest = [] ∨ is_blank (char_at rest 0) = true ∨ is_terminator (char_at rest 0) = true)
    (hno : is_terminator (char_at rest 0) = true ∨ find_closing_tilde none (w ++ rest) = none)
    (hrem : w.length + 11 ≤ remaining) :
    sup_sub_step prev ScanState.init remaining '~' (w ++ rest)
      = ⟨"<sub>".toList ++ w ++ "</sub>".toList, 1 + w.length, ScanState.init⟩ := by
  have hc0 : char_at (w ++ rest) 0 = char_at w 0 := by
    obtain ⟨a, w1, rfl⟩ := List.exists_cons_of_ne_nil hne
    rfl
  have hc1 : char_at (w ++ rest) 0 ≠ '~' := by
    obtain ⟨a, w1, rfl⟩ := List.exists_cons_of_ne_nil hne
    exact (hw a (by simp)).2.1
  unfold sup_sub_step
  simp only [track_backtick_of_ne _ '~' _ (by decide), math_step_of_ne _ _ '~' _ (by decide),
    superscript_step_of_ne _ _ _ '~' _ (by decide),
    critic_tilde_step_none prev _ _ _ hp hc1 (by rw [hc0]; exact hgt),
    tilde_step_subscript _ _ w rest hne hw hr hno hrem]
  rfl

theorem get?_last_of_append (c : Char) (w rest : Text) (hne : w ≠ []) :
    (c :: (w ++ rest)).get? (1 + w.length - 1) = last_read none w := by
  obtain ⟨w0, a, rfl⟩ : ∃ w0 a, w = w0 ++ [a] :=
    ⟨w.dropLast, w.getLast hne, (List.dropLast_append_getLast hne).symm⟩
  rw [last_read_append_singleton]
  have : 1 + (w0 ++ [a]).length - 1 = w0.length + 1 := by
    simp only [List.length_append, List.length_singleton]
    omega
  rw [this, List.get?_cons_succ, List.get?_eq_getElem?, List.append_assoc,
    List.getElem?_append_right (Nat.le_refl _)]
  simp

theorem Reached.subscript {text written : Text} {prev : Option Char} {remaining : Nat}
    {word rest : Text}
    (h : Reached text written prev ScanState.init remaining ('~' :: (word ++ rest)))
    (hp : prev ≠ some '~') (hne : word ≠ [])
    (hw : ∀ x ∈ word, is_blank x = false ∧ x ≠ '~' ∧ is_terminator x = false ∧ x ≠ Char.ofNat 0)
    (hgt : char_at word 0 ≠ '>')
    (hr : rest = [] ∨ is_blank (char_at rest 0) = true ∨ is_terminator (char_at rest 0) = true)
    (hno : is_terminator (char_at rest 0) = true ∨
      find_closing_tilde none (word ++ rest) = none) :
    Reached text (written ++ ("<sub>".toList ++ word ++ "</sub>".toList)) (last_read none word)
      ScanState.init (remaining - (word.length + 11)) rest := by
  have hcap := h.has_room
  have hrem : word.length + 11 ≤ remaining := by
    unfold capacity_ok at hcap
    have hpl : plain_head ('~' :: (word ++ rest)) = false := rfl
    rw [hpl] at hcap
    simp only [List.length_cons, List.length_append, Bool.false_eq_true, if_false] at hcap
    omega
  have h1 := Reached.step written prev ScanState.init remaining '~' (word ++ rest) h
  rw [sup_sub_step_subscript prev remaining word rest hp hne hw hgt hr hno hrem] at h1
  have hdrop : ('~' :: (word ++ rest)).drop (1 + word.length) = rest := by
    have : 1 + word.length = word.length + 1 := by omega
    rw [this, List.drop_succ_cons, List.drop_left]
  have hlen : ("<sub>".toList ++ word ++ "</sub>".toList).length = word.length + 11 := by
    simp
  simp only [get?_last_of_append '~' word rest hne, hdrop, hlen] at h1
  exact h1

theorem superscript_step_run (prev : Option Char) (st : ScanState) (remaining : Nat)
    (X rest : Text) (hp : prev ≠ some '[') (hne : X ≠ [])
    (hX : ∀ x ∈ X, is_blank x = false ∧ x ≠ '^') (h0 : char_at X 0 ≠ Char.ofNat 0)
    (hr : rest = [] ∨ is_blank (char_at rest 0) = true ∨ char_at rest 0 = '^')
    (hrem : X.length + 11 ≤ remaining) :
    superscript_step prev st remaining '^' (X ++ rest)
      = some ⟨"<sup>".toList ++ X ++ "</sup>".toList,
          1 + X.length + (if char_at rest 0 = '^' then 1 else 0), st⟩ := by
  obtain ⟨a, w1, rfl⟩ := List.exists_cons_of_ne_nil hne
  obtain ⟨ha1, ha2⟩ := hX a (by simp)
  have ha4 : a ≠ Char.ofNat 0 := h0
  have h1 : ((a :: w1) ++ rest).takeWhile (fun x => !is_blank x && x != '^') = a :: w1 := by
    apply takeWhile_append_of_stop
    · intro x hx
      obtain ⟨hx1, hx2⟩ := hX x hx
      simp [hx1, hx2]
    · rcases hr with hr | hr | hr
      · exact Or.inl hr
      · right; simp [hr]
      · right; simp [hr]
  have hsw : starts_word a = true := by
    simp [starts_word, ha4, ha1]
  have hc0 : char_at ((a :: w1) ++ rest) 0 = a := rfl
  have hnt : char_at rest 0 ≠ '~' := by
    rcases hr with hr | hr | hr
    · subst hr
      decide
    · intro e
      rw [e] at hr
      exact absurd hr (by decide)
    · rw [hr]
      decide
  have hlen : remaining ≥ 5 + (a :: w1).length + 6 := by
    omega
  unfold superscript_step
  simp only [hc0, hsw, h1, hlen, char_at_append_length, hp, hnt]
  simp [ha2]

theorem sup_sub_step_superscript (prev : Option Char) (remaining : Nat) (X rest : Text)
    (hp : prev ≠ some '[') (hne : X ≠ [])
    (hX : ∀ x ∈ X, is_blank x = false ∧ x ≠ '^') (h0 : char_at X 0 ≠ Char.ofNat 0)
    (hr : rest = [] ∨ is_blank (char_at rest 0) = true ∨ char_at rest 0 = '^')
    (hrem : X.length + 11 ≤ remaining) :
    sup_sub_step prev ScanState.init remaining '^' (X ++ rest)
      = ⟨"<sup>".toList ++ X ++ "</sup>".toList,
          1 + X.length + (if char_at rest 0 = '^' then 1 else 0), ScanState.init⟩ := by
  unfold sup_sub_step
  simp only [track_backtick_of_ne _ '^' _ (by decide), math_step_of_ne _ _ '^' _ (by decide),
    superscript_step_run prev _ _ X rest hp hne hX h0 hr hrem]
  rfl

theorem Reached.superscript_room {text written : Text} {prev : Option Char} {st : ScanState}
    {remaining : Nat} {X rest : Text}
    (h : Reached text written prev st remaining ('^' :: (X ++ rest))) :
    X.length + 11 ≤ remaining := by
  have hcap := h.has_room
  unfold capacity_ok at hcap
  have hpl : plain_head ('^' :: (X ++ rest)) = false := rfl
  rw [hpl] at hcap
  simp only [List.length_cons, List.length_append, Bool.false_eq_true, if_false] at hcap
  omega

theorem Reached.superscript {text written : Text} {prev : Option Char} {remaining : Nat}
    {X rest : Text}
    (h : Reached text written prev ScanState.init remaining ('^' :: (X ++ rest)))
    (hp : prev ≠ some '[') (hne : X ≠ [])
    (hX : ∀ x ∈ X, is_blank x = false ∧ x ≠ '^') (h0 : char_at X 0 ≠ Char.ofNat 0)
    (hr : rest = [] ∨ is_blank (char_at rest 0) = true) :
    Reached text (written ++ ("<sup>".toList ++ X ++ "</sup>".toList)) (last_read none X)
      ScanState.init (remaining - (X.length + 11)) rest := by
  have hrem := h.superscript_room
  have hnc : char_at rest 0 ≠ '^' := by
    rcases hr with hr | hr
    · subst hr
      decide
    · intro e
      rw [e] at hr
      exact absurd hr (by decide)
  have h1 := Reached.step written prev ScanState.init remaining '^' (X ++ rest) h
  rw [sup_sub_step_superscript prev remaining X rest hp hne hX h0
    (hr.elim Or.inl (fun e => Or.inr (Or.inl e))) hrem, if_neg hnc] at h1
  have hdrop : ('^' :: (X ++ rest)).drop (1 + X.length + 0) = rest := by
    have : 1 + X.length + 0 = X.length + 1 := by omega
    rw [this, List.drop_succ_cons, List.drop_left]
  have hlen : ("<sup>".toList ++ X ++ "</sup>".toList).length = X.length + 11 := by
    simp
  simp only [Nat.add_zero, get?_last_of_append '^' X rest hne, hdrop, hlen] at h1
  simp only [Nat.add_zero] at hdrop
  rw [hdrop] at h1
  exact h1

theorem Reached.superscript_caret {text written : Text} {prev : Option Char} {remaining : Nat}
    {X rest : Text}
    (h : Reached text written prev ScanState.init remaining ('^' :: (X ++ '^' :: rest)))
    (hp : prev ≠ some '[') (hne : X ≠ [])
    (hX : ∀ x ∈ X, is_blank x = false ∧ x ≠ '^') (h0 : char_at X 0 ≠ Char.ofNat 0) :
    Reached text (written ++ ("<sup>".toList ++ X ++ "</sup>".toList)) (some '^')
      ScanState.init (remaining - (X.length + 11)) rest := by
  have hrem := h.superscript_room
  have h1 := Reached.step written prev ScanState.init remaining '^' (X ++ '^' :: rest) h
  rw [sup_sub_step_superscript prev remaining X ('^' :: rest) hp hne hX h0
    (Or.inr (Or.inr rfl)) hrem, if_pos (char_at_cons_zero '^' rest)] at h1
  have hget : ('^' :: (X ++ '^' :: rest)).get? (1 + X.length + 1 - 1) = some '^' := by
    have : 1 + X.length + 1 - 1 = X.length + 1 := by omega
    rw [this, List.get?_cons_succ, List.get?_eq_getElem?,
      List.getElem?_append_right (Nat.le_refl _)]
    simp
  have hdrop : ('^' :: (X ++ '^' :: rest)).drop (1 + X.length + 1) = rest := by
    have : 1 + X.length + 1 = (X.length + 1) + 1 := by omega
    rw [this, List.drop_succ_cons, List.drop_append]
    rfl
  have hlen : ("<sup>".toList ++ X ++ "</sup>".toList).length = X.length + 11 := by
    simp
  simp only [hget, hdrop, hlen] at h1
  exact h1

theorem Reached.copy_pair {text written : Text} {prev : Option Char} {st : ScanState}
    {remaining : Nat} {c d : Char} {cs : Text} (st1 : ScanState)
    (h : Reached text written prev st remaining (c :: d :: cs))
    (hs : sup_sub_step prev st remaining c (d :: cs) = ⟨copy_two remaining c d, 2, st1⟩) :
    Reached text (written ++ [c, d]) (some d) st1 (remaining - 2) cs := by
  have hcap := h.has_room
  have hrem : 1 < remaining := by
    unfold capacity_ok at hcap
    simp only [List.length_cons] at hcap
    split_ifs at hcap <;> omega
  have h1 := Reached.step written prev st remaining c (d :: cs) h
  rw [hs] at h1
  simpa [copy_two, hrem] using h1

/-- A dollar sign in front of a byte that starts a word opens inline math. -/
theorem sup_sub_step_math_open (prev : Option Char) (remaining : Nat) (cs : Text)
    (h1 : char_at cs 0 ≠ '$') (h2 : starts_word (char_at cs 0) = true) :
    sup_sub_step prev ScanState.init remaining '$' cs
      = ⟨copy_char remaining '$', 1, ⟨false, false, true, false⟩⟩ := by
  unfold sup_sub_step
  simp only [track_backtick_of_ne _ '$' _ (by decide)]
  simp [math_step, ScanState.init, h1, h2]

/-- Inside inline math a dollar sign that is not doubled closes the span. -/
theorem sup_sub_step_math_close (prev : Option Char) (remaining : Nat) (cs : Text)
    (h1 : char_at cs 0 ≠ '$') :
    sup_sub_step prev ⟨false, false, true, false⟩ remaining '$' cs
      = ⟨copy_char remaining '$', 1, ScanState.init⟩ := by
  unfold sup_sub_step
  simp only [track_backtick_of_ne _ '$' _ (by decide)]
  simp [math_step, ScanState.init, h1]

/-- Outside code a doubled dollar sign toggles display math. -/
theorem sup_sub_step_math_display (prev : Option Char) (remaining : Nat) (cs : Text)
    (b : Bool) :
    sup_sub_step prev ⟨false, false, false, b⟩ remaining '$' ('$' :: cs)
      = ⟨copy_two remaining '$' '$', 2, ⟨false, false, false, !b⟩⟩ := by
  unfold sup_sub_step
  simp only [track_backtick_of_ne _ '$' _ (by decide)]
  simp [math_step, char_at]

theorem Reached.math_inline {text written : Text} {prev : Option Char} {remaining : Nat}
    {body rest : Text}
    (h : Reached text written prev ScanState.init remaining ('$' :: (body ++ '$' :: rest)))
    (hne : body ≠ []) (hb : ∀ x ∈ body, x ≠ backtick ∧ x ≠ '$')
    (h0 : starts_word (char_at body 0) = true) (hr : char_at rest 0 ≠ '$') :
    Reached text (written ++ '$' :: (body ++ ['$'])) (some '$') ScanState.init
      (remaining - (body.length + 2)) rest := by
  have hc0 : char_at (body ++ '$' :: rest) 0 = char_at body 0 := by
    obtain ⟨a, w1, rfl⟩ := List.exists_cons_of_ne_nil hne
    rfl
  have hd : char_at (body ++ '$' :: rest) 0 ≠ '$' := by
    obtain ⟨a, w1, rfl⟩ := List.exists_cons_of_ne_nil hne
    exact (hb a (by simp)).2
  have r1 := Reached.copy_one _ h
    (sup_sub_step_math_open prev remaining _ hd (by rw [hc0]; exact h0))
  have r2 := Reached.flagged body ('$' :: rest) (by rfl) hb _ _ _ r1
  have r3 := Reached.copy_one _ r2 (sup_sub_step_math_close _ _ rest hr)
  have e1 : written ++ ['$'] ++ body ++ ['$'] = written ++ '$' :: (body ++ ['$']) := by simp
  have e2 : remaining - 1 - body.length - 1 = remaining - (body.length + 2) := by omega
  rw [e1, e2] at r3
  exact r3

theorem Reached.math_display {text written : Text} {prev : Option Char} {remaining : Nat}
    {body rest : Text}
    (h : Reached text written prev ScanState.init remaining
      ('$' :: '$' :: (body ++ '$' :: '$' :: rest)))
    (hb : ∀ x ∈ body, x ≠ backtick ∧ x ≠ '$') :
    Reached text (written ++ '$' :: '$' :: (body ++ ['$', '$'])) (some '$') ScanState.init
      (remaining - (body.length + 4)) rest := by
  have r1 := Reached.copy_pair _ h (sup_sub_step_math_display prev remaining _ false)
  have r2 := Reached.flagged body ('$' :: '$' :: rest) (by rfl) hb _ _ _ r1
  have r3 := Reached.copy_pair _ r2 (sup_sub_step_math_display _ _ rest true)
  have e1 : written ++ ['$', '$'] ++ body ++ ['$', '$']
      = written ++ '$' :: '$' :: (body ++ ['$', '$']) := by simp
  have e2 : remaining - 2 - body.length - 2 = remaining - (body.length + 4) := by omega
  rw [e1, e2] at r3
  exact r3

theorem copy_char_room (rem R : Nat) (c : Char) (h : 0 < rem) (hR : rem ≤ R) :
    copy_char R c = copy_char rem c := by
  unfold copy_char
  rw [if_pos h, if_pos (by omega)]

theorem copy_two_room (rem R : Nat) (c d : Char) (h : 1 < rem) (hR : rem ≤ R) :
    copy_two R c d = copy_two rem c d := by
  unfold copy_two
  rw [if_pos h, if_pos (by omega)]

theorem math_step_room (st : ScanState) (rem R : Nat) (c : Char) (cs : Text)
    (h : 1 < rem) (hR : rem ≤ R) :
    math_step st R c cs = math_step st rem c cs := by
  unfold math_step
  rw [copy_char_room rem R c (by omega) hR, copy_two_room rem R c _ h hR]

theorem critic_tilde_step_room (prev : Option Char) (st : ScanState) (rem R : Nat) (c : Char)
    (cs : Text) (h : 1 < rem) (hR : rem ≤ R) :
    critic_tilde_step prev st R c cs = critic_tilde_step prev st rem c cs := by
  unfold critic_tilde_step
  rw [copy_char_room rem R c (by omega) hR, copy_two_room rem R c _ h hR]

theorem superscript_step_room (prev : Option Char) (st : ScanState) (rem R : Nat) (c : Char)
    (cs : Text) (h : cs.length + 11 ≤ rem) (hR : rem ≤ R) :
    superscript_step prev st R c cs = superscript_step prev st rem c cs := by
  have hle := takeWhile_length_le (fun x => !is_blank x && x != '^') cs
  unfold superscript_step
  rw [copy_char_room rem R c (by omega) hR]
  simp only
  rw [if_pos (show R ≥ 5 + (cs.takeWhile (fun x => !is_blank x && x != '^')).length + 6 by omega),
    if_pos (show rem ≥ 5 + (cs.takeWhile (fun x => !is_blank x && x != '^')).length + 6 by omega)]

theorem tilde_step_room (st : ScanState) (rem R : Nat) (c : Char) (cs : Text)
    (h : cs.length + 11 ≤ rem) (hR : rem ≤ R) :
    tilde_step st R c cs = tilde_step st rem c cs := by
  unfold tilde_step
  by_cases hcond : (decide (c = '~') && starts_word (char_at cs 0) && char_at cs 0 != '~') = true
  · rw [if_pos hcond, if_pos hcond]
    simp only
    generalize hcl : (if (!(cs.takeWhile (fun x => !is_blank x && x != '~')).any is_terminator) = true
      then find_closing_tilde none cs else none) = cl
    cases cl with
    | some k =>
      have hk : k < cs.length := by
        split_ifs at hcl
        · exact find_closing_tilde_lt cs.length cs (Nat.le_refl _) none k hcl
      simp only [Option.isSome_some, if_true]
      have e3 : "<u>".toList.length = 3 := rfl
      have e4 : "</u>".toList.length = 4 := rfl
      rw [if_pos (show R ≥ "<u>".toList.length + k + "</u>".toList.length by omega),
        if_pos (show rem ≥ "<u>".toList.length + k + "</u>".toList.length by omega)]
    | none =>
      have hle := takeWhile_length_le (fun x => !is_blank x && x != '~' && !is_terminator x) cs
      simp only [Option.isSome_none, Bool.false_eq_true, if_false]
      have e3 : "<sub>".toList.length = 5 := rfl
      have e4 : "</sub>".toList.length = 6 := rfl
      rw [if_pos (show R ≥ "<sub>".toList.length +
          (cs.takeWhile (fun x => !is_blank x && x != '~' && !is_terminator x)).length +
          "</sub>".toList.length by omega),
        if_pos (show rem ≥ "<sub>".toList.length +
          (cs.takeWhile (fun x => !is_blank x && x != '~' && !is_terminator x)).length +
          "</sub>".toList.length by omega)]
  · rw [if_neg hcond, if_neg hcond]

/-- The room the invariant gives at `read = c :: cs`: two bytes in any case,
and the bytes from `read` on with the longest pair of tags at a marker. -/
theorem capacity_ok_room (c : Char) (cs : Text) (rem : Nat) (h : capacity_ok (c :: cs) rem) :
    1 < rem ∧ (is_marker c = true → cs.length + 11 ≤ rem) := by
  unfold capacity_ok at h
  simp only [List.length_cons] at h
  constructor
  · split_ifs at h <;> omega
  · intro hm
    have hp : plain_head (c :: cs) = false := by
      simp only [is_marker, Bool.or_eq_true, decide_eq_true_eq] at hm
      rcases hm with rfl | rfl <;> rfl
    rw [hp] at h
    simp only [Bool.false_eq_true, if_false] at h
    omega

/-- With the room of the invariant, one iteration does the same with any larger
`remaining`: none of its space checks fails. -/
theorem sup_sub_step_room (prev : Option Char) (st : ScanState) (rem R : Nat) (c : Char)
    (cs : Text) (h : capacity_ok (c :: cs) rem) (hR : rem ≤ R) :
    sup_sub_step prev st R c cs = sup_sub_step prev st rem c cs := by
  obtain ⟨h2, hm⟩ := capacity_ok_room c cs rem h
  unfold sup_sub_step
  simp only
  rw [math_step_room _ rem R c cs h2 hR, copy_char_room rem R c (by omega) hR,
    critic_tilde_step_room prev _ rem R c cs h2 hR]
  by_cases hc : is_marker c = true
  · rw [superscript_step_room prev _ rem R c cs (hm hc) hR,
      tilde_step_room _ rem R c cs (hm hc) hR]
  · have h3 : c ≠ '^' := fun e => hc (by rw [e]; rfl)
    have h4 : c ≠ '~' := fun e => hc (by rw [e]; rfl)
    simp only [superscript_step_of_ne prev _ _ c cs h3, tilde_step_of_ne _ _ c cs h4]

/-- With the room of the invariant, the loop writes the same with any larger
`remaining`. -/
theorem sup_sub_loop_room (fuel : Nat) :
    ∀ (prev : Option Char) (st : ScanState) (rem R : Nat) (s : Text),
      capacity_ok s rem → rem ≤ R →
      sup_sub_loop fuel prev st R s = sup_sub_loop fuel prev st rem s := by
  induction fuel with
  | zero => intro prev st rem R s _ _; rfl
  | succ fuel ih =>
    intro prev st rem R s h hR
    cases s with
    | nil => rfl
    | cons c cs =>
      simp only [sup_sub_loop]
      rw [sup_sub_step_room prev st rem R c cs h hR]
      rw [ih _ _ (rem - (sup_sub_step prev st rem c cs).out.length)
        (R - (sup_sub_step prev st rem c cs).out.length) _
        (capacity_ok_step prev st rem c cs h) (by omega)]

/-- The bytes left when the loop ends are more than five. -/
theorem capacity_ok_nil (rem : Nat) (h : capacity_ok [] rem) : 5 < rem := by
  unfold capacity_ok at h
  simp only [List.length_nil, plain_head, if_true] at h
  omega
theorem find_closing_tilde_char :
    ∀ (n : Nat) (l : Text), l.length ≤ n → ∀ (before : Option Char) (k : Nat),
      find_closing_tilde before l = some k → char_at l k = '~' := by
  intro n
  induction n with
  | zero =>
    intro l hl before k h
    have : l = [] := List.length_eq_zero.mp (Nat.le_zero.mp hl)
    subst this
    simp [find_closing_tilde] at h
  | succ n ih =>
    intro l hl before k h
    match l, hl, h with
    | [], _, h => simp [find_closing_tilde] at h
    | [x], _, h =>
      unfold find_closing_tilde at h
      split_ifs at h with h1 h2 h3
      cases h
      rw [h2]
      rfl
    | x :: y :: rest, hl, h =>
      simp only [List.length_cons] at hl
      have hrest : rest.length ≤ n := by omega
      have hyrest : (y :: rest).length ≤ n := by simp only [List.length_cons]; omega
      unfold find_closing_tilde at h
      by_cases h1 : x = '\n'
      · rw [if_pos h1] at h
        exact absurd h (by simp)
      · rw [if_neg h1] at h
        by_cases h2 : x = '~'
        · rw [if_pos h2] at h
          by_cases h3 : y = '~'
          · rw [if_pos h3] at h
            obtain ⟨j, hj, hjk⟩ := Option.map_eq_some'.mp h
            have := ih rest hrest _ j hj
            rw [← hjk, char_at_cons_succ, char_at_cons_succ]
            exact this
          · rw [if_neg h3] at h
            split_ifs at h
            · obtain ⟨j, hj, hjk⟩ := Option.map_eq_some'.mp h
              have := ih (y :: rest) hyrest _ j hj
              rw [← hjk, char_at_cons_succ]
              exact this
            · have hk : 0 = k := Option.some.inj h
              rw [← hk, h2]
              rfl
        · rw [if_neg h2] at h
          obtain ⟨j, hj, hjk⟩ := Option.map_eq_some'.mp h
          have := ih (y :: rest) hyrest _ j hj
          rw [← hjk, char_at_cons_succ]
          exact this

theorem take_one_cons (c : Char) (cs : Text) : (c :: cs).take 1 = [c] := rfl

theorem take_two_cons (c : Char) (cs : Text) (h : char_at cs 0 ≠ Char.ofNat 0) :
    (c :: cs).take 2 = [c, char_at cs 0] := by
  cases cs with
  | nil => exact absurd rfl h
  | cons d ds => rfl

theorem math_step_copies (st : ScanState) (rem : Nat) (c : Char) (cs : Text) (r : Step)
    (hrem : 1 < rem) (h : math_step st rem c cs = some r) : r.out = (c :: cs).take r.adv := by
  unfold math_step at h
  have e1 : copy_char rem c = [c] := by unfold copy_char; rw [if_pos (by omega)]
  have e2 : copy_two rem c (char_at cs 0) = [c, char_at cs 0] := by
    unfold copy_two; rw [if_pos hrem]
  rw [e1, e2] at h
  split_ifs at h with h1 h2 h3 h4 h5 h6 <;> cases h
  · simp only [Bool.and_eq_true, decide_eq_true_eq] at h2
    exact (take_two_cons c cs (by rw [h2.2]; decide)).symm
  · rfl
  · rfl

theorem critic_tilde_step_copies (prev : Option Char) (st : ScanState) (rem : Nat) (c : Char)
    (cs : Text) (r : Step) (hrem : 1 < rem) (h : critic_tilde_step prev st rem c cs = some r) :
    r.out = (c :: cs).take r.adv := by
  unfold critic_tilde_step at h
  have e1 : copy_char rem c = [c] := by unfold copy_char; rw [if_pos (by omega)]
  have e2 : copy_two rem c (char_at cs 0) = [c, char_at cs 0] := by
    unfold copy_two; rw [if_pos hrem]
  rw [e1, e2] at h
  split_ifs at h with h1 h2 h3 h4 h5 <;> cases h
  · rfl
  · simp only [Bool.and_eq_true, decide_eq_true_eq] at h3
    exact (take_two_cons c cs (by rw [h3.2]; decide)).symm
  · rfl
  · rfl

theorem take_takeWhile_length (p : Char → Bool) (cs : Text) :
    cs.take (cs.takeWhile p).length = cs.takeWhile p := by
  induction cs with
  | nil => rfl
  | cons x cs ih =>
    by_cases hx : p x = true
    · simp [List.takeWhile, hx, ih]
    · simp [List.takeWhile, hx]

theorem superscript_step_keeps (prev : Option Char) (st : ScanState) (rem : Nat) (c : Char)
    (cs : Text) (r : Step) (hrem : cs.length + 11 ≤ rem)
    (h : superscript_step prev st rem c cs = some r) : StepKeeps r c cs := by
  unfold superscript_step at h
  have e1 : copy_char rem c = [c] := by unfold copy_char; rw [if_pos (by omega)]
  rw [e1] at h
  by_cases hcond : (decide (c = '^') && starts_word (char_at cs 0) && char_at cs 0 != '^') = true
  · rw [if_pos hcond] at h
    have hc : c = '^' := by
      simp only [Bool.and_eq_true, decide_eq_true_eq] at hcond
      exact hcond.1.1
    by_cases hp : prev = some '['
    · rw [if_pos hp] at h
      cases h
      exact Or.inl rfl
    · rw [if_neg hp] at h
      simp only at h
      by_cases h1 : (cs.takeWhile (fun x => !is_blank x && x != '^')).length > 0
      · rw [if_pos h1] at h
        by_cases h2 : rem ≥ 5 + (cs.takeWhile (fun x => !is_blank x && x != '^')).length + 6
        · rw [if_pos h2] at h
          cases h
          right
          refine ⟨by rw [hc]; rfl, "<sup>".toList, "</sup>".toList,
            (cs.takeWhile (fun x => !is_blank x && x != '^')).length, ?_, ?_⟩
          · simp only
            rw [take_takeWhile_length]
          · simp only
            by_cases he : (decide (char_at cs
                  (cs.takeWhile (fun x => !is_blank x && x != '^')).length = '^') ||
                decide (char_at cs
                  (cs.takeWhile (fun x => !is_blank x && x != '^')).length = '~')) = true
            · rw [if_pos he]
              right
              exact ⟨rfl, he⟩
            · rw [if_neg he]
              left; rfl
        · rw [if_neg h2] at h
          cases h
      · rw [if_neg h1] at h
        cases h
  · rw [if_neg hcond] at h
    cases h

theorem tilde_step_keeps (st : ScanState) (rem : Nat) (c : Char) (cs : Text) (r : Step)
    (h : tilde_step st rem c cs = some r) : StepKeeps r c cs := by
  unfold tilde_step at h
  by_cases hcond : (decide (c = '~') && starts_word (char_at cs 0) && char_at cs 0 != '~') = true
  · rw [if_pos hcond] at h
    have hc : c = '~' := by
      simp only [Bool.and_eq_true, decide_eq_true_eq] at hcond
      exact hcond.1.1
    simp only at h
    generalize hcl : (if (!(cs.takeWhile (fun x => !is_blank x && x != '~')).any is_terminator) = true
      then find_closing_tilde none cs else none) = cl at h
    cases cl with
    | some k =>
      simp only [Option.isSome_some, if_true] at h
      have hk : char_at cs k = '~' := by
        split_ifs at hcl
        · exact find_closing_tilde_char cs.length cs (Nat.le_refl _) none k hcl
      by_cases h1 : k > 0
      · rw [if_pos h1] at h
        by_cases h2 : rem ≥ "<u>".toList.length + k + "</u>".toList.length
        · rw [if_pos h2] at h
          cases h
          right
          refine ⟨by rw [hc]; rfl, "<u>".toList, "</u>".toList, k, rfl, Or.inr ⟨rfl, ?_⟩⟩
          rw [hk]
          rfl
        · rw [if_neg h2] at h
          cases h
      · rw [if_neg h1] at h
        cases h
    | none =>
      simp only [Option.isSome_none, Bool.false_eq_true, if_false] at h
      by_cases h1 : (cs.takeWhile (fun x => !is_blank x && x != '~' && !is_terminator x)).length > 0
      · rw [if_pos h1] at h
        by_cases h2 : rem ≥ "<sub>".toList.length +
            (cs.takeWhile (fun x => !is_blank x && x != '~' && !is_terminator x)).length +
            "</sub>".toList.length
        · rw [if_pos h2] at h
          cases h
          right
          refine ⟨by rw [hc]; rfl, "<sub>".toList, "</sub>".toList,
            (cs.takeWhile (fun x => !is_blank x && x != '~' && !is_terminator x)).length, rfl, ?_⟩
          simp only
          by_cases he : char_at cs
              (cs.takeWhile (fun x => !is_blank x && x != '~' && !is_terminator x)).length = '~'
          · rw [if_pos he]
            right
            refine ⟨rfl, ?_⟩
            rw [he]
            rfl
          · rw [if_neg he]
            left; rfl
        · rw [if_neg h2] at h
          cases h
      · rw [if_neg h1] at h
        cases h
  · rw [if_neg hcond] at h
    cases h

/-- With the room of the invariant, every iteration keeps what it reads. -/
theorem sup_sub_step_keeps (prev : Option Char) (st : ScanState) (rem : Nat) (c : Char)
    (cs : Text) (h : capacity_ok (c :: cs) rem) :
    StepKeeps (sup_sub_step prev st rem c cs) c cs := by
  obtain ⟨h2, hm⟩ := capacity_ok_room c cs rem h
  have hcopy : ∀ st1 : ScanState, StepKeeps ⟨copy_char rem c, 1, st1⟩ c cs := by
    intro st1
    left
    unfold copy_char
    rw [if_pos (by omega)]
    rfl
  unfold sup_sub_step
  simp only
  split
  · next r hr => exact Or.inl (math_step_copies _ _ _ _ r h2 hr)
  · split_ifs
    · exact hcopy _
    · split
      · next r hr =>
        by_cases hc : is_marker c = true
        · exact superscript_step_keeps _ _ _ _ _ r (hm hc) hr
        · have h3 : c ≠ '^' := fun e => hc (by rw [e]; rfl)
          rw [superscript_step_of_ne _ _ _ c cs h3] at hr
          cases hr
      · split
        · next r hr => exact Or.inl (critic_tilde_step_copies _ _ _ _ _ r h2 hr)
        · split
          · next r hr => exact tilde_step_keeps _ _ _ _ r hr
          · exact hcopy _

/-- A step at a byte that is no marker copies what it reads. -/
theorem sup_sub_step_copies (prev : Option Char) (st : ScanState) (rem : Nat) (c : Char)
    (cs : Text) (h : capacity_ok (c :: cs) rem) (hc : is_marker c = false) :
    (sup_sub_step prev st rem c cs).out = (c :: cs).take (sup_sub_step prev st rem c cs).adv := by
  rcases sup_sub_step_keeps prev st rem c cs h with h1 | ⟨h1, _⟩
  · exact h1
  · rw [hc] at h1
    cases h1

theorem strip_markers_append (a b : Text) :
    strip_markers (a ++ b) = strip_markers a ++ strip_markers b := by
  unfold strip_markers
  exact List.filter_append _ _

theorem strip_markers_sublist (a : Text) : List.Sublist (strip_markers a) a := by
  unfold strip_markers
  exact List.filter_sublist a

theorem take_succ_char_at (cs : Text) (len : Nat) (h : char_at cs len ≠ Char.ofNat 0) :
    cs.take (len + 1) = cs.take len ++ [char_at cs len] := by
  induction cs generalizing len with
  | nil => exact absurd rfl h
  | cons x cs ih =>
    cases len with
    | zero => rfl
    | succ n =>
      rw [char_at_cons_succ] at h ⊢
      rw [List.take_succ_cons, List.take_succ_cons, ih n h]
      rfl

/-- The bytes a step reads, without the markers, are among the bytes it writes,
in their order. -/
theorem sup_sub_step_sublist (prev : Option Char) (st : ScanState) (rem : Nat) (c : Char)
    (cs : Text) (h : capacity_ok (c :: cs) rem) :
    List.Sublist (strip_markers ((c :: cs).take (sup_sub_step prev st rem c cs).adv))
      (sup_sub_step prev st rem c cs).out := by
  rcases sup_sub_step_keeps prev st rem c cs h with h1 | ⟨hc, open_tag, close_tag, len, h1, h2⟩
  · rw [h1]
    exact strip_markers_sublist _
  · have hmid : List.Sublist (strip_markers (cs.take len)) (sup_sub_step prev st rem c cs).out := by
      rw [h1]
      exact (strip_markers_sublist _).trans
        ((List.sublist_append_right _ _).trans (List.sublist_append_left _ _))
    have hhead : ∀ t : Text, strip_markers (c :: t) = strip_markers t := by
      intro t
      unfold strip_markers
      rw [List.filter_cons_of_neg (by simp [hc])]
    rcases h2 with h2 | ⟨h2, h3⟩
    · rw [h2, Nat.add_comm, List.take_succ_cons, hhead]
      exact hmid
    · have hne : char_at cs len ≠ Char.ofNat 0 := by
        intro e
        rw [e] at h3
        exact absurd h3 (by decide)
      have e2 : 1 + len + 1 = (len + 1) + 1 := by omega
      rw [h2, e2, List.take_succ_cons, hhead, take_succ_char_at cs len hne, strip_markers_append]
      have : strip_markers [char_at cs len] = [] := by
        unfold strip_markers
        rw [List.filter_cons_of_neg (by simp [h3])]
        rfl
      rw [this, List.append_nil]
      exact hmid

/-- The loop deletes nothing but markers. -/
theorem sup_sub_loop_sublist (fuel : Nat) :
    ∀ (prev : Option Char) (st : ScanState) (rem : Nat) (s : Text),
      s.length ≤ fuel → capacity_ok s rem →
      List.Sublist (strip_markers s) (sup_sub_loop fuel prev st rem s) := by
  induction fuel with
  | zero =>
    intro prev st rem s hs _
    have : s = [] := List.length_eq_zero.mp (Nat.le_zero.mp hs)
    subst this
    exact List.Sublist.refl _
  | succ fuel ih =>
    intro prev st rem s hs h
    cases s with
    | nil => exact List.Sublist.refl _
    | cons c cs =>
      simp only [sup_sub_loop]
      have hadv := sup_sub_step_adv_pos prev st rem c cs
      have hsplit : strip_markers (c :: cs)
          = strip_markers ((c :: cs).take (sup_sub_step prev st rem c cs).adv) ++
            strip_markers ((c :: cs).drop (sup_sub_step prev st rem c cs).adv) := by
        rw [← strip_markers_append, List.take_append_drop]
      rw [hsplit]
      refine List.Sublist.append (sup_sub_step_sublist prev st rem c cs h) (ih _ _ _ _ ?_ ?_)
      · rw [List.length_drop]
        simp only [List.length_cons] at hs ⊢
        omega
      · exact capacity_ok_step prev st rem c cs h

/-- A text without markers is copied by the loop. -/
theorem sup_sub_loop_no_marker (fuel : Nat) :
    ∀ (prev : Option Char) (st : ScanState) (rem : Nat) (s : Text),
      s.length ≤ fuel → capacity_ok s rem → (∀ c ∈ s, is_marker c = false) →
      sup_sub_loop fuel prev st rem s = s := by
  induction fuel with
  | zero =>
    intro prev st rem s hs _ _
    have : s = [] := List.length_eq_zero.mp (Nat.le_zero.mp hs)
    subst this
    rfl
  | succ fuel ih =>
    intro prev st rem s hs h hm
    cases s with
    | nil => rfl
    | cons c cs =>
      simp only [sup_sub_loop]
      have hadv := sup_sub_step_adv_pos prev st rem c cs
      have hcp := sup_sub_step_copies prev st rem c cs h (hm c (List.mem_cons_self _ _))
      rw [ih _ _ _ _ ?_ (capacity_ok_step prev st rem c cs h) ?_, hcp, List.take_append_drop]
      · rw [List.length_drop]
        simp only [List.length_cons] at hs ⊢
        omega
      · intro x hx
        exact hm x (List.mem_of_mem_drop hx)
/-- From any configuration the loop reaches the end of the text. -/
theorem Reached.to_end {text : Text} :
    ∀ (n : Nat) (s : Text), s.length ≤ n →
    ∀ (written : Text) (prev : Option Char) (st : ScanState) (remaining : Nat),
      Reached text written prev st remaining s →
      ∃ (prev1 : Option Char) (st1 : ScanState) (remaining1 : Nat),
        Reached text (written ++ sup_sub_run prev st remaining s) prev1 st1 remaining1 [] := by
  intro n
  induction n with
  | zero =>
    intro s hs written prev st remaining h
    have : s = [] := List.length_eq_zero.mp (Nat.le_zero.mp hs)
    subst this
    exact ⟨prev, st, remaining, by simpa [sup_sub_run_nil] using h⟩
  | succ n ih =>
    intro s hs written prev st remaining h
    cases s with
    | nil => exact ⟨prev, st, remaining, by simpa [sup_sub_run_nil] using h⟩
    | cons c cs =>
      have hadv := sup_sub_step_adv_pos prev st remaining c cs
      have h1 := Reached.step written prev st remaining c cs h
      obtain ⟨p1, s1, r1, h2⟩ := ih _ (by
        rw [List.length_drop]
        simp only [List.length_cons] at hs ⊢
        omega) _ _ _ _ h1
      refine ⟨p1, s1, r1, ?_⟩
      rw [sup_sub_run_cons, ← List.append_assoc]
      exact h2

/-- The byte in front of `read` matters only when it is `[`, `~` or an opening
brace: behind a backtick a step is the step at the start of a text. -/
theorem sup_sub_step_after_backtick (st : ScanState) (rem : Nat) (c : Char) (cs : Text) :
    sup_sub_step (some backtick) st rem c cs = sup_sub_step none st rem c cs := by
  have h1 : ((some backtick : Option Char) = some '[') = False := by
    simp [backtick]
  have h2 : ((some backtick : Option Char) = some '~') = False := by
    simp [backtick]
  have h3 : ((some backtick : Option Char) = some '\x7b') = False := by
    simp [backtick]
  have h4 : ((none : Option Char) = some '[') = False := by simp
  have h5 : ((none : Option Char) = some '~') = False := by simp
  have h6 : ((none : Option Char) = some '\x7b') = False := by simp
  unfold sup_sub_step superscript_step critic_tilde_step
  simp only [h1, h2, h3, h4, h5, h6]

theorem sup_sub_run_after_backtick (st : ScanState) (rem : Nat) (s : Text) :
    sup_sub_run (some backtick) st rem s = sup_sub_run none st rem s := by
  cases s with
  | nil => rfl
  | cons c cs => rw [sup_sub_run_cons, sup_sub_run_cons, sup_sub_step_after_backtick]

/-- With the room of the invariant on both sides, the loop writes the same. -/
theorem sup_sub_run_room (prev : Option Char) (st : ScanState) (rem1 rem2 : Nat) (s : Text)
    (h1 : capacity_ok s rem1) (h2 : capacity_ok s rem2) :
    sup_sub_run prev st rem1 s = sup_sub_run prev st rem2 s := by
  unfold sup_sub_run
  rw [← sup_sub_loop_room s.length prev st rem1 (max rem1 rem2) s h1 (Nat.le_max_left _ _),
    ← sup_sub_loop_room s.length prev st rem2 (max rem1 rem2) s h2 (Nat.le_max_right _ _)]

/-- The byte in front of `read` matters only when it is `[`, `~` or an opening
brace: two such bytes that are none of these give the same step. -/
theorem sup_sub_step_prev_neutral (p q : Option Char) (st : ScanState) (rem : Nat) (c : Char)
    (cs : Text)
    (hp : p ≠ some '[' ∧ p ≠ some '~' ∧ p ≠ some '\x7b')
    (hq : q ≠ some '[' ∧ q ≠ some '~' ∧ q ≠ some '\x7b') :
    sup_sub_step p st rem c cs = sup_sub_step q st rem c cs := by
  have h1 : (p = some '[') = False := eq_false hp.1
  have h2 : (p = some '~') = False := eq_false hp.2.1
  have h3 : (p = some '\x7b') = False := eq_false hp.2.2
  have h4 : (q = some '[') = False := eq_false hq.1
  have h5 : (q = some '~') = False := eq_false hq.2.1
  have h6 : (q = some '\x7b') = False := eq_false hq.2.2
  unfold sup_sub_step superscript_step critic_tilde_step
  simp only [h1, h2, h3, h4, h5, h6]

theorem sup_sub_run_prev_neutral (p q : Option Char) (st : ScanState) (rem : Nat) (s : Text)
    (hp : p ≠ some '[' ∧ p ≠ some '~' ∧ p ≠ some '\x7b')
    (hq : q ≠ some '[' ∧ q ≠ some '~' ∧ q ≠ some '\x7b') :
    sup_sub_run p st rem s = sup_sub_run q st rem s := by
  cases s with
  | nil => rfl
  | cons c cs =>
    rw [sup_sub_run_cons, sup_sub_run_cons, sup_sub_step_prev_neutral p q st rem c cs hp hq]

/-- In front of the end of the text, a blank or a sentence terminator the byte
in front of `read` does not matter. -/
theorem sup_sub_run_plain_head (p q : Option Char) (st : ScanState) (rem : Nat) (s : Text)
    (h : plain_head s = true) :
    sup_sub_run p st rem s = sup_sub_run q st rem s := by
  cases s with
  | nil => rfl
  | cons c cs =>
    have hc : is_blank c = true ∨ is_terminator c = true := by
      simpa [plain_head] using h
    have h4 : c ≠ backtick ∧ c ≠ '$' ∧ c ≠ '^' ∧ c ≠ '~' := by
      rcases hc with hc | hc
      · refine ⟨?_, ?_, ?_, ?_⟩ <;> intro e <;> rw [e] at hc <;> exact absurd hc (by decide)
      · refine ⟨?_, ?_, ?_, ?_⟩ <;> intro e <;> rw [e] at hc <;> exact absurd hc (by decide)
    rw [sup_sub_run_cons, sup_sub_run_cons,
      sup_sub_step_plain p st rem c cs h4.1 h4.2.1 h4.2.2.1 h4.2.2.2,
      sup_sub_step_plain q st rem c cs h4.1 h4.2.1 h4.2.2.1 h4.2.2.2]

/-- When the loop stands outside code and math and the byte in front of `read`
does not matter, what it writes from there on is the result on the rest of the
text taken alone. -/
theorem Reached.restart {text written : Text} {prev : Option Char} {remaining : Nat}
    {s : Text} (h : Reached text written prev ScanState.init remaining s)
    (hn : (prev ≠ some '[' ∧ prev ≠ some '~' ∧ prev ≠ some '\x7b') ∨ plain_head s = true) :
    apex_process_sup_sub text = written ++ apex_process_sup_sub s := by
  have e1 : sup_sub_run prev ScanState.init remaining s
      = sup_sub_run none ScanState.init remaining s := by
    rcases hn with hn | hn
    · exact sup_sub_run_prev_neutral _ _ _ _ _ hn ⟨by simp, by simp, by simp⟩
    · exact sup_sub_run_plain_head _ _ _ _ _ hn
  have e2 : apex_process_sup_sub s = sup_sub_run none ScanState.init (capacity s) s := rfl
  rw [h.output, e1, e2,
    sup_sub_run_room none ScanState.init remaining (capacity s) s h.has_room
      (capacity_ok_start s)]

theorem last_read_ne (c : Char) (p : Text) (hp : c ∉ p) :
    ∀ prev : Option Char, prev ≠ some c → last_read prev p ≠ some c := by
  induction p with
  | nil => intro prev h; exact h
  | cons d p ih =>
    intro prev _
    have hd : d ≠ c := fun e => hp (by simp [e])
    exact ih (fun h => hp (by simp [h])) (some d) (by simpa using hd)

theorem plain_head_of_char_at (rest : Text)
    (h : rest = [] ∨ is_blank (char_at rest 0) = true ∨ is_terminator (char_at rest 0) = true) :
    plain_head rest = true := by
  cases rest with
  | nil => rfl
  | cons x r =>
    rcases h with h | h | h
    · cases h
    · have e : char_at (x :: r) 0 = x := rfl
      rw [e] at h
      simp [plain_head, h]
    · have e : char_at (x :: r) 0 = x := rfl
      rw [e] at h
      simp [plain_head, h]

/-! ## Basic facts about the definition-list loop -/

theorem dl_loop_fuel (render : Text → Option Text) (fuel1 : Nat) :
    ∀ (fuel2 : Nat) (s : DlState) (text : Text), text.length ≤ fuel1 → text.length ≤ fuel2 →
      dl_loop render fuel1 s text = dl_loop render fuel2 s text := by
  induction fuel1 with
  | zero =>
    intro fuel2 s text h1 _
    have hs : text = [] := List.length_eq_zero.mp (Nat.le_zero.mp h1)
    subst hs
    cases fuel2 <;> rfl
  | succ n ih =>
    intro fuel2 s text h1 h2
    cases text with
    | nil => cases fuel2 <;> rfl
    | cons c cs =>
      cases fuel2 with
      | zero => simp at h2
      | succ k =>
        simp only [dl_loop]
        apply ih
        · simp only [List.length_drop, List.length_cons] at h1 ⊢
          omega
        · simp only [List.length_drop, List.length_cons] at h2 ⊢
          omega

theorem dl_run_nil (render : Text → Option Text) (s : DlState) : dl_run render s [] = s := rfl

/-- One iteration of the loop: the line `l`, followed by the end of the text
or by a newline. -/
theorem dl_run_line (render : Text → Option Text) (s : DlState) (l rest : Text)
    (hl : '\n' ∉ l) (hne : l ++ rest ≠ []) (hr : rest = [] ∨ char_at rest 0 = '\n') :
    dl_run render s (l ++ rest)
      = dl_run render (dl_line render s l (decide (rest ≠ [])) (l ++ rest)) (rest.drop 1) := by
  have htw : (l ++ rest).takeWhile (fun x => x != '\n') = l := by
    apply takeWhile_append_of_stop
    · intro x hx
      have : x ≠ '\n' := fun e => hl (e ▸ hx)
      simp [this]
    · rcases hr with hr | hr
      · exact Or.inl hr
      · right
        simp [hr]
  obtain ⟨c, cs, hcs⟩ := List.exists_cons_of_ne_nil hne
  unfold dl_run
  rw [hcs]
  simp only [List.length_cons, dl_loop]
  rw [← hcs, htw, List.drop_left]
  apply dl_loop_fuel
  · have := congrArg List.length hcs
    simp only [List.length_append, List.length_cons, List.length_drop] at this ⊢
    omega
  · exact Nat.le_refl _

theorem emit_fits (s : DlState) (piece : Text) (h : piece.length < s.remaining) :
    emit s piece = { s with out := s.out ++ piece, remaining := s.remaining - piece.length } := by
  simp [emit, h]

theorem quote_scan_colon (D : Text) :
    quote_scan (':' :: ' ' :: D) = (0, ':' :: ' ' :: D) := by
  simp [quote_scan, skip_upto, strip_quote]

theorem is_def_line_colon (D : Text) : is_def_line (':' :: ' ' :: D) = true := by
  simp [is_def_line, quote_scan_colon, is_table_row, is_list_item, skip_upto, is_space_tab,
    isdigit]

theorem dl_line_next_definition (render : Text → Option Text) (out : Text) (rem : Nat)
    (D from_line : Text) (terminated : Bool)
    (h : (dd_text render D).length + 10 < rem) :
    dl_line render (DlState.in_list out rem) (':' :: ' ' :: D) terminated from_line
      = DlState.in_list (out ++ ("<dd>".toList ++ dd_text render D ++ "</dd>\n".toList))
          (rem - ((dd_text render D).length + 10)) := by
  have h0 : (inline_html render (D.dropWhile is_space_tab)).length + 10 < rem := h
  have h1 : 4 < rem := by omega
  have h2 : (inline_html render (D.dropWhile is_space_tab)).length < rem - 4 := by omega
  have h3 : 6 < rem - 4 - (inline_html render (D.dropWhile is_space_tab)).length := by omega
  simp only [dl_line, is_def_line_colon, if_true, quote_scan_colon, dl_definition,
    DlState.in_list, Bool.not_true, Bool.false_eq_true, if_false, emit_quote]
  simp [emit, dd_text, is_space_tab, h1, h2, h3]
  omega

theorem dl_line_first_definition (render : Text → Option Text) (out : Text) (rem : Nat)
    (T D from_line : Text) (terminated : Bool) (hT : T ≠ [])
    (h : (inline_html render T).length + (dd_text render D).length + 25 < rem) :
    dl_line render (DlState.with_term out rem T) (':' :: ' ' :: D) terminated from_line
      = DlState.in_list
          (out ++ ("<dl>\n<dt>".toList ++ inline_html render T ++ "</dt>\n".toList ++
            ("<dd>".toList ++ dd_text render D ++ "</dd>\n".toList)))
          (rem - ((inline_html render T).length + (dd_text render D).length + 25)) := by
  have h0 : (inline_html render T).length
      + (inline_html render (D.dropWhile is_space_tab)).length + 25 < rem := h
  have hlen : 0 < T.length := List.length_pos.mpr hT
  have h1 : 5 < rem := by omega
  have h2 : 4 < rem - 5 := by omega
  have h3 : (inline_html render T).length < rem - 5 - 4 := by omega
  have h4 : 6 < rem - 5 - 4 - (inline_html render T).length := by omega
  have h5 : 4 < rem - 5 - 4 - (inline_html render T).length - 6 := by omega
  have h6 : (inline_html render (D.dropWhile is_space_tab)).length
      < rem - 5 - 4 - (inline_html render T).length - 6 - 4 := by omega
  have h7 : 6 < rem - 5 - 4 - (inline_html render T).length - 6 - 4
      - (inline_html render (D.dropWhile is_space_tab)).length := by omega
  simp only [dl_line, is_def_line_colon, if_true, quote_scan_colon, dl_definition, dl_open,
    dl_term, DlState.with_term, DlState.in_list, Bool.not_false, emit_quote, emit_list_tag]
  simp [emit, dd_text, is_space_tab, h1, h2, h3, h4, h5, h6, h7, hlen]
  omega

theorem is_plain_term_iff (T : Text) :
    is_plain_term T = true ↔
      '\n' ∉ T ∧ T ≠ [] ∧ T ≠ ['\r'] ∧ is_def_line T = false ∧ is_table_row T = false ∧
        is_list_item T = false ∧ is_header (quote_scan T).2 = false ∧ T.length < 4095 ∧
        (strip_quote T.length (T.dropWhile is_space_tab)).1 = 0 := by
  simp [is_plain_term, and_assoc]

theorem dl_regular_term (s : DlState) (T from_line : Text) (terminated : Bool)
    (hT : is_plain_term T = true) (hs : strstr from_line "\x7b:".toList = none)
    (h1 : s.in_def_list = false) (h2 : s.term = []) :
    dl_regular s T terminated from_line (quote_scan T).2
      = { s with term := T, term_has_blockquote := false, term_blockquote_depth := 0 } := by
  obtain ⟨_, _, _, _, ht, hl, hh, hlen, hq⟩ := (is_plain_term_iff T).mp hT
  have hs2 : (strstr from_line ['\x7b', ':']).isSome = false := by
    rw [show ['\x7b', ':'] = "\x7b:".toList from rfl, hs]
    rfl
  unfold dl_regular
  simp [h1, flush_term, h2, ht, hl, hh, hlen, hq, hs2]

theorem dl_line_term (render : Text → Option Text) (out : Text) (rem : Nat)
    (T from_line : Text) (terminated : Bool)
    (hT : is_plain_term T = true) (hs : strstr from_line "\x7b:".toList = none) :
    dl_line render (DlState.idle out rem) T terminated from_line
      = DlState.with_term out rem T := by
  obtain ⟨_, hne, hcr, hd, _⟩ := (is_plain_term_iff T).mp hT
  unfold dl_line
  rw [hd]
  simp only [Bool.false_eq_true, if_false]
  rw [if_neg (by simp [hne, hcr])]
  rw [dl_regular_term _ T from_line terminated hT hs rfl rfl]
  rfl

theorem dl_line_term_after_list (render : Text → Option Text) (out : Text) (rem : Nat)
    (T from_line : Text) (terminated : Bool)
    (hT : is_plain_term T = true) (hs : strstr from_line "\x7b:".toList = none)
    (h : 7 < rem) :
    dl_line render (DlState.in_list out rem) T terminated from_line
      = DlState.with_term (out ++ "</dl>\n\n".toList) (rem - 7) T := by
  obtain ⟨_, hne, hcr, hd, ht, hl, hh, hlen, hq⟩ := (is_plain_term_iff T).mp hT
  unfold dl_line
  rw [hd]
  simp only [Bool.false_eq_true, if_false]
  rw [if_neg (by simp [hne, hcr])]
  have hs2 : (strstr from_line ['\x7b', ':']).isSome = false := by
    rw [show ['\x7b', ':'] = "\x7b:".toList from rfl, hs]
    rfl
  unfold dl_regular
  simp [DlState.in_list, DlState.with_term, emit_list_tag, emit, h, flush_term, ht, hl, hh,
    hlen, hq, hs2]

theorem dl_line_blank_after_list (render : Text → Option Text) (out : Text) (rem : Nat)
    (from_line : Text) (terminated : Bool) (h : 7 < rem) :
    dl_line render (DlState.in_list out rem) [] terminated from_line
      = DlState.idle (out ++ "</dl>\n\n".toList) (rem - 7) := by
  have hd : is_def_line [] = false := by decide
  unfold dl_line
  rw [hd]
  simp [dl_blank, DlState.in_list, DlState.idle, emit_list_tag, emit, h]

theorem dl_finish_in_list (out : Text) (rem : Nat) (h : 6 < rem) :
    (dl_finish (DlState.in_list out rem)).out = out ++ "</dl>\n".toList := by
  simp [dl_finish, DlState.in_list, emit_list_tag, emit, h]

theorem strstr_none_of_append (a b needle : Text) (h : strstr (a ++ b) needle = none) :
    strstr b needle = none := by
  induction a with
  | nil => exact h
  | cons c a ih =>
    apply ih
    rw [List.cons_append, strstr] at h
    split_ifs at h
    cases hs : strstr (a ++ b) needle with
    | none => rfl
    | some i => rw [hs] at h; cases h

theorem dd_lines_tail (Ds : List Text) (tail : Text)
    (ht : tail = [] ∨ char_at tail 0 = '\n') :
    dd_lines Ds ++ tail = [] ∨ char_at (dd_lines Ds ++ tail) 0 = '\n' := by
  cases Ds with
  | nil => exact ht
  | cons D Ds => exact Or.inr rfl

theorem not_newline_colon (D : Text) (h : '\n' ∉ D) : '\n' ∉ ':' :: ' ' :: D := by
  intro e
  rcases List.mem_cons.mp e with e | e
  · exact absurd e (by decide)
  · rcases List.mem_cons.mp e with e | e
    · exact absurd e (by decide)
    · exact h e

/-- Inside a list, the definition lines `: D1` .. `: Dn` write one `<dd>` line
each, in order, when these fit. -/
theorem dl_run_dd_lines (render : Text → Option Text) :
    ∀ (Ds : List Text) (out : Text) (rem : Nat) (tail : Text),
      (∀ D ∈ Ds, '\n' ∉ D) → (tail = [] ∨ char_at tail 0 = '\n') →
      (dd_html render Ds).length < rem →
      dl_run render (DlState.in_list out rem) ((dd_lines Ds ++ tail).drop 1)
        = dl_run render
            (DlState.in_list (out ++ dd_html render Ds) (rem - (dd_html render Ds).length))
            (tail.drop 1) := by
  intro Ds
  induction Ds with
  | nil =>
    intro out rem tail _ _ _
    simp [dd_lines, dd_html]
  | cons D Ds ih =>
    intro out rem tail hD ht hrem
    have hlen : (dd_html render (D :: Ds)).length
        = (dd_text render D).length + 10 + (dd_html render Ds).length := by
      simp [dd_html]
      omega
    rw [hlen] at hrem ⊢
    have e1 : (dd_lines (D :: Ds) ++ tail).drop 1
        = (':' :: ' ' :: D) ++ (dd_lines Ds ++ tail) := by
      simp [dd_lines]
    rw [e1, dl_run_line render _ _ _ (not_newline_colon D (hD D (by simp))) (by simp)
      (dd_lines_tail Ds tail ht)]
    rw [dl_line_next_definition render out rem D _ _ (by omega)]
    rw [ih _ _ tail (fun x hx => hD x (by simp [hx])) ht (by omega)]
    have e2 : out ++ ("<dd>".toList ++ dd_text render D ++ "</dd>\n".toList) ++ dd_html render Ds
        = out ++ dd_html render (D :: Ds) := by
      simp [dd_html]
    have e3 : rem - ((dd_text render D).length + 10) - (dd_html render Ds).length
        = rem - ((dd_text render D).length + 10 + (dd_html render Ds).length) := by omega
    rw [e2, e3]

/-- With the term `T` buffered, the definition lines `: D1` .. `: Dn` (n >= 1)
open one list, write the term and one `<dd>` line each, when these fit. -/
theorem dl_run_definitions (render : Text → Option Text) (T D : Text) (Ds : List Text)
    (out : Text) (rem : Nat) (tail : Text) (hT : T ≠ [])
    (hD : ∀ x ∈ D :: Ds, '\n' ∉ x) (ht : tail = [] ∨ char_at tail 0 = '\n')
    (hrem : (inline_html render T).length + 15 + (dd_html render (D :: Ds)).length < rem) :
    dl_run render (DlState.with_term out rem T) ((dd_lines (D :: Ds) ++ tail).drop 1)
      = dl_run render
          (DlState.in_list
            (out ++ ("<dl>\n<dt>".toList ++ inline_html render T ++ "</dt>\n".toList ++
              dd_html render (D :: Ds)))
            (rem - ((inline_html render T).length + 15 + (dd_html render (D :: Ds)).length)))
          (tail.drop 1) := by
  have hlen : (dd_html render (D :: Ds)).length
      = (dd_text render D).length + 10 + (dd_html render Ds).length := by
    simp [dd_html]
    omega
  rw [hlen] at hrem ⊢
  have e1 : (dd_lines (D :: Ds) ++ tail).drop 1
      = (':' :: ' ' :: D) ++ (dd_lines Ds ++ tail) := by
    simp [dd_lines]
  rw [e1, dl_run_line render _ _ _ (not_newline_colon D (hD D (by simp))) (by simp)
    (dd_lines_tail Ds tail ht)]
  rw [dl_line_first_definition render out rem T D _ _ hT (by omega)]
  rw [dl_run_dd_lines render Ds _ _ tail (fun x hx => hD x (by simp [hx])) ht (by omega)]
  have e2 : out ++ ("<dl>\n<dt>".toList ++ inline_html render T ++ "</dt>\n".toList ++
        ("<dd>".toList ++ dd_text render D ++ "</dd>\n".toList)) ++ dd_html render Ds
      = out ++ ("<dl>\n<dt>".toList ++ inline_html render T ++ "</dt>\n".toList ++
        dd_html render (D :: Ds)) := by
    simp [dd_html]
  have e3 : rem - ((inline_html render T).length + (dd_text render D).length + 25)
        - (dd_html render Ds).length
      = rem - ((inline_html render T).length + 15
        + ((dd_text render D).length + 10 + (dd_html render Ds).length)) := by omega
  rw [e2, e3]

theorem list_html_length (render : Text → Option Text) (T : Text) (Ds : List Text) :
    (list_html render T Ds).length
      = (inline_html render T).length + 15 + (dd_html render Ds).length := by
  simp [list_html]
  omega

/-- Outside a list, a plain term line and the definition lines behind it. -/
theorem dl_run_list (render : Text → Option Text) (T D : Text) (Ds : List Text)
    (out : Text) (rem : Nat) (tail : Text) (hT : is_plain_term T = true)
    (hial : strstr (T ++ (dd_lines (D :: Ds) ++ tail)) "\x7b:".toList = none)
    (hD : ∀ x ∈ D :: Ds, '\n' ∉ x) (ht : tail = [] ∨ char_at tail 0 = '\n')
    (hrem : (list_html render T (D :: Ds)).length < rem) :
    dl_run render (DlState.idle out rem) (T ++ (dd_lines (D :: Ds) ++ tail))
      = dl_run render
          (DlState.in_list (out ++ list_html render T (D :: Ds))
            (rem - (list_html render T (D :: Ds)).length))
          (tail.drop 1) := by
  obtain ⟨hnl, hne, _⟩ := (is_plain_term_iff T).mp hT
  rw [list_html_length] at hrem ⊢
  rw [dl_run_line render _ T (dd_lines (D :: Ds) ++ tail) hnl (by simp [hne]) (Or.inr rfl),
    dl_line_term render out rem T _ _ hT hial,
    dl_run_definitions render T D Ds out rem tail hne hD ht hrem]
  rfl

/-- Inside a list, a plain term line closes the list; the definition lines
behind it open a new one. -/
theorem dl_run_list_after_list (render : Text → Option Text) (T D : Text) (Ds : List Text)
    (out : Text) (rem : Nat) (tail : Text) (hT : is_plain_term T = true)
    (hial : strstr (T ++ (dd_lines (D :: Ds) ++ tail)) "\x7b:".toList = none)
    (hD : ∀ x ∈ D :: Ds, '\n' ∉ x) (ht : tail = [] ∨ char_at tail 0 = '\n')
    (hrem : (list_html render T (D :: Ds)).length + 7 < rem) :
    dl_run render (DlState.in_list out rem) (T ++ (dd_lines (D :: Ds) ++ tail))
      = dl_run render
          (DlState.in_list (out ++ "</dl>\n\n".toList ++ list_html render T (D :: Ds))
            (rem - 7 - (list_html render T (D :: Ds)).length))
          (tail.drop 1) := by
  obtain ⟨hnl, hne, _⟩ := (is_plain_term_iff T).mp hT
  rw [list_html_length] at hrem ⊢
  rw [dl_run_line render _ T (dd_lines (D :: Ds) ++ tail) hnl (by simp [hne]) (Or.inr rfl),
    dl_line_term_after_list render out rem T _ _ hT hial (by omega),
    dl_run_definitions render T D Ds _ _ tail hne hD ht (by omega)]
  rfl

theorem apex_process_definition_lists_eq (render : Text → Option Text) (text : Text) :
    apex_process_definition_lists render text
      = (dl_finish (dl_run render (DlState.idle [] (text.length * 3)) text)).out := rfl

/-- The rendering of a text that the renderer wraps in one paragraph is the
text itself. -/
theorem inline_html_plain (render : Text → Option Text) (t : Text)
    (h : render t = some ("<p>".toList ++ t ++ "</p>\n".toList)) : inline_html render t = t := by
  unfold inline_html
  split_ifs with h0
  · rw [h]
    have e1 : ("<p>".toList ++ t ++ "</p>\n".toList).take 3 = "<p>".toList := by
      simp
    have e2 : ("<p>".toList ++ t ++ "</p>\n".toList).drop 3 = t ++ "</p>\n".toList := by
      simp
    have e3 : (t ++ "</p>\n".toList).length - 5 = t.length := by
      simp
    simp only [strip_p, e1, e2, e3, if_true, List.drop_left, List.take_left]
    simp
  · rfl

theorem emit_out (s : DlState) (piece : Text) : s.out <+: (emit s piece).out := by
  unfold emit
  split_ifs
  · exact List.prefix_append _ _
  · exact List.prefix_refl _

theorem emit_nl_out (s : DlState) : s.out <+: (emit_nl s).out := by
  unfold emit_nl
  split_ifs
  · exact List.prefix_append _ _
  · exact List.prefix_refl _

theorem emit_quote_loop_out (n : Nat) : ∀ s : DlState, s.out <+: (emit_quote_loop n s).out := by
  induction n with
  | zero => intro s; exact List.prefix_refl _
  | succ n ih =>
    intro s
    unfold emit_quote_loop
    split_ifs
    · exact List.IsPrefix.trans (List.prefix_append _ ['>', ' '])
        (ih { s with out := s.out ++ ['>', ' '], remaining := s.remaining - 2 })
    · exact List.prefix_refl _

theorem emit_quote_out (s : DlState) : s.out <+: (emit_quote s).out := by
  unfold emit_quote
  split_ifs
  · exact emit_quote_loop_out _ s
  · exact List.prefix_refl _

theorem emit_list_tag_out (s : DlState) (tag : Text) : s.out <+: (emit_list_tag s tag).out := by
  unfold emit_list_tag
  split_ifs
  · exact List.IsPrefix.trans (emit_quote_loop_out _ s) (emit_out _ _)
  · exact emit_out _ _

theorem dl_term_out (render : Text → Option Text) (a : DlState) :
    a.out <+: (dl_term render a).out := by
  unfold dl_term
  by_cases h : a.term.length > 0
  · rw [if_pos h]
    exact List.IsPrefix.trans (emit_quote_out a)
      (List.IsPrefix.trans (emit_out _ _) (List.IsPrefix.trans (emit_out _ _) (emit_out _ _)))
  · rw [if_neg h]

/-- A definition line outside a list first writes the blockquote prefix and
`<dl>`; everything else it writes comes behind. -/
theorem dl_definition_opens (render : Text → Option Text) (s : DlState) (p : Text) (depth : Nat)
    (h : s.in_def_list = false) :
    (dl_open s depth).out <+: (dl_definition render s p depth).out := by
  have e : dl_definition render s p depth
      = emit (emit (emit (emit_quote { dl_term render (dl_open s depth) with in_def_list := true })
          "<dd>".toList) (inline_html render ((p.drop 1).dropWhile is_space_tab)))
          "</dd>\n".toList := by
    unfold dl_definition
    rw [h]
    rfl
  rw [e]
  have h1 : (dl_open s depth).out
      <+: ({ dl_term render (dl_open s depth) with in_def_list := true } : DlState).out :=
    dl_term_out render _
  exact List.IsPrefix.trans h1
    (List.IsPrefix.trans (emit_quote_out _)
      (List.IsPrefix.trans (emit_out _ _) (List.IsPrefix.trans (emit_out _ _) (emit_out _ _))))

theorem dl_finish_out (s : DlState) : s.out <+: (dl_finish s).out := by
  have h2 : ∀ a : DlState,
      a.out <+: (if a.term.length > 0 then emit_nl (emit a a.term) else a).out := by
    intro a
    by_cases h : a.term.length > 0
    · rw [if_pos h]
      exact List.IsPrefix.trans (emit_out _ _) (emit_nl_out _)
    · rw [if_neg h]
  unfold dl_finish
  by_cases h : s.in_def_list = true
  · simp only [h, if_true]
    exact List.IsPrefix.trans (emit_list_tag_out _ _) (h2 _)
  · simp only [h, if_false]
    exact h2 _

theorem quoted_term_output_head (render : Text → Option Text) :
    "> <dl>\n".toList
      <+: apex_process_definition_lists render "> Term\n: A definition that is long".toList := by
  have htext : "> Term\n: A definition that is long".toList
      = "> Term".toList ++ ('\n' :: ':' :: ' ' :: "A definition that is long".toList) := by
    decide
  rw [apex_process_definition_lists_eq, htext,
    dl_run_line render _ "> Term".toList
      ('\n' :: ':' :: ' ' :: "A definition that is long".toList) (by decide) (by decide)
      (Or.inr rfl)]
  have h1 : dl_line render
      (DlState.idle []
        (("> Term".toList ++ ('\n' :: ':' :: ' ' :: "A definition that is long".toList)).length * 3))
      "> Term".toList
      (decide (('\n' :: ':' :: ' ' :: "A definition that is long".toList) ≠ []))
      ("> Term".toList ++ ('\n' :: ':' :: ' ' :: "A definition that is long".toList))
      = ⟨[], 102, false, false, 0, "> Term".toList, true, 1⟩ := by
    rfl
  rw [h1, List.drop_succ_cons, List.drop_zero,
    ← List.append_nil (':' :: ' ' :: "A definition that is long".toList),
    dl_run_line render _ (':' :: ' ' :: "A definition that is long".toList) [] (by decide)
      (by decide) (Or.inl rfl), List.drop_nil, dl_run_nil]
  simp only [dl_line, is_def_line_colon, if_true, quote_scan_colon]
  refine List.IsPrefix.trans ?_ (dl_finish_out _)
  refine List.IsPrefix.trans ?_ (dl_definition_opens render _ _ _ rfl)
  exact List.prefix_refl _

theorem quote_marks_length (n : Nat) : (quote_marks n).length = 2 * n := by
  induction n with
  | zero => rfl
  | succ n ih => simp [quote_marks, ih]; omega

theorem strip_quote_marks (n : Nat) :
    ∀ (fuel : Nat) (T : Text), n < fuel → char_at T 0 ≠ '>' →
      strip_quote fuel (quote_marks n ++ T) = (n, T) := by
  induction n with
  | zero =>
    intro fuel T hf hT
    cases fuel with
    | zero => omega
    | succ k =>
      cases T with
      | nil => rfl
      | cons x xs =>
        have hx : x ≠ '>' := hT
        simp [quote_marks, strip_quote, hx]
  | succ n ih =>
    intro fuel T hf hT
    cases fuel with
    | zero => omega
    | succ k =>
      have h := ih k T (by omega) hT
      simp [quote_marks, strip_quote, is_space_tab, h]

theorem quote_scan_marks (n : Nat) (T : Text) (h1 : char_at T 0 ≠ '>')
    (h2 : char_at T 0 ≠ ' ') (hne : T ≠ []) :
    quote_scan (quote_marks n ++ T) = (n, T) := by
  obtain ⟨x, xs, rfl⟩ := List.exists_cons_of_ne_nil hne
  have hx : x ≠ ' ' := h2
  have hskip : skip_upto (fun c => c = ' ') 3 (quote_marks n ++ x :: xs)
      = quote_marks n ++ x :: xs := by
    cases n with
    | zero => simp [quote_marks, skip_upto, hx]
    | succ m => simp [quote_marks, skip_upto]
  unfold quote_scan
  rw [hskip]
  apply strip_quote_marks n _ _ _ h1
  rw [List.length_append, quote_marks_length, List.length_cons]
  omega

theorem emit_quote_loop_fits (n : Nat) :
    ∀ s : DlState, 2 * n ≤ s.remaining →
      emit_quote_loop n s
        = { s with out := s.out ++ quote_marks n, remaining := s.remaining - 2 * n } := by
  induction n with
  | zero =>
    intro s _
    simp [emit_quote_loop, quote_marks]
  | succ n ih =>
    intro s h
    have h2 : s.remaining ≥ 2 := by omega
    unfold emit_quote_loop
    rw [if_pos h2, ih _ (by simp only []; omega)]
    simp [quote_marks]
    omega

theorem is_term_text_iff (T : Text) :
    is_term_text T = true ↔
      '\n' ∉ T ∧ T ≠ [] ∧ char_at T 0 ≠ '>' ∧ char_at T 0 ≠ ' ' ∧ char_at T 0 ≠ '\t' ∧
        is_header T = false ∧
        (match T with
          | c :: y :: _ => c = ':' && is_space_tab y
          | _ => false) = false := by
  cases T with
  | nil => simp [is_term_text]
  | cons c cs =>
    simp [is_term_text, char_at, is_header, and_assoc]

theorem is_table_row_quoted (l : Text) : is_table_row ('>' :: l) = false := by
  simp [is_table_row, is_space_tab]

theorem is_list_item_quoted (l : Text) : is_list_item ('>' :: l) = false := by
  simp [is_list_item, skip_upto, is_space_tab, isdigit]

theorem quote_marks_succ_append (m : Nat) (T : Text) :
    quote_marks (m + 1) ++ T = '>' :: ' ' :: (quote_marks m ++ T) := rfl

theorem dropWhile_quote_marks (n : Nat) (T : Text) (h1 : char_at T 0 ≠ '>')
    (h2 : char_at T 0 ≠ ' ') (h3 : char_at T 0 ≠ '\t') :
    (quote_marks n ++ T).dropWhile (fun x => x = '>' || x = ' ' || x = '\t') = T := by
  induction n with
  | zero =>
    cases T with
    | nil => rfl
    | cons x xs =>
      have hx1 : x ≠ '>' := h1
      have hx2 : x ≠ ' ' := h2
      have hx3 : x ≠ '\t' := h3
      simp [quote_marks, List.dropWhile, hx1, hx2, hx3]
  | succ n ih =>
    simp only [quote_marks_succ_append]
    simpa [List.dropWhile] using ih

theorem not_newline_quote_marks (n : Nat) (l : Text) (h : '\n' ∉ l) :
    '\n' ∉ quote_marks n ++ l := by
  induction n with
  | zero => exact h
  | succ n ih =>
    rw [quote_marks_succ_append]
    intro e
    rcases List.mem_cons.mp e with e | e
    · exact absurd e (by decide)
    · rcases List.mem_cons.mp e with e | e
      · exact absurd e (by decide)
      · exact ih e

theorem dl_line_quoted_term (render : Text → Option Text) (out : Text) (rem : Nat) (n : Nat)
    (T from_line : Text) (terminated : Bool) (hn : 1 ≤ n)
    (hT : is_term_text T = true) (hlen : (quote_marks n ++ T).length < 4095)
    (hs : strstr from_line "\x7b:".toList = none) :
    dl_line render (DlState.idle out rem) (quote_marks n ++ T) terminated from_line
      = DlState.quoted_term out rem n (quote_marks n ++ T) := by
  obtain ⟨_, hne, h1, h2, h3, hh, hd⟩ := (is_term_text_iff T).mp hT
  obtain ⟨m, rfl⟩ : ∃ m, n = m + 1 := ⟨n - 1, by omega⟩
  have hq := quote_scan_marks (m + 1) T h1 h2 hne
  have hsq : strip_quote (quote_marks (m + 1) ++ T).length
      ((quote_marks (m + 1) ++ T).dropWhile is_space_tab) = (m + 1, T) := by
    have e : (quote_marks (m + 1) ++ T).dropWhile is_space_tab = quote_marks (m + 1) ++ T := by
      rw [quote_marks_succ_append]
      simp [List.dropWhile, is_space_tab]
    rw [e]
    apply strip_quote_marks (m + 1) _ _ _ h1
    rw [List.length_append, quote_marks_length]
    have := List.length_pos.mpr hne
    omega
  have hdl : is_def_line (quote_marks (m + 1) ++ T) = false := by
    simp only [is_def_line, hq]
    rcases T with _ | ⟨c, _ | ⟨y, t⟩⟩
    · simp
    · simp
    · have hd2 : (decide (c = ':') && is_space_tab y) = false := hd
      simp only [hd2, Bool.and_false]
  have hs2 : (strstr from_line ['\x7b', ':']).isSome = false := by
    rw [show ['\x7b', ':'] = "\x7b:".toList from rfl, hs]
    rfl
  have hnb : ¬ ((quote_marks (m + 1) ++ T = [] || quote_marks (m + 1) ++ T = ['\r']) = true) := by
    rw [quote_marks_succ_append]
    simp
  unfold dl_line
  rw [hdl]
  simp only [Bool.false_eq_true, if_false]
  rw [if_neg hnb, hq]
  unfold dl_regular
  rw [hsq]
  have ht : is_table_row (quote_marks (m + 1) ++ T) = false := is_table_row_quoted _
  have hl : is_list_item (quote_marks (m + 1) ++ T) = false := is_list_item_quoted _
  have hlen2 : ¬ 4095 ≤ (quote_marks (m + 1)).length + T.length := by
    rw [List.length_append] at hlen
    omega
  simp [DlState.idle, DlState.quoted_term, flush_term, ht, hl, hh, hs2, hlen2]

theorem is_def_line_quoted (n : Nat) (D : Text) (hn : 1 ≤ n) :
    quote_scan (quote_marks n ++ ':' :: ' ' :: D) = (n, ':' :: ' ' :: D) ∧
    is_def_line (quote_marks n ++ ':' :: ' ' :: D) = true := by
  have hq := quote_scan_marks n (':' :: ' ' :: D)
    (show (':' : Char) ≠ '>' by decide) (show (':' : Char) ≠ ' ' by decide) (by simp)
  refine ⟨hq, ?_⟩
  obtain ⟨m, rfl⟩ : ∃ m, n = m + 1 := ⟨n - 1, by omega⟩
  simp only [is_def_line, hq]
  rw [quote_marks_succ_append, is_table_row_quoted, is_list_item_quoted]
  simp [is_space_tab]

theorem dl_open_quoted (out : Text) (rem : Nat) (n : Nat) (line : Text)
    (h : 2 * n + 5 < rem) :
    dl_open (DlState.quoted_term out rem n line) n
      = ⟨out ++ (quote_marks n ++ "<dl>\n".toList), rem - (2 * n + 5), false, true, n, line,
          true, n⟩ := by
  have h1 : 5 < rem := by omega
  have h2 : 5 < rem - 2 * n := by omega
  simp only [dl_open, DlState.quoted_term, emit_list_tag, if_true, Bool.or_true, Bool.true_and,
    gt_iff_lt, lt_self_iff_false, decide_False, Bool.and_false, Bool.false_eq_true, if_false]
  have e5 : "<dl>\n".toList.length = 5 := rfl
  rw [e5]
  simp only [h1, decide_True, if_true]
  rw [emit_quote_loop_fits n _ (by simp only []; omega)]
  simp [emit, h2]
  omega

theorem dl_term_quoted (render : Text → Option Text) (out : Text) (rem : Nat) (n : Nat)
    (T : Text) (hT : is_term_text T = true)
    (h : 2 * n + 10 + (inline_html render T).length < rem) :
    dl_term render ⟨out, rem, false, true, n, quote_marks n ++ T, true, n⟩
      = ⟨out ++ (quote_marks n ++ ("<dt>".toList ++ inline_html render T ++ "</dt>\n".toList)),
          rem - (2 * n + 10 + (inline_html render T).length), false, true, n, [], false, n⟩ := by
  obtain ⟨_, hne, h1, h2, h3, _, _⟩ := (is_term_text_iff T).mp hT
  have hlen : (quote_marks n ++ T).length > 0 := by
    rw [List.length_append]
    have := List.length_pos.mpr hne
    omega
  have e1 : 4 < rem - 2 * n := by omega
  have e2 : (inline_html render T).length < rem - 2 * n - 4 := by omega
  have e3 : 6 < rem - 2 * n - 4 - (inline_html render T).length := by omega
  simp only [dl_term, hlen, if_true, dropWhile_quote_marks n T h1 h2 h3, emit_quote]
  rw [emit_quote_loop_fits n _ (by simp only []; omega)]
  simp [emit, e1, e2, e3]
  omega

theorem dl_dd_quoted (render : Text → Option Text) (out : Text) (rem : Nat) (n : Nat)
    (D : Text) (h : 2 * n + 10 + (dd_text render D).length < rem) :
    emit (emit (emit (emit_quote ⟨out, rem, true, true, n, [], false, n⟩) "<dd>".toList)
        (inline_html render (((':' :: ' ' :: D).drop 1).dropWhile is_space_tab)))
        "</dd>\n".toList
      = DlState.in_quoted_list
          (out ++ (quote_marks n ++ ("<dd>".toList ++ dd_text render D ++ "</dd>\n".toList)))
          (rem - (2 * n + 10 + (dd_text render D).length)) n := by
  have h0 : 2 * n + 10 + (inline_html render (D.dropWhile is_space_tab)).length < rem := h
  have e1 : 4 < rem - 2 * n := by omega
  have e2 : (inline_html render (D.dropWhile is_space_tab)).length < rem - 2 * n - 4 := by omega
  have e3 : 6 < rem - 2 * n - 4 - (inline_html render (D.dropWhile is_space_tab)).length := by
    omega
  unfold emit_quote
  simp only [if_true]
  rw [emit_quote_loop_fits n _ (by simp only []; omega)]
  simp [emit, dd_text, is_space_tab, DlState.in_quoted_list, e1, e2, e3]
  omega

theorem dl_line_quoted_first_definition (render : Text → Option Text) (out : Text) (rem : Nat)
    (n : Nat) (T D from_line : Text) (terminated : Bool) (hn : 1 ≤ n)
    (hT : is_term_text T = true)
    (h : 6 * n + 25 + (inline_html render T).length + (dd_text render D).length < rem) :
    dl_line render (DlState.quoted_term out rem n (quote_marks n ++ T))
        (quote_marks n ++ ':' :: ' ' :: D) terminated from_line
      = DlState.in_quoted_list
          (out ++ (quote_marks n ++ "<dl>\n".toList ++
            (quote_marks n ++ ("<dt>".toList ++ inline_html render T ++ "</dt>\n".toList)) ++
            (quote_marks n ++ ("<dd>".toList ++ dd_text render D ++ "</dd>\n".toList))))
          (rem - (6 * n + 25 + (inline_html render T).length + (dd_text render D).length)) n := by
  obtain ⟨hq, hd⟩ := is_def_line_quoted n D hn
  unfold dl_line
  rw [hd, hq]
  simp only [if_true]
  unfold dl_definition
  have hin : (DlState.quoted_term out rem n (quote_marks n ++ T)).in_def_list = false := rfl
  simp only [hin, Bool.not_false, if_true]
  rw [dl_open_quoted out rem n _ (by omega), dl_term_quoted render _ _ n T hT (by omega)]
  simp only []
  rw [dl_dd_quoted render _ _ n D (by omega)]
  congr 1
  · simp
  · omega

theorem dl_line_quoted_next_definition (render : Text → Option Text) (out : Text) (rem : Nat)
    (n : Nat) (D from_line : Text) (terminated : Bool) (hn : 1 ≤ n)
    (h : 2 * n + 10 + (dd_text render D).length < rem) :
    dl_line render (DlState.in_quoted_list out rem n)
        (quote_marks n ++ ':' :: ' ' :: D) terminated from_line
      = DlState.in_quoted_list
          (out ++ (quote_marks n ++ ("<dd>".toList ++ dd_text render D ++ "</dd>\n".toList)))
          (rem - (2 * n + 10 + (dd_text render D).length)) n := by
  obtain ⟨hq, hd⟩ := is_def_line_quoted n D hn
  unfold dl_line
  rw [hd, hq]
  simp only [if_true]
  unfold dl_definition
  have hin : (DlState.in_quoted_list out rem n).in_def_list = true := rfl
  simp only [hin, Bool.not_true, Bool.false_eq_true, if_false]
  exact dl_dd_quoted render out rem n D h

theorem dl_finish_in_quoted_list (out : Text) (rem : Nat) (n : Nat) (h : 2 * n + 6 < rem) :
    (dl_finish (DlState.in_quoted_list out rem n)).out
      = out ++ (quote_marks n ++ "</dl>\n".toList) := by
  have h1 : 6 < rem := by omega
  have h2 : 6 < rem - 2 * n := by omega
  have e6 : "</dl>\n".toList.length = 6 := rfl
  simp only [dl_finish, DlState.in_quoted_list, if_true, emit_list_tag, Bool.true_and, e6, h1,
    decide_True]
  rw [emit_quote_loop_fits n _ (by simp only []; omega)]
  simp [emit, h2]

theorem quoted_dd_lines_tail (n : Nat) (Ds : List Text) (tail : Text)
    (ht : tail = [] ∨ char_at tail 0 = '\n') :
    quoted_dd_lines n Ds ++ tail = [] ∨ char_at (quoted_dd_lines n Ds ++ tail) 0 = '\n' := by
  cases Ds with
  | nil => exact ht
  | cons D Ds => exact Or.inr rfl

theorem quoted_dd_html_cons_length (render : Text → Option Text) (n : Nat) (D : Text)
    (Ds : List Text) :
    (quoted_dd_html render n (D :: Ds)).length
      = 2 * n + 10 + (dd_text render D).length + (quoted_dd_html render n Ds).length := by
  simp [quoted_dd_html, quote_marks_length]
  omega

/-- Inside a list in a blockquote, the definition lines write one `<dd>` line
each behind the prefix, in order, when these fit. -/
theorem dl_run_quoted_dd_lines (render : Text → Option Text) (n : Nat) (hn : 1 ≤ n) :
    ∀ (Ds : List Text) (out : Text) (rem : Nat) (tail : Text),
      (∀ D ∈ Ds, '\n' ∉ D) → (tail = [] ∨ char_at tail 0 = '\n') →
      (quoted_dd_html render n Ds).length < rem →
      dl_run render (DlState.in_quoted_list out rem n) ((quoted_dd_lines n Ds ++ tail).drop 1)
        = dl_run render
            (DlState.in_quoted_list (out ++ quoted_dd_html render n Ds)
              (rem - (quoted_dd_html render n Ds).length) n)
            (tail.drop 1) := by
  intro Ds
  induction Ds with
  | nil =>
    intro out rem tail _ _ _
    simp [quoted_dd_lines, quoted_dd_html]
  | cons D Ds ih =>
    intro out rem tail hD ht hrem
    rw [quoted_dd_html_cons_length] at hrem ⊢
    have e1 : (quoted_dd_lines n (D :: Ds) ++ tail).drop 1
        = (quote_marks n ++ ':' :: ' ' :: D) ++ (quoted_dd_lines n Ds ++ tail) := by
      simp [quoted_dd_lines]
    rw [e1, dl_run_line render _ _ _
      (not_newline_quote_marks n _ (not_newline_colon D (hD D (by simp)))) (by simp)
      (quoted_dd_lines_tail n Ds tail ht)]
    rw [dl_line_quoted_next_definition render out rem n D _ _ hn (by omega)]
    rw [ih _ _ tail (fun x hx => hD x (by simp [hx])) ht (by omega)]
    have e2 : out ++ (quote_marks n ++ ("<dd>".toList ++ dd_text render D ++ "</dd>\n".toList))
          ++ quoted_dd_html render n Ds
        = out ++ quoted_dd_html render n (D :: Ds) := by
      simp [quoted_dd_html]
    have e3 : rem - (2 * n + 10 + (dd_text render D).length)
          - (quoted_dd_html render n Ds).length
        = rem - (2 * n + 10 + (dd_text render D).length
            + (quoted_dd_html render n Ds).length) := by omega
    rw [e2, e3]

theorem quoted_list_html_length (render : Text → Option Text) (n : Nat) (T : Text)
    (Ds : List Text) :
    (quoted_list_html render n T Ds).length
      = 4 * n + 15 + (inline_html render T).length + (quoted_dd_html render n Ds).length := by
  simp [quoted_list_html, quote_marks_length]
  omega

/-- Outside a list, a term line behind a blockquote prefix and the definition
lines behind the same prefix. -/
theorem dl_run_quoted_list (render : Text → Option Text) (n : Nat) (T D : Text)
    (Ds : List Text) (out : Text) (rem : Nat) (tail : Text) (hn : 1 ≤ n)
    (hT : is_term_text T = true) (hlen : (quote_marks n ++ T).length < 4095)
    (hial : strstr ((quote_marks n ++ T) ++ (quoted_dd_lines n (D :: Ds) ++ tail))
      "\x7b:".toList = none)
    (hD : ∀ x ∈ D :: Ds, '\n' ∉ x) (ht : tail = [] ∨ char_at tail 0 = '\n')
    (hrem : (quoted_list_html render n T (D :: Ds)).length < rem) :
    dl_run render (DlState.idle out rem)
        ((quote_marks n ++ T) ++ (quoted_dd_lines n (D :: Ds) ++ tail))
      = dl_run render
          (DlState.in_quoted_list (out ++ quoted_list_html render n T (D :: Ds))
            (rem - (quoted_list_html render n T (D :: Ds)).length) n)
          (tail.drop 1) := by
  obtain ⟨hnl, hne, _⟩ := (is_term_text_iff T).mp hT
  rw [quoted_list_html_length, quoted_dd_html_cons_length] at hrem ⊢
  rw [dl_run_line render _ (quote_marks n ++ T) (quoted_dd_lines n (D :: Ds) ++ tail)
      (not_newline_quote_marks n T hnl) (by simp [hne]) (Or.inr rfl),
    dl_line_quoted_term render out rem n T _ _ hn hT hlen hial]
  have e1 : (quoted_dd_lines n (D :: Ds) ++ tail).drop 1
      = (quote_marks n ++ ':' :: ' ' :: D) ++ (quoted_dd_lines n Ds ++ tail) := by
    simp [quoted_dd_lines]
  rw [e1, dl_run_line render _ _ _
    (not_newline_quote_marks n _ (not_newline_colon D (hD D (by simp)))) (by simp)
    (quoted_dd_lines_tail n Ds tail ht)]
  rw [dl_line_quoted_first_definition render out rem n T D _ _ hn hT (by omega)]
  rw [dl_run_quoted_dd_lines render n hn Ds _ _ tail (fun x hx => hD x (by simp [hx])) ht
    (by omega)]
  congr 2
  · simp [quoted_list_html, quoted_dd_html]
  · omega

theorem flush_term_out (s : DlState) : s.out <+: (flush_term s).out := by
  unfold flush_term
  by_cases h : s.term.length > 0
  · rw [if_pos h]
    exact List.IsPrefix.trans (emit_out _ _) (emit_nl_out _)
  · rw [if_neg h]

theorem write_through_out (s : DlState) (line : Text) (terminated : Bool) :
    s.out <+: (write_through s line terminated).out := by
  unfold write_through
  cases terminated with
  | true => exact List.IsPrefix.trans (emit_out _ _) (emit_nl_out _)
  | false => exact emit_out _ _

theorem dl_blank_out (s : DlState) : s.out <+: (dl_blank s).out := by
  unfold dl_blank
  by_cases h : s.in_def_list = true
  · rw [if_pos h]
    exact emit_list_tag_out _ _
  · rw [if_neg h]
    exact List.IsPrefix.trans (flush_term_out _) (emit_nl_out _)

theorem dl_regular_out (s : DlState) (line : Text) (terminated : Bool) (from_line p : Text) :
    s.out <+: (dl_regular s line terminated from_line p).out := by
  have h1 : s.out <+: (if s.in_def_list = true then
      ({ emit_list_tag s "</dl>\n\n".toList with
        in_def_list := false, in_blockquote_context := false, blockquote_depth := 0 } : DlState)
      else s).out := by
    by_cases h : s.in_def_list = true
    · rw [if_pos h]
      exact emit_list_tag_out _ _
    · rw [if_neg h]
  have key : ∀ s2 : DlState, s2.out <+: DlState.out
      (if is_table_row line = true then write_through s2 line terminated
        else if is_list_item line = true then write_through s2 line terminated
        else if (strstr from_line "\x7b:".toList).isSome = true then
          write_through s2 line terminated
        else if is_header p = true then write_through s2 line terminated
        else if line.length < 4095 then
          (DlState.mk s2.out s2.remaining s2.in_def_list s2.in_blockquote_context
            s2.blockquote_depth line
            (decide ((strip_quote line.length (line.dropWhile is_space_tab)).1 > 0))
            (strip_quote line.length (line.dropWhile is_space_tab)).1)
        else write_through s2 line terminated) := by
    intro s2
    split_ifs
    · exact write_through_out _ _ _
    · exact write_through_out _ _ _
    · exact write_through_out _ _ _
    · exact write_through_out _ _ _
    · exact List.prefix_refl _
    · exact write_through_out _ _ _
  exact List.IsPrefix.trans h1 (List.IsPrefix.trans (flush_term_out _) (key _))

theorem dl_open_out (s : DlState) (depth : Nat) : s.out <+: (dl_open s depth).out :=
  emit_list_tag_out
    { s with
      in_blockquote_context := decide (depth > 0) || s.term_has_blockquote,
      blockquote_depth :=
        if decide (depth > 0) && decide (depth >
            (if s.term_has_blockquote then s.term_blockquote_depth else depth)) then depth
        else (if s.term_has_blockquote then s.term_blockquote_depth else depth) }
    "<dl>\n".toList

theorem dl_definition_out (render : Text → Option Text) (s : DlState) (p : Text) (depth : Nat) :
    s.out <+: (dl_definition render s p depth).out := by
  by_cases h : s.in_def_list = true
  · have e : dl_definition render s p depth
        = emit (emit (emit (emit_quote s) "<dd>".toList)
            (inline_html render ((p.drop 1).dropWhile is_space_tab))) "</dd>\n".toList := by
      unfold dl_definition
      rw [h]
      rfl
    rw [e]
    exact List.IsPrefix.trans (emit_quote_out _)
      (List.IsPrefix.trans (emit_out _ _) (List.IsPrefix.trans (emit_out _ _) (emit_out _ _)))
  · have h2 : s.in_def_list = false := by simpa using h
    exact List.IsPrefix.trans (dl_open_out s depth) (dl_definition_opens render s p depth h2)

theorem dl_line_out (render : Text → Option Text) (s : DlState) (line : Text)
    (terminated : Bool) (from_line : Text) :
    s.out <+: (dl_line render s line terminated from_line).out := by
  unfold dl_line
  split_ifs
  · exact dl_definition_out _ _ _ _
  · exact dl_blank_out _
  · exact dl_regular_out _ _ _ _ _

/-- The loop only appends: what is written stays at the front of the output. -/
theorem dl_loop_out (render : Text → Option Text) (fuel : Nat) :
    ∀ (s : DlState) (text : Text), s.out <+: (dl_loop render fuel s text).out := by
  induction fuel with
  | zero => intro s text; exact List.prefix_refl _
  | succ n ih =>
    intro s text
    cases text with
    | nil => exact List.prefix_refl _
    | cons c cs =>
      simp only [dl_loop]
      exact List.IsPrefix.trans (dl_line_out _ _ _ _ _) (ih _ _)

theorem dl_run_out (render : Text → Option Text) (s : DlState) (text : Text) :
    s.out <+: (dl_run render s text).out :=
  dl_loop_out render _ s text

/-- The line `Term` in front of a definition line is written through, in front
of `<dl>`, when a later line holds `{:`. -/
theorem term_before_ial_output_head (render : Text → Option Text) :
    "Term\n<dl>\n".toList
      <+: apex_process_definition_lists render
        "Term\n: Definition\n\nLater paragraph\n\x7b: .cls\x7d".toList := by
  have htext : "Term\n: Definition\n\nLater paragraph\n\x7b: .cls\x7d".toList
      = "Term".toList ++ ('\n' :: ((':' :: ' ' :: "Definition".toList) ++
          "\n\nLater paragraph\n\x7b: .cls\x7d".toList)) := by
    decide
  rw [apex_process_definition_lists_eq, htext,
    dl_run_line render _ "Term".toList
      ('\n' :: ((':' :: ' ' :: "Definition".toList) ++
          "\n\nLater paragraph\n\x7b: .cls\x7d".toList)) (by decide) (by decide) (Or.inr rfl)]
  have h1 : dl_line render
      (DlState.idle []
        (("Term".toList ++ ('\n' :: ((':' :: ' ' :: "Definition".toList) ++
          "\n\nLater paragraph\n\x7b: .cls\x7d".toList))).length * 3))
      "Term".toList
      (decide (('\n' :: ((':' :: ' ' :: "Definition".toList) ++
          "\n\nLater paragraph\n\x7b: .cls\x7d".toList)) ≠ []))
      ("Term".toList ++ ('\n' :: ((':' :: ' ' :: "Definition".toList) ++
          "\n\nLater paragraph\n\x7b: .cls\x7d".toList)))
      = ⟨"Term\n".toList, 124, false, false, 0, [], false, 0⟩ := by
    rfl
  rw [h1, List.drop_succ_cons, List.drop_zero,
    dl_run_line render _ (':' :: ' ' :: "Definition".toList)
      "\n\nLater paragraph\n\x7b: .cls\x7d".toList (by decide) (by decide) (Or.inr rfl)]
  simp only [dl_line, is_def_line_colon, if_true, quote_scan_colon]
  refine List.IsPrefix.trans ?_ (dl_finish_out _)
  refine List.IsPrefix.trans ?_ (dl_run_out render _ _)
  refine List.IsPrefix.trans ?_ (dl_definition_opens render _ _ _ rfl)
  exact List.prefix_refl _

theorem dl_line_term_after_term (render : Text → Option Text) (out : Text) (rem : Nat)
    (U T from_line : Text) (terminated : Bool) (hU : U ≠ [])
    (hT : is_plain_term T = true) (hs : strstr from_line "\x7b:".toList = none)
    (h : U.length < rem) :
    dl_line render (DlState.with_term out rem U) T terminated from_line
      = DlState.with_term (out ++ (U ++ ['\n'])) (rem - (U.length + 1)) T := by
  obtain ⟨_, hne, hcr, hd, ht, hl, hh, hlen, hq⟩ := (is_plain_term_iff T).mp hT
  have hs2 : (strstr from_line ['\x7b', ':']).isSome = false := by
    rw [show ['\x7b', ':'] = "\x7b:".toList from rfl, hs]
    rfl
  have hU2 : 0 < U.length := List.length_pos.mpr hU
  have h2 : 0 < rem - U.length := by omega
  unfold dl_line
  rw [hd]
  simp only [Bool.false_eq_true, if_false]
  rw [if_neg (by simp [hne, hcr])]
  unfold dl_regular
  simp [DlState.with_term, emit, emit_nl, h, h2, hU2, flush_term, ht, hl, hh, hlen, hq, hs2]
  omega

theorem dl_finish_with_term (out : Text) (rem : Nat) (T : Text) (hT : T ≠ [])
    (h : T.length < rem) :
    (dl_finish (DlState.with_term out rem T)).out = out ++ (T ++ ['\n']) := by
  have hT2 : 0 < T.length := List.length_pos.mpr hT
  have h2 : 0 < rem - T.length := by omega
  simp [dl_finish, DlState.with_term, emit, emit_nl, h, h2, hT2]

/-- A list between two ordinary lines `F1` and `F2`, such as the fence lines of
a code block: the lines are copied and the list between them is written as
anywhere else. -/
theorem dl_run_between_lines (render : Text → Option Text) (F1 T D : Text) (Ds : List Text)
    (F2 tail : Text) (cap : Nat)
    (hF1 : is_plain_term F1 = true) (hT : is_plain_term T = true)
    (hF2 : is_plain_term F2 = true) (hD : ∀ x ∈ D :: Ds, '\n' ∉ x)
    (ht : tail = [] ∨ tail = ['\n'])
    (hial : strstr (F1 ++ '\n' :: (T ++ (dd_lines (D :: Ds) ++ '\n' :: (F2 ++ tail))))
      "\x7b:".toList = none)
    (hfit : F1.length + 1 + (list_html render T (D :: Ds)).length + 7 + F2.length + 1 < cap) :
    (dl_finish (dl_run render (DlState.idle [] cap)
        (F1 ++ '\n' :: (T ++ (dd_lines (D :: Ds) ++ '\n' :: (F2 ++ tail)))))).out
      = F1 ++ ['\n'] ++ list_html render T (D :: Ds) ++ "</dl>\n\n".toList ++ (F2 ++ ['\n']) := by
  obtain ⟨hnl1, hne1, _⟩ := (is_plain_term_iff F1).mp hF1
  obtain ⟨hnlT, hneT, _⟩ := (is_plain_term_iff T).mp hT
  obtain ⟨hnl2, hne2, _⟩ := (is_plain_term_iff F2).mp hF2
  have hialT : strstr (T ++ (dd_lines (D :: Ds) ++ '\n' :: (F2 ++ tail))) "\x7b:".toList
      = none := by
    apply strstr_none_of_append (F1 ++ ['\n'])
    have e : F1 ++ ['\n'] ++ (T ++ (dd_lines (D :: Ds) ++ '\n' :: (F2 ++ tail)))
        = F1 ++ '\n' :: (T ++ (dd_lines (D :: Ds) ++ '\n' :: (F2 ++ tail))) := by simp
    rw [e]
    exact hial
  have hial2 : strstr (F2 ++ tail) "\x7b:".toList = none := by
    apply strstr_none_of_append (T ++ (dd_lines (D :: Ds) ++ ['\n']))
    have e : T ++ (dd_lines (D :: Ds) ++ ['\n']) ++ (F2 ++ tail)
        = T ++ (dd_lines (D :: Ds) ++ '\n' :: (F2 ++ tail)) := by simp
    rw [e]
    exact hialT
  have ht2 : tail = [] ∨ char_at tail 0 = '\n' := by
    rcases ht with ht | ht
    · exact Or.inl ht
    · exact Or.inr (by rw [ht]; rfl)
  have htl : tail.drop 1 = [] := by
    rcases ht with ht | ht <;> rw [ht] <;> rfl
  rw [list_html_length] at hfit
  rw [dl_run_line render _ F1 ('\n' :: (T ++ (dd_lines (D :: Ds) ++ '\n' :: (F2 ++ tail))))
      hnl1 (by simp) (Or.inr rfl),
    dl_line_term render [] cap F1 _ _ hF1 hial, List.drop_succ_cons, List.drop_zero,
    dl_run_line render _ T (dd_lines (D :: Ds) ++ '\n' :: (F2 ++ tail)) hnlT (by simp [hneT])
      (Or.inr rfl),
    dl_line_term_after_term render [] cap F1 T _ _ hne1 hT hialT (by omega),
    dl_run_definitions render T D Ds _ _ ('\n' :: (F2 ++ tail)) hneT hD (Or.inr rfl) (by omega),
    List.drop_succ_cons, List.drop_zero,
    dl_run_line render _ F2 tail hnl2 (by simp [hne2]) ht2,
    dl_line_term_after_list render _ _ F2 _ _ hF2 hial2 (by omega), htl, dl_run_nil,
    dl_finish_with_term _ _ F2 hne2 (by omega)]
  simp [list_html]

/-- The lines between code fences are not left alone: with a fence of three
backticks around `Term` and `: Def`, the pass writes `<dl>` behind the opening
fence, whatever the renderer. -/
theorem fenced_definition_output_head (render : Text → Option Text) :
    "```\n<dl>\n".toList
      <+: apex_process_definition_lists render "```\nTerm\n: Def\n```".toList := by
  have htext : "```\nTerm\n: Def\n```".toList
      = "```".toList ++ ('\n' :: ("Term".toList ++ ('\n' ::
          ((':' :: ' ' :: "Def".toList) ++ "\n```".toList)))) := by
    decide
  rw [apex_process_definition_lists_eq, htext,
    dl_run_line render _ "```".toList
      ('\n' :: ("Term".toList ++ ('\n' :: ((':' :: ' ' :: "Def".toList) ++ "\n```".toList))))
      (by decide) (by decide) (Or.inr rfl),
    dl_line_term render _ _ "```".toList _ _ (by decide) (by decide),
    List.drop_succ_cons, List.drop_zero,
    dl_run_line render _ "Term".toList
      ('\n' :: ((':' :: ' ' :: "Def".toList) ++ "\n```".toList))
      (by decide) (by decide) (Or.inr rfl),
    dl_line_term_after_term render _ _ "```".toList "Term".toList _ _ (by decide) (by decide)
      (by decide) (by decide),
    List.drop_succ_cons, List.drop_zero,
    dl_run_line render _ (':' :: ' ' :: "Def".toList) "\n```".toList (by decide) (by decide)
      (Or.inr rfl)]
  simp only [dl_line, is_def_line_colon, if_true, quote_scan_colon]
  refine List.IsPrefix.trans ?_ (dl_finish_out _)
  refine List.IsPrefix.trans ?_ (dl_run_out render _ _)
  refine List.IsPrefix.trans ?_ (dl_definition_opens render _ _ _ rfl)
  exact List.prefix_refl _

theorem leading_spaces_le (n : Nat) : ∀ l : Text, leading_spaces n l ≤ n := by
  induction n with
  | zero => intro l; simp [leading_spaces]
  | succ n ih =>
    intro l
    cases l with
    | nil => simp [leading_spaces]
    | cons x xs =>
      unfold leading_spaces
      split_ifs
      · have := ih xs
        omega
      · omega

theorem leading_spaces_replicate (n : Nat) :
    ∀ (k : Nat) (c : Char) (r : Text), k ≤ n → c ≠ ' ' →
      leading_spaces n (List.replicate k ' ' ++ c :: r) = k := by
  induction n with
  | zero =>
    intro k c r hk _
    have : k = 0 := by omega
    subst this
    rfl
  | succ n ih =>
    intro k c r hk hc
    cases k with
    | zero => simp [leading_spaces, hc]
    | succ k =>
      simp [List.replicate_succ, leading_spaces, ih k c r (by omega) hc]

theorem leading_spaces_take (n : Nat) :
    ∀ l : Text, l.take (leading_spaces n l) = List.replicate (leading_spaces n l) ' ' := by
  induction n with
  | zero => intro l; simp [leading_spaces]
  | succ n ih =>
    intro l
    cases l with
    | nil => simp [leading_spaces]
    | cons x xs =>
      unfold leading_spaces
      split_ifs with hx
      · rw [List.take_succ_cons, List.replicate_succ, ih xs, hx]
      · simp

theorem char_at_drop (l : Text) (i : Nat) (h : i < l.length) :
    l.drop i = char_at l i :: l.drop (i + 1) := by
  induction l generalizing i with
  | nil => simp at h
  | cons x xs ih =>
    cases i with
    | zero => rfl
    | succ i =>
      simp only [List.drop_succ_cons, char_at_cons_succ]
      exact ih i (by simpa using h)

theorem pending_length_le (s : DlState) : (pending s).length ≤ s.term.length + 1 := by
  unfold pending
  split_ifs <;> simp

theorem flush_term_fits (s : DlState) (h : (pending s).length < s.remaining) :
    (flush_term s).out = s.out ++ pending s ∧
    (flush_term s).remaining = s.remaining - (pending s).length ∧
    (flush_term s).term = [] ∧ (flush_term s).in_def_list = s.in_def_list := by
  unfold flush_term
  unfold pending at h ⊢
  by_cases ht : s.term.length > 0
  · rw [if_pos ht] at h ⊢
    rw [if_pos ht]
    simp only [List.length_append, List.length_singleton] at h
    have h1 : s.term.length < s.remaining := by omega
    rw [emit_fits s s.term h1]
    unfold emit_nl
    simp only
    rw [if_pos (by omega)]
    and_intros <;> (try simp)
    omega
  · rw [if_neg ht, if_neg ht]
    have : s.term = [] := List.length_eq_zero.mp (by omega)
    simp [this]

theorem write_through_fits (s : DlState) (line : Text) (terminated : Bool)
    (h : line.length + 1 < s.remaining) :
    (write_through s line terminated).out
        = s.out ++ line ++ (if terminated then ['\n'] else []) ∧
    (write_through s line terminated).remaining + (write_through s line terminated).out.length
        = s.remaining + s.out.length ∧
    (write_through s line terminated).term = s.term ∧
    (write_through s line terminated).in_def_list = s.in_def_list := by
  unfold write_through
  rw [emit_fits s line (by omega)]
  cases terminated
  · refine ⟨by simp, ?_, rfl, rfl⟩
    simp only [Bool.false_eq_true, if_false, List.length_append]
    omega
  · simp only [if_true]
    unfold emit_nl
    simp only
    rw [if_pos (by omega)]
    refine ⟨rfl, ?_, rfl, rfl⟩
    simp only [List.length_append, List.length_singleton]
    omega

/-- One line that is neither a definition line nor a lone carriage return, read
outside a list with room for it: what is written and buffered afterwards is
what was written and buffered before, followed by the line and its newline. -/
theorem dl_line_passes (render : Text → Option Text) (s : DlState) (l from_line : Text)
    (terminated : Bool) (h1 : s.in_def_list = false) (hd : is_def_line l = false)
    (hcr : l ≠ ['\r']) (ht : l = [] → terminated = true)
    (hroom : (pending s).length + l.length + 1 < s.remaining) :
    (dl_line render s l terminated from_line).in_def_list = false ∧
    (dl_line render s l terminated from_line).remaining +
        (dl_line render s l terminated from_line).out.length = s.remaining + s.out.length ∧
    (dl_line render s l terminated from_line).out ++
        pending (dl_line render s l terminated from_line)
      = s.out ++ pending s ++ l ++
        (if terminated || (decide (l ≠ []) && is_buffered l from_line) then ['\n'] else []) := by
  obtain ⟨f1, f2, f3, f4⟩ := flush_term_fits s (by omega)
  have hp := pending_length_le s
  unfold dl_line
  rw [hd]
  simp only [Bool.false_eq_true, if_false]
  by_cases hl : l = []
  · subst hl
    have htt := ht rfl
    subst htt
    simp only [Bool.or_self, decide_True, Bool.true_or, if_true, List.append_nil]
    unfold dl_blank
    rw [h1]
    simp only [Bool.false_eq_true, if_false]
    unfold emit_nl
    simp only [List.length_nil] at hroom
    rw [if_pos (by rw [f2]; omega)]
    refine ⟨by simp only [f4, h1], ?_, ?_⟩
    · simp only [f1, f2, List.length_append, List.length_singleton]
      omega
    · simp only [f1, pending, f3, List.length_nil, gt_iff_lt, Nat.lt_irrefl, if_false,
        List.append_nil]
  · rw [if_neg (by simp [hl, hcr])]
    have hlen : 0 < l.length := List.length_pos.mpr hl
    unfold dl_regular
    rw [h1]
    simp only [Bool.false_eq_true, if_false]
    obtain ⟨w1, w2, w3, w4⟩ :=
      write_through_fits (flush_term s) l terminated (by rw [f2]; omega)
    have hdl : decide (l ≠ []) = true := by simp [hl]
    rw [hdl, Bool.true_and]
    have hwt : ∀ hB : is_buffered l from_line = false,
        (write_through (flush_term s) l terminated).in_def_list = false ∧
        (write_through (flush_term s) l terminated).remaining +
          (write_through (flush_term s) l terminated).out.length = s.remaining + s.out.length ∧
        (write_through (flush_term s) l terminated).out ++
          pending (write_through (flush_term s) l terminated)
        = s.out ++ pending s ++ l ++
          (if terminated || is_buffered l from_line then ['\n'] else []) := by
      intro hB
      rw [hB, Bool.or_false]
      refine ⟨by rw [w4, f4, h1], ?_, ?_⟩
      · rw [w2, f2, f1, List.length_append]
        omega
      · rw [w1, f1]
        unfold pending
        rw [w3, f3]
        simp
    by_cases c1 : is_table_row l = true
    · rw [if_pos c1]
      exact hwt (by unfold is_buffered; rw [c1]; rfl)
    · rw [if_neg c1]
      rw [Bool.not_eq_true] at c1
      by_cases c2 : is_list_item l = true
      · rw [if_pos c2]
        exact hwt (by unfold is_buffered; rw [c1, c2]; rfl)
      · rw [if_neg c2]
        rw [Bool.not_eq_true] at c2
        by_cases c3 : (strstr from_line "\x7b:".toList).isSome = true
        · rw [if_pos c3]
          exact hwt (by unfold is_buffered; rw [c1, c2, c3]; rfl)
        · rw [if_neg c3]
          rw [Bool.not_eq_true] at c3
          by_cases c4 : is_header (quote_scan l).2 = true
          · rw [if_pos c4]
            exact hwt (by unfold is_buffered; rw [c1, c2, c3, c4]; rfl)
          · rw [if_neg c4]
            rw [Bool.not_eq_true] at c4
            by_cases c5 : l.length < 4095
            · rw [if_pos c5]
              have hB : is_buffered l from_line = true := by
                unfold is_buffered
                rw [c1, c2, c3, c4, decide_eq_true c5]
                rfl
              rw [hB, Bool.or_true, if_pos rfl]
              refine ⟨by rw [f4, h1], ?_, ?_⟩
              · simp only [f2, f1, List.length_append]
                omega
              · simp only [f1]
                generalize pending s = P
                unfold pending
                simp only
                rw [if_pos hlen]
                simp
            · rw [if_neg c5]
              exact hwt (by unfold is_buffered; rw [c1, c2, c3, c4, decide_eq_false c5]; rfl)
theorem dl_finish_passes (s : DlState) (h1 : s.in_def_list = false)
    (h : (pending s).length < s.remaining) : (dl_finish s).out = s.out ++ pending s := by
  unfold dl_finish
  rw [h1]
  simp only [Bool.false_eq_true, if_false]
  unfold pending at h ⊢
  by_cases ht : s.term.length > 0
  · rw [if_pos ht] at h ⊢
    rw [if_pos ht]
    simp only [List.length_append, List.length_singleton] at h
    rw [emit_fits s s.term (by omega)]
    unfold emit_nl
    simp only
    rw [if_pos (by omega)]
    simp
  · rw [if_neg ht, if_neg ht]
    simp

/-- Lines that are neither definition lines nor lone carriage returns, read
outside a list with room for them, come out as they went in; only a last line
that is buffered as a term gets the newline it did not have. -/
theorem dl_run_passes (render : Text → Option Text) :
    ∀ (ls : List Text) (last : Text) (s : DlState),
      (∀ l ∈ ls, '\n' ∉ l ∧ is_def_line l = false ∧ l ≠ ['\r']) →
      '\n' ∉ last → is_def_line last = false → last ≠ ['\r'] →
      s.in_def_list = false →
      (pending s).length + (unlines ls ++ last).length + 1 < s.remaining →
      (dl_finish (dl_run render s (unlines ls ++ last))).out
        = s.out ++ pending s ++ (unlines ls ++ last) ++
          (if decide (last ≠ []) && is_buffered last last then ['\n'] else []) := by
  intro ls
  induction ls with
  | nil =>
    intro last s _ hn hd hcr h1 hroom
    simp only [unlines, List.nil_append] at hroom ⊢
    by_cases hl : last = []
    · subst hl
      rw [dl_run_nil, dl_finish_passes s h1 (by omega)]
      simp
    · have hrun := dl_run_line render s last [] hn (by simpa using hl) (Or.inl rfl)
      simp only [List.append_nil, List.drop_nil, ne_eq, not_true_eq_false, decide_False,
        dl_run_nil] at hrun
      rw [hrun]
      obtain ⟨p1, p2, p3⟩ := dl_line_passes render s last last false h1 hd hcr
        (fun e => absurd e hl) (by omega)
      have hp := pending_length_le s
      rw [dl_finish_passes _ p1 ?_, p3]
      · simp [hl]
      · have := congrArg List.length p3
        simp only [List.length_append] at this
        have hle : (if (false || (decide (last ≠ []) && is_buffered last last)) = true
            then ['\n'] else []).length ≤ 1 := by
          split_ifs <;> simp
        omega
  | cons l ls ih =>
    intro last s hls hn hd hcr h1 hroom
    obtain ⟨hl1, hl2, hl3⟩ := hls l (List.mem_cons_self _ _)
    have htext : unlines (l :: ls) ++ last = l ++ ('\n' :: (unlines ls ++ last)) := by
      simp [unlines]
    rw [htext] at hroom ⊢
    have hrun := dl_run_line render s l ('\n' :: (unlines ls ++ last)) hl1 (by simp)
      (Or.inr rfl)
    simp only [List.drop_succ_cons, List.drop_zero, ne_eq, reduceCtorEq, not_false_eq_true,
      decide_True] at hrun
    rw [hrun]
    obtain ⟨p1, p2, p3⟩ := dl_line_passes render s l (l ++ '\n' :: (unlines ls ++ last)) true
      h1 hl2 hl3 (fun _ => rfl)
      (by simp only [List.length_append, List.length_cons] at hroom; omega)
    rw [ih last _ (fun x hx => hls x (List.mem_cons_of_mem _ hx)) hn hd hcr p1 ?_, p3]
    · simp
    · have := congrArg List.length p3
      simp only [Bool.true_or, if_true, List.length_append, List.length_cons, List.length_nil]
        at this hroom ⊢
      omega

theorem strip_p_eq_without_paragraph (html : Text) : strip_p html = without_paragraph html := by
  have hpre : ∀ l : Text, (l.take 3 = "<p>".toList) = ("<p>".toList <+: l) := by
    intro l
    apply propext
    rw [List.prefix_iff_eq_take]
    exact ⟨fun h => h.symm, fun h => h.symm⟩
  have hsuf : ∀ l : Text,
      ((decide (l.length > 4) && decide (l.drop (l.length - 5) = "</p>\n".toList)) = true)
        = ("</p>\n".toList <:+ l) := by
    intro l
    apply propext
    rw [List.suffix_iff_eq_drop]
    have e5 : "</p>\n".toList.length = 5 := rfl
    rw [e5]
    constructor
    · intro h
      simp only [Bool.and_eq_true, decide_eq_true_eq] at h
      exact h.2.symm
    · intro h
      have hl : ("</p>\n".toList).length = (l.drop (l.length - 5)).length := congrArg _ h
      rw [e5, List.length_drop] at hl
      simp only [Bool.and_eq_true, decide_eq_true_eq]
      exact ⟨by omega, h.symm⟩
  unfold strip_p without_paragraph
  simp only [hpre, hsuf]

theorem inline_html_eq_rendering (render : Text → Option Text) (t : Text) :
    inline_html render t = rendering render t := by
  unfold inline_html rendering
  by_cases h : t = []
  · subst h
    simp
  · have hl : t.length > 0 := List.length_pos.mpr h
    simp only [hl, h, if_true, if_false]
    cases render t with
    | none => rfl
    | some html => exact strip_p_eq_without_paragraph html

theorem without_paragraph_wrapped (X : Text) :
    without_paragraph ("<p>".toList ++ X ++ "</p>\n".toList) = X := by
  have h1 : "<p>".toList <+: "<p>".toList ++ X ++ "</p>\n".toList := by
    rw [List.append_assoc]
    exact List.prefix_append _ _
  have h2 : ("<p>".toList ++ X ++ "</p>\n".toList).drop 3 = X ++ "</p>\n".toList := by
    simp
  have h3 : "</p>\n".toList <:+ X ++ "</p>\n".toList := List.suffix_append _ _
  unfold without_paragraph
  simp only [h1, if_true, h2, h3]
  simp

theorem without_paragraph_bare (html : Text) (h1 : ¬ "<p>".toList <+: html)
    (h2 : ¬ "</p>\n".toList <:+ html) : without_paragraph html = html := by
  unfold without_paragraph
  simp only [h1, if_false, h2]

theorem without_paragraph_open_only (X : Text) (h2 : ¬ "</p>\n".toList <:+ X) :
    without_paragraph ("<p>".toList ++ X) = X := by
  have h1 : "<p>".toList <+: "<p>".toList ++ X := List.prefix_append _ _
  have h3 : ("<p>".toList ++ X).drop 3 = X := by simp
  unfold without_paragraph
  simp only [h1, if_true, h3, h2, if_false]

theorem without_paragraph_close_only (X : Text) (h1 : ¬ "<p>".toList <+: X ++ "</p>\n".toList) :
    without_paragraph (X ++ "</p>\n".toList) = X := by
  have h3 : "</p>\n".toList <:+ X ++ "</p>\n".toList := List.suffix_append _ _
  unfold without_paragraph
  simp only [h1, if_false, h3, if_true]
  simp

theorem rendering_wrapped (render : Text → Option Text) (t X : Text) (ht : t ≠ [])
    (h : render t = some ("<p>".toList ++ X ++ "</p>\n".toList)) : rendering render t = X := by
  unfold rendering
  simp only [ht, if_false, h]
  exact without_paragraph_wrapped X

theorem rendering_failed (render : Text → Option Text) (t : Text) (h : render t = none) :
    rendering render t = t := by
  unfold rendering
  by_cases ht : t = []
  · simp [ht]
  · simp only [ht, if_false, h]

/-- The output for a plain term line and one definition line. -/
theorem dl_single_definition (render : Text → Option Text) (T D : Text)
    (hT : is_plain_term T = true) (hD : '\n' ∉ D)
    (hial : strstr (T ++ '\n' :: ':' :: ' ' :: D) "\x7b:".toList = none)
    (hfit : ("<dl>\n<dt>".toList ++ rendering render T ++ "</dt>\n<dd>".toList ++
        rendering render (D.dropWhile is_space_tab) ++ "</dd>\n</dl>\n".toList).length
          < 3 * (T ++ '\n' :: ':' :: ' ' :: D).length) :
    apex_process_definition_lists render (T ++ '\n' :: ':' :: ' ' :: D)
      = "<dl>\n<dt>".toList ++ rendering render T ++ "</dt>\n<dd>".toList ++
        rendering render (D.dropWhile is_space_tab) ++ "</dd>\n</dl>\n".toList := by
  rw [← inline_html_eq_rendering, ← inline_html_eq_rendering] at hfit ⊢
  have hdd : inline_html render (D.dropWhile is_space_tab) = dd_text render D := rfl
  rw [hdd] at hfit ⊢
  have htext : T ++ '\n' :: ':' :: ' ' :: D = T ++ (dd_lines [D] ++ []) := by
    simp [dd_lines]
  have hlen : (list_html render T [D]).length = (inline_html render T).length + 15
      + ((dd_text render D).length + 10) := by
    rw [list_html_length]
    simp [dd_html]
  have hfit2 : (inline_html render T).length + 15 + ((dd_text render D).length + 10) + 6
      < (T ++ (dd_lines [D] ++ [])).length * 3 := by
    rw [← htext]
    simp only [List.length_append, List.length_cons] at hfit ⊢
    have e1 : "<dl>\n<dt>".toList.length = 9 := rfl
    have e2 : "</dt>\n<dd>".toList.length = 10 := rfl
    have e3 : "</dd>\n</dl>\n".toList.length = 12 := rfl
    rw [e1, e2, e3] at hfit
    omega
  rw [htext] at hial ⊢
  rw [apex_process_definition_lists_eq,
    dl_run_list render T D [] [] _ [] hT hial (by simpa using hD) (Or.inl rfl)
      (by rw [hlen]; omega)]
  rw [List.drop_nil, dl_run_nil, dl_finish_in_list _ _ (by rw [hlen]; omega)]
  simp [list_html, dd_html]

/-- A term line in a blockquote in front of a definition line is written
through with its prefix, in front of `> <dl>`, when a later line holds `{:`. -/
theorem quoted_term_before_ial_output_head (render : Text → Option Text) :
    "> Term\n> <dl>\n".toList
      <+: apex_process_definition_lists render
        "> Term\n> : Definition\n\nLater\n\x7b: .cls\x7d".toList := by
  have htext : "> Term\n> : Definition\n\nLater\n\x7b: .cls\x7d".toList
      = "> Term".toList ++ ('\n' :: ("> : Definition".toList ++
          "\n\nLater\n\x7b: .cls\x7d".toList)) := by
    decide
  rw [apex_process_definition_lists_eq, htext,
    dl_run_line render _ "> Term".toList
      ('\n' :: ("> : Definition".toList ++ "\n\nLater\n\x7b: .cls\x7d".toList))
      (by decide) (by decide) (Or.inr rfl)]
  have h1 : dl_line render
      (DlState.idle []
        (("> Term".toList ++ ('\n' :: ("> : Definition".toList ++
          "\n\nLater\n\x7b: .cls\x7d".toList))).length * 3))
      "> Term".toList
      (decide (('\n' :: ("> : Definition".toList ++
          "\n\nLater\n\x7b: .cls\x7d".toList)) ≠ []))
      ("> Term".toList ++ ('\n' :: ("> : Definition".toList ++
          "\n\nLater\n\x7b: .cls\x7d".toList)))
      = ⟨"> Term\n".toList, 104, false, false, 0, [], false, 0⟩ := by
    rfl
  rw [h1, List.drop_succ_cons, List.drop_zero,
    dl_run_line render _ "> : Definition".toList
      "\n\nLater\n\x7b: .cls\x7d".toList (by decide) (by decide) (Or.inr rfl)]
  have hd : is_def_line "> : Definition".toList = true := by decide
  have hq : quote_scan "> : Definition".toList = (1, ": Definition".toList) := by decide
  simp only [dl_line, hd, if_true, hq]
  refine List.IsPrefix.trans ?_ (dl_finish_out _)
  refine List.IsPrefix.trans ?_ (dl_run_out render _ _)
  refine List.IsPrefix.trans ?_ (dl_definition_opens render _ _ _ rfl)
  exact List.prefix_refl _

/-- A line of 4095 bytes or more that stands in a blockquote is not buffered
as a term: it is written through with its prefix. -/
theorem dl_line_quoted_long (render : Text → Option Text) (out : Text) (rem : Nat) (n : Nat)
    (T from_line : Text) (hn : 1 ≤ n) (hT : is_term_text T = true)
    (hlen : 4095 ≤ (quote_marks n ++ T).length) (hrem : (quote_marks n ++ T).length < rem) :
    dl_line render (DlState.idle out rem) (quote_marks n ++ T) true from_line
      = DlState.idle (out ++ (quote_marks n ++ T) ++ ['\n'])
          (rem - ((quote_marks n ++ T).length + 1)) := by
  obtain ⟨_, hne, h1, h2, h3, hh, hd⟩ := (is_term_text_iff T).mp hT
  obtain ⟨m, rfl⟩ : ∃ m, n = m + 1 := ⟨n - 1, by omega⟩
  have hq := quote_scan_marks (m + 1) T h1 h2 hne
  have hdl : is_def_line (quote_marks (m + 1) ++ T) = false := by
    simp only [is_def_line, hq]
    rcases T with _ | ⟨c, _ | ⟨y, t⟩⟩
    · simp
    · simp
    · have hd2 : (decide (c = ':') && is_space_tab y) = false := hd
      simp only [hd2, Bool.and_false]
  have hnb : ¬ ((quote_marks (m + 1) ++ T = [] || quote_marks (m + 1) ++ T = ['\r']) = true) := by
    rw [quote_marks_succ_append]
    simp
  unfold dl_line
  rw [hdl]
  simp only [Bool.false_eq_true, if_false]
  rw [if_neg hnb, hq]
  unfold dl_regular
  have ht : is_table_row (quote_marks (m + 1) ++ T) = false := is_table_row_quoted _
  have hl : is_list_item (quote_marks (m + 1) ++ T) = false := is_list_item_quoted _
  have hlen2 : ¬ (quote_marks (m + 1) ++ T).length < 4095 := by omega
  have hw : write_through (DlState.idle out rem) (quote_marks (m + 1) ++ T) true
      = DlState.idle (out ++ (quote_marks (m + 1) ++ T) ++ ['\n'])
          (rem - ((quote_marks (m + 1) ++ T).length + 1)) := by
    have hpos : 0 < rem - (quote_marks (m + 1) ++ T).length := by omega
    simp only [write_through, if_true, emit, DlState.idle, hrem, emit_nl, hpos]
    simp only [gt_iff_lt, if_true, List.append_assoc, DlState.mk.injEq, true_and, and_true]
    omega
  have hf : flush_term (DlState.idle out rem) = DlState.idle out rem := by
    simp [flush_term, DlState.idle]
  have hi : (DlState.idle out rem).in_def_list = false := rfl
  simp only [hi, Bool.false_eq_true, if_false, hf, ht, hl, hh, hlen2]
  split_ifs <;> exact hw

/-- The same for the output of the pass: it starts with the long line. -/
theorem quoted_long_term_output_head (render : Text → Option Text) (n : Nat) (T rest : Text)
    (hn : 1 ≤ n) (hT : is_term_text T = true) (hlen : 4095 ≤ (quote_marks n ++ T).length) :
    quote_marks n ++ T ++ ['\n']
      <+: apex_process_definition_lists render ((quote_marks n ++ T) ++ '\n' :: rest) := by
  have hnl : '\n' ∉ quote_marks n ++ T :=
    not_newline_quote_marks n T ((is_term_text_iff T).mp hT).1
  rw [apex_process_definition_lists_eq,
    dl_run_line render _ (quote_marks n ++ T) ('\n' :: rest) hnl (by simp) (Or.inr rfl)]
  have hd : decide ('\n' :: rest ≠ []) = true := by simp
  rw [hd, dl_line_quoted_long render _ _ n T _ hn hT hlen (by
    simp only [List.length_append, List.length_cons]
    omega)]
  refine List.IsPrefix.trans ?_ (dl_finish_out _)
  refine List.IsPrefix.trans ?_ (dl_run_out render _ _)
  simp [DlState.idle]

theorem is_term_text_replicate (k : Nat) : is_term_text (List.replicate (k + 2) 'a') = true := by
  have e : List.replicate (k + 2) 'a' = 'a' :: 'a' :: List.replicate k 'a' := rfl
  have hn : '\n' ∉ List.replicate k 'a' := by
    intro h
    exact absurd (List.eq_of_mem_replicate h) (by decide)
  rw [e]
  simp [is_term_text, is_space_tab, hn]

/-! ## Basic facts about the argument loop -/

theorem lookup_option_mem (arg : Text) (kind : ArgKind) :
    ∀ table : List (Text × ArgKind), lookup_option arg table = some kind → (arg, kind) ∈ table := by
  intro table
  induction table with
  | nil => intro h; simp [lookup_option] at h
  | cons e rest ih =>
    obtain ⟨name, k⟩ := e
    intro h
    simp only [lookup_option] at h
    split_ifs at h with hn
    · cases h
      subst hn
      exact List.mem_cons_self _ _
    · exact List.mem_cons_of_mem _ (ih h)

theorem lookup_option_none (arg : Text) :
    ∀ table : List (Text × ArgKind),
      lookup_option arg table = none ↔ arg ∉ table.map Prod.fst := by
  intro table
  induction table with
  | nil => simp [lookup_option]
  | cons e rest ih =>
    obtain ⟨name, k⟩ := e
    rw [List.map_cons, List.mem_cons, not_or]
    by_cases hn : arg = name
    · simp only [lookup_option, if_pos hn]
      constructor
      · intro h; cases h
      · intro h; exact absurd hn h.1
    · simp only [lookup_option, if_neg hn]
      rw [ih]
      exact ⟨fun h => ⟨hn, h⟩, fun h => h.2⟩

/-- No option clears `standalone`. -/
theorem arg_kind_never_clears_standalone (arg : Text) :
    arg_kind arg ≠ .flag .standalone false := by
  unfold arg_kind
  cases h : lookup_option arg option_table with
  | none => simp only; split_ifs <;> decide
  | some kind =>
    have hm := lookup_option_mem arg kind _ h
    have : ∀ e ∈ option_table, e.2 ≠ ArgKind.flag .standalone false := by decide
    exact this _ hm

/-- An argument that starts with a dash and is no option name takes the branch
of the unknown option. -/
theorem arg_kind_unknown (x : Text) (hdash : char_at x 0 = '-')
    (hx : x ∉ recognised_options) : arg_kind x = .unknown := by
  unfold arg_kind
  rw [(lookup_option_none x option_table).mpr hx]
  simp only [hdash, if_true]

theorem apex_options.get_set_same (o : apex_options) (f : Field) (v : Bool) :
    (o.set f v).get f = v := by
  cases f <;> rfl

theorem apex_options.get_set_other (o : apex_options) (f g : Field) (v : Bool) (h : g ≠ f) :
    (o.set f v).get g = o.get g := by
  cases f <;> cases g <;> first | rfl | exact absurd rfl h

theorem apex_options.get_style (o : apex_options) (file : Text) (g : Field) :
    ({ o with stylesheet_path := some file, standalone := true } : apex_options).get g =
      if g = .standalone then true else o.get g := by
  cases g <;> rfl

theorem apex_options.get_title (o : apex_options) (title : Text) (g : Field) :
    ({ o with document_title := some title } : apex_options).get g = o.get g := by
  cases g <;> rfl

theorem apex_options.get_id_format (o : apex_options) (n : Int) (g : Field) :
    ({ o with id_format := n } : apex_options).get g = o.get g := by
  cases g <;> rfl

theorem apex_options.get_critic (o : apex_options) (n : Int) (g : Field) :
    ({ o with enable_critic_markup := true, critic_mode := n } : apex_options).get g =
      o.get g := by
  cases g <;> rfl

/-- The body of the argument loop at the argument `arg`. -/
theorem parse_args_cons (for_mode : apex_mode → apex_options) (options : apex_options)
    (input_file output_file : Option Text) (arg : Text) (rest : List Text) :
    parse_args for_mode options input_file output_file (arg :: rest) =
    match arg_kind arg with
    | .help => .exit [.print_usage] 0
    | .version => .exit [.print_version] 0
    | .mode =>
      match rest with
      | [] => .exit [.print_error "Error: --mode requires an argument\n".toList] 1
      | name :: rest =>
        match mode_of_name name with
        | some mode => parse_args for_mode (for_mode mode) input_file output_file rest
        | none =>
          .exit [.print_error ("Error: Unknown mode '".toList ++ name ++ "'\n".toList)] 1
    | .output =>
      match rest with
      | [] => .exit [.print_error "Error: --output requires an argument\n".toList] 1
      | file :: rest => parse_args for_mode options input_file (some file) rest
    | .style =>
      match rest with
      | [] => .exit [.print_error "Error: --style requires an argument\n".toList] 1
      | file :: rest =>
        parse_args for_mode { options with stylesheet_path := some file, standalone := true }
          input_file output_file rest
    | .title =>
      match rest with
      | [] => .exit [.print_error "Error: --title requires an argument\n".toList] 1
      | title :: rest =>
        parse_args for_mode { options with document_title := some title }
          input_file output_file rest
    | .id_format =>
      match rest with
      | [] =>
        .exit [.print_error
          "Error: --id-format requires an argument (gfm, mmd, or kramdown)\n".toList] 1
      | name :: rest =>
        match id_format_of_name name with
        | some n => parse_args for_mode { options with id_format := n } input_file output_file rest
        | none =>
          .exit [.print_error
            "Error: --id-format must be 'gfm', 'mmd', or 'kramdown'\n".toList] 1
    | .critic n =>
      parse_args for_mode { options with enable_critic_markup := true, critic_mode := n }
        input_file output_file rest
    | .flag field value =>
      parse_args for_mode (options.set field value) input_file output_file rest
    | .unknown =>
      .exit [.print_error ("Error: Unknown option '".toList ++ arg ++ "'\n".toList),
        .print_usage] 1
    | .input => parse_args for_mode options (some arg) output_file rest := by
  cases hk : arg_kind arg <;> cases rest <;> simp only [parse_args, hk]

/-- A prefix of the arguments that the loop scans to its end leaves the loop at
the first argument behind it, with the locals the prefix gave. -/
theorem parse_args_append_aux (for_mode : apex_mode → apex_options) (post : List Text) :
    ∀ (n : Nat) (pre : List Text), pre.length ≤ n →
    ∀ (o : apex_options) (i out : Option Text) (o1 : apex_options) (i1 out1 : Option Text),
      parse_args for_mode o i out pre = .proceed o1 i1 out1 →
      parse_args for_mode o i out (pre ++ post) = parse_args for_mode o1 i1 out1 post := by
  intro n
  induction n with
  | zero =>
    intro pre hn o i out o1 i1 out1 hp
    have : pre = [] := List.length_eq_zero.mp (Nat.le_zero.mp hn)
    subst this
    simp only [parse_args] at hp
    cases hp
    rfl
  | succ n ih =>
    intro pre hn o i out o1 i1 out1 hp
    cases pre with
    | nil =>
      simp only [parse_args] at hp
      cases hp
      rfl
    | cons arg rest =>
      have hr : rest.length ≤ n := by simpa using hn
      rw [List.cons_append]
      cases hk : arg_kind arg with
      | help => simp [parse_args_cons, hk] at hp
      | version => simp [parse_args_cons, hk] at hp
      | unknown => simp [parse_args_cons, hk] at hp
      | input =>
        simp only [parse_args_cons, hk] at hp ⊢
        exact ih rest hr _ _ _ _ _ _ hp
      | flag field value =>
        simp only [parse_args_cons, hk] at hp ⊢
        exact ih rest hr _ _ _ _ _ _ hp
      | critic m =>
        simp only [parse_args_cons, hk] at hp ⊢
        exact ih rest hr _ _ _ _ _ _ hp
      | mode =>
        cases rest with
        | nil => simp [parse_args_cons, hk] at hp
        | cons name rest =>
          have hr2 : rest.length ≤ n := by simp at hr; omega
          rw [List.cons_append]
          simp only [parse_args_cons, hk] at hp ⊢
          cases hm : mode_of_name name with
          | none => simp [hm] at hp
          | some m =>
            simp only [hm] at hp ⊢
            exact ih rest hr2 _ _ _ _ _ _ hp
      | output =>
        cases rest with
        | nil => simp [parse_args_cons, hk] at hp
        | cons name rest =>
          have hr2 : rest.length ≤ n := by simp at hr; omega
          rw [List.cons_append]
          simp only [parse_args_cons, hk] at hp ⊢
          exact ih rest hr2 _ _ _ _ _ _ hp
      | style =>
        cases rest with
        | nil => simp [parse_args_cons, hk] at hp
        | cons name rest =>
          have hr2 : rest.length ≤ n := by simp at hr; omega
          rw [List.cons_append]
          simp only [parse_args_cons, hk] at hp ⊢
          exact ih rest hr2 _ _ _ _ _ _ hp
      | title =>
        cases rest with
        | nil => simp [parse_args_cons, hk] at hp
        | cons name rest =>
          have hr2 : rest.length ≤ n := by simp at hr; omega
          rw [List.cons_append]
          simp only [parse_args_cons, hk] at hp ⊢
          exact ih rest hr2 _ _ _ _ _ _ hp
      | id_format =>
        cases rest with
        | nil => simp [parse_args_cons, hk] at hp
        | cons name rest =>
          have hr2 : rest.length ≤ n := by simp at hr; omega
          rw [List.cons_append]
          simp only [parse_args_cons, hk] at hp ⊢
          cases hm : id_format_of_name name with
          | none => simp [hm] at hp
          | some m =>
            simp only [hm] at hp ⊢
            exact ih rest hr2 _ _ _ _ _ _ hp

theorem parse_args_append (for_mode : apex_mode → apex_options) (pre post : List Text)
    (o : apex_options) (i out : Option Text) (o1 : apex_options) (i1 out1 : Option Text)
    (hp : parse_args for_mode o i out pre = .proceed o1 i1 out1) :
    parse_args for_mode o i out (pre ++ post) = parse_args for_mode o1 i1 out1 post :=
  parse_args_append_aux for_mode post pre.length pre (Nat.le_refl _) o i out o1 i1 out1 hp

/-- A field that has the value `value` keeps it to the end of the loop when no
later argument is a mode option or the flag that assigns the other value. -/
theorem parse_args_keeps_aux (for_mode : apex_mode → apex_options) (field : Field)
    (value : Bool) (hv : ¬ (field = .standalone ∧ value = false)) :
    ∀ (n : Nat) (post : List Text), post.length ≤ n →
    (∀ a ∈ post, arg_kind a ≠ .mode ∧ arg_kind a ≠ .flag field (!value)) →
    ∀ (o : apex_options) (i out : Option Text) (o2 : apex_options) (i2 out2 : Option Text),
      o.get field = value →
      parse_args for_mode o i out post = .proceed o2 i2 out2 →
      o2.get field = value := by
  intro n
  induction n with
  | zero =>
    intro post hn _ o i out o2 i2 out2 hg hp
    have : post = [] := List.length_eq_zero.mp (Nat.le_zero.mp hn)
    subst this
    simp only [parse_args] at hp
    cases hp
    exact hg
  | succ n ih =>
    intro post hn hpost o i out o2 i2 out2 hg hp
    cases post with
    | nil =>
      simp only [parse_args] at hp
      cases hp
      exact hg
    | cons arg rest =>
      have hr : rest.length ≤ n := by simpa using hn
      have harg := hpost arg (List.mem_cons_self _ _)
      have hrest : ∀ a ∈ rest, arg_kind a ≠ .mode ∧ arg_kind a ≠ .flag field (!value) :=
        fun a ha => hpost a (List.mem_cons_of_mem _ ha)
      cases hk : arg_kind arg with
      | help => simp [parse_args_cons, hk] at hp
      | version => simp [parse_args_cons, hk] at hp
      | unknown => simp [parse_args_cons, hk] at hp
      | mode => exact absurd hk harg.1
      | input =>
        simp only [parse_args_cons, hk] at hp
        exact ih rest hr hrest _ _ _ _ _ _ hg hp
      | flag g w =>
        simp only [parse_args_cons, hk] at hp
        refine ih rest hr hrest _ _ _ _ _ _ ?_ hp
        by_cases hgf : field = g
        · subst hgf
          rw [apex_options.get_set_same]
          by_contra hne
          apply harg.2
          rw [hk]
          cases w <;> cases value <;> simp_all
        · rw [apex_options.get_set_other _ _ _ _ hgf]
          exact hg
      | critic m =>
        simp only [parse_args_cons, hk] at hp
        refine ih rest hr hrest _ _ _ _ _ _ ?_ hp
        rw [apex_options.get_critic]
        exact hg
      | output =>
        cases rest with
        | nil => simp [parse_args_cons, hk] at hp
        | cons name rest =>
          have hr2 : rest.length ≤ n := by simp at hr; omega
          simp only [parse_args_cons, hk] at hp
          exact ih rest hr2 (fun a ha => hrest a (List.mem_cons_of_mem _ ha)) _ _ _ _ _ _ hg hp
      | style =>
        cases rest with
        | nil => simp [parse_args_cons, hk] at hp
        | cons name rest =>
          have hr2 : rest.length ≤ n := by simp at hr; omega
          simp only [parse_args_cons, hk] at hp
          refine ih rest hr2 (fun a ha => hrest a (List.mem_cons_of_mem _ ha)) _ _ _ _ _ _ ?_ hp
          rw [apex_options.get_style]
          by_cases hs : field = .standalone
          · rw [if_pos hs]
            cases value
            · exact absurd ⟨hs, rfl⟩ hv
            · rfl
          · rw [if_neg hs]
            exact hg
      | title =>
        cases rest with
        | nil => simp [parse_args_cons, hk] at hp
        | cons name rest =>
          have hr2 : rest.length ≤ n := by simp at hr; omega
          simp only [parse_args_cons, hk] at hp
          refine ih rest hr2 (fun a ha => hrest a (List.mem_cons_of_mem _ ha)) _ _ _ _ _ _ ?_ hp
          rw [apex_options.get_title]
          exact hg
      | id_format =>
        cases rest with
        | nil => simp [parse_args_cons, hk] at hp
        | cons name rest =>
          have hr2 : rest.length ≤ n := by simp at hr; omega
          simp only [parse_args_cons, hk] at hp
          cases hm : id_format_of_name name with
          | none => simp [hm] at hp
          | some m =>
            simp only [hm] at hp
            refine ih rest hr2 (fun a ha => hrest a (List.mem_cons_of_mem _ ha))
              _ _ _ _ _ _ ?_ hp
            rw [apex_options.get_id_format]
            exact hg

/-- What `flag_request` reads off the words of a flag: after them the loop
stands behind them, with the field asked for set. -/
theorem parse_args_flag_words (for_mode : apex_mode → apex_options) (words post : List Text)
    (field : Field) (value : Bool) (hw : flag_request words = some (field, value))
    (o : apex_options) (i out : Option Text) :
    ¬ (field = .standalone ∧ value = false) ∧
    ∃ o1 : apex_options, o1.get field = value ∧
      parse_args for_mode o i out (words ++ post) = parse_args for_mode o1 i out post := by
  rcases words with _ | ⟨flag, _ | ⟨file, _ | ⟨w, ws⟩⟩⟩
  · simp [flag_request] at hw
  · have hw2 : (match arg_kind flag with
        | .flag field value => some (field, value)
        | _ => none) = some (field, value) := hw
    cases hk : arg_kind flag with
    | flag g w =>
      rw [hk] at hw2
      simp only [Option.some.injEq, Prod.mk.injEq] at hw2
      obtain ⟨rfl, rfl⟩ := hw2
      refine ⟨?_, o.set _ _, apex_options.get_set_same _ _ _, ?_⟩
      · rintro ⟨rfl, rfl⟩
        exact arg_kind_never_clears_standalone flag hk
      · simp only [List.singleton_append, parse_args_cons, hk]
    | _ => rw [hk] at hw2; cases hw2
  · have hw2 : (if arg_kind flag = .style then some (Field.standalone, true) else none) =
        some (field, value) := hw
    split_ifs at hw2 with hk
    simp only [Option.some.injEq, Prod.mk.injEq] at hw2
    obtain ⟨rfl, rfl⟩ := hw2
    refine ⟨by simp, { o with stylesheet_path := some file, standalone := true }, rfl, ?_⟩
    simp only [List.cons_append, List.nil_append, parse_args_cons, hk]
  · simp [flag_request] at hw

/-! ## The claims -/

/-- C1, counterexample: for `# Heading\nTitle: Doc\n\nBody` the heading is
skipped, the pair (Title, Doc) behind it is extracted, and the text is cut down
to `Body`: metadata is returned and the text is changed. -/
theorem extract_metadata_heading_counterexample :
    apex_extract_metadata "# Heading\nTitle: Doc\n\nBody".toList
      = ([("Title".toList, "Doc".toList)], "Body".toList) ∧
    apex_extract_metadata "# Heading\nTitle: Doc\n\nBody".toList
      ≠ ([], "# Heading\nTitle: Doc\n\nBody".toList) := by
  decide

/-- C1, amended: for a text that starts neither with `---` nor with `%`, if the
first newline-terminated line that is neither blank nor skipped (skipped are a
heading, an abbreviation definition, an HTML comment, a `{:` / `{::` marker and
a `{{TOC` marker) is a line the parser rejects (a URL line, a `<` before the
colon, no blank after the colon, an empty key or value, Markdown link syntax,
or no colon at all), or if there is no such line, then no metadata is returned
and the text is unchanged, also when valid `KEY: VALUE` lines follow. -/
theorem extract_metadata_rejected_first :
    (∀ (text : Text) (pre post : List Text) (l : Text),
      starts_with text "---" = false → char_at text 0 ≠ '%' →
      lines_of text = pre ++ l :: post →
      (∀ s ∈ pre, mmd_line_kind s = .blank ∨ mmd_line_kind s = .skip) →
      mmd_line_kind l = .reject →
      apex_extract_metadata text = ([], text)) ∧
    (∀ (text : Text),
      starts_with text "---" = false → char_at text 0 ≠ '%' →
      (∀ s ∈ lines_of text, mmd_line_kind s = .blank ∨ mmd_line_kind s = .skip) →
      apex_extract_metadata text = ([], text)) ∧
    apex_extract_metadata "# Heading\nhttp://example.com\nTitle: Doc\n\nBody".toList
      = ([], "# Heading\nhttp://example.com\nTitle: Doc\n\nBody".toList) ∧
    apex_extract_metadata "No colon here\nTitle: Doc\n\nBody".toList
      = ([], "No colon here\nTitle: Doc\n\nBody".toList) := by
  refine ⟨?_, ?_, by decide, by decide⟩
  · intro text pre post l hy hp hl hpre hrej
    apply extract_metadata_of_mmd_nil text hy hp
    unfold parse_mmd_metadata
    rw [hl]
    obtain ⟨off1, h1⟩ := parse_mmd_loop_skipped text.length pre (l :: post) hpre 0
    rw [h1]
    simp [parse_mmd_loop, hrej]
  · intro text hy hp hall
    apply extract_metadata_of_mmd_nil text hy hp
    unfold parse_mmd_metadata
    obtain ⟨off1, h1⟩ := parse_mmd_loop_skipped text.length (lines_of text) [] hall 0
    rw [List.append_nil] at h1
    rw [h1]
    simp [parse_mmd_loop]

/-- Witness for C1: a blank line and a heading, then a line without a colon,
then a valid pair. -/
theorem extract_metadata_rejected_first_witness :
    starts_with "\n# H\nplain\nTitle: Doc\n".toList "---" = false ∧
    char_at "\n# H\nplain\nTitle: Doc\n".toList 0 ≠ '%' ∧
    lines_of "\n# H\nplain\nTitle: Doc\n".toList
      = [[], "# H".toList] ++ "plain".toList :: ["Title: Doc".toList] ∧
    (∀ s ∈ [[], "# H".toList], mmd_line_kind s = .blank ∨ mmd_line_kind s = .skip) ∧
    mmd_line_kind "plain".toList = .reject ∧
    apex_extract_metadata "\n# H\nplain\nTitle: Doc\n".toList
      = ([], "\n# H\nplain\nTitle: Doc\n".toList) :=
  ⟨by decide, by decide, by decide, by decide, by decide,
    extract_metadata_rejected_first.1 _ [[], "# H".toList] ["Title: Doc".toList]
      "plain".toList (by decide) (by decide) (by decide) (by decide) (by decide)⟩

/-- C2: for a non-empty metadata list `m` and a text `a ++ "[%" ++ K ++ "]" ++ b`
in which `a` holds no `[%`, `K` holds no `]` and is shorter than 256 bytes, and
the lookup of `K` in `m` gives `v`, the substitution returns `a ++ v` followed
by the substitution of `b`; with the pair (Title, Doc) both `# [%Title]` and
`# [%title]` become `# Doc`. -/
theorem replace_variables_known_key :
    (∀ (m : Items) (a K b v : Text), m ≠ [] → ¬ "[%".toList <:+: a → ']' ∉ K →
      K.length < 256 → apex_metadata_get m K = some v →
      apex_metadata_replace_variables (a ++ "[%".toList ++ K ++ "]".toList ++ b) m
        = a ++ v ++ apex_metadata_replace_variables b m) ∧
    apex_metadata_replace_variables "# [%Title]".toList [("Title".toList, "Doc".toList)]
      = "# Doc".toList ∧
    apex_metadata_replace_variables "# [%title]".toList [("Title".toList, "Doc".toList)]
      = "# Doc".toList := by
  refine ⟨?_, by decide, by decide⟩
  intro m a K b v hm ha hK hlen hv
  rw [replace_variables_step m a K b hm ha hK]
  simp [written_for, hlen, hv]

/-- Witness for C2: the text `By [%AUTHOR]!` with the pair (author, John). -/
theorem replace_variables_known_key_witness :
    ([("author".toList, "John".toList)] : Items) ≠ [] ∧
    ¬ "[%".toList <:+: "By ".toList ∧ ']' ∉ "AUTHOR".toList ∧ "AUTHOR".toList.length < 256 ∧
    apex_metadata_get [("author".toList, "John".toList)] "AUTHOR".toList = some "John".toList ∧
    apex_metadata_replace_variables
        ("By ".toList ++ "[%".toList ++ "AUTHOR".toList ++ "]".toList ++ "!".toList)
        [("author".toList, "John".toList)]
      = "By ".toList ++ "John".toList ++
        apex_metadata_replace_variables "!".toList [("author".toList, "John".toList)] :=
  ⟨by decide, by decide, by decide, by decide, by decide,
    replace_variables_known_key.1 _ _ _ _ _ (by decide) (by decide) (by decide) (by decide)
      (by decide)⟩

/-- C3, evaluated on the code: with the metadata (title, Doc), the pattern
`[%kkk...k]` with a key of 256 bytes is not copied to the output but dropped
(the result is empty), while the same pattern with a key of 255 bytes is
returned as written. -/
theorem replace_variables_long_key_dropped :
    apex_metadata_replace_variables ("[%".toList ++ List.replicate 256 'k' ++ "]".toList)
        [("title".toList, "Doc".toList)] = [] ∧
    apex_metadata_replace_variables ("[%".toList ++ List.replicate 255 'k' ++ "]".toList)
        [("title".toList, "Doc".toList)]
      = "[%".toList ++ List.replicate 255 'k' ++ "]".toList := by
  have hgen := fun K hK =>
    replace_variables_step [("title".toList, "Doc".toList)] [] K [] (by decide) (by decide) hK
  simp only [List.nil_append, List.append_nil] at hgen
  refine ⟨?_, ?_⟩
  · have hK : ']' ∉ List.replicate 256 'k' := fun h =>
      absurd (List.eq_of_mem_replicate h) (by decide)
    have hlen : ¬ (List.replicate 256 'k').length < 256 := by
      rw [List.length_replicate]; decide
    rw [hgen _ hK, written_for, if_neg hlen]
    rfl
  · have hK : ']' ∉ List.replicate 255 'k' := fun h =>
      absurd (List.eq_of_mem_replicate h) (by decide)
    have hlen : (List.replicate 255 'k').length < 256 := by
      rw [List.length_replicate]; decide
    have hg : apex_metadata_get [("title".toList, "Doc".toList)] (List.replicate 255 'k')
        = none := by
      have hne : strcasecmp_eq "title".toList (List.replicate 255 'k') = false := by
        show decide (("title".toList).map tolower = (List.replicate 255 'k').map tolower) = false
        rw [List.map_replicate]
        apply decide_eq_false
        intro he
        have hl := congrArg List.length he
        rw [List.length_replicate] at hl
        exact absurd hl (by decide)
      simp only [apex_metadata_get, hne]
      rfl
    rw [hgen _ hK, written_for, if_pos hlen, hg]
    rw [show apex_metadata_replace_variables [] [("title".toList, "Doc".toList)] = [] from rfl,
      List.append_nil]

/-- C4, evaluated on the code: for `Title: X\nBody` the pair (Title, X) is
returned and the whole text is consumed, the body line included, while the
same body line with a newline behind it is kept. -/
theorem extract_metadata_unterminated_body_consumed :
    apex_extract_metadata "Title: X\nBody".toList = ([("Title".toList, "X".toList)], []) ∧
    apex_extract_metadata "Title: X\nBody\n".toList
      = ([("Title".toList, "X".toList)], "Body\n".toList) := by
  decide

/-- C7, counterexample: for the YAML block `title: A`, `title: B` both pairs
are kept, and the lookup of `title` gives `B`, the later definition, not `A`. -/
theorem metadata_get_first_definition_counterexample :
    (apex_extract_metadata "---\ntitle: A\ntitle: B\n---\n".toList).1
      = [("title".toList, "B".toList), ("title".toList, "A".toList)] ∧
    apex_metadata_get (apex_extract_metadata "---\ntitle: A\ntitle: B\n---\n".toList).1
      "title".toList = some "B".toList ∧
    apex_metadata_get (apex_extract_metadata "---\ntitle: A\ntitle: B\n---\n".toList).1
      "title".toList ≠ some "A".toList := by
  decide

/-- C7, amended: `add_metadata_item` puts every new pair in front of the list
and keeps the earlier ones, and `apex_metadata_get` returns the value of the
pair inserted last among those whose key equals the requested key ignoring
case, and nothing when there is no such pair; for the YAML block `title: A`,
`title: B` it returns `B`. -/
theorem metadata_get_latest_definition :
    (∀ (ins1 ins2 : List (Text × Text)) (k v key : Text),
      strcasecmp_eq k key = true → (∀ p ∈ ins2, strcasecmp_eq p.1 key = false) →
      apex_metadata_get
        ((ins1 ++ (k, v) :: ins2).foldl (fun l p => add_metadata_item l p.1 p.2) []) key
        = some v) ∧
    (∀ (ins : List (Text × Text)) (key : Text),
      (∀ p ∈ ins, strcasecmp_eq p.1 key = false) →
      apex_metadata_get (ins.foldl (fun l p => add_metadata_item l p.1 p.2) []) key = none) ∧
    (∀ (ins : List (Text × Text)),
      ins.foldl (fun l p => add_metadata_item l p.1 p.2) [] = ins.reverse) ∧
    apex_metadata_get (apex_extract_metadata "---\ntitle: A\ntitle: B\n---\n".toList).1
      "Title".toList = some "B".toList := by
  refine ⟨?_, ?_, ?_, by decide⟩
  · intro ins1 ins2 k v key hk h2
    rw [foldl_add_metadata_item, List.append_nil, List.reverse_append, List.reverse_cons,
      List.append_assoc, apex_metadata_get_append_of_no_match _ _ _
        (fun p hp => h2 p (List.mem_reverse.mp hp))]
    simp [apex_metadata_get, hk]
  · intro ins key h
    rw [foldl_add_metadata_item, List.append_nil]
    have := apex_metadata_get_append_of_no_match ins.reverse [] key
      (fun p hp => h p (List.mem_reverse.mp hp))
    rw [List.append_nil] at this
    rw [this]
    rfl
  · intro ins
    rw [foldl_add_metadata_item, List.append_nil]

/-- Witness for C7: the insertions (title, A), (Title, B), (author, J) and the
key `TITLE`. -/
theorem metadata_get_latest_definition_witness :
    strcasecmp_eq "Title".toList "TITLE".toList = true ∧
    (∀ p ∈ [("author".toList, "J".toList)], strcasecmp_eq p.1 "TITLE".toList = false) ∧
    apex_metadata_get
      (([("title".toList, "A".toList)] ++ ("Title".toList, "B".toList) ::
          [("author".toList, "J".toList)]).foldl
        (fun l p => add_metadata_item l p.1 p.2) []) "TITLE".toList = some "B".toList :=
  ⟨by decide, by decide,
    metadata_get_latest_definition.1 _ _ _ _ _ (by decide) (by decide)⟩

/-- C9, evaluated on the code: the paired tildes inside a word are rewritten to
an underline, not to a subscript: `H~2~O` gives `H<u>2</u>O` and `H~2~SO~4~`
gives `H<u>2</u>SO<u>4</u>`. -/
theorem sup_sub_paired_tildes_in_word_underline :
    apex_process_sup_sub "H~2~O".toList = "H<u>2</u>O".toList ∧
    apex_process_sup_sub "H~2~SO~4~".toList = "H<u>2</u>SO<u>4</u>".toList := by
  decide

/-- C10, counterexample: a `~WORD~` at word boundaries that is not rewritten to
`<u>WORD</u>`. In `costs $5 and ~a~ b` the `$` in front of `5` opens inline
math that is never closed, so the rest of the text is copied as it is; in
`~a b ~c~` the scan from the first tilde takes the last tilde as its closing
tilde, so `~c` ends up inside the underline `<u>a b ~c</u>`. Without the text
in front, `and ~a~ b` and `~c~` are rewritten as the claim says. -/
theorem sup_sub_underline_counterexample :
    apex_process_sup_sub "costs $5 and ~a~ b".toList = "costs $5 and ~a~ b".toList ∧
    apex_process_sup_sub "~a b ~c~".toList = "<u>a b ~c</u>".toList ∧
    apex_process_sup_sub "and ~a~ b".toList = "and <u>a</u> b".toList ∧
    apex_process_sup_sub "~c~".toList = "<u>c</u>".toList := by
  decide

/-- C10, amended: for every text P without backtick, `$`, `^` and `~` that is
empty or ends in a space, every non-empty WORD free of white space, `~` and
sentence terminators that does not start with `>`, and every R that is empty or
starts with a space or a newline, `apex_process_sup_sub` applied to P, `~WORD~`
and R returns P, `<u>WORD</u>` and its own result on R: both tildes are
consumed and no `<sub>` is written for the word. More generally, for every
input, whenever the main loop stands outside code and math (all four flags
off) at the opening tilde of such a `~WORD~`, with the tilde at the start of
the text or behind a space and the closing tilde followed by a space, a newline
or the end of the text, it writes `<u>WORD</u>`, consumes both tildes and goes
on behind the closing tilde. So `text ~underline~ text` gives
`text <u>underline</u> text` and `~h2o~` gives `<u>h2o</u>`. -/
theorem sup_sub_underline_at_word_boundaries :
    (∀ (text written : Text) (prev : Option Char) (remaining : Nat) (word rest : Text),
      Reached text written prev ScanState.init remaining ('~' :: (word ++ '~' :: rest)) →
      (prev = none ∨ prev = some ' ') → word ≠ [] →
      (∀ x ∈ word, isspace x = false ∧ x ≠ '~' ∧ is_terminator x = false ∧ x ≠ Char.ofNat 0) →
      char_at word 0 ≠ '>' →
      (rest = [] ∨ char_at rest 0 = ' ' ∨ char_at rest 0 = '\n') →
      Reached text (written ++ ("<u>".toList ++ word ++ "</u>".toList)) (some '~')
        ScanState.init (remaining - (word.length + 7)) rest ∧
      apex_process_sup_sub text
        = written ++ ("<u>".toList ++ word ++ "</u>".toList) ++
          sup_sub_run (some '~') ScanState.init (remaining - (word.length + 7)) rest) ∧
    (∀ (P word rest : Text),
      (∀ c ∈ P, c ≠ backtick ∧ c ≠ '$' ∧ c ≠ '^' ∧ c ≠ '~') →
      (last_read none P = none ∨ last_read none P = some ' ') → word ≠ [] →
      (∀ x ∈ word, isspace x = false ∧ x ≠ '~' ∧ is_terminator x = false ∧ x ≠ Char.ofNat 0) →
      char_at word 0 ≠ '>' →
      (rest = [] ∨ char_at rest 0 = ' ' ∨ char_at rest 0 = '\n') →
      apex_process_sup_sub (P ++ '~' :: (word ++ '~' :: rest))
        = P ++ ("<u>".toList ++ word ++ "</u>".toList) ++ apex_process_sup_sub rest) ∧
    apex_process_sup_sub "text ~underline~ text".toList = "text <u>underline</u> text".toList ∧
    apex_process_sup_sub "~h2o~".toList = "<u>h2o</u>".toList := by
  refine ⟨?_, ?_, by decide, by decide⟩
  · intro text written prev remaining word rest h hp hne hw hgt hr
    have hp2 : prev ≠ some '~' := by
      rcases hp with h1 | h1 <;> rw [h1] <;> decide
    have hr2 : char_at rest 0 ≠ '~' := by
      rcases hr with h1 | h1 | h1 <;> rw [h1] <;> decide
    have hr1 := h.underline hp2 hne hw hgt hr2
    exact ⟨hr1, hr1.output⟩
  · intro P word rest hP hp hne hw hgt hr
    have hp2 : last_read none P ≠ some '~' := by
      rcases hp with h1 | h1 <;> rw [h1] <;> decide
    have hr2 : char_at rest 0 ≠ '~' := by
      rcases hr with h1 | h1 | h1 <;> rw [h1] <;> decide
    have hr3 : plain_head rest = true := by
      apply plain_head_of_char_at
      rcases hr with h1 | h1 | h1
      · exact Or.inl h1
      · exact Or.inr (Or.inl (by rw [h1]; rfl))
      · exact Or.inr (Or.inl (by rw [h1]; rfl))
    have h0 : Reached (P ++ '~' :: (word ++ '~' :: rest)) [] none ScanState.init _ _ :=
      Reached.start
    have h1 := Reached.plain P _ hP _ _ _ h0
    have h2 := h1.underline hp2 hne hw hgt hr2
    rw [h2.restart (Or.inr hr3), List.nil_append]

/-- Witness for C10 (amended): the text `~h2o~ x` with the loop at its start,
and `see ~h2o~ x`. -/
theorem sup_sub_underline_at_word_boundaries_witness :
    "h2o".toList ≠ [] ∧
    (∀ x ∈ "h2o".toList,
      isspace x = false ∧ x ≠ '~' ∧ is_terminator x = false ∧ x ≠ Char.ofNat 0) ∧
    char_at "h2o".toList 0 ≠ '>' ∧
    apex_process_sup_sub ('~' :: ("h2o".toList ++ '~' :: " x".toList))
      = [] ++ ("<u>".toList ++ "h2o".toList ++ "</u>".toList) ++
        sup_sub_run (some '~') ScanState.init
          (capacity ('~' :: ("h2o".toList ++ '~' :: " x".toList)) - ("h2o".toList.length + 7))
          " x".toList ∧
    (∀ c ∈ "see ".toList, c ≠ backtick ∧ c ≠ '$' ∧ c ≠ '^' ∧ c ≠ '~') ∧
    apex_process_sup_sub ("see ".toList ++ '~' :: ("h2o".toList ++ '~' :: " x".toList))
      = "see ".toList ++ ("<u>".toList ++ "h2o".toList ++ "</u>".toList) ++
        apex_process_sup_sub " x".toList :=
  ⟨by decide, by decide, by decide,
    (sup_sub_underline_at_word_boundaries.1 _ [] none _ "h2o".toList " x".toList
      Reached.start (Or.inl rfl) (by decide) (by decide) (by decide)
      (Or.inr (Or.inl (by decide)))).2,
    by decide,
    sup_sub_underline_at_word_boundaries.2.1 "see ".toList "h2o".toList " x".toList
      (by decide) (Or.inr (by decide)) (by decide) (by decide) (by decide)
      (Or.inr (Or.inl (by decide)))⟩

/-- C11, counterexample: a `~WORD` with no tilde next to it and no closing
tilde on its line that is not rewritten to `<sub>WORD</sub>`. In
`costs $5 and H~2 O` the `$` in front of `5` opens inline math that is never
closed, so the rest of the text is copied as it is; in `^x~a b` the superscript
run that starts at `^` takes `x~a` up to the space, so `~a` ends up inside
`<sup>x~a</sup>`. Without the text in front, `and H~2 O` and `~a b` are
rewritten as the claim says. -/
theorem sup_sub_subscript_counterexample :
    apex_process_sup_sub "costs $5 and H~2 O".toList = "costs $5 and H~2 O".toList ∧
    apex_process_sup_sub "^x~a b".toList = "<sup>x~a</sup> b".toList ∧
    apex_process_sup_sub "and H~2 O".toList = "and H<sub>2</sub> O".toList ∧
    apex_process_sup_sub "~a b".toList = "<sub>a</sub> b".toList := by
  decide

/-- C11, amended: for every text P without backtick, `$`, `^` and `~`, every
non-empty WORD free of space, tab, newline, `~` and sentence terminators that
does not start with `>`, and every R that is empty or starts with a space, a
tab, a newline or a sentence terminator, such that a sentence terminator
follows WORD or the rest of the line holds no tilde, `apex_process_sup_sub`
applied to P, `~WORD` and R returns P, `<sub>WORD</sub>` and its own result on
R, so the byte that ends the word is kept behind `</sub>`. More generally, for
every input, whenever the main loop stands outside code and math (all four
flags off) at the tilde of such a `~WORD`, the tilde not directly behind
another tilde, and the scan finds no closing tilde on the line, it writes
`<sub>WORD</sub>`, goes on at the byte behind WORD and copies that byte. The
scan is not made when a sentence terminator follows WORD, and it finds no
closing tilde when the rest of the line holds no tilde at all. So `H~2.O` gives
`H<sub>2</sub>.O` and `H~2 O` gives `H<sub>2</sub> O`. -/
theorem sup_sub_subscript_word :
    (∀ (text written : Text) (prev : Option Char) (remaining : Nat) (word rest : Text),
      Reached text written prev ScanState.init remaining ('~' :: (word ++ rest)) →
      prev ≠ some '~' → word ≠ [] →
      (∀ x ∈ word,
        is_blank x = false ∧ x ≠ '~' ∧ is_terminator x = false ∧ x ≠ Char.ofNat 0) →
      char_at word 0 ≠ '>' →
      (rest = [] ∨ is_blank (char_at rest 0) = true ∨ is_terminator (char_at rest 0) = true) →
      (is_terminator (char_at rest 0) = true ∨
        find_closing_tilde none (word ++ rest) = none) →
      Reached text (written ++ ("<sub>".toList ++ word ++ "</sub>".toList))
        (last_read none word) ScanState.init (remaining - (word.length + 11)) rest ∧
      (∀ (x : Char) (rest1 : Text), rest = x :: rest1 →
        Reached text (written ++ ("<sub>".toList ++ word ++ "</sub>".toList) ++ [x]) (some x)
          ScanState.init (remaining - (word.length + 11) - 1) rest1) ∧
      apex_process_sup_sub text
        = written ++ ("<sub>".toList ++ word ++ "</sub>".toList) ++
          sup_sub_run (last_read none word) ScanState.init (remaining - (word.length + 11))
            rest) ∧
    (∀ (word rest : Text), '~' ∉ word → '~' ∉ rest.takeWhile (fun x => x != '\n') →
      find_closing_tilde none (word ++ rest) = none) ∧
    (∀ (P word rest : Text),
      (∀ c ∈ P, c ≠ backtick ∧ c ≠ '$' ∧ c ≠ '^' ∧ c ≠ '~') → word ≠ [] →
      (∀ x ∈ word,
        is_blank x = false ∧ x ≠ '~' ∧ is_terminator x = false ∧ x ≠ Char.ofNat 0) →
      char_at word 0 ≠ '>' →
      (rest = [] ∨ is_blank (char_at rest 0) = true ∨ is_terminator (char_at rest 0) = true) →
      (is_terminator (char_at rest 0) = true ∨ '~' ∉ rest.takeWhile (fun x => x != '\n')) →
      apex_process_sup_sub (P ++ '~' :: (word ++ rest))
        = P ++ ("<sub>".toList ++ word ++ "</sub>".toList) ++ apex_process_sup_sub rest ∧
      (∀ (x : Char) (rest1 : Text), rest = x :: rest1 →
        ∃ tail : Text, apex_process_sup_sub rest = x :: tail)) ∧
    apex_process_sup_sub "H~2.O".toList = "H<sub>2</sub>.O".toList ∧
    apex_process_sup_sub "H~2 O".toList = "H<sub>2</sub> O".toList := by
  refine ⟨?_, ?_, ?_, by decide, by decide⟩
  · intro text written prev remaining word rest h hp hne hw hgt hr hno
    have hr1 := h.subscript hp hne hw hgt hr hno
    refine ⟨hr1, ?_, hr1.output⟩
    intro x rest1 hx
    subst hx
    have hx1 : is_blank x = true ∨ is_terminator x = true := by
      rcases hr with hr | hr | hr
      · cases hr
      · exact Or.inl hr
      · exact Or.inr hr
    have hp1 : x ≠ backtick ∧ x ≠ '$' ∧ x ≠ '^' ∧ x ≠ '~' := by
      rcases hx1 with hx1 | hx1
      · refine ⟨?_, ?_, ?_, ?_⟩ <;> intro e <;> rw [e] at hx1 <;> exact absurd hx1 (by decide)
      · refine ⟨?_, ?_, ?_, ?_⟩ <;> intro e <;> rw [e] at hx1 <;> exact absurd hx1 (by decide)
    exact Reached.copy_one _ hr1
      (sup_sub_step_plain _ _ _ x rest1 hp1.1 hp1.2.1 hp1.2.2.1 hp1.2.2.2)
  · intro word rest hw hr
    exact find_closing_tilde_none _ _ _ (Nat.le_refl _)
      (not_mem_takeWhile_append _ _ _ _ hw hr)
  · intro P word rest hP hne hw hgt hr hno
    have hp2 : last_read none P ≠ some '~' :=
      last_read_ne '~' P (fun hm => (hP _ hm).2.2.2 rfl) none (by simp)
    have hwt : '~' ∉ word := fun hm => (hw _ hm).2.1 rfl
    have hno2 : is_terminator (char_at rest 0) = true ∨
        find_closing_tilde none (word ++ rest) = none := by
      rcases hno with hno | hno
      · exact Or.inl hno
      · exact Or.inr (find_closing_tilde_none _ _ _ (Nat.le_refl _)
          (not_mem_takeWhile_append _ _ _ _ hwt hno))
    have hr3 : plain_head rest = true := plain_head_of_char_at rest hr
    have h0 : Reached (P ++ '~' :: (word ++ rest)) [] none ScanState.init _ _ := Reached.start
    have h1 := Reached.plain P _ hP _ _ _ h0
    have h2 := h1.subscript hp2 hne hw hgt hr hno2
    refine ⟨by rw [h2.restart (Or.inr hr3), List.nil_append], ?_⟩
    intro x rest1 hx
    subst hx
    have hx1 : is_blank x = true ∨ is_terminator x = true := by
      rcases hr with hr | hr | hr
      · cases hr
      · exact Or.inl hr
      · exact Or.inr hr
    have hp1 : x ≠ backtick ∧ x ≠ '$' ∧ x ≠ '^' ∧ x ≠ '~' := by
      rcases hx1 with hx1 | hx1
      · refine ⟨?_, ?_, ?_, ?_⟩ <;> intro e <;> rw [e] at hx1 <;> exact absurd hx1 (by decide)
      · refine ⟨?_, ?_, ?_, ?_⟩ <;> intro e <;> rw [e] at hx1 <;> exact absurd hx1 (by decide)
    have h3 : Reached (x :: rest1) [] none ScanState.init _ _ := Reached.start
    have h4 := Reached.copy_one _ h3
      (sup_sub_step_plain _ _ _ x rest1 hp1.1 hp1.2.1 hp1.2.2.1 hp1.2.2.2)
    exact ⟨_, by rw [h4.output]; rfl⟩

/-- Witness for C11 (amended): the texts `~2.O` and `~2 O` with the loop at
their start, and `H~2 O then`. -/
theorem sup_sub_subscript_word_witness :
    "2".toList ≠ [] ∧
    (∀ x ∈ "2".toList,
      is_blank x = false ∧ x ≠ '~' ∧ is_terminator x = false ∧ x ≠ Char.ofNat 0) ∧
    char_at "2".toList 0 ≠ '>' ∧
    apex_process_sup_sub ('~' :: ("2".toList ++ ".O".toList))
      = [] ++ ("<sub>".toList ++ "2".toList ++ "</sub>".toList) ++
        sup_sub_run (last_read none "2".toList) ScanState.init
          (capacity ('~' :: ("2".toList ++ ".O".toList)) - ("2".toList.length + 11))
          ".O".toList ∧
    apex_process_sup_sub ('~' :: ("2".toList ++ " O".toList))
      = [] ++ ("<sub>".toList ++ "2".toList ++ "</sub>".toList) ++
        sup_sub_run (last_read none "2".toList) ScanState.init
          (capacity ('~' :: ("2".toList ++ " O".toList)) - ("2".toList.length + 11))
          " O".toList ∧
    (∀ c ∈ "H".toList, c ≠ backtick ∧ c ≠ '$' ∧ c ≠ '^' ∧ c ≠ '~') ∧
    apex_process_sup_sub ("H".toList ++ '~' :: ("2".toList ++ " O then".toList))
      = "H".toList ++ ("<sub>".toList ++ "2".toList ++ "</sub>".toList) ++
        apex_process_sup_sub " O then".toList :=
  ⟨by decide, by decide, by decide,
    (sup_sub_subscript_word.1 _ [] none _ "2".toList ".O".toList
      Reached.start (by decide) (by decide) (by decide) (by decide)
      (Or.inr (Or.inr (by decide))) (Or.inl (by decide))).2.2,
    (sup_sub_subscript_word.1 _ [] none _ "2".toList " O".toList
      Reached.start (by decide) (by decide) (by decide) (by decide)
      (Or.inr (Or.inl (by decide)))
      (Or.inr (sup_sub_subscript_word.2.1 "2".toList " O".toList (by decide) (by decide)))).2.2,
    by decide,
    (sup_sub_subscript_word.2.2.1 "H".toList "2".toList " O then".toList
      (by decide) (by decide) (by decide) (by decide)
      (Or.inr (Or.inl (by decide))) (Or.inr (by decide))).1⟩

/-- C12, counterexample: a `^` outside code and math, not behind `[` and in
front of a word, that is not rewritten to `<sup>X</sup>`. In `~a^b~` the
underline that starts at the first tilde takes `a^b` as its content, so the `^`
is written as it is inside `<u>a^b</u>`; in `costs $5 and x^2` the `$` in front
of `5` opens inline math that is never closed, so the rest of the text is
copied as it is. Without the text in front, `a^b~` and `and x^2` get their
`<sup>`. -/
theorem sup_sub_superscript_counterexample :
    apex_process_sup_sub "~a^b~".toList = "<u>a^b</u>".toList ∧
    apex_process_sup_sub "costs $5 and x^2".toList = "costs $5 and x^2".toList ∧
    apex_process_sup_sub "a^b~".toList = "a<sup>b~</sup>".toList ∧
    apex_process_sup_sub "and x^2".toList = "and x<sup>2</sup>".toList := by
  decide

/-- C12, amended: for every text P without backtick, `$`, `^` and `~` that
does not end in `[`, and every non-empty run X free of space, tab, newline and
`^`: `apex_process_sup_sub` applied to P, `^X` and R returns P, `<sup>X</sup>`
and its own result on R, when R is empty or starts with a space, a tab or a
newline; and applied to P, `^X^` and any R it returns P, `<sup>X</sup>` and its
own result on R, so the `^` that ends the run is consumed. More generally, for
every input, whenever the main loop stands outside code and math (all four
flags off) at a `^` that is not directly behind `[` and is directly followed by
a byte other than space, tab, newline and `^`, it writes `<sup>X</sup>` for the
maximal run X of bytes behind the `^` up to the next space, tab, newline, `^`
or the end of the text; it goes on at the byte behind X, and behind the `^`
when a `^` ends the run. So `m^2` gives `m<sup>2</sup>` and `x^2 + y^2` gives
`x<sup>2</sup> + y<sup>2</sup>`. -/
theorem sup_sub_superscript_run :
    (∀ (text written : Text) (prev : Option Char) (remaining : Nat) (X rest : Text),
      Reached text written prev ScanState.init remaining ('^' :: (X ++ rest)) →
      prev ≠ some '[' → X ≠ [] →
      (∀ x ∈ X, is_blank x = false ∧ x ≠ '^') → char_at X 0 ≠ Char.ofNat 0 →
      (rest = [] ∨ is_blank (char_at rest 0) = true) →
      Reached text (written ++ ("<sup>".toList ++ X ++ "</sup>".toList))
        (last_read none X) ScanState.init (remaining - (X.length + 11)) rest ∧
      apex_process_sup_sub text
        = written ++ ("<sup>".toList ++ X ++ "</sup>".toList) ++
          sup_sub_run (last_read none X) ScanState.init (remaining - (X.length + 11)) rest) ∧
    (∀ (text written : Text) (prev : Option Char) (remaining : Nat) (X rest : Text),
      Reached text written prev ScanState.init remaining ('^' :: (X ++ '^' :: rest)) →
      prev ≠ some '[' → X ≠ [] →
      (∀ x ∈ X, is_blank x = false ∧ x ≠ '^') → char_at X 0 ≠ Char.ofNat 0 →
      Reached text (written ++ ("<sup>".toList ++ X ++ "</sup>".toList))
        (some '^') ScanState.init (remaining - (X.length + 11)) rest ∧
      apex_process_sup_sub text
        = written ++ ("<sup>".toList ++ X ++ "</sup>".toList) ++
          sup_sub_run (some '^') ScanState.init (remaining - (X.length + 11)) rest) ∧
    (∀ (P X rest : Text),
      (∀ c ∈ P, c ≠ backtick ∧ c ≠ '$' ∧ c ≠ '^' ∧ c ≠ '~') →
      last_read none P ≠ some '[' → X ≠ [] →
      (∀ x ∈ X, is_blank x = false ∧ x ≠ '^') → char_at X 0 ≠ Char.ofNat 0 →
      (rest = [] ∨ is_blank (char_at rest 0) = true) →
      apex_process_sup_sub (P ++ '^' :: (X ++ rest))
        = P ++ ("<sup>".toList ++ X ++ "</sup>".toList) ++ apex_process_sup_sub rest) ∧
    (∀ (P X rest : Text),
      (∀ c ∈ P, c ≠ backtick ∧ c ≠ '$' ∧ c ≠ '^' ∧ c ≠ '~') →
      last_read none P ≠ some '[' → X ≠ [] →
      (∀ x ∈ X, is_blank x = false ∧ x ≠ '^') → char_at X 0 ≠ Char.ofNat 0 →
      apex_process_sup_sub (P ++ '^' :: (X ++ '^' :: rest))
        = P ++ ("<sup>".toList ++ X ++ "</sup>".toList) ++ apex_process_sup_sub rest) ∧
    apex_process_sup_sub "m^2".toList = "m<sup>2</sup>".toList ∧
    apex_process_sup_sub "x^2 + y^2".toList = "x<sup>2</sup> + y<sup>2</sup>".toList := by
  refine ⟨?_, ?_, ?_, ?_, by decide, by decide⟩
  · intro text written prev remaining X rest h hp hne hX h0 hr
    have hr1 := h.superscript hp hne hX h0 hr
    exact ⟨hr1, hr1.output⟩
  · intro text written prev remaining X rest h hp hne hX h0
    have hr1 := h.superscript_caret hp hne hX h0
    exact ⟨hr1, hr1.output⟩
  · intro P X rest hP hp hne hX hX0 hr
    have hr3 : plain_head rest = true := by
      apply plain_head_of_char_at
      rcases hr with h1 | h1
      · exact Or.inl h1
      · exact Or.inr (Or.inl h1)
    have h0 : Reached (P ++ '^' :: (X ++ rest)) [] none ScanState.init _ _ := Reached.start
    have h1 := Reached.plain P _ hP _ _ _ h0
    have h2 := h1.superscript hp hne hX hX0 hr
    rw [h2.restart (Or.inr hr3), List.nil_append]
  · intro P X rest hP hp hne hX hX0
    have h0 : Reached (P ++ '^' :: (X ++ '^' :: rest)) [] none ScanState.init _ _ :=
      Reached.start
    have h1 := Reached.plain P _ hP _ _ _ h0
    have h2 := h1.superscript_caret hp hne hX hX0
    rw [h2.restart (Or.inl ⟨by decide, by decide, by decide⟩), List.nil_append]

/-- Witness for C12 (amended): the texts `^2 x` and `^a^b` with the loop at
their start, and `m^2 and n^3` and `x^a^b`. -/
theorem sup_sub_superscript_run_witness :
    ("2".toList ≠ [] ∧ (∀ x ∈ "2".toList, is_blank x = false ∧ x ≠ '^') ∧
      char_at "2".toList 0 ≠ Char.ofNat 0 ∧
      apex_process_sup_sub ('^' :: ("2".toList ++ " x".toList))
        = [] ++ ("<sup>".toList ++ "2".toList ++ "</sup>".toList) ++
          sup_sub_run (last_read none "2".toList) ScanState.init
            (capacity ('^' :: ("2".toList ++ " x".toList)) - ("2".toList.length + 11))
            " x".toList) ∧
    ("a".toList ≠ [] ∧ (∀ x ∈ "a".toList, is_blank x = false ∧ x ≠ '^') ∧
      char_at "a".toList 0 ≠ Char.ofNat 0 ∧
      apex_process_sup_sub ('^' :: ("a".toList ++ '^' :: "b".toList))
        = [] ++ ("<sup>".toList ++ "a".toList ++ "</sup>".toList) ++
          sup_sub_run (some '^') ScanState.init
            (capacity ('^' :: ("a".toList ++ '^' :: "b".toList)) - ("a".toList.length + 11))
            "b".toList) ∧
    ((∀ c ∈ "m".toList, c ≠ backtick ∧ c ≠ '$' ∧ c ≠ '^' ∧ c ≠ '~') ∧
      last_read none "m".toList ≠ some '[' ∧
      apex_process_sup_sub ("m".toList ++ '^' :: ("2".toList ++ " and n^3".toList))
        = "m".toList ++ ("<sup>".toList ++ "2".toList ++ "</sup>".toList) ++
          apex_process_sup_sub " and n^3".toList) ∧
    apex_process_sup_sub ("x".toList ++ '^' :: ("a".toList ++ '^' :: "b".toList))
      = "x".toList ++ ("<sup>".toList ++ "a".toList ++ "</sup>".toList) ++
        apex_process_sup_sub "b".toList :=
  ⟨⟨by decide, by decide, by decide,
    (sup_sub_superscript_run.1 _ [] none _ "2".toList " x".toList
      Reached.start (by decide) (by decide) (by decide) (by decide)
      (Or.inr (by decide))).2⟩,
   ⟨by decide, by decide, by decide,
    (sup_sub_superscript_run.2.1 _ [] none _ "a".toList "b".toList
      Reached.start (by decide) (by decide) (by decide) (by decide)).2⟩,
   ⟨by decide, by decide,
    sup_sub_superscript_run.2.2.1 "m".toList "2".toList " and n^3".toList
      (by decide) (by decide) (by decide) (by decide) (by decide) (Or.inr (by decide))⟩,
   sup_sub_superscript_run.2.2.2.1 "x".toList "a".toList "b".toList
      (by decide) (by decide) (by decide) (by decide) (by decide)⟩

/-- C13, the code on the inputs of the claim: a sentence terminator behind
`^X` does not end the superscript; it is written inside the tag, so `x^2.`
gives `x<sup>2.</sup>`, `x^2,` gives `x<sup>2,</sup>` and `E = mc^2!` gives
`E = mc<sup>2!</sup>`. -/
theorem sup_sub_superscript_takes_terminator :
    apex_process_sup_sub "x^2.".toList = "x<sup>2.</sup>".toList ∧
    apex_process_sup_sub "x^2,".toList = "x<sup>2,</sup>".toList ∧
    apex_process_sup_sub "E = mc^2!".toList = "E = mc<sup>2!</sup>".toList ∧
    ¬ "<sup>2</sup>".toList <:+: apex_process_sup_sub "x^2.".toList := by
  decide

/-- C14, the code on `x~2~~del~~` and `H~2~~O`: the subscript `~2` consumes
the first tilde of the double tilde behind it, so the run of two tildes comes
out as one. The two examples of the claim come out as it says. -/
theorem sup_sub_subscript_eats_double_tilde :
    apex_process_sup_sub "x~2~~del~~".toList = "x<sub>2</sub>~del~~".toList ∧
    apex_process_sup_sub "H~2~~O".toList = "H<sub>2</sub>~O".toList ∧
    apex_process_sup_sub "text ~~deleted text~~ text".toList
      = "text ~~deleted text~~ text".toList ∧
    apex_process_sup_sub "~underline~ and ~~deleted~~".toList
      = "<u>underline</u> and ~~deleted~~".toList := by
  decide
/-- C15: for every text `pre` free of `^`, `~`, backtick and `$` (such as
`Text`) and every key free of them, `apex_process_sup_sub` returns
`pre[^key]` unchanged: the `^` directly behind `[` is copied and starts no
superscript. -/
theorem sup_sub_footnote_reference_unchanged (pre key : Text)
    (hpre : ∀ c ∈ pre, c ≠ backtick ∧ c ≠ '$' ∧ c ≠ '^' ∧ c ≠ '~')
    (hkey : ∀ c ∈ key, c ≠ backtick ∧ c ≠ '$' ∧ c ≠ '^' ∧ c ≠ '~') :
    apex_process_sup_sub (pre ++ '[' :: '^' :: (key ++ [']']))
      = pre ++ '[' :: '^' :: (key ++ [']']) := by
  have h0 : Reached (pre ++ '[' :: '^' :: (key ++ [']'])) [] none ScanState.init
      (capacity (pre ++ '[' :: '^' :: (key ++ [']'])))
      ((pre ++ ['[']) ++ '^' :: (key ++ [']'])) := by
    have e : (pre ++ ['[']) ++ '^' :: (key ++ [']']) = pre ++ '[' :: '^' :: (key ++ [']']) := by
      simp
    rw [e]
    exact Reached.start
  have hp1 : ∀ c ∈ pre ++ ['['], c ≠ backtick ∧ c ≠ '$' ∧ c ≠ '^' ∧ c ≠ '~' := by
    intro c hc
    rcases List.mem_append.mp hc with hc | hc
    · exact hpre c hc
    · rw [List.mem_singleton.mp hc]
      decide
  have r1 := Reached.plain (pre ++ ['[']) _ hp1 _ _ _ h0
  rw [last_read_append_singleton] at r1
  have r2 := Reached.copy_one _ r1 (sup_sub_step_footnote _ _)
  have hp2 : ∀ c ∈ key ++ [']'], c ≠ backtick ∧ c ≠ '$' ∧ c ≠ '^' ∧ c ≠ '~' := by
    intro c hc
    rcases List.mem_append.mp hc with hc | hc
    · exact hkey c hc
    · rw [List.mem_singleton.mp hc]
      decide
  have r3 := Reached.plain (key ++ [']']) [] hp2 _ _ _ (by rw [List.append_nil]; exact r2)
  rw [r3.finished]
  simp

/-- Witness for C15: `Text[^key]`. -/
theorem sup_sub_footnote_reference_unchanged_witness :
    apex_process_sup_sub ("Text".toList ++ '[' :: '^' :: ("key".toList ++ [']']))
      = "Text".toList ++ '[' :: '^' :: ("key".toList ++ [']']) :=
  sup_sub_footnote_reference_unchanged "Text".toList "key".toList (by decide) (by decide)

/-- C16: for every `pre` free of `^`, `~`, `$` and backtick and every
non-empty body free of `$` and backtick, `apex_process_sup_sub` returns
`pre$$body$$` unchanged, and returns `pre$body$` unchanged when the body does
not start with a space, a tab or a newline; so `Equation: $E=mc^2$` is returned
unchanged and holds no `<sup>`. -/
theorem sup_sub_math_unchanged :
    (∀ (pre body : Text),
      (∀ c ∈ pre, c ≠ backtick ∧ c ≠ '$' ∧ c ≠ '^' ∧ c ≠ '~') →
      body ≠ [] → (∀ x ∈ body, x ≠ backtick ∧ x ≠ '$') →
      (starts_word (char_at body 0) = true →
        apex_process_sup_sub (pre ++ '$' :: (body ++ ['$'])) = pre ++ '$' :: (body ++ ['$'])) ∧
      apex_process_sup_sub (pre ++ '$' :: '$' :: (body ++ ['$', '$']))
        = pre ++ '$' :: '$' :: (body ++ ['$', '$'])) ∧
    apex_process_sup_sub "Equation: $E=mc^2$".toList = "Equation: $E=mc^2$".toList ∧
    ¬ "<sup>".toList <:+: apex_process_sup_sub "Equation: $E=mc^2$".toList := by
  refine ⟨?_, by decide, by decide⟩
  intro pre body hpre hne hb
  constructor
  · intro hsw
    have r1 := Reached.plain pre ('$' :: (body ++ ['$'])) hpre _ _ _ Reached.start
    have r2 := r1.math_inline hne hb hsw (by decide)
    rw [r2.finished]
    simp
  · have r1 := Reached.plain pre ('$' :: '$' :: (body ++ ['$', '$'])) hpre _ _ _ Reached.start
    have r2 := r1.math_display hb
    rw [r2.finished]
    simp

/-- Witness for C16: `Equation: $E=mc^2~1~$` and `Equation: $$E=mc^2~1~$$`. -/
theorem sup_sub_math_unchanged_witness :
    apex_process_sup_sub ("Equation: ".toList ++ '$' :: ("E=mc^2~1~".toList ++ ['$']))
      = "Equation: ".toList ++ '$' :: ("E=mc^2~1~".toList ++ ['$']) ∧
    apex_process_sup_sub ("Equation: ".toList ++ '$' :: '$' :: ("E=mc^2~1~".toList ++ ['$', '$']))
      = "Equation: ".toList ++ '$' :: '$' :: ("E=mc^2~1~".toList ++ ['$', '$']) :=
  ⟨(sup_sub_math_unchanged.1 "Equation: ".toList "E=mc^2~1~".toList (by decide) (by decide)
      (by decide)).1 (by decide),
   (sup_sub_math_unchanged.1 "Equation: ".toList "E=mc^2~1~".toList (by decide) (by decide)
      (by decide)).2⟩

/-- C17: for every `old` and `new` free of `^`, `~`, backtick and `$`,
`apex_process_sup_sub` returns the Critic substitution `{~~old~>new~~}`
unchanged: each of its tildes is copied, none opens a `<sub>` or `<u>`. -/
theorem sup_sub_critic_substitution_unchanged (old new : Text)
    (hold : ∀ c ∈ old, c ≠ backtick ∧ c ≠ '$' ∧ c ≠ '^' ∧ c ≠ '~')
    (hnew : ∀ c ∈ new, c ≠ backtick ∧ c ≠ '$' ∧ c ≠ '^' ∧ c ≠ '~') :
    apex_process_sup_sub
        ('\x7b' :: '~' :: '~' :: (old ++ '~' :: '>' :: (new ++ ['~', '~', '\x7d'])))
      = '\x7b' :: '~' :: '~' :: (old ++ '~' :: '>' :: (new ++ ['~', '~', '\x7d'])) := by
  have r0 : Reached ('\x7b' :: '~' :: '~' :: (old ++ '~' :: '>' :: (new ++ ['~', '~', '\x7d'])))
      [] none ScanState.init _ _ := Reached.start
  have r1 := Reached.copy_one _ r0
    (sup_sub_step_plain _ _ _ '\x7b' _ (by decide) (by decide) (by decide) (by decide))
  have r2 := Reached.copy_one _ r1 (sup_sub_step_tilde_copy _ _ _ _ (Or.inr (Or.inl rfl)))
  have r3 := Reached.copy_one _ r2 (sup_sub_step_tilde_copy _ _ _ _ (Or.inl rfl))
  have r4 := Reached.plain old _ hold _ _ _ r3
  have r5 := Reached.copy_one _ r4 (sup_sub_step_tilde_copy _ _ _ _ (Or.inr (Or.inr rfl)))
  have r6 := Reached.copy_one _ r5
    (sup_sub_step_plain _ _ _ '>' _ (by decide) (by decide) (by decide) (by decide))
  have r7 := Reached.plain new _ hnew _ _ _ r6
  have r8 := Reached.copy_one _ r7 (sup_sub_step_tilde_copy _ _ _ _ (Or.inr (Or.inl rfl)))
  have r9 := Reached.copy_one _ r8 (sup_sub_step_tilde_copy _ _ _ _ (Or.inl rfl))
  have r10 := Reached.copy_one _ r9
    (sup_sub_step_plain _ _ _ '\x7d' _ (by decide) (by decide) (by decide) (by decide))
  rw [r10.finished]
  simp

/-- Witness for C17: `{~~old~>new~~}`. -/
theorem sup_sub_critic_substitution_unchanged_witness :
    apex_process_sup_sub
        ('\x7b' :: '~' :: '~' :: ("old".toList ++ '~' :: '>' :: ("new".toList ++ ['~', '~', '\x7d'])))
      = '\x7b' :: '~' :: '~' :: ("old".toList ++ '~' :: '>' :: ("new".toList ++ ['~', '~', '\x7d'])) :=
  sup_sub_critic_substitution_unchanged "old".toList "new".toList (by decide) (by decide)

/-- C18, counterexample: the term `> Term` is not blank, not a table row, a
list item or a heading and holds no `{:`, and the claimed result would fit the
buffer; yet for `> Term\n: A definition that is long` the pass writes `> ` in
front of every line and the term without its prefix. Whatever the renderer
gives, the output starts with `> <dl>` and so is not
`<dl>\n<dt>T'</dt>\n<dd>D'</dd>\n</dl>\n` for any T' and D'. -/
theorem definition_list_quoted_term_counterexample :
    apex_process_definition_lists render_plain "> Term\n: A definition that is long".toList
      = "> <dl>\n> <dt>Term</dt>\n> <dd>A definition that is long</dd>\n> </dl>\n".toList ∧
    (∀ (render : Text → Option Text) (T1 D1 : Text),
      apex_process_definition_lists render "> Term\n: A definition that is long".toList
        ≠ "<dl>\n<dt>".toList ++ T1 ++ "</dt>\n<dd>".toList ++ D1 ++ "</dd>\n</dl>\n".toList) ∧
    is_table_row "> Term".toList = false ∧ is_list_item "> Term".toList = false ∧
    is_header (quote_scan "> Term".toList).2 = false ∧
    strstr "> Term\n: A definition that is long".toList "\x7b:".toList = none ∧
    "<dl>\n<dt>> Term</dt>\n<dd>A definition that is long</dd>\n</dl>\n".toList.length
      < 3 * "> Term\n: A definition that is long".toList.length := by
  refine ⟨by decide, ?_, by decide, by decide, by decide, by decide, by decide⟩
  intro render T1 D1 e
  obtain ⟨w, hw⟩ := quoted_term_output_head render
  rw [e] at hw
  have e0 : ('>' : Char) = '<' := congrArg (fun l => char_at l 0) hw
  exact absurd e0 (by decide)

/-- C18, amended: for every renderer, every term line T that holds no newline,
is not blank, not a definition line, a table row, a list item or a heading, is
shorter than 4095 bytes and does not start, behind leading spaces and tabs,
with `>`, and every definition text D without a newline such that `T\n: D`
holds no `{:`, the pass applied to `T\n: D` returns
`<dl>\n<dt>T'</dt>\n<dd>D'</dd>\n</dl>\n` whenever that result is shorter than
three times the input, where T' is the rendering of T and D' the rendering of
D behind its leading spaces and tabs. The rendering of a text is the HTML the
renderer gives for it without the `<p>` at its start and the `</p>` and newline
at its end: when the renderer gives `<p>X</p>\n` for T and `<p>Y</p>\n` for D,
the result is `<dl>\n<dt>X</dt>\n<dd>Y</dd>\n</dl>\n`, whatever X and Y are;
HTML that has only one of the two ends loses that one, HTML that has neither is
written as it is. When rendering fails the text itself is written, and for a
definition text that is empty behind its spaces and tabs the renderer is not
asked and `<dd></dd>` is written. So with a renderer that gives
`<strong>bold</strong>` and `<em>italic</em>` for
`Definition with **bold** and *italic*`, these tags stand inside `<dd>`, and
`Term\n: Definition`, whose words the renderer wraps in one paragraph, gives
`<dl>\n<dt>Term</dt>\n<dd>Definition</dd>\n</dl>\n`. -/
theorem definition_list_single_definition :
    (∀ (render : Text → Option Text) (T D : Text),
      is_plain_term T = true → '\n' ∉ D →
      strstr (T ++ '\n' :: ':' :: ' ' :: D) "\x7b:".toList = none →
      ("<dl>\n<dt>".toList ++ rendering render T ++ "</dt>\n<dd>".toList ++
        rendering render (D.dropWhile is_space_tab) ++ "</dd>\n</dl>\n".toList).length
          < 3 * (T ++ '\n' :: ':' :: ' ' :: D).length →
      apex_process_definition_lists render (T ++ '\n' :: ':' :: ' ' :: D)
        = "<dl>\n<dt>".toList ++ rendering render T ++ "</dt>\n<dd>".toList ++
          rendering render (D.dropWhile is_space_tab) ++ "</dd>\n</dl>\n".toList) ∧
    (∀ (render : Text → Option Text) (T D X Y : Text),
      is_plain_term T = true → '\n' ∉ D → D.dropWhile is_space_tab ≠ [] →
      strstr (T ++ '\n' :: ':' :: ' ' :: D) "\x7b:".toList = none →
      render T = some ("<p>".toList ++ X ++ "</p>\n".toList) →
      render (D.dropWhile is_space_tab) = some ("<p>".toList ++ Y ++ "</p>\n".toList) →
      ("<dl>\n<dt>".toList ++ X ++ "</dt>\n<dd>".toList ++ Y ++ "</dd>\n</dl>\n".toList).length
          < 3 * (T ++ '\n' :: ':' :: ' ' :: D).length →
      apex_process_definition_lists render (T ++ '\n' :: ':' :: ' ' :: D)
        = "<dl>\n<dt>".toList ++ X ++ "</dt>\n<dd>".toList ++ Y ++ "</dd>\n</dl>\n".toList) ∧
    (∀ (render : Text → Option Text) (T D : Text),
      is_plain_term T = true → '\n' ∉ D →
      strstr (T ++ '\n' :: ':' :: ' ' :: D) "\x7b:".toList = none →
      render T = none → render (D.dropWhile is_space_tab) = none →
      ("<dl>\n<dt>".toList ++ T ++ "</dt>\n<dd>".toList ++ D.dropWhile is_space_tab ++
        "</dd>\n</dl>\n".toList).length < 3 * (T ++ '\n' :: ':' :: ' ' :: D).length →
      apex_process_definition_lists render (T ++ '\n' :: ':' :: ' ' :: D)
        = "<dl>\n<dt>".toList ++ T ++ "</dt>\n<dd>".toList ++ D.dropWhile is_space_tab ++
          "</dd>\n</dl>\n".toList) ∧
    (∀ (render : Text → Option Text) (T D X : Text),
      is_plain_term T = true → '\n' ∉ D → D.dropWhile is_space_tab = [] →
      strstr (T ++ '\n' :: ':' :: ' ' :: D) "\x7b:".toList = none →
      render T = some ("<p>".toList ++ X ++ "</p>\n".toList) →
      ("<dl>\n<dt>".toList ++ X ++ "</dt>\n<dd></dd>\n</dl>\n".toList).length
          < 3 * (T ++ '\n' :: ':' :: ' ' :: D).length →
      apex_process_definition_lists render (T ++ '\n' :: ':' :: ' ' :: D)
        = "<dl>\n<dt>".toList ++ X ++ "</dt>\n<dd></dd>\n</dl>\n".toList) ∧
    (∀ (render : Text → Option Text) (t : Text), inline_html render t = rendering render t) ∧
    (∀ X : Text, without_paragraph ("<p>".toList ++ X ++ "</p>\n".toList) = X) ∧
    (∀ X : Text, ¬ "</p>\n".toList <:+ X → without_paragraph ("<p>".toList ++ X) = X) ∧
    (∀ X : Text, ¬ "<p>".toList <+: X ++ "</p>\n".toList →
      without_paragraph (X ++ "</p>\n".toList) = X) ∧
    (∀ html : Text, ¬ "<p>".toList <+: html → ¬ "</p>\n".toList <:+ html →
      without_paragraph html = html) ∧
    (∀ (render : Text → Option Text) (t : Text),
      render t = some ("<p>".toList ++ t ++ "</p>\n".toList) → inline_html render t = t) ∧
    (∀ render : Text → Option Text,
      render "Term".toList = some "<p>Term</p>\n".toList →
      render "Definition with **bold** and *italic*".toList
        = some "<p>Definition with <strong>bold</strong> and <em>italic</em></p>\n".toList →
      apex_process_definition_lists render
          "Term\n: Definition with **bold** and *italic*".toList
        = ("<dl>\n<dt>Term</dt>\n" ++
            "<dd>Definition with <strong>bold</strong> and <em>italic</em></dd>\n" ++
            "</dl>\n").toList) ∧
    apex_process_definition_lists render_plain "Term\n: Definition".toList
      = "<dl>\n<dt>Term</dt>\n<dd>Definition</dd>\n</dl>\n".toList := by
  have hwrapped : ∀ (render : Text → Option Text) (T D X Y : Text),
      is_plain_term T = true → '\n' ∉ D → D.dropWhile is_space_tab ≠ [] →
      strstr (T ++ '\n' :: ':' :: ' ' :: D) "\x7b:".toList = none →
      render T = some ("<p>".toList ++ X ++ "</p>\n".toList) →
      render (D.dropWhile is_space_tab) = some ("<p>".toList ++ Y ++ "</p>\n".toList) →
      ("<dl>\n<dt>".toList ++ X ++ "</dt>\n<dd>".toList ++ Y ++ "</dd>\n</dl>\n".toList).length
          < 3 * (T ++ '\n' :: ':' :: ' ' :: D).length →
      apex_process_definition_lists render (T ++ '\n' :: ':' :: ' ' :: D)
        = "<dl>\n<dt>".toList ++ X ++ "</dt>\n<dd>".toList ++ Y ++ "</dd>\n</dl>\n".toList := by
    intro render T D X Y hT hD hD0 hial hrT hrD hfit
    have hT0 : T ≠ [] := ((is_plain_term_iff T).mp hT).2.1
    have e1 := rendering_wrapped render T X hT0 hrT
    have e2 := rendering_wrapped render _ Y hD0 hrD
    have h := dl_single_definition render T D hT hD hial (by rw [e1, e2]; exact hfit)
    rw [e1, e2] at h
    exact h
  refine ⟨dl_single_definition, hwrapped, ?_, ?_, inline_html_eq_rendering,
    without_paragraph_wrapped, without_paragraph_open_only, without_paragraph_close_only,
    without_paragraph_bare, inline_html_plain, ?_, by decide⟩
  · intro render T D hT hD hial hrT hrD hfit
    have e1 := rendering_failed render T hrT
    have e2 := rendering_failed render _ hrD
    have h := dl_single_definition render T D hT hD hial (by rw [e1, e2]; exact hfit)
    rw [e1, e2] at h
    exact h
  · intro render T D X hT hD hD0 hial hrT hfit
    have hT0 : T ≠ [] := ((is_plain_term_iff T).mp hT).2.1
    have e1 := rendering_wrapped render T X hT0 hrT
    have e2 : rendering render (D.dropWhile is_space_tab) = [] := by
      rw [hD0]
      rfl
    have h := dl_single_definition render T D hT hD hial (by
      rw [e1, e2]
      simpa using hfit)
    rw [e1, e2] at h
    simpa using h
  · intro render hrT hrD
    exact hwrapped render "Term".toList "Definition with **bold** and *italic*".toList
      "Term".toList "Definition with <strong>bold</strong> and <em>italic</em>".toList
      (by decide) (by decide) (by decide) (by decide) hrT hrD (by decide)

/-- Witness for C18 (amended): `Term\n: Definition with **bold** and *italic*`
with what cmark gives for its two texts, `Term\n: Definition` with the renderer
of plain text, `A longer term\n: x` with a renderer that fails, and
`A longer term` with a definition text of one space. -/
theorem definition_list_single_definition_witness :
    render_sample "Term".toList = some ("<p>".toList ++ "Term".toList ++ "</p>\n".toList) ∧
    render_sample ("Definition with **bold** and *italic*".toList.dropWhile is_space_tab)
      = some ("<p>".toList ++
          "Definition with <strong>bold</strong> and <em>italic</em>".toList ++
          "</p>\n".toList) ∧
    apex_process_definition_lists render_sample
        ("Term".toList ++ '\n' :: ':' :: ' ' :: "Definition with **bold** and *italic*".toList)
      = "<dl>\n<dt>".toList ++ "Term".toList ++ "</dt>\n<dd>".toList ++
          "Definition with <strong>bold</strong> and <em>italic</em>".toList ++
          "</dd>\n</dl>\n".toList ∧
    apex_process_definition_lists render_plain
        ("Term".toList ++ '\n' :: ':' :: ' ' :: "Definition".toList)
      = "<dl>\n<dt>".toList ++ rendering render_plain "Term".toList ++ "</dt>\n<dd>".toList ++
          rendering render_plain ("Definition".toList.dropWhile is_space_tab) ++
          "</dd>\n</dl>\n".toList ∧
    apex_process_definition_lists (fun _ => none)
        ("A longer term".toList ++ '\n' :: ':' :: ' ' :: "x".toList)
      = "<dl>\n<dt>".toList ++ "A longer term".toList ++ "</dt>\n<dd>".toList ++
          "x".toList.dropWhile is_space_tab ++ "</dd>\n</dl>\n".toList ∧
    apex_process_definition_lists render_plain
        ("A longer term".toList ++ '\n' :: ':' :: ' ' :: " ".toList)
      = "<dl>\n<dt>".toList ++ "A longer term".toList ++ "</dt>\n<dd></dd>\n</dl>\n".toList ∧
    inline_html render_plain "Term".toList = "Term".toList :=
  ⟨by decide, by decide,
    definition_list_single_definition.2.1 render_sample "Term".toList
      "Definition with **bold** and *italic*".toList "Term".toList
      "Definition with <strong>bold</strong> and <em>italic</em>".toList
      (by decide) (by decide) (by decide) (by decide) (by decide) (by decide) (by decide),
    definition_list_single_definition.1 render_plain "Term".toList "Definition".toList
      (by decide) (by decide) (by decide) (by decide),
    definition_list_single_definition.2.2.1 (fun _ => none) "A longer term".toList "x".toList
      (by decide) (by decide) (by decide) rfl rfl (by decide),
    definition_list_single_definition.2.2.2.1 render_plain "A longer term".toList " ".toList
      "A longer term".toList (by decide) (by decide) (by decide) (by decide) rfl (by decide),
    definition_list_single_definition.2.2.2.2.2.2.2.2.2.1 render_plain "Term".toList rfl⟩

/-- C19, the code on `: ` and on the test input: the buffer of three times the
input is too small and the writes that do not fit are dropped one by one, so
for `: ` only `<dl>` is written, whatever the renderer, and for
`Term1\n: Def1\n\nTerm2\n: Def2` the second list is never closed. -/
theorem definition_list_unclosed_list :
    (∀ render : Text → Option Text,
      apex_process_definition_lists render ": ".toList = "<dl>\n".toList) ∧
    apex_process_definition_lists render_plain "Term1\n: Def1\n\nTerm2\n: Def2".toList
      = ("<dl>\n<dt>Term1</dt>\n<dd>Def1</dd>\n</dl>\n\n" ++
          "<dl>\n<dt>Term2</dt>\n<dd>Def2</dd>\n").toList := by
  refine ⟨fun render => rfl, by decide⟩

/-- C20, counterexample: for the term `> Apple` followed by `: A fruit` and
`: A company` the pass writes `> ` in front of every line and the term
without its prefix; `<dt>> Apple</dt>` is not in the output. -/
theorem definition_list_quoted_term_list_counterexample :
    apex_process_definition_lists render_plain "> Apple\n: A fruit\n: A company".toList
      = ("> <dl>\n> <dt>Apple</dt>\n> <dd>A fruit</dd>\n> <dd>A company</dd>\n" ++
          "> </dl>\n").toList ∧
    ¬ "<dt>> Apple</dt>".toList <:+:
      apex_process_definition_lists render_plain "> Apple\n: A fruit\n: A company".toList := by
  have h : apex_process_definition_lists render_plain "> Apple\n: A fruit\n: A company".toList
      = ("> <dl>\n> <dt>Apple</dt>\n> <dd>A fruit</dd>\n> <dd>A company</dd>\n" ++
          "> </dl>\n").toList := by
    decide
  refine ⟨h, ?_⟩
  rw [h]
  set_option maxRecDepth 8000 in decide

/-- C20, amended: for every renderer, every term line T that holds no newline,
is not blank, not a definition line, a table row, a list item or a heading, is
shorter than 4095 bytes and does not start, behind leading spaces and tabs,
with `>`, and all definition texts D1 .. Dn (n >= 1) without a newline, when
the input holds no `{:` and the result is shorter than three times the input:
T followed by the lines `: D1` .. `: Dn` gives one list, `<dl>`, then
`<dt>T'</dt>`, then `<dd>Di'</dd>` for each definition line in source order,
then `</dl>`; and when a second term with its definition lines follows, behind
a blank line or directly, the first list is closed by `</dl>` and an empty
line and the second term starts a new `<dl>`. T' and Di' are what the renderer
gives for T and for Di behind its leading spaces and tabs, without the
wrapping paragraph. So `Apple\n: A fruit\n: A company` gives `<dt>Apple</dt>`,
`<dd>A fruit</dd>`, `<dd>A company</dd>` inside one `<dl>`. -/
theorem definition_list_consecutive_definitions :
    (∀ (render : Text → Option Text) (T D : Text) (Ds : List Text) (tail : Text),
      is_plain_term T = true → (∀ x ∈ D :: Ds, '\n' ∉ x) → (tail = [] ∨ tail = ['\n']) →
      strstr (T ++ (dd_lines (D :: Ds) ++ tail)) "\x7b:".toList = none →
      (list_html render T (D :: Ds) ++ "</dl>\n".toList).length
        < 3 * (T ++ (dd_lines (D :: Ds) ++ tail)).length →
      apex_process_definition_lists render (T ++ (dd_lines (D :: Ds) ++ tail))
        = list_html render T (D :: Ds) ++ "</dl>\n".toList) ∧
    (∀ (render : Text → Option Text) (T1 D1 : Text) (Ds1 : List Text) (sep T2 D2 : Text)
      (Ds2 : List Text),
      is_plain_term T1 = true → (∀ x ∈ D1 :: Ds1, '\n' ∉ x) → (sep = [] ∨ sep = ['\n']) →
      is_plain_term T2 = true → (∀ x ∈ D2 :: Ds2, '\n' ∉ x) →
      strstr (T1 ++ (dd_lines (D1 :: Ds1) ++ '\n' :: (sep ++ (T2 ++ dd_lines (D2 :: Ds2)))))
        "\x7b:".toList = none →
      (list_html render T1 (D1 :: Ds1) ++ "</dl>\n\n".toList ++
          list_html render T2 (D2 :: Ds2) ++ "</dl>\n".toList).length
        < 3 * (T1 ++ (dd_lines (D1 :: Ds1) ++
            '\n' :: (sep ++ (T2 ++ dd_lines (D2 :: Ds2))))).length →
      apex_process_definition_lists render
          (T1 ++ (dd_lines (D1 :: Ds1) ++ '\n' :: (sep ++ (T2 ++ dd_lines (D2 :: Ds2)))))
        = list_html render T1 (D1 :: Ds1) ++ "</dl>\n\n".toList ++
          list_html render T2 (D2 :: Ds2) ++ "</dl>\n".toList) ∧
    apex_process_definition_lists render_plain "Apple\n: A fruit\n: A company".toList
      = "<dl>\n<dt>Apple</dt>\n<dd>A fruit</dd>\n<dd>A company</dd>\n</dl>\n".toList := by
  refine ⟨?_, ?_, by decide⟩
  · intro render T D Ds tail hT hD ht hial hfit
    have ht2 : tail = [] ∨ char_at tail 0 = '\n' := by
      rcases ht with ht | ht
      · exact Or.inl ht
      · exact Or.inr (by rw [ht]; rfl)
    have htl : tail.drop 1 = [] := by
      rcases ht with ht | ht <;> rw [ht] <;> rfl
    have hfit2 : (list_html render T (D :: Ds)).length + 6
        < (T ++ (dd_lines (D :: Ds) ++ tail)).length * 3 := by
      rw [List.length_append _ "</dl>\n".toList] at hfit
      have e1 : "</dl>\n".toList.length = 6 := rfl
      omega
    rw [apex_process_definition_lists_eq,
      dl_run_list render T D Ds [] _ tail hT hial hD ht2 (by omega), htl, dl_run_nil,
      dl_finish_in_list _ _ (by omega)]
    simp
  · intro render T1 D1 Ds1 sep T2 D2 Ds2 hT1 hD1 hsep hT2 hD2 hial hfit
    have hfit2 : (list_html render T1 (D1 :: Ds1)).length + 7
          + (list_html render T2 (D2 :: Ds2)).length + 6
        < (T1 ++ (dd_lines (D1 :: Ds1) ++
            '\n' :: (sep ++ (T2 ++ dd_lines (D2 :: Ds2))))).length * 3 := by
      rw [List.length_append _ "</dl>\n".toList, List.length_append _ (list_html _ _ _),
        List.length_append _ "</dl>\n\n".toList] at hfit
      have e1 : "</dl>\n".toList.length = 6 := rfl
      have e2 : "</dl>\n\n".toList.length = 7 := rfl
      omega
    have hial2 : strstr (T2 ++ (dd_lines (D2 :: Ds2) ++ [])) "\x7b:".toList = none := by
      apply strstr_none_of_append (T1 ++ (dd_lines (D1 :: Ds1) ++ '\n' :: sep))
      rw [List.append_nil]
      have e : T1 ++ (dd_lines (D1 :: Ds1) ++ '\n' :: sep) ++ (T2 ++ dd_lines (D2 :: Ds2))
          = T1 ++ (dd_lines (D1 :: Ds1) ++ '\n' :: (sep ++ (T2 ++ dd_lines (D2 :: Ds2)))) := by
        simp
      rw [e]
      exact hial
    rw [apex_process_definition_lists_eq]
    generalize (T1 ++ (dd_lines (D1 :: Ds1) ++
      '\n' :: (sep ++ (T2 ++ dd_lines (D2 :: Ds2))))).length * 3 = cap at hfit2 ⊢
    rw [dl_run_list render T1 D1 Ds1 [] _ _ hT1 hial hD1 (Or.inr rfl) (by omega)]
    rw [List.drop_succ_cons, List.drop_zero, List.nil_append]
    rcases hsep with hsep | hsep
    · subst hsep
      rw [List.nil_append, ← List.append_nil (dd_lines (D2 :: Ds2)),
        dl_run_list_after_list render T2 D2 Ds2 _ _ [] hT2 hial2 hD2 (Or.inl rfl) (by omega),
        List.drop_nil, dl_run_nil, dl_finish_in_list _ _ (by omega)]
    · subst hsep
      have e : ['\n'] ++ (T2 ++ dd_lines (D2 :: Ds2))
          = [] ++ ('\n' :: (T2 ++ (dd_lines (D2 :: Ds2) ++ []))) := by
        simp
      rw [e, dl_run_line render _ [] ('\n' :: (T2 ++ (dd_lines (D2 :: Ds2) ++ []))) (by simp)
          (by simp) (Or.inr rfl),
        dl_line_blank_after_list render _ _ _ _ (by omega),
        List.drop_succ_cons, List.drop_zero,
        dl_run_list render T2 D2 Ds2 _ _ [] hT2 hial2 hD2 (Or.inl rfl) (by omega),
        List.drop_nil, dl_run_nil, dl_finish_in_list _ _ (by omega)]
/-- Witness for C20: `Apple\n: A fruit\n: A company`, and
`Term1\n: Def one\n\nTerm2\n: Def two` with its blank line. -/
theorem definition_list_consecutive_definitions_witness :
    apex_process_definition_lists render_plain
        ("Apple".toList ++ (dd_lines ["A fruit".toList, "A company".toList] ++ []))
      = list_html render_plain "Apple".toList ["A fruit".toList, "A company".toList] ++
          "</dl>\n".toList ∧
    apex_process_definition_lists render_plain
        ("Term1".toList ++ (dd_lines ["Def one".toList] ++
          '\n' :: (['\n'] ++ ("Term2".toList ++ dd_lines ["Def two".toList]))))
      = list_html render_plain "Term1".toList ["Def one".toList] ++ "</dl>\n\n".toList ++
          list_html render_plain "Term2".toList ["Def two".toList] ++ "</dl>\n".toList :=
  ⟨definition_list_consecutive_definitions.1 render_plain "Apple".toList "A fruit".toList
      ["A company".toList] [] (by decide) (by decide) (Or.inl rfl) (by decide) (by decide),
    definition_list_consecutive_definitions.2.1 render_plain "Term1".toList "Def one".toList []
      ['\n'] "Term2".toList "Def two".toList [] (by decide) (by decide) (Or.inr rfl)
      (by decide) (by decide) (by decide) (by decide)⟩

/-- C21, counterexample: two definition lists in a blockquote whose term is not
emitted as `<dt>` without its prefix. In
`> Term\n> : Definition\n\nLater\n{: .cls}` the search for `{:` runs from the
term line to the end of the input and finds the last line, so `> Term` is
written through with its prefix in front of `> <dl>`, whatever the renderer,
and no `<dt>` is written. A term line of 4095 bytes, here `> ` and 4093 times
`a`, is too long for the term buffer and is written through with its prefix as
well. Both `Term` and the long text are term texts as the claim describes
them. -/
theorem definition_list_quoted_term_written_through_counterexample :
    apex_process_definition_lists render_plain
        "> Term\n> : Definition\n\nLater\n\x7b: .cls\x7d".toList
      = "> Term\n> <dl>\n> <dd>Definition</dd>\n> </dl>\n\nLater\n\x7b: .cls\x7d".toList ∧
    (∀ render : Text → Option Text,
      "> Term\n> <dl>\n".toList <+: apex_process_definition_lists render
        "> Term\n> : Definition\n\nLater\n\x7b: .cls\x7d".toList) ∧
    ¬ "<dt>".toList <:+: apex_process_definition_lists render_plain
        "> Term\n> : Definition\n\nLater\n\x7b: .cls\x7d".toList ∧
    (∀ render : Text → Option Text,
      quote_marks 1 ++ List.replicate 4093 'a' ++ ['\n']
        <+: apex_process_definition_lists render
          ((quote_marks 1 ++ List.replicate 4093 'a') ++ '\n' :: "> : Definition".toList)) ∧
    (quote_marks 1 ++ List.replicate 4093 'a').length = 4095 ∧
    is_term_text "Term".toList = true ∧ is_term_text (List.replicate 4093 'a') = true := by
  have h : apex_process_definition_lists render_plain
        "> Term\n> : Definition\n\nLater\n\x7b: .cls\x7d".toList
      = "> Term\n> <dl>\n> <dd>Definition</dd>\n> </dl>\n\nLater\n\x7b: .cls\x7d".toList := by
    decide
  have hlen : (quote_marks 1 ++ List.replicate 4093 'a').length = 4095 := by
    rw [List.length_append, quote_marks_length, List.length_replicate]
  refine ⟨h, quoted_term_before_ial_output_head, ?_, ?_, hlen, by decide,
    is_term_text_replicate 4091⟩
  · rw [h]
    set_option maxRecDepth 8000 in decide
  · intro render
    exact quoted_long_term_output_head render 1 (List.replicate 4093 'a') _ (Nat.le_refl 1)
      (is_term_text_replicate 4091) (by rw [hlen])

/-- C21, amended: for every renderer, every nesting level n >= 1, every term
text T (no newline, not empty, not starting with `>`, a space, a tab, `#` or a
definition marker) and all definition texts D1 .. Dk (k >= 1) without a
newline: when the term line `> T` and the definition lines `> : Di`, each with
the prefix `> ` repeated n times, make up the input, the term line is shorter
than 4095 bytes, the input holds no `{:` and the result is shorter than three
times the input, the pass writes the `<dl>` line, the `<dt>` line, one `<dd>`
line per definition and the `</dl>` line, each behind `> ` repeated n times,
and the term without its prefix. So `> Term\n> : Definition` gives
`> <dl>\n> <dt>Term</dt>\n> <dd>Definition</dd>\n> </dl>\n`. -/
theorem definition_list_in_blockquote :
    (∀ (render : Text → Option Text) (n : Nat) (T D : Text) (Ds : List Text) (tail : Text),
      1 ≤ n → is_term_text T = true → (quote_marks n ++ T).length < 4095 →
      (∀ x ∈ D :: Ds, '\n' ∉ x) → (tail = [] ∨ tail = ['\n']) →
      strstr ((quote_marks n ++ T) ++ (quoted_dd_lines n (D :: Ds) ++ tail))
        "\x7b:".toList = none →
      (quoted_list_html render n T (D :: Ds) ++ (quote_marks n ++ "</dl>\n".toList)).length
        < 3 * ((quote_marks n ++ T) ++ (quoted_dd_lines n (D :: Ds) ++ tail)).length →
      apex_process_definition_lists render
          ((quote_marks n ++ T) ++ (quoted_dd_lines n (D :: Ds) ++ tail))
        = quoted_list_html render n T (D :: Ds) ++ (quote_marks n ++ "</dl>\n".toList)) ∧
    apex_process_definition_lists render_plain "> Term\n> : Definition".toList
      = "> <dl>\n> <dt>Term</dt>\n> <dd>Definition</dd>\n> </dl>\n".toList ∧
    apex_process_definition_lists render_plain "> > Term\n> > : Definition".toList
      = "> > <dl>\n> > <dt>Term</dt>\n> > <dd>Definition</dd>\n> > </dl>\n".toList := by
  refine ⟨?_, by decide, by decide⟩
  intro render n T D Ds tail hn hT hlen hD ht hial hfit
  have ht2 : tail = [] ∨ char_at tail 0 = '\n' := by
    rcases ht with ht | ht
    · exact Or.inl ht
    · exact Or.inr (by rw [ht]; rfl)
  have htl : tail.drop 1 = [] := by
    rcases ht with ht | ht <;> rw [ht] <;> rfl
  have hfit2 : (quoted_list_html render n T (D :: Ds)).length + (2 * n + 6)
      < ((quote_marks n ++ T) ++ (quoted_dd_lines n (D :: Ds) ++ tail)).length * 3 := by
    rw [List.length_append _ (quote_marks n ++ "</dl>\n".toList),
      List.length_append (quote_marks n), quote_marks_length] at hfit
    have e1 : "</dl>\n".toList.length = 6 := rfl
    omega
  rw [apex_process_definition_lists_eq,
    dl_run_quoted_list render n T D Ds [] _ tail hn hT hlen hial hD ht2 (by omega), htl,
    dl_run_nil, dl_finish_in_quoted_list _ _ n (by omega)]
  simp

/-- Witness for C21: `> Term\n> : Definition` and, two levels deep,
`> > Apple\n> > : A fruit\n> > : A company`. -/
theorem definition_list_in_blockquote_witness :
    apex_process_definition_lists render_plain
        ((quote_marks 1 ++ "Term".toList) ++
          (quoted_dd_lines 1 ["Definition".toList] ++ []))
      = quoted_list_html render_plain 1 "Term".toList ["Definition".toList] ++
          (quote_marks 1 ++ "</dl>\n".toList) ∧
    apex_process_definition_lists render_plain
        ((quote_marks 2 ++ "Apple".toList) ++
          (quoted_dd_lines 2 ["A fruit".toList, "A company".toList] ++ []))
      = quoted_list_html render_plain 2 "Apple".toList ["A fruit".toList, "A company".toList] ++
          (quote_marks 2 ++ "</dl>\n".toList) :=
  ⟨definition_list_in_blockquote.1 render_plain 1 "Term".toList "Definition".toList [] []
      (by decide) (by decide) (by decide) (by decide) (Or.inl rfl) (by decide) (by decide),
    definition_list_in_blockquote.1 render_plain 2 "Apple".toList "A fruit".toList
      ["A company".toList] [] (by decide) (by decide) (by decide) (by decide) (Or.inl rfl)
      (by decide) (by decide)⟩

/-- C22, the code on `Term\n: Definition\n\nLater paragraph\n{: .cls}`: the
line `Term` is not blank, not a table row, a list item or a heading and holds
no `{:`, but the search for `{:` runs from the start of the line to the end of
the input and finds the later `{: .cls}`, so `Term` is written through in front
of `<dl>` (whatever the renderer) and the list has no `<dt>`. Without the last
line the same `Term` becomes the term. -/
theorem definition_list_term_lost_to_later_ial :
    apex_process_definition_lists render_plain
        "Term\n: Definition\n\nLater paragraph\n\x7b: .cls\x7d".toList
      = "Term\n<dl>\n<dd>Definition</dd>\n</dl>\n\nLater paragraph\n\x7b: .cls\x7d".toList ∧
    (∀ render : Text → Option Text,
      "Term\n<dl>\n".toList <+: apex_process_definition_lists render
        "Term\n: Definition\n\nLater paragraph\n\x7b: .cls\x7d".toList) ∧
    apex_process_definition_lists render_plain "Term\n: Definition\n\nLater paragraph".toList
      = "<dl>\n<dt>Term</dt>\n<dd>Definition</dd>\n</dl>\n\nLater paragraph\n".toList ∧
    is_plain_term "Term".toList = true ∧ strstr "Term".toList "\x7b:".toList = none := by
  refine ⟨by decide, term_before_ial_output_head, by decide, by decide, by decide⟩

/-- C23, counterexample: for a fence of three backticks around `Term` and
`: Def` the pass writes the list between the fence lines: `<dl>`, `<dt>` and
`<dd>` are emitted for lines inside the code block, and `<dl>` comes right
behind the opening fence whatever the renderer. -/
theorem definition_list_inside_fence_counterexample :
    apex_process_definition_lists render_plain "```\nTerm\n: Def\n```".toList
      = "```\n<dl>\n<dt>Term</dt>\n<dd>Def</dd>\n</dl>\n\n```\n".toList ∧
    (∀ render : Text → Option Text,
      "```\n<dl>\n".toList
        <+: apex_process_definition_lists render "```\nTerm\n: Def\n```".toList) := by
  refine ⟨by decide, fenced_definition_output_head⟩

/-- C23, amended: the pass does not look at code fences; a fence line is an
ordinary line. For every renderer, all lines F1, T and F2 that are ordinary
lines (no newline, not blank, not a definition line, a table row, a list item
or a heading, shorter than 4095 bytes, not starting with `>` behind leading
blanks), such as fence lines of three backticks or three tildes, and all
definition texts D1 .. Dn (n >= 1) without a newline: when the input
`F1\nT\n: D1\n..\n: Dn\nF2` holds no `{:` and the result is shorter than three
times the input, F1 and F2 are copied, each with a newline, and the lines
between them are rewritten to the list `<dl>`, `<dt>T'</dt>`, `<dd>Di'</dd>`,
`</dl>` and an empty line, as outside a fence. -/
theorem definition_list_between_fence_lines :
    (∀ (render : Text → Option Text) (F1 T D : Text) (Ds : List Text) (F2 tail : Text),
      is_plain_term F1 = true → is_plain_term T = true → is_plain_term F2 = true →
      (∀ x ∈ D :: Ds, '\n' ∉ x) → (tail = [] ∨ tail = ['\n']) →
      strstr (F1 ++ '\n' :: (T ++ (dd_lines (D :: Ds) ++ '\n' :: (F2 ++ tail))))
        "\x7b:".toList = none →
      (F1 ++ ['\n'] ++ list_html render T (D :: Ds) ++ "</dl>\n\n".toList ++
          (F2 ++ ['\n'])).length
        < 3 * (F1 ++ '\n' :: (T ++ (dd_lines (D :: Ds) ++ '\n' :: (F2 ++ tail)))).length →
      apex_process_definition_lists render
          (F1 ++ '\n' :: (T ++ (dd_lines (D :: Ds) ++ '\n' :: (F2 ++ tail))))
        = F1 ++ ['\n'] ++ list_html render T (D :: Ds) ++ "</dl>\n\n".toList ++
          (F2 ++ ['\n'])) ∧
    is_plain_term "```".toList = true ∧ is_plain_term "~~~".toList = true ∧
    is_plain_term "```python".toList = true := by
  refine ⟨?_, by decide, by decide, by decide⟩
  intro render F1 T D Ds F2 tail hF1 hT hF2 hD ht hial hfit
  rw [apex_process_definition_lists_eq]
  apply dl_run_between_lines render F1 T D Ds F2 tail _ hF1 hT hF2 hD ht hial
  have e7 : "</dl>\n\n".toList.length = 7 := rfl
  simp only [List.length_append, List.length_cons, List.length_nil] at hfit ⊢
  omega

/-- Witness for C23: a fence of three backticks around `Term` and `: Def`. -/
theorem definition_list_between_fence_lines_witness :
    apex_process_definition_lists render_plain
        ("```".toList ++ '\n' :: ("Term".toList ++
          (dd_lines ["Def".toList] ++ '\n' :: ("```".toList ++ []))))
      = "```".toList ++ ['\n'] ++ list_html render_plain "Term".toList ["Def".toList] ++
          "</dl>\n\n".toList ++ ("```".toList ++ ['\n']) :=
  definition_list_between_fence_lines.1 render_plain "```".toList "Term".toList "Def".toList []
    "```".toList [] (by decide) (by decide) (by decide) (by decide) (Or.inl rfl) (by decide)
    (by decide)

/-- C24: `is_definition_line` returns true with indent k exactly when the line
is made of k spaces with k <= 3, then `:`, then a space or a tab, then
anything. So a line with four leading spaces, a `:` followed by another byte
and a `:` as last byte are not definition lines. -/
theorem is_definition_line_iff :
    (∀ (input : Text) (k : Nat),
      is_definition_line input = some k ↔
        k ≤ 3 ∧ ∃ (y : Char) (rest : Text),
          input = List.replicate k ' ' ++ ':' :: y :: rest ∧ (y = ' ' ∨ y = '\t')) ∧
    is_definition_line "    : x".toList = none ∧ is_definition_line ":x".toList = none ∧
    is_definition_line "  :".toList = none ∧ is_definition_line "   :\tx".toList = some 3 := by
  refine ⟨?_, by decide, by decide, by decide, by decide⟩
  intro input k
  constructor
  · intro h
    unfold is_definition_line at h
    simp only [] at h
    split_ifs at h with h0 h1 h2 h3 h4
    have hk : leading_spaces 3 input = k := Option.some.inj h
    have hs1 : leading_spaces 3 input < input.length := by omega
    have hs2 : leading_spaces 3 input + 1 < input.length := by omega
    have hc : char_at input (leading_spaces 3 input) = ':' := by
      by_contra hne
      exact h2 hne
    have hy : char_at input (leading_spaces 3 input + 1) = ' ' ∨
        char_at input (leading_spaces 3 input + 1) = '\t' := by
      by_cases e : char_at input (leading_spaces 3 input + 1) = ' '
      · exact Or.inl e
      · by_cases e2 : char_at input (leading_spaces 3 input + 1) = '\t'
        · exact Or.inr e2
        · exact absurd ⟨e, e2⟩ h4
    refine ⟨hk ▸ leading_spaces_le 3 input, char_at input (k + 1), input.drop (k + 2), ?_, ?_⟩
    · have e1 := List.take_append_drop k input
      rw [← hk, leading_spaces_take 3 input, char_at_drop input _ hs1, hc,
        char_at_drop input _ hs2] at e1
      rw [← hk]
      exact e1.symm
    · rw [← hk]
      exact hy
  · rintro ⟨hk, y, rest, rfl, hy⟩
    have hs : leading_spaces 3 (List.replicate k ' ' ++ ':' :: y :: rest) = k :=
      leading_spaces_replicate 3 k ':' (y :: rest) hk (by decide)
    have hlen : (List.replicate k ' ' ++ ':' :: y :: rest).length = k + (rest.length + 2) := by
      simp
    have hc : char_at (List.replicate k ' ' ++ ':' :: y :: rest) k = ':' := by
      have := char_at_append_length (List.replicate k ' ') (':' :: y :: rest)
      rw [List.length_replicate] at this
      exact this
    have hy2 : char_at (List.replicate k ' ' ++ ':' :: y :: rest) (k + 1) = y := by
      have e : List.replicate k ' ' ++ ':' :: y :: rest
          = (List.replicate k ' ' ++ [':']) ++ y :: rest := by simp
      have := char_at_append_length (List.replicate k ' ' ++ [':']) (y :: rest)
      rw [List.length_append, List.length_replicate] at this
      rw [e]
      exact this
    unfold is_definition_line
    simp only [hs, hlen, hc, hy2]
    rw [if_neg (by omega), if_neg (by omega), if_neg (by simp), if_neg (by omega)]
    rcases hy with hy | hy
    · rw [if_neg (by simp [hy])]
    · rw [if_neg (by simp [hy])]

/-- Witness for C24: the line `  : text` has indent 2. -/
theorem is_definition_line_iff_witness :
    is_definition_line (List.replicate 2 ' ' ++ ':' :: ' ' :: "text".toList) = some 2 :=
  (is_definition_line_iff.1 (List.replicate 2 ' ' ++ ':' :: ' ' :: "text".toList) 2).mpr
    ⟨by decide, ' ', "text".toList, rfl, Or.inl rfl⟩

/-- C25, the code on a header-only table of 78 bytes with `colspan` on its
first cell: the bytes of the opening tag and of the attribute are written
without advancing `written`, so when the buffer is enlarged a few bytes later
`write` is set back to `output + written` and the last 16 bytes written are
overwritten. The result is not the input with the attribute inserted. The same
cell in a table of 100 bytes or more, where the buffer is never enlarged, comes
out as claimed. -/
theorem inject_attribute_lost_at_realloc :
    apex_inject_table_attributes
        ("<table>\n<thead>\n<tr>\n<th>A</th>\n<th>B</th>\n<th>C</th>\n</tr>\n" ++
          "</thead>\n</table>\n").toList
        [⟨0, 0, 0, " colspan=\"2\"".toList⟩] [] []
      = some (.buffer
        ("<table>\n<thead>\n<tr>\n<th colspan=\"2\">A</th>\n<th>B</th>\n" ++
          "<t/thead>\n</table>\n").toList) ∧
    apex_inject_table_attributes
        ("<table>\n<thead>\n<tr>\n<th>A</th>\n<th>B</th>\n<th>C</th>\n</tr>\n</thead>\n" ++
          "<tbody>\n<tr>\n<td>1</td>\n<td>2</td>\n<td>3</td>\n</tr>\n</tbody>\n</table>\n").toList
        [⟨0, 0, 0, " colspan=\"2\"".toList⟩] [] []
      = some (.buffer
        ("<table>\n<thead>\n<tr>\n<th colspan=\"2\">A</th>\n<th>B</th>\n<th>C</th>\n</tr>\n" ++
          "</thead>\n<tbody>\n<tr>\n<td>1</td>\n<td>2</td>\n<td>3</td>\n</tr>\n</tbody>\n" ++
          "</table>\n").toList) := by
  constructor
  · decide
  · set_option maxRecDepth 20000 in decide

/-- C26, the code on the table `| H1 | H2 |`, `| A | B |`, `| ^^ | C |` as
cmark renders it, with `rowspan` collected for the cell A and `data-remove` for
the cell `^^`: the row test counts only the cells that have collected
attributes, so the last row, whose only such cell is marked, is elided with its
unmarked cell C. When C has a collected attribute of its own the row is kept. -/
theorem inject_row_with_unmarked_cell_elided :
    apex_inject_table_attributes
        ("<table>\n<thead>\n<tr>\n<th>H1</th>\n<th>H2</th>\n</tr>\n</thead>\n<tbody>\n" ++
          "<tr>\n<td>A</td>\n<td>B</td>\n</tr>\n<tr>\n<td>^^</td>\n<td>C</td>\n</tr>\n" ++
          "</tbody>\n</table>\n").toList
        [⟨0, 2, 0, " data-remove=\"true\"".toList⟩, ⟨0, 1, 0, " rowspan=\"2\"".toList⟩] [] []
      = some (.buffer
        ("<table>\n<thead>\n<tr>\n<th>H1</th>\n<th>H2</th>\n</tr>\n</thead>\n<tbody>\n" ++
          "<tr>\n<td rowspan=\"2\">A</td>\n<td>B</td>\n</tr>\n\n" ++
          "</tbody>\n</table>\n").toList) ∧
    apex_inject_table_attributes
        ("<table>\n<thead>\n<tr>\n<th>H1</th>\n<th>H2</th>\n</tr>\n</thead>\n<tbody>\n" ++
          "<tr>\n<td>A</td>\n<td>B</td>\n</tr>\n<tr>\n<td>^^</td>\n<td>C</td>\n</tr>\n" ++
          "</tbody>\n</table>\n").toList
        [⟨0, 2, 1, " class=\"x\"".toList⟩, ⟨0, 2, 0, " data-remove=\"true\"".toList⟩,
          ⟨0, 1, 0, " rowspan=\"2\"".toList⟩] [] []
      = some (.buffer
        ("<table>\n<thead>\n<tr>\n<th>H1</th>\n<th>H2</th>\n</tr>\n</thead>\n<tbody>\n" ++
          "<tr>\n<td rowspan=\"2\">A</td>\n<td>B</td>\n</tr>\n<tr>\n\n<td>C</td>\n</tr>\n" ++
          "</tbody>\n</table>\n").toList) := by
  constructor
  · set_option maxRecDepth 20000 in decide
  · set_option maxRecDepth 20000 in decide

/-- C27, the code on a captioned table whose tag reads `<tableid="t1">`: the
branch that repairs the missing space ends the iteration before the caption is
looked up, so no `<figure>` and no `<figcaption>` is written in front of the
table, while `</figure>` is still written behind `</table>`. With the tag
`<table>` the same table is wrapped as claimed. -/
theorem inject_caption_lost_for_table_with_id :
    apex_inject_table_attributes
        ("<tableid=\"t1\">\n<thead>\n<tr>\n<th>H1</th>\n<th>H2</th>\n</tr>\n</thead>\n" ++
          "<tbody>\n<tr>\n<td>A</td>\n<td>B</td>\n</tr>\n</tbody>\n</table>\n").toList
        [] [⟨0, "Cap".toList⟩] []
      = some (.buffer
        ("<table id=\"t1\">\n<thead>\n<tr>\n<th>H1</th>\n<th>H2</th>\n</tr>\n</thead>\n" ++
          "<tbody>\n<tr>\n<td>A</td>\n<td>B</td>\n</tr>\n</tbody>\n</table></figure>\n" ++
          "\n").toList) ∧
    apex_inject_table_attributes
        ("<table>\n<thead>\n<tr>\n<th>H1</th>\n<th>H2</th>\n</tr>\n</thead>\n" ++
          "<tbody>\n<tr>\n<td>A</td>\n<td>B</td>\n</tr>\n</tbody>\n</table>\n").toList
        [] [⟨0, "A<B>".toList⟩] []
      = some (.buffer
        ("<figure class=\"table-figure\">\n<figcaption>A&lt;B&gt;</figcaption>\n" ++
          "<table>\n<thead>\n<tr>\n<th>H1</th>\n<th>H2</th>\n</tr>\n</thead>\n" ++
          "<tbody>\n<tr>\n<td>A</td>\n<td>B</td>\n</tr>\n</tbody>\n</table></figure>\n" ++
          "\n").toList) := by
  constructor
  · set_option maxRecDepth 20000 in decide
  · set_option maxRecDepth 20000 in decide

/-- C28 (counterexample): a flag in front of `-m MODE` is not reflected in the
final options.  For every default and every preset table the arguments
`--no-tables -m unified` leave the loop with exactly the unified preset, while
`-m unified --no-tables` leave it with the preset and `enable_tables = false`;
with a preset that enables tables, `main` runs the conversion of
`--no-tables -m unified` with `enable_tables = true`. -/
theorem flag_before_mode_is_replaced :
    (∀ (default_options : apex_options) (for_mode : apex_mode → apex_options),
      parse_args for_mode default_options none none
          ["--no-tables".toList, "-m".toList, "unified".toList] =
        .proceed (for_mode .unified) none none ∧
      parse_args for_mode default_options none none
          ["-m".toList, "unified".toList, "--no-tables".toList] =
        .proceed ((for_mode .unified).set .enable_tables false) none none) ∧
    main (World.echo "text".toList) options_all_on (fun _ => options_all_on)
        ["apex".toList, "--no-tables".toList, "-m".toList, "unified".toList] =
      ([.read_input none, .convert "text".toList options_all_on,
        .write_output none "text".toList], 0) ∧
    options_all_on.enable_tables = true := by
  refine ⟨fun default_options for_mode => ⟨rfl, rfl⟩, ?_, rfl⟩
  decide

/-- C28 (amended): the arguments take effect in their order and `-m MODE`
replaces every option by the preset of MODE.  Let the loop scan the arguments
`pre` to their end, and let the words of an explicit flag follow (a flag without
a value, or `--style FILE`, which asks for standalone).  If no argument behind
the flag is a mode option or the flag that assigns the field the other value,
and the whole argument list is parsed successfully, the final options have the
field as the flag asks.  A `-m NAME` or `--mode NAME` behind `pre` continues
with the preset of the mode alone: whatever `pre` did to the options is gone. -/
theorem explicit_flag_after_last_mode (for_mode : apex_mode → apex_options)
    (options : apex_options) (input_file output_file : Option Text)
    (pre words post : List Text) (field : Field) (value : Bool)
    (o1 : apex_options) (i1 out1 : Option Text) (o2 : apex_options) (i2 out2 : Option Text)
    (hflag : flag_request words = some (field, value))
    (hpre : parse_args for_mode options input_file output_file pre = .proceed o1 i1 out1)
    (hpost : ∀ a ∈ post, arg_kind a ≠ .mode ∧ arg_kind a ≠ .flag field (!value))
    (hall : parse_args for_mode options input_file output_file (pre ++ (words ++ post)) =
      .proceed o2 i2 out2) :
    o2.get field = value ∧
    ∀ (a name : Text) (mode : apex_mode) (rest : List Text),
      a = "-m".toList ∨ a = "--mode".toList → mode_of_name name = some mode →
      parse_args for_mode options input_file output_file (pre ++ a :: name :: rest) =
        parse_args for_mode (for_mode mode) i1 out1 rest := by
  constructor
  · rw [parse_args_append for_mode pre (words ++ post) _ _ _ _ _ _ hpre] at hall
    obtain ⟨hv, o3, hg, hstep⟩ :=
      parse_args_flag_words for_mode words post field value hflag o1 i1 out1
    rw [hstep] at hall
    exact parse_args_keeps_aux for_mode field value hv post.length post (Nat.le_refl _) hpost
      o3 i1 out1 o2 i2 out2 hg hall
  · intro a name mode rest ha hm
    rw [parse_args_append for_mode pre (a :: name :: rest) _ _ _ _ _ _ hpre]
    have hk : arg_kind a = .mode := by
      rcases ha with rfl | rfl <;> rfl
    simp only [parse_args_cons, hk, hm]

/-- Witness for C28 (amended): the arguments `-m unified --no-tables --pretty in.md`
with a preset that enables tables. -/
theorem explicit_flag_after_last_mode_witness :
    flag_request ["--no-tables".toList] = some (Field.enable_tables, false) ∧
    parse_args (fun _ => options_all_on) options_all_on none none
        ["-m".toList, "unified".toList] = .proceed options_all_on none none ∧
    parse_args (fun _ => options_all_on) options_all_on none none
        (["-m".toList, "unified".toList] ++
          (["--no-tables".toList] ++ ["--pretty".toList, "in.md".toList])) =
      .proceed ((options_all_on.set .enable_tables false).set .pretty true)
        (some "in.md".toList) none ∧
    ((options_all_on.set .enable_tables false).set .pretty true).get .enable_tables = false :=
  ⟨by decide, by decide, by decide,
    (explicit_flag_after_last_mode (fun _ => options_all_on) options_all_on none none
      ["-m".toList, "unified".toList] ["--no-tables".toList]
      ["--pretty".toList, "in.md".toList] .enable_tables false
      options_all_on none none
      ((options_all_on.set .enable_tables false).set .pretty true) (some "in.md".toList) none
      (by decide) (by decide) (by decide) (by decide)).1⟩

/-- C29: when the loop has scanned the arguments `pre` to their end and the next
argument starts with a dash and is no option name, `main` prints the error and
the usage text and returns 1, and that is all it does: no input is read and no
conversion is run.  Likewise behind `pre`: an option that takes a value and
stands last, an unknown mode name and an unknown id format make `main` print
an error and return 1 without reading any input. -/
theorem unknown_option_exits (world : World) (default_options : apex_options)
    (for_mode : apex_mode → apex_options) (prog : Text) (pre post : List Text) (x : Text)
    (o1 : apex_options) (i1 out1 : Option Text)
    (hpre : parse_args for_mode default_options none none pre = .proceed o1 i1 out1)
    (hdash : char_at x 0 = '-') (hx : x ∉ recognised_options) :
    main world default_options for_mode (prog :: (pre ++ x :: post)) =
      ([.print_error ("Error: Unknown option '".toList ++ x ++ "'\n".toList), .print_usage], 1) ∧
    (∀ a ∈ valued_options, ∃ message : Text,
      main world default_options for_mode (prog :: (pre ++ [a])) =
        ([.print_error message], 1)) ∧
    (∀ a name : Text, a = "-m".toList ∨ a = "--mode".toList → mode_of_name name = none →
      main world default_options for_mode (prog :: (pre ++ a :: name :: post)) =
        ([.print_error ("Error: Unknown mode '".toList ++ name ++ "'\n".toList)], 1)) ∧
    (∀ name : Text, id_format_of_name name = none →
      main world default_options for_mode
          (prog :: (pre ++ "--id-format".toList :: name :: post)) =
        ([.print_error "Error: --id-format must be 'gfm', 'mmd', or 'kramdown'\n".toList], 1)) := by
  refine ⟨?_, ?_, ?_, ?_⟩
  · unfold main
    rw [List.drop_one, List.tail_cons, parse_args_append for_mode pre _ _ _ _ _ _ _ hpre,
      parse_args_cons, arg_kind_unknown x hdash hx]
  · intro a ha
    unfold main
    rw [List.drop_one, List.tail_cons, parse_args_append for_mode pre _ _ _ _ _ _ _ hpre]
    simp only [valued_options, List.mem_cons, List.mem_singleton, List.not_mem_nil,
      or_false] at ha
    rcases ha with rfl | rfl | rfl | rfl | rfl | rfl | rfl
    · exact ⟨_, rfl⟩
    · exact ⟨_, rfl⟩
    · exact ⟨_, rfl⟩
    · exact ⟨_, rfl⟩
    · exact ⟨_, rfl⟩
    · exact ⟨_, rfl⟩
    · exact ⟨_, rfl⟩
  · intro a name ha hm
    unfold main
    rw [List.drop_one, List.tail_cons, parse_args_append for_mode pre _ _ _ _ _ _ _ hpre]
    have hk : arg_kind a = .mode := by
      rcases ha with rfl | rfl <;> rfl
    simp only [parse_args_cons, hk, hm]
  · intro name hm
    unfold main
    rw [List.drop_one, List.tail_cons, parse_args_append for_mode pre _ _ _ _ _ _ _ hpre]
    have hk : arg_kind "--id-format".toList = .id_format := rfl
    simp only [parse_args_cons, hk, hm]

/-- Witness for C29: the arguments `--pretty --bogus in.md`. -/
theorem unknown_option_exits_witness :
    parse_args (fun _ => options_all_on) options_all_on none none ["--pretty".toList] =
      .proceed (options_all_on.set .pretty true) none none ∧
    char_at "--bogus".toList 0 = '-' ∧ "--bogus".toList ∉ recognised_options ∧
    main (World.echo "text".toList) options_all_on (fun _ => options_all_on)
        ("apex".toList :: (["--pretty".toList] ++ "--bogus".toList :: ["in.md".toList])) =
      ([.print_error ("Error: Unknown option '".toList ++ "--bogus".toList ++ "'\n".toList),
        .print_usage], 1) :=
  ⟨by decide, by decide, by decide,
    (unknown_option_exits (World.echo "text".toList) options_all_on (fun _ => options_all_on)
      "apex".toList ["--pretty".toList] ["in.md".toList] "--bogus".toList
      (options_all_on.set .pretty true) none none (by decide) (by decide) (by decide)).1⟩

/-- C30, the code on `Homepage: https://example.com`: the test for `://`
searches the whole line once the key has seven bytes or more, not only the
part before the colon, so the line is rejected as a URL and no metadata is
extracted; `URL: https://example.com`, with a key of three bytes, is accepted. -/
theorem extract_metadata_url_in_value_rejected :
    apex_extract_metadata "Homepage: https://example.com\n\nBody".toList
      = ([], "Homepage: https://example.com\n\nBody".toList) ∧
    mmd_line_kind "Homepage: https://example.com".toList = .reject ∧
    apex_extract_metadata "URL: https://example.com\n\nBody".toList
      = ([("URL".toList, "https://example.com".toList)], "Body".toList) ∧
    apex_extract_metadata "Website: example.com\n\nBody".toList
      = ([("Website".toList, "example.com".toList)], "Body".toList) := by
  decide

/-- C31, the code on the header row `| A |   |` as cmark renders it (66 bytes),
with `colspan` collected for the cell A and `data-remove` for the empty cell:
the row is kept and the empty cell is skipped, but the tag and the attribute
of A were written without advancing `written`, so when the buffer is enlarged
a few bytes later `write` is set back and the cell A is overwritten: its
attribute is cut and its content is lost. On the table of the test
(`| A |    |    |` under a header of three cells, 184 bytes), where the buffer
is never enlarged, A gets its `colspan` and both empty cells disappear; and in
a row `| ^^ | C |` the attribute collected for column 1 is applied to C behind
the removed cell. -/
theorem inject_removed_cell_next_to_span_garbled :
    apex_inject_table_attributes
        "<table>\n<thead>\n<tr>\n<th>A</th>\n<th></th>\n</tr>\n</thead>\n</table>\n".toList
        [⟨0, 0, 1, " data-remove=\"true\"".toList⟩, ⟨0, 0, 0, " colspan=\"2\"".toList⟩] [] []
      = some (.buffer "<table>\n<thead>\n<tr>\n<th colspan=>\n</thead>\n</table>\n".toList) ∧
    apex_inject_table_attributes
        ("<table>\n<thead>\n<tr>\n<th>H1</th>\n<th>H2</th>\n<th>H3</th>\n</tr>\n</thead>\n" ++
          "<tbody>\n<tr>\n<td>A</td>\n<td></td>\n<td></td>\n</tr>\n" ++
          "<tr>\n<td>B</td>\n<td>C</td>\n<td>D</td>\n</tr>\n</tbody>\n</table>\n").toList
        [⟨0, 1, 2, " data-remove=\"true\"".toList⟩, ⟨0, 1, 1, " data-remove=\"true\"".toList⟩,
          ⟨0, 1, 0, " colspan=\"3\"".toList⟩] [] []
      = some (.buffer
        ("<table>\n<thead>\n<tr>\n<th>H1</th>\n<th>H2</th>\n<th>H3</th>\n</tr>\n</thead>\n" ++
          "<tbody>\n<tr>\n<td colspan=\"3\">A</td>\n\n\n</tr>\n" ++
          "<tr>\n<td>B</td>\n<td>C</td>\n<td>D</td>\n</tr>\n</tbody>\n</table>\n").toList) ∧
    apex_inject_table_attributes
        ("<table>\n<thead>\n<tr>\n<th>H1</th>\n<th>H2</th>\n</tr>\n</thead>\n<tbody>\n" ++
          "<tr>\n<td>A</td>\n<td>B</td>\n</tr>\n<tr>\n<td>^^</td>\n<td>C</td>\n</tr>\n" ++
          "</tbody>\n</table>\n").toList
        [⟨0, 2, 1, " colspan=\"1\"".toList⟩, ⟨0, 2, 0, " data-remove=\"true\"".toList⟩,
          ⟨0, 1, 0, " rowspan=\"2\"".toList⟩] [] []
      = some (.buffer
        ("<table>\n<thead>\n<tr>\n<th>H1</th>\n<th>H2</th>\n</tr>\n</thead>\n<tbody>\n" ++
          "<tr>\n<td rowspan=\"2\">A</td>\n<td>B</td>\n</tr>\n<tr>\n\n" ++
          "<td colspan=\"1\">C</td>\n</tr>\n</tbody>\n</table>\n").toList) := by
  refine ⟨?_, ?_, ?_⟩
  · decide
  · set_option maxRecDepth 20000 in decide
  · set_option maxRecDepth 20000 in decide

/-- C32: `apex_extract_metadata` changes the text only when it returns at least
one pair, and the text it leaves is a suffix of the input: it is the input
without its first `k` bytes for a `k` no larger than the length of the input,
so the pointer stays inside the string. Whenever no pair is extracted the text
is left as it was, as for the empty block `---\n---\n` and for `%` lines
without content. -/
theorem extract_metadata_leaves_suffix :
    (∀ text : Text, ∃ k : Nat, k ≤ text.length ∧ (apex_extract_metadata text).2 = text.drop k) ∧
    (∀ text : Text, (apex_extract_metadata text).2 <:+ text) ∧
    (∀ text : Text, (apex_extract_metadata text).1 = [] → (apex_extract_metadata text).2 = text) ∧
    apex_extract_metadata "---\n---\nBody\n".toList = ([], "---\n---\nBody\n".toList) ∧
    apex_extract_metadata "%\n%\nBody\n".toList = ([], "%\n%\nBody\n".toList) ∧
    apex_extract_metadata "---\ntitle: T\n---\nBody\n".toList
      = ([("title".toList, "T".toList)], "Body\n".toList) := by
  refine ⟨extract_metadata_drop, ?_, ?_, by decide, by decide, by decide⟩
  · intro text
    obtain ⟨k, _, hk⟩ := extract_metadata_drop text
    rw [hk]
    exact List.drop_suffix k text
  · exact extract_metadata_unchanged

/-- Witness for C32: the text `Body only\n`, from which no pair is extracted. -/
theorem extract_metadata_leaves_suffix_witness :
    (apex_extract_metadata "Body only\n".toList).1 = [] ∧
    (apex_extract_metadata "Body only\n".toList).2 = "Body only\n".toList :=
  ⟨by decide, extract_metadata_leaves_suffix.2.2.1 "Body only\n".toList (by decide)⟩

/-- C33: the substitution is one scan from left to right, and what it inserts
is never scanned again. For every non-empty metadata list, when `a` holds no
`[%` and `K` no `]`, the result on `a`, `[%`, `K`, `]` and `b` is `a`, what is
written for the key `K` (looked up once), and the result on `b` alone; a text
with `[%` and no `]` behind it, and a text without `[%`, are returned as they
are. So with the pairs (a, `[%b]`) and (b, x) the text `[%a]` becomes `[%b]`,
not `x`. -/
theorem replace_variables_single_pass :
    (∀ (m : Items) (a K b : Text), m ≠ [] → ¬ "[%".toList <:+: a → ']' ∉ K →
      apex_metadata_replace_variables (a ++ "[%".toList ++ K ++ "]".toList ++ b) m
        = a ++ written_for m K ++ apex_metadata_replace_variables b m) ∧
    (∀ (m : Items) (a rest : Text), ¬ "[%".toList <:+: a → ']' ∉ rest →
      apex_metadata_replace_variables (a ++ "[%".toList ++ rest) m
        = a ++ "[%".toList ++ rest) ∧
    (∀ (m : Items) (text : Text), ¬ "[%".toList <:+: text →
      apex_metadata_replace_variables text m = text) ∧
    apex_metadata_replace_variables "[%a]".toList
        [("a".toList, "[%b]".toList), ("b".toList, "x".toList)] = "[%b]".toList ∧
    apex_metadata_replace_variables "[%a] [%b]".toList
        [("b".toList, "x".toList), ("a".toList, "[%b]".toList)] = "[%b] x".toList := by
  refine ⟨replace_variables_step, ?_, ?_, by decide, by decide⟩
  · intro m a rest ha hr
    unfold apex_metadata_replace_variables
    split_ifs
    · rfl
    · exact replace_loop_unclosed m a rest ha hr
  · intro m text h
    unfold apex_metadata_replace_variables
    split_ifs
    · rfl
    · exact replace_loop_no_pattern m _ text h

/-- Witness for C33: the text `<[%a]>` with the pairs (a, `[%b]`) and (b, x). -/
theorem replace_variables_single_pass_witness :
    ([("a".toList, "[%b]".toList), ("b".toList, "x".toList)] : Items) ≠ [] ∧
    ¬ "[%".toList <:+: "<".toList ∧ ']' ∉ "a".toList ∧
    apex_metadata_replace_variables
        ("<".toList ++ "[%".toList ++ "a".toList ++ "]".toList ++ ">".toList)
        [("a".toList, "[%b]".toList), ("b".toList, "x".toList)]
      = "<".toList ++
        written_for [("a".toList, "[%b]".toList), ("b".toList, "x".toList)] "a".toList ++
        apex_metadata_replace_variables ">".toList
          [("a".toList, "[%b]".toList), ("b".toList, "x".toList)] ∧
    written_for [("a".toList, "[%b]".toList), ("b".toList, "x".toList)] "a".toList
      = "[%b]".toList :=
  ⟨by decide, by decide, by decide,
    replace_variables_single_pass.1 _ "<".toList "a".toList ">".toList
      (by decide) (by decide) (by decide),
    by decide⟩

/-- C34: for every input the output of `apex_process_sup_sub` is strictly
shorter than the buffer of `capacity = max(5 * len, 64)` bytes, so the
terminating NUL fits. At every configuration the main loop reaches there are at
least two bytes left and, at a marker, room for all the bytes from `read` to
the end of the text with the longest pair of tags, so every space check of the
iteration passes: the step does the same with any larger `remaining`, and the
whole output is the one a buffer of any larger size gives. When the loop ends
more than five bytes are left. -/
theorem sup_sub_output_fits :
    (∀ text : Text, (apex_process_sup_sub text).length < capacity text) ∧
    (∀ (text written : Text) (prev : Option Char) (st : ScanState) (remaining : Nat)
        (c : Char) (cs : Text),
      Reached text written prev st remaining (c :: cs) →
      1 < remaining ∧ (is_marker c = true → cs.length + 11 ≤ remaining) ∧
      ∀ R : Nat, remaining ≤ R →
        sup_sub_step prev st R c cs = sup_sub_step prev st remaining c cs) ∧
    (∀ (text written : Text) (prev : Option Char) (st : ScanState) (remaining : Nat),
      Reached text written prev st remaining [] →
      5 < remaining ∧ written.length + remaining = capacity text) ∧
    (∀ (text : Text) (R : Nat), capacity text ≤ R →
      sup_sub_loop text.length none ScanState.init R text = apex_process_sup_sub text) := by
  have hend : ∀ (text written : Text) (prev : Option Char) (st : ScanState) (remaining : Nat),
      Reached text written prev st remaining [] →
      5 < remaining ∧ written.length + remaining = capacity text := by
    intro text written prev st remaining h
    have h1 := capacity_ok_nil remaining h.has_room
    have h2 := h.remaining_eq
    exact ⟨h1, by omega⟩
  refine ⟨?_, ?_, hend, ?_⟩
  · intro text
    obtain ⟨p, s, r, h⟩ := Reached.to_end text.length text (Nat.le_refl _) [] none
      ScanState.init (capacity text) Reached.start
    rw [List.nil_append] at h
    have := hend text _ p s r h
    have e : apex_process_sup_sub text = sup_sub_run none ScanState.init (capacity text) text :=
      rfl
    rw [e]
    omega
  · intro text written prev st remaining c cs h
    obtain ⟨h1, h2⟩ := capacity_ok_room c cs remaining h.has_room
    exact ⟨h1, h2, fun R hR => sup_sub_step_room prev st remaining R c cs h.has_room hR⟩
  · intro text R hR
    exact sup_sub_loop_room text.length none ScanState.init (capacity text) R text
      (capacity_ok_start text) hR

/-- Witness for C34: the text `x^2 and H~2~O`. -/
theorem sup_sub_output_fits_witness :
    (apex_process_sup_sub "x^2 and H~2~O".toList).length < capacity "x^2 and H~2~O".toList ∧
    sup_sub_loop "x^2 and H~2~O".toList.length none ScanState.init 1000 "x^2 and H~2~O".toList
      = apex_process_sup_sub "x^2 and H~2~O".toList :=
  ⟨sup_sub_output_fits.1 "x^2 and H~2~O".toList,
    sup_sub_output_fits.2.2.2 "x^2 and H~2~O".toList 1000 (by decide)⟩

/-- C35: `apex_process_sup_sub` deletes nothing but markers. For every input,
the input without its `^` and `~` is a subsequence of the output: every other
byte of the input is in the output, in the order of the input. An input that
holds neither `^` nor `~` is returned unchanged. -/
theorem sup_sub_deletes_only_markers :
    (∀ text : Text, List.Sublist (strip_markers text) (apex_process_sup_sub text)) ∧
    (∀ text : Text, (∀ c ∈ text, c ≠ '^' ∧ c ≠ '~') → apex_process_sup_sub text = text) ∧
    strip_markers "x^2 and ~a b~ H~2~O".toList = "x2 and a b H2O".toList ∧
    apex_process_sup_sub "x^2 and ~a b~ H~2~O".toList
      = "x<sup>2</sup> and <u>a b</u> H<u>2</u>O".toList := by
  refine ⟨?_, ?_, by decide, by decide⟩
  · intro text
    exact sup_sub_loop_sublist text.length none ScanState.init (capacity text) text
      (Nat.le_refl _) (capacity_ok_start text)
  · intro text h
    refine sup_sub_loop_no_marker text.length none ScanState.init (capacity text) text
      (Nat.le_refl _) (capacity_ok_start text) ?_
    intro c hc
    obtain ⟨h1, h2⟩ := h c hc
    simp [is_marker, h1, h2]

/-- Witness for C35: the text `a $x$ b` with a backtick span, which holds no marker. -/
theorem sup_sub_deletes_only_markers_witness :
    (∀ c ∈ "a $x$ \x60b\x60".toList, c ≠ '^' ∧ c ≠ '~') ∧
    apex_process_sup_sub "a $x$ \x60b\x60".toList = "a $x$ \x60b\x60".toList :=
  ⟨by decide, sup_sub_deletes_only_markers.2.1 "a $x$ \x60b\x60".toList (by decide)⟩

/-- C36, counterexample: a code span with an empty body in front of a backtick,
and a code span in front of two backticks. In both the scanner takes the run
of three backticks for a fence, the rest of the text is copied as code, and the
result is not the span followed by the result on the text behind it. -/
theorem sup_sub_code_span_counterexample :
    apex_process_sup_sub ([backtick] ++ [] ++ [backtick] ++ "\x60a\x60 x^2".toList)
      = "\x60\x60\x60a\x60 x^2".toList ∧
    [backtick] ++ [] ++ [backtick] ++ apex_process_sup_sub "\x60a\x60 x^2".toList
      = "\x60\x60\x60a\x60 x<sup>2</sup>".toList ∧
    apex_process_sup_sub ([backtick] ++ "b".toList ++ [backtick] ++ "\x60\x60x^2".toList)
      = "\x60b\x60\x60\x60x^2".toList ∧
    [backtick] ++ "b".toList ++ [backtick] ++ apex_process_sup_sub "\x60\x60x^2".toList
      = "\x60b\x60\x60\x60x<sup>2</sup>".toList := by
  decide

/-- C36, amended: for every `pre` without `^`, `~`, `$` and backtick, every
`body` without backtick and every `post` that does not start with a backtick,
the result on `pre`, a backtick, `body`, a backtick and `post` is `pre`, the
span as it is, and the result of `apex_process_sup_sub` on `post`. For every
`body` without backtick the block made of a line of three backticks, `body` and
a closing line of three backticks, with or without a newline behind it, is
returned unchanged. -/
theorem sup_sub_code_span_then_rest :
    (∀ pre body post : Text,
      (∀ c ∈ pre, c ≠ '^' ∧ c ≠ '~' ∧ c ≠ '$' ∧ c ≠ backtick) → backtick ∉ body →
      char_at post 0 ≠ backtick →
      apex_process_sup_sub (pre ++ backtick :: (body ++ backtick :: post))
        = pre ++ backtick :: (body ++ backtick :: apex_process_sup_sub post)) ∧
    (∀ body tail : Text, backtick ∉ body → (tail = [] ∨ tail = ['\n']) →
      apex_process_sup_sub
          (backtick :: backtick :: backtick ::
            (('\n' :: (body ++ ['\n'])) ++ backtick :: backtick :: backtick :: tail))
        = backtick :: backtick :: backtick ::
            (('\n' :: (body ++ ['\n'])) ++ backtick :: backtick :: backtick :: tail)) := by
  constructor
  · intro pre body post hpre hb hpost
    have h0 : Reached (pre ++ backtick :: (body ++ backtick :: post)) [] none ScanState.init
        (capacity (pre ++ backtick :: (body ++ backtick :: post)))
        (pre ++ backtick :: (body ++ backtick :: post)) := Reached.start
    have h1 := Reached.plain pre (backtick :: (body ++ backtick :: post))
      (fun c hc => ⟨(hpre c hc).2.2.2, (hpre c hc).2.2.1, (hpre c hc).1, (hpre c hc).2.1⟩)
      _ _ _ h0
    have h2 := h1.code_span rfl rfl hb hpost
    rw [h2.output, sup_sub_run_after_backtick,
      sup_sub_run_room none ScanState.init _ (capacity post) post h2.has_room
        (capacity_ok_start post)]
    simp only [List.nil_append, List.append_assoc, List.cons_append, List.singleton_append]
    rfl
  · intro body tail hb htail
    have hinner : backtick ∉ '\n' :: (body ++ ['\n']) := by
      intro h
      simp only [List.mem_cons, List.mem_append, List.mem_singleton, List.not_mem_nil,
        or_false] at h
      rcases h with h | h | h
      · exact absurd h (by decide)
      · exact hb h
      · exact absurd h (by decide)
    have htail0 : char_at tail 0 ≠ backtick := by
      rcases htail with rfl | rfl <;> decide
    have h0 : Reached (backtick :: backtick :: backtick ::
            (('\n' :: (body ++ ['\n'])) ++ backtick :: backtick :: backtick :: tail))
        [] none ScanState.init _ _ := Reached.start
    have h1 := h0.fence rfl rfl (by simp) hinner htail0
    have h2 := Reached.plain tail [] (by
      intro c hc
      rcases htail with rfl | rfl
      · cases hc
      · simp only [List.mem_singleton] at hc
        subst hc
        decide) _ _ _ (by simpa using h1)
    have h3 := h2.finished
    simpa using h3

/-- Witness for C36 (amended): the span `a^b` between `see ` and ` and x^2`, and
the fenced block with the body `a^b ~c~`. -/
theorem sup_sub_code_span_then_rest_witness :
    (∀ c ∈ "see ".toList, c ≠ '^' ∧ c ≠ '~' ∧ c ≠ '$' ∧ c ≠ backtick) ∧
    backtick ∉ "a^b".toList ∧ char_at " and x^2".toList 0 ≠ backtick ∧
    apex_process_sup_sub ("see ".toList ++ backtick :: ("a^b".toList ++ backtick :: " and x^2".toList))
      = "see ".toList ++ backtick ::
          ("a^b".toList ++ backtick :: apex_process_sup_sub " and x^2".toList) ∧
    apex_process_sup_sub " and x^2".toList = " and x<sup>2</sup>".toList :=
  ⟨by decide, by decide, by decide,
    sup_sub_code_span_then_rest.1 "see ".toList "a^b".toList " and x^2".toList
      (by decide) (by decide) (by decide),
    by decide⟩

/-- C37: `apex_process_sup_sub` terminates on every input. Every iteration of
the main loop moves `read` by at least one byte and by no more than the bytes
left before the terminating NUL; on every text the loop reaches the end of the
text, with the output written; and the loop needs no more iterations than the
text has bytes: any larger bound gives the same output. -/
theorem sup_sub_terminates :
    (∀ (prev : Option Char) (st : ScanState) (remaining : Nat) (c : Char) (cs : Text),
      1 ≤ (sup_sub_step prev st remaining c cs).adv ∧
      (sup_sub_step prev st remaining c cs).adv ≤ (c :: cs).length) ∧
    (∀ text : Text, ∃ (prev : Option Char) (st : ScanState) (remaining : Nat),
      Reached text (apex_process_sup_sub text) prev st remaining []) ∧
    (∀ (text : Text) (k : Nat),
      sup_sub_loop (text.length + k) none ScanState.init (capacity text) text
        = apex_process_sup_sub text) := by
  refine ⟨?_, ?_, ?_⟩
  · intro prev st remaining c cs
    refine ⟨sup_sub_step_adv_pos prev st remaining c cs, ?_⟩
    rcases sup_sub_step_shape prev st remaining c cs with ⟨_, _, h3⟩ | ⟨_, len, _, _, h3, _⟩
    · simpa using h3
    · simpa using h3
  · intro text
    obtain ⟨p, s, r, h⟩ := Reached.to_end text.length text (Nat.le_refl _) [] none
      ScanState.init (capacity text) Reached.start
    exact ⟨p, s, r, by simpa using h⟩
  · intro text k
    exact sup_sub_loop_fuel _ _ _ _ _ _ (Nat.le_add_right _ _) (Nat.le_refl _)

/-- C38: a document without definition lines passes through
`apex_process_definition_lists` unchanged. For every renderer and every
non-empty text made of newline-terminated lines and a last line without a
newline (which may be empty), in which no line is a definition line and no
line is a lone carriage return, the output is the text itself, followed by one
newline when the last line is not empty and is buffered as a term: it is not a
table row, a list item or a heading, holds no `{:` and is shorter than 4095
bytes. A line without a `:` followed by a space or a tab behind at most three
spaces and the `>` prefixes is no definition line. -/
theorem definition_list_passes_plain_text :
    (∀ (render : Text → Option Text) (ls : List Text) (last : Text),
      (∀ l ∈ ls, '\n' ∉ l ∧ is_def_line l = false ∧ l ≠ ['\r']) →
      '\n' ∉ last → is_def_line last = false → last ≠ ['\r'] → unlines ls ++ last ≠ [] →
      apex_process_definition_lists render (unlines ls ++ last)
        = unlines ls ++ last ++
          (if decide (last ≠ []) && is_buffered last last then ['\n'] else [])) ∧
    (∀ line : Text, has_def_marker line = false → is_def_line line = false) ∧
    apex_process_definition_lists render_plain "# Title\n\nSome text\n- item\nlast line".toList
      = "# Title\n\nSome text\n- item\nlast line\n".toList ∧
    apex_process_definition_lists render_plain "a: b\n| x |".toList = "a: b\n| x |".toList := by
  refine ⟨?_, ?_, by decide, by decide⟩
  · intro render ls last hls hn hd hcr hne
    have hlen : 0 < (unlines ls ++ last).length := List.length_pos.mpr hne
    have h := dl_run_passes render ls last (DlState.init ((unlines ls ++ last).length * 3))
      hls hn hd hcr rfl (by
        have : (pending (DlState.init ((unlines ls ++ last).length * 3))).length = 0 := rfl
        rw [this]
        show 0 + (unlines ls ++ last).length + 1 < (unlines ls ++ last).length * 3
        omega)
    have e : ∀ x : Text, (DlState.init ((unlines ls ++ last).length * 3)).out ++
        pending (DlState.init ((unlines ls ++ last).length * 3)) ++ x = x := fun _ => rfl
    rw [e] at h
    exact h
  · intro line h
    have e : is_def_line line
        = (!is_table_row line && !is_list_item line && has_def_marker line) := rfl
    rw [e, h, Bool.and_false]

/-- Witness for C38: the lines `# Title`, an empty line and `Some text`, and the
last line `last line` without a newline. -/
theorem definition_list_passes_plain_text_witness :
    (∀ l ∈ ["# Title".toList, [], "Some text".toList],
      '\n' ∉ l ∧ is_def_line l = false ∧ l ≠ ['\r']) ∧
    '\n' ∉ "last line".toList ∧ is_def_line "last line".toList = false ∧
    "last line".toList ≠ ['\r'] ∧
    unlines ["# Title".toList, [], "Some text".toList] ++ "last line".toList ≠ [] ∧
    apex_process_definition_lists render_plain
        (unlines ["# Title".toList, [], "Some text".toList] ++ "last line".toList)
      = unlines ["# Title".toList, [], "Some text".toList] ++ "last line".toList ++
        (if decide ("last line".toList ≠ []) && is_buffered "last line".toList "last line".toList
          then ['\n'] else []) :=
  ⟨by decide, by decide, by decide, by decide, by decide,
    definition_list_passes_plain_text.1 render_plain
      ["# Title".toList, [], "Some text".toList] "last line".toList
      (by decide) (by decide) (by decide) (by decide) (by decide)⟩

/-- C39: when the lists of cell attributes, of captions and of paragraphs to
remove that are collected from the document are all empty,
`apex_inject_table_attributes` returns its argument `html` itself, whatever the
HTML is: no buffer is allocated and nothing is copied or rewritten. With a
collected attribute it returns a new buffer instead, also when the attribute
matches no cell. -/
theorem inject_nothing_collected_returns_html :
    (∀ html : Text, apex_inject_table_attributes html [] [] [] = some Returned.original) ∧
    apex_inject_table_attributes "<p>x</p>\n".toList [⟨5, 0, 0, " colspan=\"2\"".toList⟩] [] []
      = some (.buffer "<p>x</p>\n".toList) := by
  refine ⟨fun html => rfl, by decide⟩

end Apex
